import Mathlib

/-! # Peer manager of libtransmission: a shallow embedding

Lean model of `libtransmission/peer-mgr.c` (allowed-set derivation, request
refill, rechoke) together with the bit array of `libtransmission/utils.h`.

Conventions of the embedding:
* machine integers are `Nat`/`Int`; a wrap is written `% 2 ^ w` where the
  source can reach it;
* pointers to records are the records themselves, arrays are lists;
* calls into layers that are not part of `peer-mgr.c` (SHA1, the random
  generator, the peer message layer, the completion store) are parameters
  of the functions that use them;
* a loop that the source does not bound is given fuel and returns `none`
  when the fuel does not suffice.
-/

namespace PeerMgr

/-! ## Bit array (`utils.h`) -/

/-- The record `struct tr_bitfield`: the bytes, the number of bits and the
number of bytes. -/
structure tr_bitfield where
  bits : List Nat
  bitCount : Nat
  byteCount : Nat
deriving DecidableEq, Repr

/-- Modelled from the spec: `tr_bitfieldNew` (its body is in `utils.c`), a
cleared array of `bitcount` bits held in `⌈bitcount / 8⌉` bytes. -/
def tr_bitfieldNew (bitcount : Nat) : tr_bitfield :=
  { bits := List.replicate ((bitcount + 7) / 8) 0
    bitCount := bitcount
    byteCount := (bitcount + 7) / 8 }

/-- The macro `tr_bitfieldHasFast`:
`(bitfield->bits[nth >> 3u] << (nth & 7u) & 0x80) != 0`. -/
def tr_bitfieldHasFast (b : tr_bitfield) (nth : Nat) : Bool :=
  ((b.bits.getD (nth >>> 3) 0) <<< (nth &&& 7)) &&& 0x80 != 0

/-- The macro `tr_bitfieldTestFast`: `high < bitfield->bitCount` (the two
null tests are true of every record of the model). -/
def tr_bitfieldTestFast (b : tr_bitfield) (high : Nat) : Bool :=
  decide (high < b.bitCount)

/-- The macro `tr_bitfieldHas`. -/
def tr_bitfieldHas (b : tr_bitfield) (nth : Nat) : Bool :=
  tr_bitfieldTestFast b nth && tr_bitfieldHasFast b nth

/-- Modelled from the spec: `tr_bitfieldAdd` (its body is in `utils.c`): bit
`nth` lives in byte `nth / 8`, most significant bit first; a bit beyond
`bitCount` is refused and the array is left as it was. -/
def tr_bitfieldAdd (b : tr_bitfield) (nth : Nat) : tr_bitfield :=
  if b.bitCount ≤ nth then b
  else { b with bits := b.bits.set (nth >>> 3)
                  ((b.bits.getD (nth >>> 3) 0) ||| (0x80 >>> (nth &&& 7))) }

/-- The bytes of the array cover its bits. -/
def tr_bitfield.wf (b : tr_bitfield) : Prop := b.bitCount ≤ b.bits.length * 8

instance (b : tr_bitfield) : Decidable b.wf :=
  inferInstanceAs (Decidable (b.bitCount ≤ b.bits.length * 8))

/-- Modelled from the spec: `tr_bitfieldCountTrueBits` (its body is in
`utils.c`), the popcount: the number of positions below `bitCount` whose bit
is set. -/
def tr_bitfieldCountTrueBits (b : tr_bitfield) : Nat :=
  (List.range b.bitCount).countP (tr_bitfieldHas b)

/-- The piece indices held by a bit array, in increasing order. -/
def tr_bitfieldMembers (b : tr_bitfield) : List Nat :=
  (List.range b.bitCount).filter (tr_bitfieldHas b)

/-! ## Allowed set (`tr_peerMgrGenerateAllowedSet`) -/

/-- Length of a SHA1 digest in bytes. -/
def SHA_DIGEST_LENGTH : Nat := 20

/-- The four bytes of a 32-bit value, most significant first: what a store of
`ntohl (v)` through a `uint32_t *` leaves in memory. -/
def storeBE32 (v : Nat) : List Nat :=
  [v / 2 ^ 24 % 256, v / 2 ^ 16 % 256, v / 2 ^ 8 % 256, v % 256]

/-- The value `ntohl (*(uint32_t*)(x + j))`: four bytes of `x` from offset
`j`, most significant first. -/
def loadBE32 (x : List Nat) (j : Nat) : Nat :=
  (x.getD j 0 % 256) * 2 ^ 24 + (x.getD (j + 1) 0 % 256) * 2 ^ 16
    + (x.getD (j + 2) 0 % 256) * 2 ^ 8 + (x.getD (j + 3) 0 % 256)

/-- The buffer `w` of steps (1) and (2): the peer address with its last octet
cleared, followed by the infohash. `ip` is the address as a 32-bit number in
host order, that is `htonl (ip->s_addr)`. -/
def allowedSetSeed (infohash : List Nat) (ip : Nat) : List Nat :=
  storeBE32 ((ip % 2 ^ 32) &&& 0xffffff00) ++ infohash.take SHA_DIGEST_LENGTH

/-- What the loops of the allowed set keep true: the array has `sz` bits, its
bytes cover them, and `a_size` is the number of bits set. -/
def AllowedInv (sz : Nat) (a : tr_bitfield) (a_size : Nat) : Prop :=
  a.bitCount = sz ∧ a.wf ∧ tr_bitfieldCountTrueBits a = a_size

/-- The inner loop `for (i = 0; i < 5 && a_size < k; ++i)`; `n` counts the
iterations that are left. `none` is the division by zero of `y % sz`. -/
def allowedSetDraws (k sz : Nat) (x : List Nat) :
    Nat → Nat → tr_bitfield → Nat → Option (tr_bitfield × Nat)
  | 0, _, a, a_size => some (a, a_size)
  | n + 1, i, a, a_size =>
    if a_size < k then
      if sz = 0 then none
      else
        let j := i * 4
        let y := loadBE32 x j
        let index := y % sz
        if !tr_bitfieldHas a index then
          allowedSetDraws k sz x n (i + 1) (tr_bitfieldAdd a index) ((a_size + 1) % 2 ^ 32)
        else
          allowedSetDraws k sz x n (i + 1) a a_size
    else some (a, a_size)

/-- The outer loop `while (a_size < k)`: five draws from `x`, then
`x ← SHA1 (x)`. Each unit of fuel pays for one pass. -/
def allowedSetLoop (sha1 : List Nat → List Nat) (k sz : Nat) :
    Nat → List Nat → tr_bitfield → Nat → Option tr_bitfield
  | fuel, x, a, a_size =>
    if a_size < k then
      match fuel with
      | 0 => none
      | fuel + 1 =>
        match allowedSetDraws k sz x 5 0 a a_size with
        | none => none
        | some (a1, size1) => allowedSetLoop sha1 k sz fuel (sha1 x) a1 size1
    else some a

/-- The function `tr_peerMgrGenerateAllowedSet (k, sz, infohash, ip)`, with
SHA1 a parameter. `none`: the loop is still running when the fuel is spent, or
the function divided by zero. -/
def tr_peerMgrGenerateAllowedSet (sha1 : List Nat → List Nat) (fuel : Nat)
    (k sz : Nat) (infohash : List Nat) (ip : Nat) : Option tr_bitfield :=
  let w := allowedSetSeed infohash ip
  let x := sha1 w
  let a := tr_bitfieldNew sz
  allowedSetLoop sha1 k sz fuel x a 0


/-! ## Records of the peer manager -/

/-- Modelled from the spec: `tr_priority_t` (declared in `transmission.h`),
the tri-state priority −1 / 0 / +1. -/
inductive tr_priority_t where
  | TR_PRI_LOW
  | TR_PRI_NORMAL
  | TR_PRI_HIGH
deriving DecidableEq, Repr

/-- The number a priority stands for. -/
def tr_priority_t.toInt : tr_priority_t → Int
  | .TR_PRI_LOW => -1
  | .TR_PRI_NORMAL => 0
  | .TR_PRI_HIGH => 1

/-- One entry of `tor->info.pieces`: the fields the peer manager reads. -/
structure tr_piece where
  priority : tr_priority_t := .TR_PRI_NORMAL
  dnd : Bool := false
deriving DecidableEq, Repr

/-- The record `tr_info`, as far as the peer manager reads it. -/
structure tr_info where
  pieceCount : Nat := 0
  pieceSize : Nat := 0
  pieces : Nat → tr_piece := fun _ => {}

/-- The completion store behind `tor->completion`, seen through the queries of
`completion.h` that the peer manager makes. -/
structure tr_completion where
  tr_cpPieceIsComplete : Nat → Bool := fun _ => false
  tr_cpBlockIsComplete : Nat → Bool := fun _ => false
  tr_cpMissingBlocksInPiece : Nat → Int := fun _ => 0
  tr_cpPercentDone : ℚ := 0
  tr_cpPieceBitfield : tr_bitfield := tr_bitfieldNew 0

/-- The torrent metadata `tr_torrent`, as far as the peer manager reads it.
The block geometry (`tr_torPieceFirstBlock`, `tr_torPieceCountBlocks`,
`tr_torBlockPiece`, `tr_torBlockCountBytes`, macros of `torrent.h`) and
`tr_torrentIsSeed`, `tr_torrentAllowsPex` are taken as given; so is
`tr_block`, the macro `_tr_block (tor, index, offset)` that names the block
holding the offset of the piece. -/
structure tr_torrent where
  info : tr_info := {}
  blockCount : Nat := 0
  blockCountInPiece : Nat := 0
  blockSize : Nat := 0
  completion : tr_completion := {}
  tr_torPieceFirstBlock : Nat → Nat := fun _ => 0
  tr_torPieceCountBlocks : Nat → Nat := fun _ => 0
  tr_torBlockPiece : Nat → Nat := fun _ => 0
  tr_torBlockCountBytes : Nat → Nat := fun _ => 0
  tr_torrentIsSeed : Bool := false
  tr_torrentAllowsPex : Bool := false
  maxConnectedPeers : Nat := 0
  tr_block : Nat → Nat → Nat := fun _ _ => 0

/-- The record `tr_peer` of a live connection. Addresses are 32-bit numbers;
`msgs` tells whether the message-layer handle is set; `ioAge` is the age of
the I/O object when there is one; the floating-point fields are rationals. -/
structure tr_peer where
  in_addr : Nat := 0
  port : Nat := 0
  msgs : Bool := true
  ioAge : Option Nat := some 0
  client : Option String := none
  have_ : tr_bitfield := tr_bitfieldNew 0
  blame : tr_bitfield := tr_bitfieldNew 0
  strikes : Nat := 0
  doPurge : Bool := false
  peerIsChoked : Bool := true
  peerIsInterested : Bool := false
  clientIsChoked : Bool := true
  clientIsInterested : Bool := false
  progress : ℚ := 0
  rateToClient : ℚ := 0
  rateToPeer : ℚ := 0
  pieceDataActivityDate : Nat := 0
deriving DecidableEq

/-- The record `struct peer_atom`. -/
structure peer_atom where
  from_ : Nat := 0
  flags : Nat := 0
  myflags : Nat := 0
  port : Nat := 0
  numFails : Nat := 0
  addr : Nat := 0
  time : Nat := 0
  piece_data_time : Nat := 0
deriving DecidableEq, Repr

/-- The manager-side record `Torrent`. Timers are present or absent; the
handshake sets hold the addresses of their handshakes; `optimistic` holds the
peer it points to. -/
structure Torrent where
  hash : List Nat := []
  outgoingHandshakes : List Nat := []
  pool : List peer_atom := []
  peers : List tr_peer := []
  reconnectTimer : Bool := false
  rechokeTimer : Bool := false
  refillTimer : Bool := false
  tor : tr_torrent := {}
  optimistic : Option tr_peer := none
  requested : tr_bitfield := tr_bitfieldNew 0
  isRunning : Bool := false

/-- The function `getConnectedPeers`: the peers whose `msgs` is set, in the
order of `t->peers`. -/
def getConnectedPeers (t : Torrent) : List tr_peer :=
  t.peers.filter (fun p => p.msgs)

/-- The function `clientIsDownloadingFrom`. -/
def clientIsDownloadingFrom (peer : tr_peer) : Bool :=
  peer.clientIsInterested && !peer.clientIsChoked

/-- The function `clientIsUploadingTo`. -/
def clientIsUploadingTo (peer : tr_peer) : Bool :=
  peer.peerIsInterested && !peer.peerIsChoked

/-! ## Sorting -/

/-- Modelled from the spec: `tr_compareUint16` (declared in `utils.h`, body in
`utils.c`): −1, 0 or 1 as `a` is below, equal to or above `b`. -/
def tr_compareUint16 (a b : Nat) : Int :=
  if a < b then -1 else if a > b then 1 else 0

/-- Modelled from the spec: `tr_compareUint32` (declared in `utils.h`, body in
`utils.c`): −1, 0 or 1 as `a` is below, equal to or above `b`. -/
def tr_compareUint32 (a b : Nat) : Int :=
  if a < b then -1 else if a > b then 1 else 0

/-- Insertion of `a` before the first element that `a` does not come after. -/
def qsortInsert {α : Type} (compar : α → α → Int) (a : α) : List α → List α
  | [] => [a]
  | b :: l => if compar a b ≤ 0 then a :: b :: l else b :: qsortInsert compar a l

/-- The C library's `qsort (base, nmemb, size, compar)` on a list: the result is
a rearrangement of the input in which `compar` never puts a later element
strictly before an earlier one. The library leaves the order of elements that
compare equal open; this model keeps them in input order. -/
def qsort {α : Type} (compar : α → α → Int) : List α → List α
  | [] => []
  | a :: l => qsortInsert compar a (qsort compar l)

/-! ## Refill: piece ranking -/

/-- The record `struct tr_refill_piece`. -/
structure tr_refill_piece where
  priority : tr_priority_t
  missingBlockCount : Int
  random : Nat
  piece : Nat
  peerCount : Nat
deriving DecidableEq, Repr

/-- The comparator `compareRefillPiece`. -/
def compareRefillPiece (a b : tr_refill_piece) : Int :=
  /- fewer missing pieces goes first -/
  if a.missingBlockCount ≠ b.missingBlockCount then
    (if a.missingBlockCount < b.missingBlockCount then -1 else 1)
  /- if one piece has a higher priority, it goes first -/
  else if a.priority ≠ b.priority then
    (if a.priority.toInt > b.priority.toInt then -1 else 1)
  /- otherwise if one has fewer peers, it goes first -/
  else if a.peerCount ≠ b.peerCount then
    (if a.peerCount < b.peerCount then -1 else 1)
  /- otherwise go with our random seed -/
  else tr_compareUint16 a.random b.random

/-- The function `isPieceInteresting`. -/
def isPieceInteresting (tor : tr_torrent) (piece : Nat) : Bool :=
  if (tor.info.pieces piece).dnd then false
  else if tor.completion.tr_cpPieceIsComplete piece then false
  else true

/-- The pool of `getPreferredPieces` before sorting: the interesting pieces in
increasing order. -/
def refillPool (tor : tr_torrent) : List Nat :=
  (List.range tor.info.pieceCount).filter (isPieceInteresting tor)

/-- The record that `getPreferredPieces` fills for entry `j` of the pool, which
is `piece`; `rand16 j` is the value `tr_rand (UINT16_MAX)` returns for it. -/
def refillPieceRecord (t : Torrent) (rand16 : Nat → Nat) (j piece : Nat) : tr_refill_piece :=
  { piece := piece
    priority := (t.tor.info.pieces piece).priority
    peerCount := (getConnectedPeers t).countP (fun peer =>
      peer.peerIsInterested && !peer.clientIsChoked && tr_bitfieldHas peer.have_ piece)
    random := rand16 j % 2 ^ 16
    missingBlockCount := t.tor.completion.tr_cpMissingBlocksInPiece piece }

/-- The array `p` of `getPreferredPieces`, one record per pool entry. -/
def refillPieceRecords (t : Torrent) (rand16 : Nat → Nat) : List tr_refill_piece :=
  (refillPool t.tor).enum.map (fun jp => refillPieceRecord t rand16 jp.1 jp.2)

/-- The function `getPreferredPieces`; `rand16` are the draws of the random
generator, one per pool entry. -/
def getPreferredPieces (t : Torrent) (rand16 : Nat → Nat) : List Nat :=
  let pool := refillPool t.tor
  /- sort the pool from most interesting to least... -/
  if pool.length > 1 then
    (qsort compareRefillPiece (refillPieceRecords t rand16)).map (fun r => r.piece)
  else pool

/-! ## Refill: block bins -/

/-- The six temporary bins of `getPreferredBlocks`: `unreq[s]` and `req[s]`
for `s = priority + 1`. -/
structure BlockBins where
  unreq : Nat → List Nat := fun _ => []
  req : Nat → List Nat := fun _ => []

/-- The statement `bin[s][count[s]++] = block`. -/
def binPush (bin : Nat → List Nat) (s block : Nat) : Nat → List Nat :=
  fun s1 => if s1 = s then bin s1 ++ [block] else bin s1

/-- The index `priority + 1` of a piece's bins. -/
def priorityIndex (tor : tr_torrent) (index : Nat) : Nat :=
  ((tor.info.pieces index).priority.toInt + 1).toNat

/-- The body of the loop over the blocks of one piece: a complete block is
skipped, a block marked in `t->requested` goes to `req`, any other to
`unreq`. -/
def binBlock (t : Torrent) (priorityIndex : Nat) (bins : BlockBins) (block : Nat) : BlockBins :=
  if t.tor.completion.tr_cpBlockIsComplete block then bins
  else if tr_bitfieldHas t.requested block then
    { bins with req := binPush bins.req priorityIndex block }
  else
    { bins with unreq := binPush bins.unreq priorityIndex block }

/-- The body of the loop over the preferred pieces: the blocks
`begin .. end - 1` of piece `index` are sorted into the bins. -/
def binPiece (t : Torrent) (bins : BlockBins) (index : Nat) : BlockBins :=
  let begin_ := t.tor.tr_torPieceFirstBlock index
  let count := t.tor.tr_torPieceCountBlocks index
  (List.range' begin_ count).foldl (binBlock t (priorityIndex t.tor index)) bins

/-- The join of the bins, `for (s = 2; s >= 0; --s)`: `unreq[s]` then
`req[s]`. -/
def joinBins (bins : BlockBins) : List Nat :=
  [2, 1, 0].foldl (fun walk s => walk ++ bins.unreq s ++ bins.req s) []

/-- The part of `getPreferredBlocks` that follows the call of
`getPreferredPieces`. -/
def preferredBlocksOf (t : Torrent) (pieces : List Nat) : List Nat :=
  joinBins (pieces.foldl (binPiece t) {})

/-- The function `getPreferredBlocks`. -/
def getPreferredBlocks (t : Torrent) (rand16 : Nat → Nat) : List Nat :=
  preferredBlocksOf t (getPreferredPieces t rand16)

/-! ## Refill: dispatch -/

/-- Modelled from the spec: the answers of `tr_peerMsgsAddRequest` (an
enumeration of `peer-msgs.h`). -/
inductive AddReq where
  | TR_ADDREQ_OK
  | TR_ADDREQ_FULL
  | TR_ADDREQ_DUPLICATE
  | TR_ADDREQ_MISSING
  | TR_ADDREQ_CLIENT_CHOKED
deriving DecidableEq, Repr

/-- The message layer as the refill engine sees it: a state of type `σ` and the
call `tr_peerMsgsAddRequest (peer->msgs, index, begin, length)`, which answers
and moves to a new state. -/
structure MsgLayer (σ : Type) where
  tr_peerMsgsAddRequest : σ → tr_peer → Nat → Nat → Nat → AddReq × σ

/-- One call of `tr_peerMsgsAddRequest` as `refillPulse` made it: the position
`i` in the block list, the block, the peer asked and the answer. -/
structure ReqCall where
  i : Nat
  block : Nat
  peer : tr_peer
  val : AddReq
deriving DecidableEq

/-- The function `getPeersUploadingToClient`; `rot` is the value that
`tr_rand (retCount)` returns, which is below `retCount`. -/
def getPeersUploadingToClient (t : Torrent) (rot : Nat) : List tr_peer :=
  /- get a list of peers we're downloading from -/
  let ret := t.peers.filter clientIsDownloadingFrom
  /- pick a different starting point each time -/
  if ret.length ≠ 0 then ret.drop rot ++ ret.take rot else ret

/-- The loop `for (j = 0; j < peerCount; )` of `refillPulse` for one block, on
the peers from position `j` on. Returns the peers among them that stay in the
array, whether a peer answered `TR_ADDREQ_OK`, the calls made and the state of
the message layer. -/
def probePeers {σ : Type} (m : MsgLayer σ) (i block index begin_ length : Nat) :
    List tr_peer → σ → List tr_peer × Bool × List ReqCall × σ
  | [], s => ([], false, [], s)
  | p :: rest, s =>
    let (val, s1) := m.tr_peerMsgsAddRequest s p index begin_ length
    let call : ReqCall := { i := i, block := block, peer := p, val := val }
    match val with
    | .TR_ADDREQ_FULL | .TR_ADDREQ_CLIENT_CHOKED =>
      /- memmove: the peer leaves the array, `j` stays -/
      let (kept, ok, calls, s2) := probePeers m i block index begin_ length rest s1
      (kept, ok, call :: calls, s2)
    | .TR_ADDREQ_MISSING | .TR_ADDREQ_DUPLICATE =>
      /- ++j -/
      let (kept, ok, calls, s2) := probePeers m i block index begin_ length rest s1
      (p :: kept, ok, call :: calls, s2)
    | .TR_ADDREQ_OK =>
      /- j = peerCount -/
      (p :: rest, true, [call], s1)

/-- What the dispatch loop of `refillPulse` leaves behind. -/
structure RefillState (σ : Type) where
  i : Nat
  peers : List tr_peer
  requested : tr_bitfield
  calls : List ReqCall
  msgs : σ

/-- The body of the block loop of `refillPulse` up to the inner loop: the
request `(index, begin, length)` of the block is computed and the peers are
probed with it. -/
def probeBlock {σ : Type} (m : MsgLayer σ) (tor : tr_torrent) (i block : Nat)
    (peers : List tr_peer) (s : σ) : List tr_peer × Bool × List ReqCall × σ :=
  let index := tor.tr_torBlockPiece block
  let begin_ := ((block * tor.blockSize : Int) - (index * tor.info.pieceSize : Int)) % 2 ^ 32
  let length := tor.tr_torBlockCountBytes block
  /- find a peer who can ask for this block -/
  probePeers m i block index begin_.toNat length peers s

/-- The loop `for (i = 0; peerCount && i < blockCount; ++i)` of `refillPulse`,
from position `i` on; `blocks` are the blocks from that position on. -/
def refillLoop {σ : Type} (m : MsgLayer σ) (tor : tr_torrent) :
    Nat → List Nat → List tr_peer → tr_bitfield → σ → RefillState σ
  | i, [], peers, requested, s =>
    { i := i, peers := peers, requested := requested, calls := [], msgs := s }
  | i, block :: blocks, peers, requested, s =>
    if peers.length = 0 then
      { i := i, peers := peers, requested := requested, calls := [], msgs := s }
    else
      let pr := probeBlock m tor i block peers s
      /- case TR_ADDREQ_OK: tr_bitfieldAdd( t->requested, block ) -/
      let requested1 := if pr.2.1 then tr_bitfieldAdd requested block else requested
      let r := refillLoop m tor (i + 1) blocks pr.1 requested1 pr.2.2.2
      { r with calls := pr.2.2.1 ++ r.calls }

/-- The result of `refillPulse`: the torrent afterwards, the value returned,
the calls made to the message layer, the peers left in the rotation, the
position reached in the block list, and the state of the message layer. -/
structure RefillPulse (σ : Type) where
  t : Torrent
  ret : Bool
  calls : List ReqCall
  peers : List tr_peer
  i : Nat
  msgs : σ

/-- The function `refillPulse`. -/
def refillPulse {σ : Type} (m : MsgLayer σ) (t : Torrent) (rand16 : Nat → Nat) (rot : Nat)
    (s : σ) : RefillPulse σ :=
  if !t.isRunning then
    { t := t, ret := true, calls := [], peers := [], i := 0, msgs := s }
  else if t.tor.tr_torrentIsSeed then
    { t := t, ret := true, calls := [], peers := [], i := 0, msgs := s }
  else
    let blocks := getPreferredBlocks t rand16
    let peers := getPeersUploadingToClient t rot
    let r := refillLoop m t.tor 0 blocks peers t.requested s
    { t := { t with requested := r.requested, refillTimer := false }
      ret := false, calls := r.calls, peers := r.peers, i := r.i, msgs := r.msgs }

/-! ## Vocabulary of the statements about refill -/

/-- The sort key of a piece: the record `getPreferredPieces` fills for it, the
random value being the one drawn for the piece's place in the pool. -/
def refillKey (t : Torrent) (rand16 : Nat → Nat) (piece : Nat) : tr_refill_piece :=
  refillPieceRecord t rand16 ((refillPool t.tor).indexOf piece) piece

/-- Number of connected peers whose have-bitfield contains the piece. -/
def holderCount (t : Torrent) (piece : Nat) : Nat :=
  (getConnectedPeers t).countP (fun peer => tr_bitfieldHas peer.have_ piece)

/-- Number of connected peers that `getPreferredPieces` counts for a piece:
peer-interested, not choking the client, and holding the piece. -/
def countedPeers (t : Torrent) (piece : Nat) : Nat :=
  (getConnectedPeers t).countP (fun peer =>
    peer.peerIsInterested && !peer.clientIsChoked && tr_bitfieldHas peer.have_ piece)

/-- `a` occurs in `l` at a place before an occurrence of `b`. -/
def OccursBefore {α : Type} (a b : α) (l : List α) : Prop :=
  ∃ l1 l2 l3, l = l1 ++ a :: l2 ++ b :: l3

/-- The still-missing blocks of a piece that are not marked in
`t->requested`, in increasing order. -/
def unreqBlocks (t : Torrent) (index : Nat) : List Nat :=
  (List.range' (t.tor.tr_torPieceFirstBlock index) (t.tor.tr_torPieceCountBlocks index)).filter
    (fun b => !t.tor.completion.tr_cpBlockIsComplete b && !tr_bitfieldHas t.requested b)

/-- The still-missing blocks of a piece that are marked in `t->requested`, in
increasing order. -/
def reqBlocks (t : Torrent) (index : Nat) : List Nat :=
  (List.range' (t.tor.tr_torPieceFirstBlock index) (t.tor.tr_torPieceCountBlocks index)).filter
    (fun b => !t.tor.completion.tr_cpBlockIsComplete b && tr_bitfieldHas t.requested b)

/-- The pieces of a list whose bins have index `s`. -/
def piecesOfTier (t : Torrent) (s : Nat) (pieces : List Nat) : List Nat :=
  pieces.filter (fun p => decide (priorityIndex t.tor p = s))

/-- The block geometry is consistent on the pieces of the torrent:
`tr_torBlockPiece` sends each block of a piece back to that piece. -/
def GeometryOk (tor : tr_torrent) : Prop :=
  ∀ p b, p < tor.info.pieceCount → tor.tr_torPieceFirstBlock p ≤ b →
    b < tor.tr_torPieceFirstBlock p + tor.tr_torPieceCountBlocks p → tor.tr_torBlockPiece b = p

/-- The priority of the piece a block lies in. -/
def blockPriority (tor : tr_torrent) (block : Nat) : tr_priority_t :=
  (tor.info.pieces (tor.tr_torBlockPiece block)).priority

/-- Place of a block in the order of the bins: the tier of its piece (high
first), and within the tier unrequested before requested. -/
def blockRank (t : Torrent) (block : Nat) : Nat :=
  2 * (2 - priorityIndex t.tor (t.tor.tr_torBlockPiece block))
    + (if tr_bitfieldHas t.requested block then 1 else 0)

/-- A torrent of two one-block pieces: piece 0 has high priority and its block
is marked in `requested`; piece 1 has normal priority and its block is not. -/
def twoTierTorrent : Torrent :=
  { tor :=
      { info := { pieceCount := 2, pieceSize := 16
                  pieces := fun i => if i = 0 then { priority := .TR_PRI_HIGH } else {} }
        blockCount := 2, blockCountInPiece := 1, blockSize := 16
        tr_torPieceFirstBlock := fun p => p
        tr_torPieceCountBlocks := fun _ => 1
        tr_torBlockPiece := fun b => b
        tr_torBlockCountBytes := fun _ => 16
        completion := { tr_cpMissingBlocksInPiece := fun _ => 1 } }
    requested := tr_bitfieldAdd (tr_bitfieldNew 2) 0
    isRunning := true }

/-- A torrent of one piece of two blocks, block 0 marked in `requested` and
block 1 not. -/
def endgameTorrent : Torrent :=
  { tor :=
      { info := { pieceCount := 1, pieceSize := 32 }
        blockCount := 2, blockCountInPiece := 2, blockSize := 16
        tr_torPieceFirstBlock := fun _ => 0
        tr_torPieceCountBlocks := fun _ => 2
        tr_torBlockPiece := fun _ => 0
        tr_torBlockCountBytes := fun _ => 16
        completion := { tr_cpMissingBlocksInPiece := fun _ => 2 } }
    requested := tr_bitfieldAdd (tr_bitfieldNew 2) 0
    isRunning := true }

/-- A torrent of three one-block pieces of equal priority and equal
missing-block count, with two peers that are peer-interested and do not choke
the client: peers 1 and 2 hold piece 0, peer 1 holds piece 1, nobody holds
piece 2. -/
def rarityTorrent : Torrent :=
  { tor :=
      { info := { pieceCount := 3, pieceSize := 16 }
        blockCount := 3, blockCountInPiece := 1, blockSize := 16
        tr_torPieceFirstBlock := fun p => p
        tr_torPieceCountBlocks := fun _ => 1
        tr_torBlockPiece := fun b => b
        tr_torBlockCountBytes := fun _ => 16
        completion := { tr_cpMissingBlocksInPiece := fun _ => 1 } }
    peers :=
      [{ in_addr := 1, peerIsInterested := true, clientIsChoked := false
         have_ := tr_bitfieldAdd (tr_bitfieldAdd (tr_bitfieldNew 3) 0) 1 },
       { in_addr := 2, peerIsInterested := true, clientIsChoked := false
         have_ := tr_bitfieldAdd (tr_bitfieldNew 3) 0 }]
    requested := tr_bitfieldNew 3
    isRunning := true }

/-- A torrent of two one-block pieces of equal priority and equal missing-block
count: piece 0 is held by two connected peers that are not interested in the
client, piece 1 by one connected peer that is interested and does not choke
the client. -/
def uncountedHoldersTorrent : Torrent :=
  { tor :=
      { info := { pieceCount := 2, pieceSize := 16 }
        blockCount := 2, blockCountInPiece := 1, blockSize := 16
        tr_torPieceFirstBlock := fun p => p
        tr_torPieceCountBlocks := fun _ => 1
        tr_torBlockPiece := fun b => b
        tr_torBlockCountBytes := fun _ => 16
        completion := { tr_cpMissingBlocksInPiece := fun _ => 1 } }
    peers :=
      [{ in_addr := 1, peerIsInterested := false
         have_ := tr_bitfieldAdd (tr_bitfieldNew 2) 0 },
       { in_addr := 2, peerIsInterested := false
         have_ := tr_bitfieldAdd (tr_bitfieldNew 2) 0 },
       { in_addr := 3, peerIsInterested := true, clientIsChoked := false
         have_ := tr_bitfieldAdd (tr_bitfieldNew 2) 1 }]
    requested := tr_bitfieldNew 2
    isRunning := true }

/-! ## Vocabulary of the statements about dispatch -/

/-- The answers on which `refillPulse` takes the peer out of the rotation. -/
def AddReq.drops : AddReq → Bool
  | .TR_ADDREQ_FULL => true
  | .TR_ADDREQ_CLIENT_CHOKED => true
  | _ => false

/-- The answers on which `refillPulse` moves on to the next peer and leaves the
peer in the rotation. -/
def AddReq.stays : AddReq → Bool
  | .TR_ADDREQ_DUPLICATE => true
  | .TR_ADDREQ_MISSING => true
  | _ => false

/-- Some call of the list was made to `p` and answered with
`TR_ADDREQ_CLIENT_CHOKED` or `TR_ADDREQ_FULL`. -/
def droppedIn (calls : List ReqCall) (p : tr_peer) : Bool :=
  calls.any (fun c => decide (c.peer = p) && c.val.drops)

/-- A running torrent of one piece of three blocks, none requested yet, with
three peers the client downloads from. -/
def dispatchTorrent : Torrent :=
  { tor :=
      { info := { pieceCount := 1, pieceSize := 48 }
        blockCount := 3, blockCountInPiece := 3, blockSize := 16
        tr_torPieceFirstBlock := fun _ => 0
        tr_torPieceCountBlocks := fun _ => 3
        tr_torBlockPiece := fun _ => 0
        tr_torBlockCountBytes := fun _ => 16
        completion := { tr_cpMissingBlocksInPiece := fun _ => 3 } }
    peers :=
      [{ in_addr := 1, clientIsInterested := true, clientIsChoked := false },
       { in_addr := 2, clientIsInterested := true, clientIsChoked := false },
       { in_addr := 3, clientIsInterested := true, clientIsChoked := false }]
    requested := tr_bitfieldNew 3
    isRunning := true }

/-- A message layer for the examples; its state counts the calls. Peer 1 is
full; peer 2 lacks the piece on the first call it gets and accepts afterwards;
peer 3 reports a duplicate. -/
def scriptedLayer : MsgLayer Nat :=
  { tr_peerMsgsAddRequest := fun n peer _ _ _ =>
      (if peer.in_addr = 1 then .TR_ADDREQ_FULL
       else if peer.in_addr = 2 then (if n ≤ 1 then .TR_ADDREQ_MISSING else .TR_ADDREQ_OK)
       else .TR_ADDREQ_DUPLICATE, n + 1) }

/-! ## Rechoke -/

/-- Number of unchoked peers per torrent. -/
def MAX_UNCHOKED_PEERS : Nat := 12

/-- The record `struct ChokeData`. -/
structure ChokeData where
  doUnchoke : Bool := false
  isInterested : Bool := false
  rate : Nat := 0
  peer : tr_peer
deriving DecidableEq

/-- The comparator `compareChoke`. -/
def compareChoke (a b : ChokeData) : Int :=
  -tr_compareUint32 a.rate b.rate

/-- The function `isNew`: the peer has an I/O object younger than 45 s. -/
def isNew (peer : tr_peer) : Bool :=
  match peer.ioAge with
  | some age => decide (age < 45)
  | none => false

/-- The C library's `strstr (haystack, needle) != NULL`. -/
def strstr (haystack needle : String) : Bool :=
  decide (List.IsInfix needle.toList haystack.toList)

/-- The function `isSame`: the client string contains "Transmission". -/
def isSame (peer : tr_peer) : Bool :=
  match peer.client with
  | some client => strstr client "Transmission"
  | none => false

/-- The conversion `(int) x` of a floating-point value: the fraction is cut
off. -/
def truncToInt (x : ℚ) : Int :=
  Int.tdiv x.num x.den

/-- The function `getWeightedRate`. -/
def getWeightedRate (peer : tr_peer) (clientIsSeed : Bool) : Int :=
  truncToInt (10 * (if clientIsSeed then peer.rateToPeer else peer.rateToClient))

/-- One call `tr_peerMsgsSetChoke (peer->msgs, choke)`. -/
structure ChokeCall where
  peer : tr_peer
  choke : Bool
deriving DecidableEq

/-- The first loop of `rechoke`, the calls: every peer whose progress is 1.0 or
more is choked. -/
def rechokeSeedCalls (peers : List tr_peer) : List ChokeCall :=
  (peers.filter (fun peer => decide (peer.progress ≥ 1))).map
    (fun peer => { peer := peer, choke := true })

/-- The first loop of `rechoke`, the array `choke`: one node for every other
peer, in the order of `peers`; the `int` of `getWeightedRate` is stored in
the `uint32_t` field `rate`. -/
def rechokeNodes (peers : List tr_peer) (clientIsSeed : Bool) : List ChokeData :=
  (peers.filter (fun peer => !decide (peer.progress ≥ 1))).map
    (fun peer =>
      { peer := peer
        isInterested := peer.peerIsInterested
        rate := (getWeightedRate peer clientIsSeed % 2 ^ 32).toNat })

/-- The rank walk
`for (i = 0; i < size && unchokedInterested < MAX_UNCHOKED_PEERS; ++i)` on the
nodes from position `i` on; returns them after the walk and the number of
steps taken. -/
def rankWalk : Nat → List ChokeData → List ChokeData × Nat
  | _, [] => ([], 0)
  | unchokedInterested, c :: rest =>
    if unchokedInterested < MAX_UNCHOKED_PEERS then
      let r := rankWalk (if c.isInterested then unchokedInterested + 1 else unchokedInterested)
        rest
      ({ c with doUnchoke := true } :: r.1, r.2 + 1)
    else (c :: rest, 0)

/-- The pool of the optimistic unchoke: for each node from position `i` on,
`x` entries, `x` being 1, times 3 for a new peer, times 3 for a peer running
the same client. Each entry is what `tr_ptrArrayAppend (randPool, choke)`
stores, the address of the array `choke`, that is of its node 0. -/
def rechokeRandPool (choke : List ChokeData) (i : Nat) : List Nat :=
  (choke.drop i).flatMap (fun c =>
    let x := (if isNew c.peer then 3 else 1) * (if isSame c.peer then 3 else 1)
    List.replicate x 0)

/-- The nodes of `rechoke` after `qsort (choke, size, ..., compareChoke)`. -/
def rechokeSorted (t : Torrent) : List ChokeData :=
  qsort compareChoke (rechokeNodes (getConnectedPeers t) t.tor.tr_torrentIsSeed)

/-- The draw of the optimistic unchoke: when the rank walk stopped before the
end of the array, the pool entry at the place `tr_rand` names. -/
def rechokeOptimistic (choke : List ChokeData) (i : Nat) (tr_rand : Nat → Nat) : Option Nat :=
  if i < choke.length then
    let randPool := rechokeRandPool choke i
    randPool[tr_rand randPool.length]?
  else none

/-- What `rechoke` leaves behind: the torrent, the array `choke` at the end,
the position `i` the rank walk reached, and the calls of
`tr_peerMsgsSetChoke` in the order they were made. -/
structure Rechoke where
  t : Torrent
  choke : List ChokeData
  walked : Nat
  calls : List ChokeCall

/-- The function `rechoke`; `tr_rand n` is the value the random generator
returns when asked for a number below `n`. -/
def rechoke (t : Torrent) (tr_rand : Nat → Nat) : Rechoke :=
  /- the seeds are choked; the other peers are sorted by rate -/
  let seedCalls := rechokeSeedCalls (getConnectedPeers t)
  let walk := rankWalk 0 (rechokeSorted t)
  /- optimistic unchoke: `c->doUnchoke = 1; t->optimistic = c->peer` -/
  let choke1 := match rechokeOptimistic walk.1 walk.2 tr_rand with
    | some c => walk.1.modify (fun node => { node with doUnchoke := true }) c
    | none => walk.1
  let optimistic := match rechokeOptimistic walk.1 walk.2 tr_rand with
    | some c => (walk.1[c]?).map (fun node => node.peer)
    | none => t.optimistic
  { t := { t with optimistic := optimistic }
    choke := choke1
    walked := walk.2
    calls := seedCalls ++ choke1.map (fun node => { peer := node.peer, choke := !node.doUnchoke }) }

/-- The weighted rate `rechoke` stores for a peer of the torrent. -/
def chokeRate (t : Torrent) (peer : tr_peer) : Nat :=
  (getWeightedRate peer t.tor.tr_torrentIsSeed % 2 ^ 32).toNat

/-- The statement `choke[i].doUnchoke = 1`. -/
def markUnchoke (node : ChokeData) : ChokeData :=
  { node with doUnchoke := true }

/-- Twenty connected peers, all interested and none a seed, peer `k` with the
rate `k`. -/
def twentyPeers : Torrent :=
  { peers := (List.range 20).map (fun k =>
      { in_addr := k, peerIsInterested := true, rateToClient := k })
    isRunning := true }

/-! ## Atoms, handshakes and the manager -/

/-- How frequently to change which peers are choked (ms). -/
def RECHOKE_PERIOD_MSEC : Nat := 10 * 1000

/-- How frequently to refill peers' request lists (ms). -/
def REFILL_PERIOD_MSEC : Nat := 666

/-- When many peers are available, keep idle ones this long (s). -/
def MIN_UPLOAD_IDLE_SECS : Nat := 60 * 3

/-- When few peers are available, keep idle ones this long (s). -/
def MAX_UPLOAD_IDLE_SECS : Nat := 60 * 10

/-- How frequently to decide which peers live and die (ms). -/
def RECONNECT_PERIOD_MSEC : Nat := 2 * 1000

/-- Max number of peers to ask for per torrent per reconnect pulse. -/
def MAX_RECONNECTIONS_PER_PULSE : Nat := 1

/-- Max number of peers to ask for per second overall. -/
def MAX_CONNECTIONS_PER_SECOND : Nat := 8

/-- Number of bad pieces a peer is allowed to send before we ban them. -/
def MAX_BAD_PIECES_PER_PEER : Nat := 3

/-- Bit of `peer_atom.myflags`: the peer is banned. -/
def MYFLAG_BANNED : Nat := 1

/-- Bit of `peer_atom.myflags`: unreachable for now, but not banned. -/
def MYFLAG_UNREACHABLE : Nat := 2

/-- Modelled from the spec: `ADDED_F_SEED_FLAG` (declared in `peer-mgr.h`),
the SEED bit of the protocol-visible flags of an atom. -/
def ADDED_F_SEED_FLAG : Nat := 2

/-- Modelled from the spec: `TR_PEER_FROM_INCOMING` (declared in
`transmission.h`), the discovery source of a peer that connected to us. -/
def TR_PEER_FROM_INCOMING : Nat := 0

/-- The test `flags & mask` of C: some bit of the mask is set. -/
def hasFlag (flags mask : Nat) : Bool :=
  flags &&& mask != 0

/-- The record `struct tr_peerMgr`: the torrents and the addresses of the
incoming handshakes. -/
structure tr_peerMgr where
  torrents : List Torrent := []
  incomingHandshakes : List Nat := []

/-- The collaborators outside the peer manager that its decisions depend on:
the blocklist, the opening of an outgoing I/O (the answer tells whether
`tr_peerIoNewOutgoing` returned an object), the naming of a client from its
peer id, and the error codes of `transmission.h`: the macro `TR_ERROR_IS_IO`
and the constant `TR_ERROR_ASSERT`. -/
structure PeerMgrEnv where
  tr_blocklistHasAddress : Nat → Bool := fun _ => false
  tr_peerIoNewOutgoing : Nat → Nat → Bool := fun _ _ => true
  tr_clientForId : List Nat → String := fun _ => ""
  TR_ERROR_IS_IO : Int → Bool := fun _ => false
  TR_ERROR_ASSERT : Int := 0

/-- The I/O object handed to the handshake callback, as far as the callback
reads it. -/
structure tr_peerIo where
  addr : Nat := 0
  port : Nat := 0
  isIncoming : Bool := false
  torrentHash : Option (List Nat) := none
  age : Nat := 0

/-- Modelled from the spec: `tr_ptrArrayFindSorted` on the atom pool, a set
sorted by address: the atom with the address, if there is one. This is the
function `getExistingAtom`. -/
def getExistingAtom (t : Torrent) (addr : Nat) : Option peer_atom :=
  t.pool.find? (fun a => decide (a.addr = addr))

/-- The function `getExistingPeer`, on the peer set sorted by address. -/
def getExistingPeer (t : Torrent) (addr : Nat) : Option tr_peer :=
  t.peers.find? (fun p => decide (p.in_addr = addr))

/-- The function `getExistingHandshake`, as a test: the set of handshakes holds
one for the address. -/
def getExistingHandshake (handshakes : List Nat) (addr : Nat) : Bool :=
  handshakes.contains addr

/-- The function `getExistingTorrent`, on the torrents sorted by hash. -/
def getExistingTorrent (manager : tr_peerMgr) (hash : List Nat) : Option Torrent :=
  manager.torrents.find? (fun t => decide (t.hash = hash))

/-- The function `peerIsInUse`; `incoming` are the manager's incoming
handshakes. -/
def peerIsInUse (incoming : List Nat) (t : Torrent) (addr : Nat) : Bool :=
  (getExistingPeer t addr).isSome
    || getExistingHandshake t.outgoingHandshakes addr
    || getExistingHandshake incoming addr

/-- Modelled from the spec: `tr_ptrArrayInsertSorted`, for a set sorted by a
numeric key: the element goes before the first one whose key is not
smaller. -/
def insertSorted {α : Type} (key : α → Nat) (a : α) : List α → List α
  | [] => [a]
  | b :: l => if key a ≤ key b then a :: b :: l else b :: insertSorted key a l

/-- A write through a pointer to the atom of an address: the atom of the pool
that `getExistingAtom` finds is replaced by `f` of it. `none` when the pool
has no such atom (the pointer is null). -/
def modifyAtom (pool : List peer_atom) (addr : Nat) (f : peer_atom → peer_atom) :
    Option (List peer_atom) :=
  match pool with
  | [] => none
  | a :: rest =>
    if a.addr = addr then some (f a :: rest)
    else (modifyAtom rest addr f).map (fun r => a :: r)

/-! ## Candidate selection -/

/-- The comparator `compareCandidates`. -/
def compareCandidates (a b : peer_atom) : Int :=
  if a.piece_data_time > b.piece_data_time then -1
  else if a.piece_data_time < b.piece_data_time then 1
  else if tr_compareUint16 a.numFails b.numFails ≠ 0 then
    tr_compareUint16 a.numFails b.numFails
  else if a.time ≠ b.time then (if a.time < b.time then -1 else 1)
  else 0

/-- The wait of the cool-down of `getPeerCandidates`:
`numFails * minWait`, raised to `minWait` and lowered to `maxWait`. -/
def candidateWait (atom : peer_atom) : Int :=
  let minWait : Int := 60 * 10 /- ten minutes -/
  let maxWait : Int := 60 * 30 /- thirty minutes -/
  let wait : Int := atom.numFails * minWait
  let wait := if wait < minWait then minWait else wait
  if wait > maxWait then maxWait else wait

/-- The cool-down test of `getPeerCandidates`: the atom is in its grace
period. -/
def inGracePeriod (now : Nat) (atom : peer_atom) : Bool :=
  if ((now : Int) - atom.piece_data_time) > 30 then
    decide (((now : Int) - atom.time) < candidateWait atom)
  else false

/-- The body of the loop of `getPeerCandidates`: `true` when the atom reaches
`ret[retCount++] = atom`, `false` when one of the tests says `continue`. -/
def isCandidate (env : PeerMgrEnv) (incoming : List Nat) (t : Torrent) (now : Nat)
    (atom : peer_atom) : Bool :=
  let seed := t.tor.tr_torrentIsSeed
  /- peer fed us too much bad data -/
  if hasFlag atom.myflags MYFLAG_BANNED then false
  /- peer was unconnectable before, so we're not going to keep trying -/
  else if hasFlag atom.myflags MYFLAG_UNREACHABLE then false
  /- we don't need two connections to the same peer -/
  else if peerIsInUse incoming t atom.addr then false
  /- no need to connect if we're both seeds -/
  else if seed && hasFlag atom.flags ADDED_F_SEED_FLAG then false
  /- we're wasting our time trying to connect to this bozo -/
  else if atom.numFails > 3 then false
  /- hold off on this peer to give another one a try instead -/
  else if inGracePeriod now atom then false
  /- don't connect to peers in our blocklist -/
  else if env.tr_blocklistHasAddress atom.addr then false
  else true

/-- The function `getPeerCandidates`; `now` is the value of `time (NULL)`. -/
def getPeerCandidates (env : PeerMgrEnv) (incoming : List Nat) (t : Torrent) (now : Nat) :
    List peer_atom :=
  qsort compareCandidates (t.pool.filter (isCandidate env incoming t now))

/-- A torrent with two atoms that have failed twice and never transferred
piece data: atom 1 was last tried 15 minutes before the time 100000, atom 2
21 minutes before it. -/
def coolDownTorrent : Torrent :=
  { pool := [{ addr := 1, numFails := 2, piece_data_time := 0, time := 100000 - 15 * 60 },
             { addr := 2, numFails := 2, piece_data_time := 0, time := 100000 - 21 * 60 }]
    isRunning := true }

/-- A torrent whose pool holds eight atoms, addresses 1 to 8: atom 1 is
banned, atom 2 unreachable, atom 3 has a live peer, atom 4 a pending outgoing
handshake, atom 6 has failed four times; atoms 5, 7 and 8 have nothing against
them in the torrent itself. -/
def candidatePoolTorrent : Torrent :=
  { pool := [{ addr := 1, myflags := 1 }, { addr := 2, myflags := 2 }, { addr := 3 },
             { addr := 4 }, { addr := 5 }, { addr := 6, numFails := 4 }, { addr := 7 },
             { addr := 8 }]
    peers := [{ in_addr := 3 }]
    outgoingHandshakes := [4]
    isRunning := true }

/-- An environment whose blocklist holds the address 7 and in which every
outgoing I/O opens. -/
def blocklist7 : PeerMgrEnv :=
  { tr_blocklistHasAddress := fun addr => decide (addr = 7) }

/-! ## Life and death: closing peers -/

/-- Modelled from the spec: `tr_bitfieldDifference` (its body is in
`utils.c`), difference-into: every bit of `b` is cleared in `a`, byte by
byte. -/
def tr_bitfieldDifference (a b : tr_bitfield) : tr_bitfield :=
  { a with bits := a.bits.enum.map (fun ib => ib.2 &&& (255 - (b.bits.getD ib.1 0) % 256)) }

/-- The conversion of a wider integer to `int`: the value modulo 2^32, in the
range of a 32-bit signed integer. -/
def toInt32 (x : Int) : Int :=
  (x + 2 ^ 31) % 2 ^ 32 - 2 ^ 31

/-- The function `getMaxPeerCount`. -/
def getMaxPeerCount (tor : tr_torrent) : Int :=
  tor.maxConnectedPeers

/-- The idle limit of `shouldPeerBeClosed`, on a sliding scale based on the
number of peers; the floating-point values are rationals. -/
def idleLimit (tor : tr_torrent) (peerCount : Int) : Int :=
  let relaxStrictnessIfFewerThanN : Int :=
    truncToInt (((getMaxPeerCount tor : Int) : ℚ) * (9 / 10) + 1 / 2)
  /- if we have >= relaxIfFewerThan, strictness is 100%.
     if we have zero connections, strictness is 0% -/
  let strictness : ℚ :=
    if peerCount ≥ relaxStrictnessIfFewerThanN then 1
    else (peerCount : ℚ) / (relaxStrictnessIfFewerThanN : ℚ)
  let lo : Int := MIN_UPLOAD_IDLE_SECS
  let hi : Int := MAX_UPLOAD_IDLE_SECS
  truncToInt ((lo : ℚ) + ((hi - lo : Int) : ℚ) * strictness)

/-- The seed rule of `shouldPeerBeClosed`, given the atom of the peer: we are
both seeds and enough time has passed for a pex exchange. -/
def bothSeeds (t : Torrent) (peer : tr_peer) (atom : peer_atom) (now : Nat) : Bool :=
  let tor := t.tor
  let peerHasEverything : Bool :=
    if hasFlag atom.flags ADDED_F_SEED_FLAG then true
    else if peer.progress < tor.completion.tr_cpPercentDone then false
    else
      tr_bitfieldCountTrueBits
        (tr_bitfieldDifference tor.completion.tr_cpPieceBitfield peer.have_) == 0
  peerHasEverything && (!tor.tr_torrentAllowsPex || decide ((now : Int) - atom.time ≥ 30))

/-- The idle rule of `shouldPeerBeClosed`: it has been too long since piece
data was transferred. -/
def idleTooLong (t : Torrent) (peer : tr_peer) (peerCount : Int) (now : Nat) : Bool :=
  let limit := idleLimit t.tor peerCount
  let then_ := peer.pieceDataActivityDate
  let idleTime : Int := if then_ ≠ 0 then toInt32 ((now : Int) - then_) else 0
  decide (idleTime > limit)

/-- The function `shouldPeerBeClosed`; `now` is the value of `time (NULL)`.
`none`: the torrent is a seed and the peer has no atom, so `atom->flags` reads
through a null pointer. The calls of `tordbg` are left out. -/
def shouldPeerBeClosed (t : Torrent) (peer : tr_peer) (peerCount : Int) (now : Nat) :
    Option Bool :=
  let atom := getExistingAtom t peer.in_addr
  /- if it's marked for purging, close it -/
  if peer.doPurge then some true
  else if t.tor.tr_torrentIsSeed then
    match atom with
    | none => none
    | some atom =>
      if bothSeeds t peer atom now then some true
      else some (idleTooLong t peer peerCount now)
  else some (idleTooLong t peer peerCount now)

/-- The loop of `getPeersToClose` on the peers from some position on. -/
def getPeersToCloseFrom (t : Torrent) (peerCount : Int) (now : Nat) :
    List tr_peer → Option (List tr_peer)
  | [] => some []
  | peer :: rest =>
    match shouldPeerBeClosed t peer peerCount now, getPeersToCloseFrom t peerCount now rest with
    | some b, some ret => some (if b then peer :: ret else ret)
    | _, _ => none

/-- The function `getPeersToClose`. -/
def getPeersToClose (t : Torrent) (now : Nat) : Option (List tr_peer) :=
  getPeersToCloseFrom t t.peers.length now t.peers

/-- The function `removePeer`: the atom of the peer gets `time = now`, and the
peer set loses the entry with the peer's address. `none`: the peer has no
atom (`assert( atom != NULL )`). -/
def removePeer (t : Torrent) (peer : tr_peer) (now : Nat) : Option Torrent :=
  match modifyAtom t.pool peer.in_addr (fun atom => { atom with time := now }) with
  | none => none
  | some pool =>
    some { t with pool := pool
                  peers := t.peers.eraseP (fun p => decide (p.in_addr = peer.in_addr)) }

/-- The function `removeAllPeers`: `removePeer` on entry 0 of the peer set
until the set is empty; `fuel` bounds the number of passes. -/
def removeAllPeers (now : Nat) : Nat → Torrent → Option Torrent
  | 0, t => if t.peers.isEmpty then some t else none
  | fuel + 1, t =>
    match t.peers with
    | [] => some t
    | peer :: _ =>
      match removePeer t peer now with
      | none => none
      | some t1 => removeAllPeers now fuel t1

/-- The body of the loop "disconnect some peers" of `reconnectPulse`. `none`:
the peer has no atom. -/
def closePeer (t : Torrent) (peer : tr_peer) (now : Nat) : Option Torrent :=
  match modifyAtom t.pool peer.in_addr (fun atom =>
      /- if we got transferred piece data, reset `numFails' to zero;
         otherwise mark it as another fail -/
      if peer.pieceDataActivityDate ≠ 0 then { atom with numFails := 0 }
      else { atom with numFails := (atom.numFails + 1) % 2 ^ 16 }) with
  | none => none
  | some pool => removePeer { t with pool := pool } peer now

/-- The loop "disconnect some peers" of `reconnectPulse`. -/
def closePeers (now : Nat) : Torrent → List tr_peer → Option Torrent
  | t, [] => some t
  | t, peer :: rest =>
    match closePeer t peer now with
    | none => none
    | some t1 => closePeers now t1 rest

/-! ## Life and death: the reconnect pulse -/

/-- The static variables of `reconnectPulse`. -/
structure ReconnectGlobals where
  prevTime : Nat := 0
  newConnectionsThisSecond : Nat := 0
deriving DecidableEq, Repr

/-- What the loop "add some new ones" of `reconnectPulse` leaves behind: the
static variables, the torrent, and the addresses of the atoms it tried and of
the handshakes it started, in the order of the loop. -/
structure Promotion where
  g : ReconnectGlobals
  t : Torrent
  attempted : List Nat
  started : List Nat

/-- The loop "add some new ones" of `reconnectPulse`, from position `i` on;
the list holds the candidates from that position on. A candidate is a pointer
to an atom of the pool and is followed through its address. `none`: the pool
has no atom of that address. -/
def promoteLoop (env : PeerMgrEnv) (now : Nat) :
    Nat → List peer_atom → ReconnectGlobals → Torrent → Option Promotion
  | _, [], g, t => some { g := g, t := t, attempted := [], started := [] }
  | i, atom :: rest, g, t =>
    if i < MAX_RECONNECTIONS_PER_PULSE
        ∧ g.newConnectionsThisSecond < MAX_CONNECTIONS_PER_SECOND then
      let io := env.tr_peerIoNewOutgoing atom.addr atom.port
      if io = false then
        /- atom->myflags |= MYFLAG_UNREACHABLE; atom->time = time( NULL ) -/
        match modifyAtom t.pool atom.addr (fun a =>
            { a with myflags := a.myflags ||| MYFLAG_UNREACHABLE, time := now }) with
        | none => none
        | some pool =>
          match promoteLoop env now (i + 1) rest g { t with pool := pool } with
          | none => none
          | some r => some { r with attempted := atom.addr :: r.attempted }
      else
        /- ++newConnectionsThisSecond; the handshake joins the outgoing set;
           atom->time = time( NULL ) -/
        match modifyAtom t.pool atom.addr (fun a => { a with time := now }) with
        | none => none
        | some pool =>
          match promoteLoop env now (i + 1) rest
              { g with newConnectionsThisSecond := g.newConnectionsThisSecond + 1 }
              { t with pool := pool
                       outgoingHandshakes := insertSorted id atom.addr t.outgoingHandshakes } with
          | none => none
          | some r => some { r with attempted := atom.addr :: r.attempted
                                    started := atom.addr :: r.started }
    else some { g := g, t := t, attempted := [], started := [] }

/-- The start of `reconnectPulse`: the count of new connections is reset when
the second has changed. -/
def reconnectTick (g : ReconnectGlobals) (now : Nat) : ReconnectGlobals :=
  if g.prevTime ≠ now then { prevTime := now, newConnectionsThisSecond := 0 } else g

/-- The closure sweep of `reconnectPulse`: the peers that `getPeersToClose`
names are disconnected. -/
def closureSweep (t : Torrent) (now : Nat) : Option Torrent :=
  match getPeersToClose t now with
  | none => none
  | some connections => closePeers now t connections

/-- What `reconnectPulse` leaves behind: the static variables, the torrent, the
value returned, and the addresses of the atoms tried and of the handshakes
started. -/
structure ReconnectPulse where
  g : ReconnectGlobals
  t : Torrent
  ret : Bool
  attempted : List Nat
  started : List Nat

/-- The function `reconnectPulse`; `now` is the value of `time (NULL)` during
the pulse, `incoming` the manager's incoming handshakes. `none`: a peer
without an atom was met. -/
def reconnectPulse (env : PeerMgrEnv) (incoming : List Nat) (g : ReconnectGlobals) (now : Nat)
    (t : Torrent) : Option ReconnectPulse :=
  let g1 := reconnectTick g now
  if !t.isRunning then
    match removeAllPeers now t.peers.length t with
    | none => none
    | some t1 => some { g := g1, t := t1, ret := true, attempted := [], started := [] }
  else
    let candidates := getPeerCandidates env incoming t now
    match closureSweep t now with
    | none => none
    | some t1 =>
      match promoteLoop env now 0 candidates g1 t1 with
      | none => none
      | some r =>
        some { g := r.g, t := r.t, ret := true, attempted := r.attempted, started := r.started }

/-- A run of calls of `reconnectPulse`, one per torrent of the list, all at the
time `now`: the number of handshakes each call starts, up to the first call
that does not return. -/
def reconnectPulses (env : PeerMgrEnv) (incoming : List Nat) (now : Nat) :
    ReconnectGlobals → List Torrent → List Nat
  | _, [] => []
  | g, t :: ts =>
    match reconnectPulse env incoming g now t with
    | none => []
    | some r => r.started.length :: reconnectPulses env incoming now r.g ts

/-! ## Vocabulary of the statements about the reconnect pulse -/

/-- The verdict of `shouldPeerBeClosed` for a peer of the torrent during
`getPeersToClose`, taken as "stay" where the function does not return. -/
def closes (t : Torrent) (now : Nat) (peer : tr_peer) : Bool :=
  (shouldPeerBeClosed t peer t.peers.length now).getD false

/-- What the closure sweep writes into the atom of a closed peer. -/
def closedAtom (peer : tr_peer) (now : Nat) (atom : peer_atom) : peer_atom :=
  { atom with
    numFails := if peer.pieceDataActivityDate ≠ 0 then 0 else (atom.numFails + 1) % 2 ^ 16
    time := now }

/-- What the promotion step writes into the atom it tries; `opens` tells
whether the outgoing I/O opened. -/
def promotedAtom (opens : Bool) (now : Nat) (atom : peer_atom) : peer_atom :=
  { atom with
    myflags := if opens then atom.myflags else atom.myflags ||| MYFLAG_UNREACHABLE
    time := now }

/-- Every peer of the torrent has an atom in the pool. -/
def PeersHaveAtoms (t : Torrent) : Prop :=
  ∀ p ∈ t.peers, ∃ a ∈ t.pool, a.addr = p.in_addr

/-- The pool after the peers of the list `closed` have been disconnected by the
closure sweep: the atom of each of them is rewritten, the others stay. -/
def sweptPool (closed : List tr_peer) (now : Nat) (pool : List peer_atom) : List peer_atom :=
  pool.map (fun a =>
    match closed.find? (fun p => decide (p.in_addr = a.addr)) with
    | some p => closedAtom p now a
    | none => a)

/-- The peer set after the peers of the list `closed` have been disconnected:
the peers with other addresses, in their order. -/
def survivingPeers (closed : List tr_peer) (peers : List tr_peer) : List tr_peer :=
  peers.filter (fun p => !closed.any (fun q => decide (q.in_addr = p.in_addr)))

/-- A torrent for the closure sweep at time 100000: the peers at addresses 1
and 2 are marked for purging, the first of them has transferred piece data;
the peer at address 3 was active ten seconds ago; the atom at address 4 has no
peer. -/
def sweepTorrent : Torrent :=
  { isRunning := true
    tor := { maxConnectedPeers := 60 }
    peers := [{ in_addr := 1, doPurge := true, pieceDataActivityDate := 99000 },
              { in_addr := 2, doPurge := true },
              { in_addr := 3, pieceDataActivityDate := 99990 }]
    pool := [{ addr := 1, numFails := 2, time := 5 }, { addr := 2, numFails := 2, time := 6 },
             { addr := 3, numFails := 1, time := 7 }, { addr := 4, numFails := 1, time := 8 }] }

/-- An environment in which no outgoing I/O opens. -/
def noOutgoingIo : PeerMgrEnv :=
  { tr_peerIoNewOutgoing := fun _ _ => false }

/-! ## Strikes and bans -/

/-- The manager with the record of a torrent written back: torrents are
reached through pointers, so a change of the torrent that `getExistingTorrent`
finds for a hash is a change of that entry of `manager->torrents`. -/
def putTorrent (torrents : List Torrent) (t : Torrent) : List Torrent :=
  match torrents with
  | [] => []
  | x :: rest => if x.hash = t.hash then t :: rest else x :: putTorrent rest t

/-- The function `addStrike`, on the pool of the torrent and the peer: the
pool and the peer afterwards. `none`: the peer reaches the limit and has no
atom, so `atom->myflags` writes through a null pointer. The declaration of
`strikes` is in `peer-mgr-private.h`; the count is taken without wrap-around.
The calls of `tordbg` are left out. -/
def addStrike (pool : List peer_atom) (peer : tr_peer) : Option (List peer_atom × tr_peer) :=
  let peer1 := { peer with strikes := peer.strikes + 1 }
  if peer1.strikes ≥ MAX_BAD_PIECES_PER_PEER then
    match modifyAtom pool peer.in_addr
        (fun atom => { atom with myflags := atom.myflags ||| MYFLAG_BANNED }) with
    | none => none
    | some pool1 => some (pool1, { peer1 with doPurge := true })
  else some (pool, peer1)

/-- The loop of `tr_peerMgrSetBlame` over the peers from some position on: the
pool and these peers afterwards. -/
def setBlameLoop (pieceIndex : Nat) :
    List peer_atom → List tr_peer → Option (List peer_atom × List tr_peer)
  | pool, [] => some (pool, [])
  | pool, peer :: rest =>
    if tr_bitfieldHas peer.blame pieceIndex then
      match addStrike pool peer with
      | none => none
      | some (pool1, peer1) =>
        match setBlameLoop pieceIndex pool1 rest with
        | none => none
        | some (pool2, rest1) => some (pool2, peer1 :: rest1)
    else
      match setBlameLoop pieceIndex pool rest with
      | none => none
      | some (pool2, rest1) => some (pool2, peer :: rest1)

/-- The function `tr_peerMgrSetBlame`. `none`: there is no torrent of that
hash (`torrentIsLocked( t )` reads through a null pointer), or a peer without
an atom reaches the limit of strikes. -/
def tr_peerMgrSetBlame (manager : tr_peerMgr) (torrentHash : List Nat) (pieceIndex : Nat)
    (success : Bool) : Option tr_peerMgr :=
  if !success then
    match getExistingTorrent manager torrentHash with
    | none => none
    | some t =>
      match setBlameLoop pieceIndex t.pool t.peers with
      | none => none
      | some (pool, peers) =>
        some { manager with
               torrents := putTorrent manager.torrents { t with pool := pool, peers := peers } }
  else some manager

/-- What one failed piece does to a peer that is blamed for it. -/
def struck (pieceIndex : Nat) (peer : tr_peer) : tr_peer :=
  if tr_bitfieldHas peer.blame pieceIndex then
    { peer with strikes := peer.strikes + 1
                doPurge := if peer.strikes + 1 ≥ MAX_BAD_PIECES_PER_PEER then true
                           else peer.doPurge }
  else peer

/-- The peers that one failed piece brings to the limit of strikes hold the
address. -/
def struckOut (pieceIndex : Nat) (peers : List tr_peer) (addr : Nat) : Bool :=
  peers.any (fun p => decide (p.in_addr = addr) && tr_bitfieldHas p.blame pieceIndex
    && decide (p.strikes + 1 ≥ MAX_BAD_PIECES_PER_PEER))

/-- A manager with one running torrent of hash `[7]`: the peer at address 1
is blamed for piece 5 and has no strikes, the peer at address 2 is not. -/
def blameManager : tr_peerMgr :=
  { torrents := [{ hash := [7], isRunning := true
                   tor := { maxConnectedPeers := 60 }
                   peers := [{ in_addr := 1, blame := tr_bitfieldAdd (tr_bitfieldNew 8) 5 },
                             { in_addr := 2, blame := tr_bitfieldNew 8 }]
                   pool := [{ addr := 1 }, { addr := 2 }] }] }

/-! ## Handshake completion -/

/-- Modelled from the spec: `tr_ptrArrayRemoveSorted` on a set of handshakes,
which are compared by address: the set without the handshake of the address.
`none` when the set holds no such handshake, where the function returns a null
pointer. -/
def removeHandshake (handshakes : List Nat) (addr : Nat) : Option (List Nat) :=
  if handshakes.contains addr then some (handshakes.erase addr) else none

/-- The function `ensureAtomExists`: when the pool has no atom of the address,
a cleared one with the address, port, flags and source is inserted into the
pool, which is sorted by address. -/
def ensureAtomExists (t : Torrent) (addr port flags from_ : Nat) : Torrent :=
  match getExistingAtom t addr with
  | none =>
    let a : peer_atom :=
      { addr := addr, port := port, flags := flags, from_ := from_, myflags := 0,
        numFails := 0, time := 0, piece_data_time := 0 }
    { t with pool := insertSorted (fun x => x.addr) a t.pool }
  | some _ => t

/-- The function `peerConstructor`: a cleared record with the address. -/
def peerConstructor (in_addr : Nat) : tr_peer :=
  { in_addr := in_addr, port := 0, msgs := false, ioAge := none, client := none,
    have_ := tr_bitfieldNew 0, blame := tr_bitfieldNew 0, strikes := 0, doPurge := false,
    peerIsChoked := false, peerIsInterested := false, clientIsChoked := false,
    clientIsInterested := false, progress := 0, rateToClient := 0, rateToPeer := 0,
    pieceDataActivityDate := 0 }

/-- The peer that the success path of `myHandshakeDoneCB` stores: the one
`getPeer` constructs, then its client name, port, I/O and message handle are
set. What `tr_peerMsgsNew` writes into the record besides is not in these
sources. -/
def handshakePeer (env : PeerMgrEnv) (io : tr_peerIo) (peer_id : Option (List Nat)) : tr_peer :=
  { peerConstructor io.addr with
    client := peer_id.map env.tr_clientForId
    port := io.port
    ioAge := some io.age
    msgs := true }

/-- The branch `!ok || !t || !t->isRunning` of `myHandshakeDoneCB` for a
torrent: `if( atom ) ++atom->numFails`, in 16 bits. -/
def handshakeFailed (t : Torrent) (addr : Nat) : Torrent :=
  match modifyAtom t.pool addr
      (fun atom => { atom with numFails := (atom.numFails + 1) % 2 ^ 16 }) with
  | none => t
  | some pool => { t with pool := pool }

/-- The torrent of the handshake in `myHandshakeDoneCB`:
`tr_peerIoHasTorrentHash( io ) ? getExistingTorrent( manager, hash ) : NULL`. -/
def handshakeTorrent (manager : tr_peerMgr) (io : tr_peerIo) : Option Torrent :=
  match io.torrentHash with
  | some hash => getExistingTorrent manager hash
  | none => none

/-- The branch "looking good" of `myHandshakeDoneCB`, for a running torrent;
`now` is the value of `time (NULL)`. -/
def handshakeLooksGood (env : PeerMgrEnv) (t : Torrent) (io : tr_peerIo)
    (peer_id : Option (List Nat)) (now : Nat) : Option Torrent :=
  let t1 := ensureAtomExists t io.addr io.port 0 TR_PEER_FROM_INCOMING
  match getExistingAtom t1 io.addr with
  | none => none
  | some atom =>
    if hasFlag atom.myflags MYFLAG_BANNED then
      /- banned peer tried to reconnect -/
      some t1
    else if ((t1.peers.length : Nat) : Int) ≥ getMaxPeerCount t1.tor then
      some t1
    else
      match getExistingPeer t1 io.addr with
      | some _ =>
        /- we already have this peer -/
        some t1
      | none =>
        match modifyAtom t1.pool io.addr (fun a => { a with time := now }) with
        | none => none
        | some pool =>
          some { t1 with
                 peers := insertSorted (fun p => p.in_addr) (handshakePeer env io peer_id) t1.peers
                 pool := pool }

/-- The function `myHandshakeDoneCB`; `now` is the value of `time (NULL)`, and
`peer_id` is absent when the pointer is null. `none`: the handshake is not in
the set it is removed from (`assert( ours != NULL )`). -/
def myHandshakeDoneCB (env : PeerMgrEnv) (manager : tr_peerMgr) (io : tr_peerIo)
    (isConnected : Bool) (peer_id : Option (List Nat)) (now : Nat) : Option tr_peerMgr :=
  let ok := isConnected
  let t := handshakeTorrent manager io
  if io.isIncoming then
    match removeHandshake manager.incomingHandshakes io.addr with
    | none => none
    | some incoming =>
      let manager1 := { manager with incomingHandshakes := incoming }
      match t with
      | none => some manager1
      | some t =>
        if !ok || !t.isRunning then
          some { manager1 with torrents := putTorrent manager1.torrents (handshakeFailed t io.addr) }
        else
          match handshakeLooksGood env t io peer_id now with
          | none => none
          | some t1 => some { manager1 with torrents := putTorrent manager1.torrents t1 }
  else
    match t with
    | none => some manager
    | some t =>
      match removeHandshake t.outgoingHandshakes io.addr with
      | none => none
      | some outgoing =>
        let t0 := { t with outgoingHandshakes := outgoing }
        if !ok || !t0.isRunning then
          some { manager with torrents := putTorrent manager.torrents (handshakeFailed t0 io.addr) }
        else
          match handshakeLooksGood env t0 io peer_id now with
          | none => none
          | some t1 => some { manager with torrents := putTorrent manager.torrents t1 }

/-- A running torrent of hash `[7]` that allows two peers and has one, at
address 1; the pool holds atoms for the addresses 1, 2 and 3, the last one
banned; handshakes to 2 and 3 are under way. -/
def twoPeerTorrent : Torrent :=
  { hash := [7], isRunning := true
    tor := { maxConnectedPeers := 2 }
    peers := [{ in_addr := 1 }]
    pool := [{ addr := 1 }, { addr := 2, numFails := 1 }, { addr := 3, myflags := 1 }]
    outgoingHandshakes := [2, 3] }

/-- A manager with the torrent `twoPeerTorrent` and an incoming handshake from
the address 4. -/
def handshakeManager : tr_peerMgr :=
  { torrents := [twoPeerTorrent]
    incomingHandshakes := [4] }

/-- The torrent of a handshake once `myHandshakeDoneCB` has taken the
handshake out of its set: an outgoing handshake leaves the set of the
torrent, an incoming one the set of the manager. -/
def afterHandshakeRemoval (t : Torrent) (io : tr_peerIo) : Torrent :=
  if io.isIncoming then t
  else { t with outgoingHandshakes := t.outgoingHandshakes.erase io.addr }

/-- The incoming handshakes of the manager once `myHandshakeDoneCB` has taken
the handshake out of its set. -/
def incomingAfterHandshake (manager : tr_peerMgr) (io : tr_peerIo) : List Nat :=
  if io.isIncoming then manager.incomingHandshakes.erase io.addr
  else manager.incomingHandshakes

/-! ## PEX: the compact format -/

/-- Modelled from the spec: the record `tr_pex` (declared in `transmission.h`):
an IPv4 address, a port and the flags byte. The address and the port hold
their bytes in the order of the wire; they are read here as numbers, most
significant byte first. -/
structure tr_pex where
  in_addr : Nat := 0
  port : Nat := 0
  flags : Nat := 0
deriving DecidableEq, Repr

/-- The statement `memcpy( &field, walk, n )` for a field of `n` bytes: the
first `n` bytes at `walk`, read as a number, most significant byte first. -/
def loadBytes (walk : List Nat) (n : Nat) : Nat :=
  (walk.take n).foldl (fun acc b => acc * 256 + b % 256) 0

/-- The loop of `tr_peerMgrCompactToPex` with `k` records still to read, at
index `i`, `walk` pointing into the compact bytes. Without `added_f` the flags
keep the zero of `tr_new0`. -/
def compactToPexLoop (added_f : Option (List Nat)) : Nat → Nat → List Nat → List tr_pex
  | 0, _, _ => []
  | k + 1, i, walk =>
    let flags := match added_f with
      | some f => f.getD i 0
      | none => 0
    { in_addr := loadBytes walk 4, port := loadBytes (walk.drop 4) 2, flags := flags }
      :: compactToPexLoop added_f k (i + 1) (walk.drop 6)

/-- The function `tr_peerMgrCompactToPex` on the `compactLen = compact.length`
bytes at `compact`: the array returned and the value stored in `*pexCount`.
`added_f` is absent when the pointer is null. -/
def tr_peerMgrCompactToPex (compact : List Nat) (added_f : Option (List Nat)) :
    List tr_pex × Nat :=
  let n := compact.length / 6
  (compactToPexLoop added_f n 0 compact, n)

/-- Modelled from the spec: the compact form of one PEX entry, "4-byte IPv4
big-endian + 2-byte port big-endian". -/
def pexBytes (p : tr_pex) : List Nat :=
  storeBE32 p.in_addr ++ [p.port / 2 ^ 8 % 256, p.port % 256]

/-- Modelled from the spec: `pex.serialize()`, the compact forms of the
entries one after the other. -/
def pexSerialize (pex : List tr_pex) : List Nat :=
  pex.flatMap pexBytes

/-- The function `tr_peerMgrAddPex`. `none`: there is no torrent of that hash
(`t->manager` reads through a null pointer). -/
def tr_peerMgrAddPex (env : PeerMgrEnv) (manager : tr_peerMgr) (torrentHash : List Nat)
    (from_ : Nat) (pex : tr_pex) : Option tr_peerMgr :=
  match getExistingTorrent manager torrentHash with
  | none => none
  | some t =>
    if !env.tr_blocklistHasAddress pex.in_addr then
      some { manager with
             torrents := putTorrent manager.torrents
               (ensureAtomExists t pex.in_addr pex.port pex.flags from_) }
    else some manager

/-! ## The events of the message layer -/

/-- Modelled from the spec: `tr_bitfieldRem` (its body is in `utils.c`): bit
`nth` of the array is cleared; a bit beyond `bitCount` is refused and the array
is left as it was. -/
def tr_bitfieldRem (b : tr_bitfield) (nth : Nat) : tr_bitfield :=
  if b.bitCount ≤ nth then b
  else { b with bits := b.bits.set (nth >>> 3)
                  ((b.bits.getD (nth >>> 3) 0) &&& (0xff ^^^ (0x80 >>> (nth &&& 7)))) }

/-- Modelled from the spec: the event types of `peer-msgs.h`. -/
inductive PeerMsgsEventType where
  | TR_PEERMSG_CLIENT_HAVE
  | TR_PEERMSG_CLIENT_BLOCK
  | TR_PEERMSG_PIECE_DATA
  | TR_PEERMSG_PEER_PROGRESS
  | TR_PEERMSG_ERROR
  | TR_PEERMSG_CANCEL
  | TR_PEERMSG_NEED_REQ
deriving DecidableEq, Repr

/-- Modelled from the spec: the record `tr_peermsgs_event` of `peer-msgs.h`,
with the fields `msgsCallbackFunc` reads. -/
structure tr_peermsgs_event where
  eventType : PeerMsgsEventType
  pieceIndex : Nat := 0
  offset : Nat := 0
  length : Nat := 0
  progress : ℚ := 0
  err : Int := 0

/-- What `msgsCallbackFunc` does outside the peer manager: the messages it
hands to the message layer of a peer, and its calls into the torrent layer. -/
inductive MsgsEffect where
  | tr_peerMsgsHave (peer : tr_peer) (index : Nat)
  | tr_peerMsgsCancel (peer : tr_peer) (index offset length : Nat)
  | tr_torrentRecheckCompleteness
  | tr_torrentStop (err : Int)
deriving DecidableEq

/-- A write through a pointer to a peer of the torrent: the peer of the peer
set with the address is replaced by `f` of it. `none` when the set has no such
peer. -/
def modifyPeer (peers : List tr_peer) (addr : Nat) (f : tr_peer → tr_peer) :
    Option (List tr_peer) :=
  match peers with
  | [] => none
  | p :: rest =>
    if p.in_addr = addr then some (f p :: rest)
    else (modifyPeer rest addr f).map (fun r => p :: r)

/-- The function `broadcastClientHave`. -/
def broadcastClientHave (t : Torrent) (index : Nat) : List MsgsEffect :=
  (getConnectedPeers t).map (fun peer => MsgsEffect.tr_peerMsgsHave peer index)

/-- The function `broadcastGotBlock`. -/
def broadcastGotBlock (t : Torrent) (index offset length : Nat) : List MsgsEffect :=
  (getConnectedPeers t).map (fun peer => MsgsEffect.tr_peerMsgsCancel peer index offset length)

/-- The function `msgsCallbackFunc` for an event of the peer `peer` of the
torrent; `now` is the value of `time (NULL)`. The pointer `peer` is followed
through the address of the peer. Returns the torrent afterwards and what was
done outside the manager. `none`: the peer has no atom where one is written
through (`PIECE_DATA`, `PEER_PROGRESS`, a ban), or is not in the peer set
where the peer is written. The calls of `tordbg` are left out. -/
def msgsCallbackFunc (env : PeerMgrEnv) (t : Torrent) (peer : tr_peer) (e : tr_peermsgs_event)
    (now : Nat) : Option (Torrent × List MsgsEffect) :=
  match e.eventType with
  | .TR_PEERMSG_NEED_REQ =>
    if t.refillTimer = false then some ({ t with refillTimer := true }, [])
    else some (t, [])
  | .TR_PEERMSG_CANCEL =>
    some ({ t with requested := tr_bitfieldRem t.requested (t.tor.tr_block e.pieceIndex e.offset) },
          [])
  | .TR_PEERMSG_PIECE_DATA =>
    match modifyAtom t.pool peer.in_addr (fun atom => { atom with piece_data_time := now }) with
    | none => none
    | some pool => some ({ t with pool := pool }, [])
  | .TR_PEERMSG_CLIENT_HAVE =>
    some (t, broadcastClientHave t e.pieceIndex ++ [MsgsEffect.tr_torrentRecheckCompleteness])
  | .TR_PEERMSG_PEER_PROGRESS =>
    let peerIsSeed := decide (e.progress ≥ 1)
    match modifyAtom t.pool peer.in_addr (fun atom =>
        if peerIsSeed then { atom with flags := atom.flags ||| ADDED_F_SEED_FLAG }
        else { atom with flags := atom.flags &&& (0xff ^^^ ADDED_F_SEED_FLAG) }) with
    | none => none
    | some pool => some ({ t with pool := pool }, [])
  | .TR_PEERMSG_CLIENT_BLOCK =>
    some (t, broadcastGotBlock t e.pieceIndex e.offset e.length)
  | .TR_PEERMSG_ERROR =>
    if env.TR_ERROR_IS_IO e.err then
      match modifyPeer t.peers peer.in_addr (fun p => { p with doPurge := true }) with
      | none => none
      | some peers => some ({ t with peers := peers }, [MsgsEffect.tr_torrentStop e.err])
    else if e.err = env.TR_ERROR_ASSERT then
      match getExistingPeer t peer.in_addr with
      | none => none
      | some p =>
        match addStrike t.pool p with
        | none => none
        | some (pool, peer1) =>
          match modifyPeer t.peers peer.in_addr (fun _ => { peer1 with doPurge := true }) with
          | none => none
          | some peers => some ({ t with pool := pool, peers := peers }, [])
    else
      match modifyPeer t.peers peer.in_addr (fun p => { p with doPurge := true }) with
      | none => none
      | some peers => some ({ t with peers := peers }, [])

/-- A torrent with 16 blocks in pieces of four, block 5 marked as requested,
and two connected peers. -/
def requestedTorrent : Torrent :=
  { isRunning := true
    tor := { blockCount := 16, tr_block := fun index offset => index * 4 + offset / 16384 }
    requested := tr_bitfieldAdd (tr_bitfieldAdd (tr_bitfieldNew 16) 5) 9
    peers := [{ in_addr := 1 }, { in_addr := 2 }]
    pool := [{ addr := 1 }, { addr := 2 }] }

/-! ## Starting and stopping a torrent -/

/-- The function `rechokePulse`, which returns TRUE. -/
def rechokePulse (t : Torrent) (tr_rand : Nat → Nat) : Rechoke :=
  rechoke t tr_rand

/-- What `tr_peerMgrStartTorrent` leaves behind: the manager, the static
variables of `reconnectPulse`, and the calls of `tr_peerMsgsSetChoke`. -/
structure StartTorrent where
  manager : tr_peerMgr
  g : ReconnectGlobals
  calls : List ChokeCall

/-- The function `tr_peerMgrStartTorrent`; `now` is the value of
`time (NULL)` and `tr_rand` the random generator of `rechoke`. `none`: one of
the three assertions fails, or the first `reconnectPulse` meets a peer without
an atom. -/
def tr_peerMgrStartTorrent (env : PeerMgrEnv) (manager : tr_peerMgr) (g : ReconnectGlobals)
    (torrentHash : List Nat) (now : Nat) (tr_rand : Nat → Nat) : Option StartTorrent :=
  match getExistingTorrent manager torrentHash with
  | none => none
  | some t =>
    if t.isRunning ≠ t.reconnectTimer then none
    else if t.isRunning ≠ t.rechokeTimer then none
    else if !t.isRunning then
      let t1 := { t with isRunning := true, reconnectTimer := true, rechokeTimer := true }
      match reconnectPulse env manager.incomingHandshakes g now t1 with
      | none => none
      | some r =>
        let c := rechokePulse r.t tr_rand
        some { manager := { manager with torrents := putTorrent manager.torrents c.t }
               g := r.g, calls := c.calls }
    else some { manager := manager, g := g, calls := [] }

/-- Modelled from the spec: `tr_handshakeAbort` (its body is in
`handshake.c`): the done-callback is entered for the I/O of the handshake with
`isConnected = 0` and no peer id. -/
def tr_handshakeAbort (env : PeerMgrEnv) (manager : tr_peerMgr) (io : tr_peerIo) (now : Nat) :
    Option tr_peerMgr :=
  myHandshakeDoneCB env manager io false none now

/-- The loop `while( !tr_ptrArrayEmpty( t->outgoingHandshakes ) )` of
`stopTorrent` for the torrent of the hash: entry 0 is aborted until the set is
empty; `fuel` bounds the number of passes. The I/O of an outgoing handshake
carries the address and the hash of the torrent. -/
def abortOutgoingHandshakes (env : PeerMgrEnv) (now : Nat) (hash : List Nat) :
    Nat → tr_peerMgr → Option tr_peerMgr
  | 0, manager =>
    match getExistingTorrent manager hash with
    | none => none
    | some t => if t.outgoingHandshakes.isEmpty then some manager else none
  | fuel + 1, manager =>
    match getExistingTorrent manager hash with
    | none => none
    | some t =>
      match t.outgoingHandshakes with
      | [] => some manager
      | addr :: _ =>
        match tr_handshakeAbort env manager
            { addr := addr, isIncoming := false, torrentHash := some hash } now with
        | none => none
        | some manager1 => abortOutgoingHandshakes env now hash fuel manager1

/-- The function `stopTorrent` for a torrent of the manager: the torrent stops
running, its rechoke and reconnect timers are freed, its peers are destroyed
and the peer set is cleared, then its outgoing handshakes are aborted. -/
def stopTorrent (env : PeerMgrEnv) (manager : tr_peerMgr) (t : Torrent) (now : Nat) :
    Option tr_peerMgr :=
  let t1 := { t with isRunning := false, rechokeTimer := false, reconnectTimer := false
                     peers := [] }
  abortOutgoingHandshakes env now t.hash t.outgoingHandshakes.length
    { manager with torrents := putTorrent manager.torrents t1 }

/-- The function `tr_peerMgrStopTorrent`. `none`: there is no torrent of that
hash. -/
def tr_peerMgrStopTorrent (env : PeerMgrEnv) (manager : tr_peerMgr) (torrentHash : List Nat)
    (now : Nat) : Option tr_peerMgr :=
  match getExistingTorrent manager torrentHash with
  | none => none
  | some t => stopTorrent env manager t now

/-- The function `tr_peerMgrAddIncoming`: unless the address is blocklisted or
has an incoming handshake already, a handshake for it joins the incoming
handshakes. -/
def tr_peerMgrAddIncoming (env : PeerMgrEnv) (manager : tr_peerMgr) (addr : Nat) : tr_peerMgr :=
  if env.tr_blocklistHasAddress addr then manager
  else if getExistingHandshake manager.incomingHandshakes addr then manager
  else
    /- we don't have a connetion to them yet... -/
    { manager with incomingHandshakes := insertSorted id addr manager.incomingHandshakes }

/-- The invariant that the assertions of `tr_peerMgrStartTorrent` state: the
torrent is running exactly when its reconnect timer exists, and exactly when
its rechoke timer exists. -/
def TimersMatch (t : Torrent) : Prop :=
  t.isRunning = t.reconnectTimer ∧ t.isRunning = t.rechokeTimer

/-- A manager with one stopped torrent of hash `[7]` without timers, with an
atom for the address 1. -/
def stoppedManager : tr_peerMgr :=
  { torrents := [{ hash := [7], tor := { maxConnectedPeers := 60 }
                   pool := [{ addr := 1, time := 5 }] }] }

/-- A running torrent of hash `[7]` with its reconnect and rechoke timers, a
peer at the address 1 whose atom was stamped at the time 5, and an outgoing
handshake to the address 2. -/
def runningTorrent : Torrent :=
  { hash := [7], isRunning := true, reconnectTimer := true, rechokeTimer := true
    tor := { maxConnectedPeers := 60 }
    peers := [{ in_addr := 1 }]
    pool := [{ addr := 1, time := 5 }, { addr := 2, time := 6 }]
    outgoingHandshakes := [2] }

/-- A manager with the torrent `runningTorrent` and an incoming handshake from
the address 9. -/
def runningManager : tr_peerMgr :=
  { torrents := [runningTorrent]
    incomingHandshakes := [9] }

/-! ## Sequences of manager operations -/

/-- The state the operations on connections work on: the manager and the
static variables of `reconnectPulse`. -/
structure ManagerState where
  manager : tr_peerMgr
  g : ReconnectGlobals := {}

/-- The operations that put addresses into the peer sets and the handshake
sets: a call of `tr_peerMgrAddIncoming`, a reconnect pulse of the torrent of a
hash at a time, and a call of the handshake callback. -/
inductive ManagerOp where
  | addIncoming (addr : Nat)
  | pulse (hash : List Nat) (now : Nat)
  | handshakeDone (io : tr_peerIo) (isConnected : Bool) (peer_id : Option (List Nat)) (now : Nat)

/-- One operation on the state. `none`: the operation does not return. -/
def applyOp (env : PeerMgrEnv) (s : ManagerState) : ManagerOp → Option ManagerState
  | .addIncoming addr =>
    some { s with manager := tr_peerMgrAddIncoming env s.manager addr }
  | .pulse hash now =>
    match getExistingTorrent s.manager hash with
    | none => none
    | some t =>
      match reconnectPulse env s.manager.incomingHandshakes s.g now t with
      | none => none
      | some r =>
        some { manager := { s.manager with torrents := putTorrent s.manager.torrents r.t }
               g := r.g }
  | .handshakeDone io isConnected peer_id now =>
    match myHandshakeDoneCB env s.manager io isConnected peer_id now with
    | none => none
    | some manager1 => some { s with manager := manager1 }

/-- A sequence of operations, one after the other. -/
def applyOps (env : PeerMgrEnv) : ManagerState → List ManagerOp → Option ManagerState
  | s, [] => some s
  | s, op :: ops =>
    match applyOp env s op with
    | none => none
    | some s1 => applyOps env s1 ops

/-- No address is held twice by the incoming handshakes of the manager, by the
peer set of a torrent or by the outgoing handshakes of a torrent. -/
def SetsOk (m : tr_peerMgr) : Prop :=
  m.incomingHandshakes.Nodup ∧
  ∀ t ∈ m.torrents, (t.peers.map (fun p => p.in_addr)).Nodup ∧ t.outgoingHandshakes.Nodup

/-- A manager with one running torrent of hash `[7]` that knows the address 1
and has no peer and no handshake. -/
def freshManager : tr_peerMgr :=
  { torrents := [{ hash := [7], isRunning := true, reconnectTimer := true, rechokeTimer := true
                   tor := { maxConnectedPeers := 60 }
                   pool := [{ addr := 1 }] }] }

/-- An outgoing connection to the address 1 is started; the address 1 connects
to us and that handshake completes; the address 1 connects to us again. -/
def threeSetsOps : List ManagerOp :=
  [.pulse [7] 100000,
   .addIncoming 1,
   .handshakeDone { addr := 1, isIncoming := true, torrentHash := some [7] } true none 100001,
   .addIncoming 1]

/-! ## Statistics -/

/-- Modelled from the spec: `TR_PEER_FROM_PEX` (declared in
`transmission.h`), the discovery source of a peer learned through peer
exchange; the sources are numbered in the order incoming, tracker, cache,
PEX. -/
def TR_PEER_FROM_PEX : Nat := 3

/-- The two questions `tr_peerMgrPeerStats` asks the I/O object of a peer
(`tr_peerIoIsEncrypted`, `tr_peerIoIsIncoming`, bodies in `peer-io.c`); the
I/O object is reached through the peer. -/
structure PeerIoEnv where
  tr_peerIoIsEncrypted : tr_peer → Bool := fun _ => false
  tr_peerIoIsIncoming : tr_peer → Bool := fun _ => false

/-- Modelled from the spec: the record `tr_peer_stat` of `transmission.h`,
with the fields `tr_peerMgrPeerStats` writes. The address is kept as the
number instead of the text of `tr_netNtop`; `flagStr` holds the characters in
front of the closing NUL. -/
structure tr_peer_stat where
  addr : Nat := 0
  client : String := ""
  port : Nat := 0
  from_ : Nat := 0
  progress : ℚ := 0
  isEncrypted : Bool := false
  uploadToRate : ℚ := 0
  downloadFromRate : ℚ := 0
  peerIsChoked : Bool := false
  peerIsInterested : Bool := false
  clientIsChoked : Bool := false
  clientIsInterested : Bool := false
  isIncoming : Bool := false
  isDownloadingFrom : Bool := false
  isUploadingTo : Bool := false
  flagStr : List Char := []
deriving DecidableEq

/-- The test `t->optimistic == peer`; the pointers are compared through the
address of the peer they point to. -/
def isOptimistic (t : Torrent) (peer : tr_peer) : Bool :=
  match t.optimistic with
  | some o => decide (o.in_addr = peer.in_addr)
  | none => false

/-- The fields of one entry of `tr_peerMgrPeerStats` in front of the flag
string. -/
def peerStatFields (io : PeerIoEnv) (peer : tr_peer) (atom : peer_atom) : tr_peer_stat :=
  { addr := peer.in_addr
    client := match peer.client with
      | some c => c
      | none => ""
    port := peer.port
    from_ := atom.from_
    progress := peer.progress
    isEncrypted := io.tr_peerIoIsEncrypted peer
    uploadToRate := peer.rateToPeer
    downloadFromRate := peer.rateToClient
    peerIsChoked := peer.peerIsChoked
    peerIsInterested := peer.peerIsInterested
    clientIsChoked := peer.clientIsChoked
    clientIsInterested := peer.clientIsInterested
    isIncoming := io.tr_peerIoIsIncoming peer
    isDownloadingFrom := clientIsDownloadingFrom peer
    isUploadingTo := clientIsUploadingTo peer }

/-- The body of the loop of `tr_peerMgrPeerStats` for one peer and its atom:
the fields, then the flag string written through `pch`. -/
def peerStat (io : PeerIoEnv) (t : Torrent) (peer : tr_peer) (atom : peer_atom) : tr_peer_stat :=
  let stat := peerStatFields io peer atom
  let pch : List Char := []
  let pch := if isOptimistic t peer then pch ++ ['O'] else pch
  let pch := if stat.isDownloadingFrom then pch ++ ['D']
    else if stat.clientIsInterested then pch ++ ['d'] else pch
  let pch := if stat.isUploadingTo then pch ++ ['U']
    else if stat.peerIsInterested then pch ++ ['u'] else pch
  let pch := if !stat.clientIsChoked && !stat.clientIsInterested then pch ++ ['K'] else pch
  let pch := if !stat.peerIsChoked && !stat.peerIsInterested then pch ++ ['?'] else pch
  let pch := if stat.isEncrypted then pch ++ ['E'] else pch
  let pch := if stat.from_ = TR_PEER_FROM_PEX then pch ++ ['X'] else pch
  let pch := if stat.isIncoming then pch ++ ['I'] else pch
  { stat with flagStr := pch }

/-- The loop of `tr_peerMgrPeerStats` over the connected peers. `none`: a peer
has no atom, so `atom->from` reads through a null pointer. -/
def peerStatsLoop (io : PeerIoEnv) (t : Torrent) : List tr_peer → Option (List tr_peer_stat)
  | [] => some []
  | peer :: rest =>
    match getExistingAtom t peer.in_addr with
    | none => none
    | some atom => (peerStatsLoop io t rest).map (fun ret => peerStat io t peer atom :: ret)

/-- The function `tr_peerMgrPeerStats`: the entries and `*setmeCount`.
`none`: there is no torrent of the hash, or a connected peer has no atom. -/
def tr_peerMgrPeerStats (io : PeerIoEnv) (manager : tr_peerMgr) (torrentHash : List Nat) :
    Option (List tr_peer_stat × Nat) :=
  match getExistingTorrent manager torrentHash with
  | none => none
  | some t =>
    let peers := getConnectedPeers t
    match peerStatsLoop io t peers with
    | none => none
    | some ret => some (ret, peers.length)

/-- The flag string as the flag table words it: the characters that apply, in
the order O, D or d, U or u, K, ?, E, X, I. -/
def flagStrSpec (optimistic clientIsInterested clientIsChoked peerIsInterested peerIsChoked
    encrypted fromPex incoming : Bool) : List Char :=
  (if optimistic then ['O'] else []) ++
  (if clientIsInterested && !clientIsChoked then ['D']
   else if clientIsInterested then ['d'] else []) ++
  (if peerIsInterested && !peerIsChoked then ['U']
   else if peerIsInterested then ['u'] else []) ++
  (if !clientIsChoked && !clientIsInterested then ['K'] else []) ++
  (if !peerIsChoked && !peerIsInterested then ['?'] else []) ++
  (if encrypted then ['E'] else []) ++
  (if fromPex then ['X'] else []) ++
  (if incoming then ['I'] else [])

/-- A torrent of hash `[7]` with three connected peers: the optimistic peer at
address 1, which we download from; the peer at address 2 from PEX, which is
interested in us and choked; the peer at address 3, idle. -/
def statsTorrent : Torrent :=
  { hash := [7]
    optimistic := some { in_addr := 1 }
    peers := [{ in_addr := 1, clientIsInterested := true, clientIsChoked := false },
              { in_addr := 2, peerIsInterested := true },
              { in_addr := 3, clientIsChoked := false, peerIsChoked := false }]
    pool := [{ addr := 1 }, { addr := 2, from_ := 3 }, { addr := 3 }] }

/-- A manager that holds the torrent `statsTorrent`. -/
def statsManager : tr_peerMgr :=
  { torrents := [statsTorrent] }

/-- An I/O layer in which the connection of the address 3 is encrypted and
incoming. -/
def statsIo : PeerIoEnv :=
  { tr_peerIoIsEncrypted := fun p => decide (p.in_addr = 3)
    tr_peerIoIsIncoming := fun p => decide (p.in_addr = 3) }

/-- The conversion of an integer to `int8_t`: the value modulo 2^8, in the
range of a signed byte. -/
def toInt8 (x : Int) : Int :=
  (x + 2 ^ 7) % 2 ^ 8 - 2 ^ 7

/-- A value of the type `float` that is not negative: `m * 2 ^ e`. -/
structure float32 where
  m : Nat
  e : Int
deriving DecidableEq, Repr

/-- The exponent of the leading bit of a number `0 < n < 2 ^ 64`: the largest
`k` with `2 ^ k ≤ n`. The numbers met here are below `2 ^ 48`. -/
def leadingBit (n : Nat) : Nat :=
  ((List.range 64).filter (fun k => decide (2 ^ k ≤ n))).length - 1

/-- The quotient `n / d` in single precision: 24 significant bits, rounded to
the nearest, ties to even. The exponent range of `float` is not modelled; the
values met here are far inside it. `e` is the exponent of the leading bit of
the quotient, `u` that of the last of its 24 bits. A zero divisor, which gives
no finite value, is answered with 0. -/
def float32.round (n d : Nat) : float32 :=
  if n = 0 ∨ d = 0 then { m := 0, e := 0 }
  else
    let e0 : Int := (leadingBit n : Int) - (leadingBit d : Int)
    let below : Bool :=
      if e0 ≥ 0 then decide (n < d * 2 ^ e0.toNat) else decide (n * 2 ^ (-e0).toNat < d)
    let e : Int := if below then e0 - 1 else e0
    let u : Int := e - 23
    let a : Nat := if u ≥ 0 then n else n * 2 ^ (-u).toNat
    let b : Nat := if u ≥ 0 then d * 2 ^ u.toNat else d
    let f := a / b
    let rem := a % b
    let r : Nat :=
      if 2 * rem > b then f + 1
      else if 2 * rem = b then (if f % 2 = 0 then f else f + 1)
      else f
    { m := r, e := u }

/-- The conversion `(float) n` of a count. -/
def float32.ofNat (n : Nat) : float32 :=
  float32.round n 1

/-- The quotient of two values of type `float`, rounded to `float`. -/
def float32.div (x y : float32) : float32 :=
  let r := float32.round x.m y.m
  { r with e := r.e + x.e - y.e }

/-- The product of two values of type `float`, rounded to `float`. -/
def float32.mul (x y : float32) : float32 :=
  let r := float32.round (x.m * y.m) 1
  { r with e := r.e + x.e + y.e }

/-- The conversion `(int) x` of a value that is not negative: the fraction is
cut off. -/
def float32.toInt (x : float32) : Int :=
  if x.e ≥ 0 then ((x.m * 2 ^ x.e.toNat : Nat) : Int) else ((x.m / 2 ^ (-x.e).toNat : Nat) : Int)

/-- The piece that slot `i` of the availability table samples:
`(int)( i * interval )` with `float interval = pieceCount / (float) tabCount`.
The count of pieces, the count of slots and the slot index are converted to
`float`, and the quotient and the product are rounded to `float`. -/
def availabilityPiece (tor : tr_torrent) (tabCount i : Nat) : Int :=
  let interval : float32 :=
    float32.div (float32.ofNat tor.info.pieceCount) (float32.ofNat tabCount)
  float32.toInt (float32.mul (float32.ofNat i) interval)

/-- The function `tr_peerMgrTorrentAvailability`: the table `tab` after the
call, one `int8_t` per slot. `none`: there is no torrent of the hash. The
branch `tor == NULL` is dead, `tor` having been read through before. -/
def tr_peerMgrTorrentAvailability (manager : tr_peerMgr) (torrentHash : List Nat)
    (tabCount : Nat) : Option (List Int) :=
  match getExistingTorrent manager torrentHash with
  | none => none
  | some t =>
    let tor := t.tor
    some ((List.range tabCount).map (fun i =>
      let piece := availabilityPiece tor tabCount i
      if tor.completion.tr_cpPieceIsComplete piece.toNat then -1
      else
        t.peers.foldl (fun tabi peer =>
          if tr_bitfieldHas peer.have_ i then toInt8 (tabi + 1) else tabi) 0))

/-- The number of peers of the torrent whose have-bitfield holds the piece. -/
def peersHaving (t : Torrent) (piece : Nat) : Nat :=
  t.peers.countP (fun peer => tr_bitfieldHas peer.have_ piece)

/-- A torrent of hash `[7]` with four pieces, none complete, and one peer that
has piece 2 only. -/
def availabilityTorrent : Torrent :=
  { hash := [7]
    tor := { info := { pieceCount := 4 } }
    peers := [{ in_addr := 1, have_ := tr_bitfieldAdd (tr_bitfieldNew 4) 2 }]
    pool := [{ addr := 1 }] }

/-- A manager that holds the torrent `availabilityTorrent`. -/
def availabilityManager : tr_peerMgr :=
  { torrents := [availabilityTorrent] }

/-! ## Vocabulary of the statements about the idle limit -/

/-- Nine tenths of the peer limit of the torrent, rounded half up:
`round(0.9 * maxConnectedPeers)`. -/
def relaxCount (tor : tr_torrent) : Int :=
  (9 * (tor.maxConnectedPeers : Int) + 5) / 10

/-! ## Vocabulary of the statements about the seed rule -/

/-- A seeding torrent of four pieces, all of which we have, with PEX disabled,
and two peers: the one at address 1 has sent no piece yet and its atom carries
the seed flag; the one at address 2 has every piece, and its progress has not
been reported yet. -/
def seedTorrent : Torrent :=
  { hash := [7], isRunning := true
    tor := { info := { pieceCount := 4 }, tr_torrentIsSeed := true, maxConnectedPeers := 60
             completion :=
               { tr_cpPercentDone := 1
                 tr_cpPieceBitfield :=
                   tr_bitfieldAdd (tr_bitfieldAdd (tr_bitfieldAdd
                     (tr_bitfieldAdd (tr_bitfieldNew 4) 0) 1) 2) 3 } }
    peers := [{ in_addr := 1, have_ := tr_bitfieldNew 4 },
              { in_addr := 2
                have_ := tr_bitfieldAdd (tr_bitfieldAdd (tr_bitfieldAdd
                  (tr_bitfieldAdd (tr_bitfieldNew 4) 0) 1) 2) 3 }]
    pool := [{ addr := 1, flags := 2 }, { addr := 2 }] }

/-! ## Vocabulary of the statements about the optimistic peer -/

/-- The optimistic field of the torrent is empty or points to a peer of the
peer set of the torrent. -/
def OptimisticOk (t : Torrent) : Prop :=
  ∀ o, t.optimistic = some o → ∃ p ∈ t.peers, p.in_addr = o.in_addr

/-- A running torrent of hash `[7]` whose only peer, at the address 1, is the
optimistic peer and is marked for purging. -/
def optimisticTorrent : Torrent :=
  { hash := [7], isRunning := true, reconnectTimer := true, rechokeTimer := true
    tor := { maxConnectedPeers := 60 }
    peers := [{ in_addr := 1, doPurge := true }]
    optimistic := some { in_addr := 1, doPurge := true }
    pool := [{ addr := 1, time := 5 }] }

/-- A manager that holds the torrent `optimisticTorrent`. -/
def optimisticManager : tr_peerMgr :=
  { torrents := [optimisticTorrent] }

/-! ## Sequences of operations on the atom pools -/

/-- The operations of the peer manager that write into the atom pool of a
torrent: an event of the message layer for a peer of the torrent of a hash, a
call of the handshake callback, a reconnect pulse of the torrent of a hash,
`tr_peerMgrAddPex`, `tr_peerMgrStartTorrent`, `tr_peerMgrStopTorrent` and
`tr_peerMgrSetBlame`. -/
inductive PoolOp where
  | msgsEvent (hash : List Nat) (peer : tr_peer) (e : tr_peermsgs_event) (now : Nat)
  | handshakeDone (io : tr_peerIo) (isConnected : Bool) (peer_id : Option (List Nat)) (now : Nat)
  | pulse (hash : List Nat) (now : Nat)
  | addPex (hash : List Nat) (from_ : Nat) (pex : tr_pex)
  | start (hash : List Nat) (now : Nat) (tr_rand : Nat → Nat)
  | stop (hash : List Nat) (now : Nat)
  | setBlame (hash : List Nat) (pieceIndex : Nat) (success : Bool)

/-- One operation on the state. `none`: the operation does not return, or
there is no torrent of the hash for the event or the pulse. -/
def applyPoolOp (env : PeerMgrEnv) (s : ManagerState) : PoolOp → Option ManagerState
  | .msgsEvent hash peer e now =>
    match getExistingTorrent s.manager hash with
    | none => none
    | some t =>
      match msgsCallbackFunc env t peer e now with
      | none => none
      | some r =>
        some { s with manager := { s.manager with torrents := putTorrent s.manager.torrents r.1 } }
  | .handshakeDone io isConnected peer_id now =>
    match myHandshakeDoneCB env s.manager io isConnected peer_id now with
    | none => none
    | some manager1 => some { s with manager := manager1 }
  | .pulse hash now =>
    match getExistingTorrent s.manager hash with
    | none => none
    | some t =>
      match reconnectPulse env s.manager.incomingHandshakes s.g now t with
      | none => none
      | some r =>
        some { manager := { s.manager with torrents := putTorrent s.manager.torrents r.t }
               g := r.g }
  | .addPex hash from_ pex =>
    match tr_peerMgrAddPex env s.manager hash from_ pex with
    | none => none
    | some manager1 => some { s with manager := manager1 }
  | .start hash now tr_rand =>
    match tr_peerMgrStartTorrent env s.manager s.g hash now tr_rand with
    | none => none
    | some r => some { manager := r.manager, g := r.g }
  | .stop hash now =>
    match tr_peerMgrStopTorrent env s.manager hash now with
    | none => none
    | some manager1 => some { s with manager := manager1 }
  | .setBlame hash pieceIndex success =>
    match tr_peerMgrSetBlame s.manager hash pieceIndex success with
    | none => none
    | some manager1 => some { s with manager := manager1 }

/-- A sequence of operations, one after the other. -/
def applyPoolOps (env : PeerMgrEnv) : ManagerState → List PoolOp → Option ManagerState
  | s, [] => some s
  | s, op :: ops =>
    match applyPoolOp env s op with
    | none => none
    | some s1 => applyPoolOps env s1 ops

/-- The pool has an atom of the address, and every atom of the address in the
pool has a bit of the mask set in `myflags`. -/
def Flagged (pool : List peer_atom) (addr mask : Nat) : Prop :=
  (∃ a ∈ pool, a.addr = addr) ∧ ∀ a ∈ pool, a.addr = addr → hasFlag a.myflags mask = true

/-- Whatever address is flagged in the first pool is flagged in the second. -/
def PoolKeeps (pool pool1 : List peer_atom) : Prop :=
  ∀ addr mask, Flagged pool addr mask → Flagged pool1 addr mask

/-- The torrent of the hash has the address flagged in its pool. -/
def AtomFlagged (m : tr_peerMgr) (hash : List Nat) (addr mask : Nat) : Prop :=
  ∃ t, getExistingTorrent m hash = some t ∧ Flagged t.pool addr mask

/-- Whatever address is flagged in a torrent of the first manager is flagged
in the torrent of that hash of the second. -/
def MgrKeeps (m m1 : tr_peerMgr) : Prop :=
  ∀ hash addr mask, AtomFlagged m hash addr mask → AtomFlagged m1 hash addr mask

/-- A manager with one running torrent of hash `[7]` that has a peer at the
address 1 with two strikes, blamed for piece 5, and knows the address 2, which
is marked unreachable, and the address 3. -/
def banManager : tr_peerMgr :=
  { torrents := [{ hash := [7], isRunning := true, reconnectTimer := true, rechokeTimer := true
                   tor := { maxConnectedPeers := 60 }
                   peers := [{ in_addr := 1, strikes := 2
                               blame := tr_bitfieldAdd (tr_bitfieldNew 8) 5 }]
                   pool := [{ addr := 1 }, { addr := 2, myflags := 2 }, { addr := 3 }] }] }

/-- The peer at the address 1 is struck out by a failed piece 5 and banned;
then a pulse closes it and starts a handshake to the address 3, the addresses
1 and 2 come in through PEX, the handshake completes into a peer, which asks
for requests, a pulse follows, the torrent is stopped and started again, and a
last pulse follows. -/
def banOps : List PoolOp :=
  [.setBlame [7] 5 false,
   .pulse [7] 100000,
   .addPex [7] 3 { in_addr := 1, port := 6881 },
   .addPex [7] 3 { in_addr := 2, port := 6881 },
   .handshakeDone { addr := 3, isIncoming := false, torrentHash := some [7] } true none 100001,
   .msgsEvent [7] { in_addr := 3 } { eventType := .TR_PEERMSG_NEED_REQ } 100002,
   .pulse [7] 200000,
   .stop [7] 200001,
   .start [7] 200002 (fun _ => 0),
   .pulse [7] 300000]

/-! ## Vocabulary of the statements about the failure count -/

/-- A running torrent of hash `[7]` whose atoms have failed 65535 times: the
peer at the address 1 never transferred piece data and is marked for purging,
and an outgoing handshake to the address 2 is pending. -/
def wrapTorrent : Torrent :=
  { hash := [7], isRunning := true, reconnectTimer := true, rechokeTimer := true
    tor := { maxConnectedPeers := 60 }
    peers := [{ in_addr := 1, doPurge := true }]
    pool := [{ addr := 1, numFails := 65535 }, { addr := 2, numFails := 65535 }]
    outgoingHandshakes := [2] }

/-- A manager that holds the torrent `wrapTorrent`. -/
def wrapManager : tr_peerMgr :=
  { torrents := [wrapTorrent] }

/-- A running torrent that knows two addresses, both of them candidates at the
time 100000; the atom of the address 1 transferred piece data later and comes
first among the sorted candidates. -/
def twoCandidateTorrent : Torrent :=
  { isRunning := true
    tor := { maxConnectedPeers := 60 }
    pool := [{ addr := 1, piece_data_time := 50 }, { addr := 2 }] }

/-- An environment in which the outgoing I/O to the address 1 does not open
and every other one does. -/
def firstFails : PeerMgrEnv :=
  { tr_peerIoNewOutgoing := fun addr _ => decide (addr ≠ 1) }

/-! # Lemmas and theorems

From here on the file holds no definition: first the lemmas about the bit
array, then, section by section, the statements about the allowed set, the
refill engine and the rechoke engine. -/

/-! ## Bit array lemmas -/

theorem and_0x80_ne_zero (x : Nat) : (x &&& 0x80 != 0) = x.testBit 7 := by
  have h := Nat.and_two_pow x 7
  have h2 : (2 : Nat) ^ 7 = 0x80 := by norm_num
  rw [h2] at h
  rw [h]
  cases x.testBit 7 <;> simp

theorem shifted_bit (b s : Nat) (hs : s ≤ 7) :
    ((b <<< s) &&& 0x80 != 0) = b.testBit (7 - s) := by
  rw [and_0x80_ne_zero, Nat.testBit_shiftLeft]
  simp [hs]

theorem mask_bit (s j : Nat) :
    ((0x80 : Nat) >>> s).testBit j = decide (7 = s + j) := by
  rw [Nat.testBit_shiftRight]
  have h2 : (0x80 : Nat) = 2 ^ 7 := by norm_num
  rw [h2, Nat.testBit_two_pow]

theorem and_seven (n : Nat) : n &&& 7 = n % 8 := by
  have := Nat.and_pow_two_sub_one_eq_mod n 3
  simpa using this

theorem shiftRight_three (n : Nat) : n >>> 3 = n / 8 := by
  rw [Nat.shiftRight_eq_div_pow]

theorem tr_bitfieldNew_wf (n : Nat) : (tr_bitfieldNew n).wf := by
  simp only [tr_bitfield.wf, tr_bitfieldNew, List.length_replicate]
  omega

theorem tr_bitfieldAdd_bitCount (b : tr_bitfield) (n : Nat) :
    (tr_bitfieldAdd b n).bitCount = b.bitCount := by
  unfold tr_bitfieldAdd; split <;> rfl

theorem tr_bitfieldAdd_wf (b : tr_bitfield) (n : Nat) (h : b.wf) : (tr_bitfieldAdd b n).wf := by
  unfold tr_bitfieldAdd tr_bitfield.wf at *
  split
  · exact h
  · simpa using h

theorem tr_bitfieldHas_new (n m : Nat) : tr_bitfieldHas (tr_bitfieldNew n) m = false := by
  simp only [tr_bitfieldHas, tr_bitfieldHasFast, tr_bitfieldNew, Bool.and_eq_false_imp]
  intro _
  have : (List.replicate ((n + 7) / 8) 0).getD (m >>> 3) 0 = 0 := by
    rw [List.getD_eq_getElem?_getD]
    rcases Nat.lt_or_ge (m >>> 3) ((n + 7) / 8) with h | h
    · rw [List.getElem?_replicate_of_lt h]; rfl
    · rw [List.getElem?_eq_none (by simpa using h)]; rfl
  rw [this]; simp

theorem tr_bitfieldHas_add (b : tr_bitfield) (n m : Nat) (hn : n < b.bitCount) (hwf : b.wf) :
    tr_bitfieldHas (tr_bitfieldAdd b n) m = (decide (m = n) || tr_bitfieldHas b m) := by
  unfold tr_bitfield.wf at hwf
  have hlen : n / 8 < b.bits.length := by omega
  simp only [tr_bitfieldHas, tr_bitfieldTestFast, tr_bitfieldHasFast, tr_bitfieldAdd,
    if_neg (Nat.not_le.mpr hn), and_seven, shiftRight_three]
  have hm7 : m % 8 ≤ 7 := by omega
  have hn7 : n % 8 ≤ 7 := by omega
  rw [shifted_bit _ _ hm7, shifted_bit _ _ hm7]
  by_cases hb : m / 8 = n / 8
  · rw [hb, List.getD_eq_getElem?_getD, List.getElem?_set_self hlen]
    simp only [Option.getD_some, Nat.testBit_or, mask_bit _ _]
    by_cases hmn : m = n
    · subst hmn; simp [hn]; omega
    · have : ¬ (7 = n % 8 + (7 - m % 8)) := by omega
      simp [hmn, this]
  · have hmn : m ≠ n := fun h => hb (by rw [h])
    rw [List.getD_eq_getElem?_getD, List.getElem?_set_ne (Ne.symm hb), ← List.getD_eq_getElem?_getD]
    simp [hmn]


theorem countP_flip_one (p q : Nat → Bool) (n : Nat) (hq : ∀ m, q m = (decide (m = n) || p m))
    (hp : p n = false) :
    ∀ l : List Nat, l.Nodup → n ∈ l → l.countP q = l.countP p + 1
  | [], _, h => by simp at h
  | a :: l, hnd, h => by
    rw [List.nodup_cons] at hnd
    by_cases ha : a = n
    · subst ha
      have hsame : l.countP q = l.countP p := by
        apply List.countP_congr
        intro m hm
        have : m ≠ a := fun e => hnd.1 (e ▸ hm)
        simp [hq, this]
      simp [List.countP_cons, hq, hp, hsame]
    · have hin : n ∈ l := by
        rcases List.mem_cons.mp h with e | e
        · exact absurd e.symm ha
        · exact e
      have ih := countP_flip_one p q n hq hp l hnd.2 hin
      simp only [List.countP_cons, ih, hq a, ha, decide_False, Bool.false_or]
      omega

theorem tr_bitfieldCount_add (a : tr_bitfield) (n : Nat) (hn : n < a.bitCount) (hwf : a.wf)
    (hnot : tr_bitfieldHas a n = false) :
    tr_bitfieldCountTrueBits (tr_bitfieldAdd a n) = tr_bitfieldCountTrueBits a + 1 := by
  unfold tr_bitfieldCountTrueBits
  rw [tr_bitfieldAdd_bitCount]
  exact countP_flip_one _ _ n (fun m => tr_bitfieldHas_add a n m hn hwf) hnot _
    (List.nodup_range _) (List.mem_range.mpr hn)

theorem tr_bitfieldCount_le (a : tr_bitfield) : tr_bitfieldCountTrueBits a ≤ a.bitCount := by
  unfold tr_bitfieldCountTrueBits
  calc (List.range a.bitCount).countP (tr_bitfieldHas a)
      ≤ (List.range a.bitCount).length := List.countP_le_length _
    _ = a.bitCount := List.length_range _

theorem tr_bitfieldCount_new (n : Nat) : tr_bitfieldCountTrueBits (tr_bitfieldNew n) = 0 := by
  unfold tr_bitfieldCountTrueBits
  rw [List.countP_eq_zero]
  intro m _
  simp [tr_bitfieldHas_new]

/-! ## Allowed set -/

theorem allowedSetDraws_inv (k sz : Nat) (x : List Nat) (hsz : 0 < sz) (hsz32 : sz < 2 ^ 32) :
    ∀ (n i : Nat) (a : tr_bitfield) (s : Nat), AllowedInv sz a s → s ≤ k →
      ∃ a1 s1, allowedSetDraws k sz x n i a s = some (a1, s1) ∧ AllowedInv sz a1 s1 ∧ s1 ≤ k
  | 0, i, a, s, hinv, hk => ⟨a, s, rfl, hinv, hk⟩
  | n + 1, i, a, s, hinv, hk => by
    unfold allowedSetDraws
    by_cases hlt : s < k
    · simp only [hlt, if_true, if_neg (Nat.pos_iff_ne_zero.mp hsz)]
      obtain ⟨hbc, hwf, hcnt⟩ := hinv
      have hidx : loadBE32 x (i * 4) % sz < a.bitCount := by
        rw [hbc]; exact Nat.mod_lt _ hsz
      by_cases hhas : tr_bitfieldHas a (loadBE32 x (i * 4) % sz) = true
      · simp only [hhas, Bool.not_true, Bool.false_eq_true, if_false]
        exact allowedSetDraws_inv k sz x hsz hsz32 n (i + 1) a s ⟨hbc, hwf, hcnt⟩ hk
      · have hhas2 : tr_bitfieldHas a (loadBE32 x (i * 4) % sz) = false := by
          simpa using hhas
        simp only [hhas2, Bool.not_false, if_true]
        have hs : s < sz := by
          have := tr_bitfieldCount_add a _ hidx hwf hhas2
          have h2 := tr_bitfieldCount_le (tr_bitfieldAdd a (loadBE32 x (i * 4) % sz))
          rw [tr_bitfieldAdd_bitCount] at h2
          omega
        have hmod : (s + 1) % 2 ^ 32 = s + 1 := Nat.mod_eq_of_lt (by omega)
        rw [hmod]
        apply allowedSetDraws_inv k sz x hsz hsz32 n (i + 1) _ (s + 1)
        · refine ⟨?_, tr_bitfieldAdd_wf _ _ hwf, ?_⟩
          · rw [tr_bitfieldAdd_bitCount]; exact hbc
          · rw [tr_bitfieldCount_add a _ hidx hwf hhas2, hcnt]
        · omega
    · simp only [hlt, if_false]
      exact ⟨a, s, rfl, hinv, hk⟩

theorem allowedSetLoop_inv (sha1 : List Nat → List Nat) (k sz : Nat) (hsz : 0 < sz)
    (hsz32 : sz < 2 ^ 32) :
    ∀ (fuel : Nat) (x : List Nat) (a : tr_bitfield) (s : Nat), AllowedInv sz a s → s ≤ k →
      ∀ r, allowedSetLoop sha1 k sz fuel x a s = some r → AllowedInv sz r k
  | 0, x, a, s, hinv, hk, r, h => by
    unfold allowedSetLoop at h
    by_cases hlt : s < k
    · simp [hlt] at h
    · simp only [hlt, if_false, Option.some.injEq] at h
      subst h
      have : s = k := by omega
      exact this ▸ hinv
  | fuel + 1, x, a, s, hinv, hk, r, h => by
    unfold allowedSetLoop at h
    by_cases hlt : s < k
    · simp only [hlt, if_true] at h
      obtain ⟨a1, s1, hd, hinv1, hk1⟩ := allowedSetDraws_inv k sz x hsz hsz32 5 0 a s hinv hk
      rw [hd] at h
      exact allowedSetLoop_inv sha1 k sz hsz hsz32 fuel (sha1 x) a1 s1 hinv1 hk1 r h
    · simp only [hlt, if_false, Option.some.injEq] at h
      subst h
      have : s = k := by omega
      exact this ▸ hinv

/-- Whatever `tr_peerMgrGenerateAllowedSet` returns has `sz` bits of which
exactly `k` are set, and `k ≤ sz`. -/
theorem allowedSet_result (sha1 : List Nat → List Nat) (fuel k sz : Nat) (infohash : List Nat)
    (ip : Nat) (hsz : 0 < sz) (hsz32 : sz < 2 ^ 32) (r : tr_bitfield)
    (h : tr_peerMgrGenerateAllowedSet sha1 fuel k sz infohash ip = some r) :
    r.bitCount = sz ∧ tr_bitfieldCountTrueBits r = k ∧ k ≤ sz := by
  have hinv := allowedSetLoop_inv sha1 k sz hsz hsz32 fuel _ (tr_bitfieldNew sz) 0
    ⟨rfl, tr_bitfieldNew_wf sz, tr_bitfieldCount_new sz⟩ (Nat.zero_le _) r h
  obtain ⟨hbc, _, hcnt⟩ := hinv
  refine ⟨hbc, hcnt, ?_⟩
  have := tr_bitfieldCount_le r
  omega

/-- With more pieces asked for than the torrent has, the loop of
`tr_peerMgrGenerateAllowedSet` is never left. -/
theorem allowedSet_no_result (sha1 : List Nat → List Nat) (fuel k sz : Nat) (infohash : List Nat)
    (ip : Nat) (hsz : 0 < sz) (hsz32 : sz < 2 ^ 32) (hk : sz < k) :
    tr_peerMgrGenerateAllowedSet sha1 fuel k sz infohash ip = none := by
  cases h : tr_peerMgrGenerateAllowedSet sha1 fuel k sz infohash ip with
  | none => rfl
  | some r =>
    have := (allowedSet_result sha1 fuel k sz infohash ip hsz hsz32 r h).2.2
    omega

/-- With the identity in the place of SHA1, three pieces of a hundred are found
in one pass of the loop. -/
theorem allowedSet_sample :
    (tr_peerMgrGenerateAllowedSet (fun x => x) 1 3 100 (List.range 20) 0x50040402).map
      tr_bitfieldMembers = some [48, 51, 87] := by
  decide

/-- C1 (defect of the code): asked for `k = 2` pieces of a torrent of `sz = 1`
piece, `tr_peerMgrGenerateAllowedSet` returns nothing, whatever the hash, the
address and the number of passes allowed: the loop `while (a_size < k)` cannot
be left, so no bit array with `min (k, sz) = 1` bits set comes back. -/
theorem C1_allowedSet_k2_sz1_never_returns (sha1 : List Nat → List Nat) (fuel : Nat)
    (infohash : List Nat) (ip : Nat) :
    tr_peerMgrGenerateAllowedSet sha1 fuel 2 1 infohash ip = none :=
  allowedSet_no_result sha1 fuel 2 1 infohash ip (by decide) (by norm_num) (by decide)

theorem allowedSetSeed_mask (infohash : List Nat) (ip1 ip2 : Nat) (h1 : ip1 < 2 ^ 32)
    (h2 : ip2 < 2 ^ 32) (h : ip1 &&& 0xffffff00 = ip2 &&& 0xffffff00) :
    allowedSetSeed infohash ip1 = allowedSetSeed infohash ip2 := by
  unfold allowedSetSeed
  rw [Nat.mod_eq_of_lt h1, Nat.mod_eq_of_lt h2, h]

/-- C2: two IPv4 addresses that agree on their first three octets
(`ip & 0xFFFFFF00`) give the same allowed set, for every `k`, `sz`, infohash
and hash function (and the same number of passes allowed). -/
theorem C2_allowedSet_depends_on_slash24 (sha1 : List Nat → List Nat) (fuel k sz : Nat)
    (infohash : List Nat) (ip1 ip2 : Nat) (h1 : ip1 < 2 ^ 32) (h2 : ip2 < 2 ^ 32)
    (h : ip1 &&& 0xffffff00 = ip2 &&& 0xffffff00) :
    tr_peerMgrGenerateAllowedSet sha1 fuel k sz infohash ip1
      = tr_peerMgrGenerateAllowedSet sha1 fuel k sz infohash ip2 := by
  unfold tr_peerMgrGenerateAllowedSet
  rw [allowedSetSeed_mask infohash ip1 ip2 h1 h2 h]

/-- C2 at the addresses 80.4.4.2 and 80.4.4.200, with the identity in the place
of SHA1: one pass of the loop yields the same three pieces for both. -/
theorem C2_allowedSet_depends_on_slash24_witness :
    (0x50040402 &&& 0xffffff00 = 0x500404c8 &&& 0xffffff00) ∧
    tr_peerMgrGenerateAllowedSet (fun x => x) 1 3 100 (List.range 20) 0x50040402
      = tr_peerMgrGenerateAllowedSet (fun x => x) 1 3 100 (List.range 20) 0x500404c8 :=
  ⟨by decide, C2_allowedSet_depends_on_slash24 (fun x => x) 1 3 100 (List.range 20)
    0x50040402 0x500404c8 (by norm_num) (by norm_num) (by decide)⟩

/-! ## Sorting lemmas -/

theorem qsortInsert_perm {α : Type} (compar : α → α → Int) (a : α) :
    ∀ l : List α, (qsortInsert compar a l).Perm (a :: l)
  | [] => List.Perm.refl _
  | b :: l => by
    unfold qsortInsert
    split
    · exact List.Perm.refl _
    · exact ((qsortInsert_perm compar a l).cons b).trans (List.Perm.swap a b l)

theorem qsort_perm {α : Type} (compar : α → α → Int) : ∀ l : List α, (qsort compar l).Perm l
  | [] => List.Perm.refl _
  | a :: l => (qsortInsert_perm compar a _).trans ((qsort_perm compar l).cons a)

theorem qsortInsert_sorted {α : Type} (compar : α → α → Int)
    (htot : ∀ a b, compar a b ≤ 0 ∨ compar b a ≤ 0)
    (htrans : ∀ a b c, compar a b ≤ 0 → compar b c ≤ 0 → compar a c ≤ 0) (a : α) :
    ∀ l : List α, l.Pairwise (fun x y => compar x y ≤ 0) →
      (qsortInsert compar a l).Pairwise (fun x y => compar x y ≤ 0)
  | [], _ => List.pairwise_singleton _ _
  | b :: l, h => by
    unfold qsortInsert
    rw [List.pairwise_cons] at h
    split
    · rename_i hab
      refine List.pairwise_cons.mpr ⟨?_, List.pairwise_cons.mpr h⟩
      intro c hc
      rcases List.mem_cons.mp hc with e | e
      · exact e ▸ hab
      · exact htrans a b c hab (h.1 c e)
    · rename_i hab
      have hba : compar b a ≤ 0 := (htot a b).resolve_left hab
      refine List.pairwise_cons.mpr ⟨?_, qsortInsert_sorted compar htot htrans a l h.2⟩
      intro c hc
      rcases List.mem_cons.mp ((qsortInsert_perm compar a l).mem_iff.mp hc) with e | e
      · exact e ▸ hba
      · exact h.1 c e

theorem qsort_sorted {α : Type} (compar : α → α → Int)
    (htot : ∀ a b, compar a b ≤ 0 ∨ compar b a ≤ 0)
    (htrans : ∀ a b c, compar a b ≤ 0 → compar b c ≤ 0 → compar a c ≤ 0) :
    ∀ l : List α, (qsort compar l).Pairwise (fun x y => compar x y ≤ 0)
  | [] => List.Pairwise.nil
  | a :: l => qsortInsert_sorted compar htot htrans a _ (qsort_sorted compar htot htrans l)

/-! ## Piece ranking -/

theorem tr_priority_toInt_inj (a b : tr_priority_t) : a.toInt = b.toInt ↔ a = b := by
  cases a <;> cases b <;> simp [tr_priority_t.toInt]

theorem compareRefillPiece_le_iff (a b : tr_refill_piece) :
    compareRefillPiece a b ≤ 0 ↔
      (a.missingBlockCount < b.missingBlockCount ∨ (a.missingBlockCount = b.missingBlockCount ∧
        (a.priority.toInt > b.priority.toInt ∨ (a.priority.toInt = b.priority.toInt ∧
          (a.peerCount < b.peerCount ∨ (a.peerCount = b.peerCount ∧
            a.random ≤ b.random)))))) := by
  have hp := tr_priority_toInt_inj a.priority b.priority
  unfold compareRefillPiece tr_compareUint16
  by_cases h1 : a.missingBlockCount = b.missingBlockCount
  · by_cases h2 : a.priority = b.priority
    · have h2' := hp.mpr h2
      by_cases h3 : a.peerCount = b.peerCount
      · simp only [h1, h2, h3, ne_eq, not_true_eq_false, if_false]
        split_ifs <;> simp <;> omega
      · simp only [h1, h2, h3, ne_eq, not_true_eq_false, not_false_eq_true, if_false, if_true]
        split_ifs <;> simp <;> omega
    · have h2' : a.priority.toInt ≠ b.priority.toInt := fun e => h2 (hp.mp e)
      simp only [h1, h2, ne_eq, not_true_eq_false, not_false_eq_true, if_false, if_true]
      split_ifs <;> simp <;> omega
  · simp only [h1, ne_eq, not_false_eq_true, if_true]
    split_ifs <;> simp <;> omega

theorem compareRefillPiece_total (a b : tr_refill_piece) :
    compareRefillPiece a b ≤ 0 ∨ compareRefillPiece b a ≤ 0 := by
  rw [compareRefillPiece_le_iff, compareRefillPiece_le_iff]
  omega

theorem compareRefillPiece_trans (a b c : tr_refill_piece) (hab : compareRefillPiece a b ≤ 0)
    (hbc : compareRefillPiece b c ≤ 0) : compareRefillPiece a c ≤ 0 := by
  rw [compareRefillPiece_le_iff] at *
  omega

theorem refillPool_nodup (tor : tr_torrent) : (refillPool tor).Nodup :=
  (List.nodup_range _).filter _

theorem mem_refillPool (tor : tr_torrent) (p : Nat) :
    p ∈ refillPool tor ↔ p < tor.info.pieceCount ∧ isPieceInteresting tor p = true := by
  simp [refillPool, List.mem_filter]

theorem refillPieceRecords_eq (t : Torrent) (rand16 : Nat → Nat) :
    refillPieceRecords t rand16 = (refillPool t.tor).map (refillKey t rand16) := by
  unfold refillPieceRecords
  apply List.ext_getElem
  · simp
  · intro n h1 h2
    simp only [List.getElem_map, List.getElem_enum, refillKey]
    rw [List.indexOf_getElem (refillPool_nodup t.tor)]

theorem refillKey_piece (t : Torrent) (rand16 : Nat → Nat) (p : Nat) :
    (refillKey t rand16 p).piece = p := rfl

/-- The sorted records of `getPreferredPieces`. -/
theorem sortedRecords_spec (t : Torrent) (rand16 : Nat → Nat) :
    let recs := qsort compareRefillPiece (refillPieceRecords t rand16)
    (recs.map (fun r => r.piece)).Perm (refillPool t.tor) ∧
    (∀ r ∈ recs, r = refillKey t rand16 r.piece) ∧
    recs.Pairwise (fun a b => compareRefillPiece a b ≤ 0) := by
  intro recs
  have hperm : recs.Perm ((refillPool t.tor).map (refillKey t rand16)) := by
    have := qsort_perm compareRefillPiece (refillPieceRecords t rand16)
    rw [refillPieceRecords_eq t rand16] at this
    show (qsort compareRefillPiece (refillPieceRecords t rand16)).Perm _
    rw [refillPieceRecords_eq t rand16]
    exact this
  refine ⟨?_, ?_, qsort_sorted _ compareRefillPiece_total compareRefillPiece_trans _⟩
  · have h := hperm.map (fun r => r.piece)
    rw [List.map_map] at h
    have hid : (fun r : tr_refill_piece => r.piece) ∘ refillKey t rand16 = id := by
      funext p; rfl
    rwa [hid, List.map_id] at h
  · intro r hr
    obtain ⟨p, _, hp⟩ := List.mem_map.mp (hperm.mem_iff.mp hr)
    rw [← hp]; rfl

/-- The pieces of `getPreferredPieces` are the pool rearranged, ordered by
their keys under `compareRefillPiece`. -/
theorem getPreferredPieces_spec (t : Torrent) (rand16 : Nat → Nat) :
    (getPreferredPieces t rand16).Perm (refillPool t.tor) ∧
    (getPreferredPieces t rand16).Pairwise
      (fun p q => compareRefillPiece (refillKey t rand16 p) (refillKey t rand16 q) ≤ 0) := by
  unfold getPreferredPieces
  by_cases hlen : (refillPool t.tor).length > 1
  · simp only [hlen, if_true]
    obtain ⟨h1, h2, h3⟩ := sortedRecords_spec t rand16
    refine ⟨h1, ?_⟩
    rw [List.pairwise_map]
    refine h3.imp_of_mem ?_
    intro a b ha hb hab
    rw [← h2 a ha, ← h2 b hb]
    exact hab
  · simp only [hlen, if_false]
    refine ⟨List.Perm.refl _, ?_⟩
    match h : refillPool t.tor with
    | [] => exact List.Pairwise.nil
    | [a] => exact List.pairwise_singleton _ _
    | a :: b :: l => rw [h] at hlen; simp at hlen

/-- C5: `getPreferredPieces` returns every interesting piece (below
`pieceCount`, not do-not-download, not complete) exactly once and no other
piece, and each entry is at most its successor under `compareRefillPiece`
applied to their keys (missing-block count ascending, priority descending,
counted peers ascending, random u16 ascending). -/
theorem C5_getPreferredPieces_sorted_interesting (t : Torrent) (rand16 : Nat → Nat) :
    (∀ p, p ∈ getPreferredPieces t rand16 ↔
      (p < t.tor.info.pieceCount ∧ (t.tor.info.pieces p).dnd = false ∧
        t.tor.completion.tr_cpPieceIsComplete p = false)) ∧
    (getPreferredPieces t rand16).Nodup ∧
    (getPreferredPieces t rand16).Chain'
      (fun p q => compareRefillPiece (refillKey t rand16 p) (refillKey t rand16 q) ≤ 0) ∧
    (∀ a b, compareRefillPiece a b ≤ 0 ↔
      (a.missingBlockCount < b.missingBlockCount ∨ (a.missingBlockCount = b.missingBlockCount ∧
        (a.priority.toInt > b.priority.toInt ∨ (a.priority.toInt = b.priority.toInt ∧
          (a.peerCount < b.peerCount ∨ (a.peerCount = b.peerCount ∧
            a.random ≤ b.random))))))) := by
  obtain ⟨hperm, hsorted⟩ := getPreferredPieces_spec t rand16
  refine ⟨?_, ?_, hsorted.chain', compareRefillPiece_le_iff⟩
  · intro p
    rw [hperm.mem_iff, mem_refillPool]
    unfold isPieceInteresting
    cases (t.tor.info.pieces p).dnd <;> cases t.tor.completion.tr_cpPieceIsComplete p <;> simp
  · exact hperm.nodup_iff.mpr (refillPool_nodup t.tor)

/-! ## Block bins -/

theorem binPush_self (bin : Nat → List Nat) (s b : Nat) : binPush bin s b s = bin s ++ [b] := by
  simp [binPush]

theorem binPush_other (bin : Nat → List Nat) (s b s1 : Nat) (h : s1 ≠ s) :
    binPush bin s b s1 = bin s1 := by
  simp [binPush, h]

theorem foldl_binBlock (t : Torrent) (pi s : Nat) :
    ∀ (blocks : List Nat) (bins : BlockBins),
      ((blocks.foldl (binBlock t pi) bins).unreq s = bins.unreq s ++
        (if pi = s then blocks.filter (fun b => !t.tor.completion.tr_cpBlockIsComplete b &&
          !tr_bitfieldHas t.requested b) else [])) ∧
      ((blocks.foldl (binBlock t pi) bins).req s = bins.req s ++
        (if pi = s then blocks.filter (fun b => !t.tor.completion.tr_cpBlockIsComplete b &&
          tr_bitfieldHas t.requested b) else []))
  | [], bins => by simp
  | b :: blocks, bins => by
    obtain ⟨ih1, ih2⟩ := foldl_binBlock t pi s blocks (binBlock t pi bins b)
    rw [List.foldl_cons, ih1, ih2]
    unfold binBlock
    by_cases hc : t.tor.completion.tr_cpBlockIsComplete b = true
    · simp [hc, List.filter_cons]
    · by_cases hr : tr_bitfieldHas t.requested b = true
      · by_cases hs : pi = s
        · subst hs; simp [hc, hr, List.filter_cons, binPush_self]
        · simp [hc, hr, hs, binPush_other _ _ _ _ (Ne.symm hs)]
      · by_cases hs : pi = s
        · subst hs; simp [hc, hr, List.filter_cons, binPush_self]
        · simp [hc, hr, hs, binPush_other _ _ _ _ (Ne.symm hs)]

theorem foldl_binPiece (t : Torrent) (s : Nat) :
    ∀ (pieces : List Nat) (bins : BlockBins),
      ((pieces.foldl (binPiece t) bins).unreq s = bins.unreq s ++
        (piecesOfTier t s pieces).flatMap (unreqBlocks t)) ∧
      ((pieces.foldl (binPiece t) bins).req s = bins.req s ++
        (piecesOfTier t s pieces).flatMap (reqBlocks t))
  | [], bins => by simp [piecesOfTier]
  | p :: pieces, bins => by
    obtain ⟨ih1, ih2⟩ := foldl_binPiece t s pieces (binPiece t bins p)
    rw [List.foldl_cons, ih1, ih2]
    unfold binPiece
    obtain ⟨h1, h2⟩ := foldl_binBlock t (priorityIndex t.tor p) s
      (List.range' (t.tor.tr_torPieceFirstBlock p) (t.tor.tr_torPieceCountBlocks p)) bins
    simp only [h1, h2]
    by_cases hs : priorityIndex t.tor p = s
    · simp [hs, piecesOfTier, List.filter_cons, unreqBlocks, reqBlocks]
    · simp [hs, piecesOfTier, List.filter_cons]

/-- The block list of `getPreferredBlocks` written out: for the tiers high,
normal, low in turn, the unrequested blocks of the tier's pieces and then its
requested blocks. -/
theorem preferredBlocksOf_eq (t : Torrent) (pieces : List Nat) :
    preferredBlocksOf t pieces =
      (piecesOfTier t 2 pieces).flatMap (unreqBlocks t) ++
      (piecesOfTier t 2 pieces).flatMap (reqBlocks t) ++
      (piecesOfTier t 1 pieces).flatMap (unreqBlocks t) ++
      (piecesOfTier t 1 pieces).flatMap (reqBlocks t) ++
      (piecesOfTier t 0 pieces).flatMap (unreqBlocks t) ++
      (piecesOfTier t 0 pieces).flatMap (reqBlocks t) := by
  unfold preferredBlocksOf joinBins
  simp only [List.foldl_cons, List.foldl_nil, List.nil_append]
  rw [(foldl_binPiece t 2 pieces {}).1, (foldl_binPiece t 2 pieces {}).2,
    (foldl_binPiece t 1 pieces {}).1, (foldl_binPiece t 1 pieces {}).2,
    (foldl_binPiece t 0 pieces {}).1, (foldl_binPiece t 0 pieces {}).2]
  simp

/-! ## Order of the block list -/

theorem pairwise_append_rank {α : Type} (f : α → Nat) (k : Nat) (l1 l2 : List α)
    (h1 : l1.Pairwise (fun a b => f a ≤ f b)) (hle : ∀ b ∈ l1, f b ≤ k)
    (h2 : ∀ b ∈ l2, f b = k) :
    (l1 ++ l2).Pairwise (fun a b => f a ≤ f b) := by
  rw [List.pairwise_append]
  refine ⟨h1, ?_, ?_⟩
  · exact List.pairwise_of_forall_mem_list (fun a ha b hb => by rw [h2 a ha, h2 b hb])
  · intro a ha b hb
    rw [h2 b hb]; exact hle a ha

theorem priorityIndex_le_two (tor : tr_torrent) (p : Nat) : priorityIndex tor p ≤ 2 := by
  unfold priorityIndex
  cases (tor.info.pieces p).priority <;> simp [tr_priority_t.toInt]

theorem priorityIndex_eq_iff (tor : tr_torrent) (p q : Nat) :
    priorityIndex tor p = priorityIndex tor q ↔
      (tor.info.pieces p).priority = (tor.info.pieces q).priority := by
  unfold priorityIndex
  cases (tor.info.pieces p).priority <;> cases (tor.info.pieces q).priority <;>
    simp [tr_priority_t.toInt]

theorem mem_tier_unreq (t : Torrent) (s : Nat) (pieces : List Nat) (b : Nat) :
    b ∈ (piecesOfTier t s pieces).flatMap (unreqBlocks t) ↔
      ∃ p ∈ pieces, priorityIndex t.tor p = s ∧ b ∈ unreqBlocks t p := by
  simp [piecesOfTier, List.mem_flatMap, List.mem_filter, and_assoc]

theorem mem_tier_req (t : Torrent) (s : Nat) (pieces : List Nat) (b : Nat) :
    b ∈ (piecesOfTier t s pieces).flatMap (reqBlocks t) ↔
      ∃ p ∈ pieces, priorityIndex t.tor p = s ∧ b ∈ reqBlocks t p := by
  simp [piecesOfTier, List.mem_flatMap, List.mem_filter, and_assoc]

theorem mem_unreqBlocks (t : Torrent) (p b : Nat) :
    b ∈ unreqBlocks t p ↔
      (t.tor.tr_torPieceFirstBlock p ≤ b ∧
        b < t.tor.tr_torPieceFirstBlock p + t.tor.tr_torPieceCountBlocks p) ∧
      t.tor.completion.tr_cpBlockIsComplete b = false ∧ tr_bitfieldHas t.requested b = false := by
  simp [unreqBlocks, List.mem_filter, List.mem_range'_1]

theorem mem_reqBlocks (t : Torrent) (p b : Nat) :
    b ∈ reqBlocks t p ↔
      (t.tor.tr_torPieceFirstBlock p ≤ b ∧
        b < t.tor.tr_torPieceFirstBlock p + t.tor.tr_torPieceCountBlocks p) ∧
      t.tor.completion.tr_cpBlockIsComplete b = false ∧ tr_bitfieldHas t.requested b = true := by
  simp [reqBlocks, List.mem_filter, List.mem_range'_1]

theorem rank_tier_unreq (t : Torrent) (hgeo : GeometryOk t.tor) (pieces : List Nat)
    (hpieces : ∀ p ∈ pieces, p < t.tor.info.pieceCount) (s b : Nat)
    (hb : b ∈ (piecesOfTier t s pieces).flatMap (unreqBlocks t)) :
    blockRank t b = 2 * (2 - s) := by
  obtain ⟨p, hp, hs, hbp⟩ := (mem_tier_unreq t s pieces b).mp hb
  obtain ⟨⟨h1, h2⟩, _, hreq⟩ := (mem_unreqBlocks t p b).mp hbp
  unfold blockRank
  rw [hgeo p b (hpieces p hp) h1 h2, hs, hreq]
  simp

theorem rank_tier_req (t : Torrent) (hgeo : GeometryOk t.tor) (pieces : List Nat)
    (hpieces : ∀ p ∈ pieces, p < t.tor.info.pieceCount) (s b : Nat)
    (hb : b ∈ (piecesOfTier t s pieces).flatMap (reqBlocks t)) :
    blockRank t b = 2 * (2 - s) + 1 := by
  obtain ⟨p, hp, hs, hbp⟩ := (mem_tier_req t s pieces b).mp hb
  obtain ⟨⟨h1, h2⟩, _, hreq⟩ := (mem_reqBlocks t p b).mp hbp
  unfold blockRank
  rw [hgeo p b (hpieces p hp) h1 h2, hs, hreq]
  simp

/-- Along the block list the rank never decreases. -/
theorem preferredBlocksOf_rank (t : Torrent) (hgeo : GeometryOk t.tor) (pieces : List Nat)
    (hpieces : ∀ p ∈ pieces, p < t.tor.info.pieceCount) :
    (preferredBlocksOf t pieces).Pairwise (fun a b => blockRank t a ≤ blockRank t b) := by
  rw [preferredBlocksOf_eq]
  have u := rank_tier_unreq t hgeo pieces hpieces
  have r := rank_tier_req t hgeo pieces hpieces
  have step : ∀ (l1 l2 : List Nat) (k : Nat),
      (l1.Pairwise (fun a b => blockRank t a ≤ blockRank t b) ∧ ∀ b ∈ l1, blockRank t b ≤ k) →
      (∀ b ∈ l2, blockRank t b = k + 1) →
      ((l1 ++ l2).Pairwise (fun a b => blockRank t a ≤ blockRank t b) ∧
        ∀ b ∈ l1 ++ l2, blockRank t b ≤ k + 1) := by
    intro l1 l2 k h1 h2
    refine ⟨pairwise_append_rank _ (k + 1) l1 l2 h1.1
      (fun b hb => Nat.le_succ_of_le (h1.2 b hb)) h2, ?_⟩
    intro b hb
    rcases List.mem_append.mp hb with h | h
    · exact Nat.le_succ_of_le (h1.2 b h)
    · exact (h2 b h).le
  have h0 : ((piecesOfTier t 2 pieces).flatMap (unreqBlocks t)).Pairwise
        (fun a b => blockRank t a ≤ blockRank t b) ∧
      ∀ b ∈ (piecesOfTier t 2 pieces).flatMap (unreqBlocks t), blockRank t b ≤ 0 :=
    ⟨List.pairwise_of_forall_mem_list (fun a ha b hb => by rw [u 2 a ha, u 2 b hb]),
      fun b hb => (u 2 b hb).le⟩
  have h1 := step _ _ 0 h0 (fun b hb => r 2 b hb)
  have h2 := step _ _ 1 h1 (fun b hb => u 1 b hb)
  have h3 := step _ _ 2 h2 (fun b hb => r 1 b hb)
  have h4 := step _ _ 3 h3 (fun b hb => u 0 b hb)
  have h5 := step _ _ 4 h4 (fun b hb => r 0 b hb)
  exact h5.1

theorem getPreferredPieces_lt (t : Torrent) (rand16 : Nat → Nat) :
    ∀ p ∈ getPreferredPieces t rand16, p < t.tor.info.pieceCount := by
  intro p hp
  exact ((mem_refillPool t.tor p).mp ((getPreferredPieces_spec t rand16).1.mem_iff.mp hp)).1

/-- C3 (counterexample): in a torrent of two one-block pieces, the block of the
high-priority piece already requested and the block of the normal-priority
piece not, `getPreferredBlocks` emits the requested block 0 before the
unrequested block 1. -/
theorem C3_requested_high_precedes_unrequested_normal :
    getPreferredBlocks twoTierTorrent (fun _ => 0) = [0, 1] ∧
    tr_bitfieldHas twoTierTorrent.requested 0 = true ∧
    tr_bitfieldHas twoTierTorrent.requested 1 = false ∧
    twoTierTorrent.tor.completion.tr_cpBlockIsComplete 0 = false ∧
    twoTierTorrent.tor.completion.tr_cpBlockIsComplete 1 = false := by
  decide

/-- The block list of `getPreferredBlocks`, bin by bin. -/
theorem getPreferredBlocks_bins (t : Torrent) (rand16 : Nat → Nat) :
    getPreferredBlocks t rand16 =
      (piecesOfTier t 2 (getPreferredPieces t rand16)).flatMap (unreqBlocks t) ++
      (piecesOfTier t 2 (getPreferredPieces t rand16)).flatMap (reqBlocks t) ++
      (piecesOfTier t 1 (getPreferredPieces t rand16)).flatMap (unreqBlocks t) ++
      (piecesOfTier t 1 (getPreferredPieces t rand16)).flatMap (reqBlocks t) ++
      (piecesOfTier t 0 (getPreferredPieces t rand16)).flatMap (unreqBlocks t) ++
      (piecesOfTier t 0 (getPreferredPieces t rand16)).flatMap (reqBlocks t) :=
  preferredBlocksOf_eq t (getPreferredPieces t rand16)

/-- C3 (amended): the block list of `getPreferredBlocks` is, in this order, the
unrequested then the requested missing blocks of the high-priority pieces, the
unrequested then the requested missing blocks of the normal-priority pieces,
and the unrequested then the requested missing blocks of the low-priority
pieces, each bin in the order of `getPreferredPieces`. (Tier 2 is high, tier 1
normal, tier 0 low.) -/
theorem C3_getPreferredBlocks_order (t : Torrent) (rand16 : Nat → Nat) :
    getPreferredBlocks t rand16 =
      (piecesOfTier t 2 (getPreferredPieces t rand16)).flatMap (unreqBlocks t) ++
      (piecesOfTier t 2 (getPreferredPieces t rand16)).flatMap (reqBlocks t) ++
      (piecesOfTier t 1 (getPreferredPieces t rand16)).flatMap (unreqBlocks t) ++
      (piecesOfTier t 1 (getPreferredPieces t rand16)).flatMap (reqBlocks t) ++
      (piecesOfTier t 0 (getPreferredPieces t rand16)).flatMap (unreqBlocks t) ++
      (piecesOfTier t 0 (getPreferredPieces t rand16)).flatMap (reqBlocks t) ∧
    (∀ p, priorityIndex t.tor p = 2 ↔ (t.tor.info.pieces p).priority = .TR_PRI_HIGH) ∧
    (∀ p, priorityIndex t.tor p = 1 ↔ (t.tor.info.pieces p).priority = .TR_PRI_NORMAL) ∧
    (∀ p, priorityIndex t.tor p = 0 ↔ (t.tor.info.pieces p).priority = .TR_PRI_LOW) := by
  refine ⟨?_, ?_, ?_, ?_⟩
  · unfold getPreferredBlocks
    exact preferredBlocksOf_eq t (getPreferredPieces t rand16)
  · intro p
    unfold priorityIndex
    cases (t.tor.info.pieces p).priority <;> simp [tr_priority_t.toInt]
  · intro p
    unfold priorityIndex
    cases (t.tor.info.pieces p).priority <;> simp [tr_priority_t.toInt]
  · intro p
    unfold priorityIndex
    cases (t.tor.info.pieces p).priority <;> simp [tr_priority_t.toInt]

/-- C4: for two still-missing blocks of interesting pieces of the same
priority, `bu` not marked in `requested` and `br` marked, both are in the list
of `getPreferredBlocks` and every occurrence of `bu` comes before every
occurrence of `br`. -/
theorem C4_unrequested_before_requested (t : Torrent) (rand16 : Nat → Nat)
    (hgeo : GeometryOk t.tor) (p q bu br : Nat)
    (hp : p < t.tor.info.pieceCount ∧ isPieceInteresting t.tor p = true)
    (hq : q < t.tor.info.pieceCount ∧ isPieceInteresting t.tor q = true)
    (hprio : (t.tor.info.pieces p).priority = (t.tor.info.pieces q).priority)
    (hbu : bu ∈ unreqBlocks t p) (hbr : br ∈ reqBlocks t q) :
    bu ∈ getPreferredBlocks t rand16 ∧ br ∈ getPreferredBlocks t rand16 ∧
    ∀ (i j : Nat) (hi : i < (getPreferredBlocks t rand16).length)
      (hj : j < (getPreferredBlocks t rand16).length),
      (getPreferredBlocks t rand16)[i] = br → (getPreferredBlocks t rand16)[j] = bu → j < i := by
  have hperm := (getPreferredPieces_spec t rand16).1
  have hpm : p ∈ getPreferredPieces t rand16 := hperm.mem_iff.mpr ((mem_refillPool _ _).mpr hp)
  have hqm : q ∈ getPreferredPieces t rand16 := hperm.mem_iff.mpr ((mem_refillPool _ _).mpr hq)
  have hlt := getPreferredPieces_lt t rand16
  have hs2 := priorityIndex_le_two t.tor p
  have hpq := (priorityIndex_eq_iff t.tor p q).mpr hprio
  have hum : bu ∈ (piecesOfTier t (priorityIndex t.tor p) (getPreferredPieces t rand16)).flatMap
      (unreqBlocks t) := (mem_tier_unreq _ _ _ _).mpr ⟨p, hpm, rfl, hbu⟩
  have hrm : br ∈ (piecesOfTier t (priorityIndex t.tor p) (getPreferredPieces t rand16)).flatMap
      (reqBlocks t) := (mem_tier_req _ _ _ _).mpr ⟨q, hqm, hpq.symm, hbr⟩
  have hru := rank_tier_unreq t hgeo _ hlt _ _ hum
  have hrr := rank_tier_req t hgeo _ hlt _ _ hrm
  refine ⟨?_, ?_, ?_⟩
  · rw [getPreferredBlocks_bins]
    have : priorityIndex t.tor p = 0 ∨ priorityIndex t.tor p = 1 ∨ priorityIndex t.tor p = 2 := by
      omega
    rcases this with h | h | h <;> rw [h] at hum <;> simp [hum]
  · rw [getPreferredBlocks_bins]
    have : priorityIndex t.tor p = 0 ∨ priorityIndex t.tor p = 1 ∨ priorityIndex t.tor p = 2 := by
      omega
    rcases this with h | h | h <;> rw [h] at hrm <;> simp [hrm]
  · intro i j hi hj hbi hbj
    have hpw := preferredBlocksOf_rank t hgeo (getPreferredPieces t rand16) hlt
    rw [List.pairwise_iff_getElem] at hpw
    rcases Nat.lt_trichotomy i j with h | h | h
    · have := hpw i j hi hj h
      have e1 : blockRank t ((getPreferredBlocks t rand16)[i]) = blockRank t br := by rw [hbi]
      have e2 : blockRank t ((getPreferredBlocks t rand16)[j]) = blockRank t bu := by rw [hbj]
      unfold getPreferredBlocks at e1 e2
      rw [e1, e2, hru, hrr] at this
      omega
    · subst h
      rw [hbi] at hbj
      rw [hbj, hru] at hrr
      omega
    · exact h

theorem endgameTorrent_geometry : GeometryOk endgameTorrent.tor := by
  intro p b hp _ _
  simp only [endgameTorrent] at hp ⊢
  omega

/-- C4 on one piece of two blocks, block 0 requested and block 1 not: the list
is block 1, block 0. -/
theorem C4_unrequested_before_requested_witness :
    getPreferredBlocks endgameTorrent (fun _ => 0) = [1, 0] ∧
    (1 ∈ getPreferredBlocks endgameTorrent (fun _ => 0) ∧
     0 ∈ getPreferredBlocks endgameTorrent (fun _ => 0) ∧
     ∀ (i j : Nat) (hi : i < (getPreferredBlocks endgameTorrent (fun _ => 0)).length)
       (hj : j < (getPreferredBlocks endgameTorrent (fun _ => 0)).length),
       (getPreferredBlocks endgameTorrent (fun _ => 0))[i] = 0 →
       (getPreferredBlocks endgameTorrent (fun _ => 0))[j] = 1 → j < i) :=
  ⟨by decide,
   C4_unrequested_before_requested endgameTorrent (fun _ => 0) endgameTorrent_geometry 0 0 1 0
     ⟨by decide, by decide⟩ ⟨by decide, by decide⟩ rfl (by decide) (by decide)⟩

/-! ## Rarity -/

theorem OccursBefore.of_pairwise {α : Type} {R : α → α → Prop} {a b : α} :
    ∀ {l : List α}, l.Pairwise R → a ∈ l → b ∈ l → a ≠ b → ¬ R b a → OccursBefore a b l
  | [], _, ha, _, _, _ => by simp at ha
  | x :: xs, hpw, ha, hb, hab, hR => by
    rw [List.pairwise_cons] at hpw
    by_cases hxa : x = a
    · subst hxa
      have hb' : b ∈ xs := by
        rcases List.mem_cons.mp hb with e | e
        · exact absurd e.symm hab
        · exact e
      obtain ⟨l2, l3, h⟩ := List.append_of_mem hb'
      exact ⟨[], l2, l3, by simp [h]⟩
    · have ha' : a ∈ xs := by
        rcases List.mem_cons.mp ha with e | e
        · exact absurd e.symm hxa
        · exact e
      by_cases hxb : x = b
      · subst hxb
        exact absurd (hpw.1 a ha') hR
      · have hb' : b ∈ xs := by
          rcases List.mem_cons.mp hb with e | e
          · exact absurd e.symm hxb
          · exact e
        obtain ⟨l1, l2, l3, h⟩ := OccursBefore.of_pairwise hpw.2 ha' hb' hab hR
        exact ⟨x :: l1, l2, l3, by simp [h]⟩

theorem OccursBefore.filter {α : Type} (P : α → Bool) {a b : α} {l : List α}
    (h : OccursBefore a b l) (ha : P a = true) (hb : P b = true) :
    OccursBefore a b (l.filter P) := by
  obtain ⟨l1, l2, l3, rfl⟩ := h
  exact ⟨l1.filter P, l2.filter P, l3.filter P, by simp [List.filter_cons, ha, hb]⟩

theorem OccursBefore.flatMap {α β : Type} (f : α → List β) {a b : α} {l : List α} {x y : β}
    (h : OccursBefore a b l) (hx : x ∈ f a) (hy : y ∈ f b) :
    OccursBefore x y (l.flatMap f) := by
  obtain ⟨l1, l2, l3, rfl⟩ := h
  obtain ⟨x1, x2, hx⟩ := List.append_of_mem hx
  obtain ⟨y1, y2, hy⟩ := List.append_of_mem hy
  refine ⟨l1.flatMap f ++ x1, x2 ++ l2.flatMap f ++ y1, y2 ++ l3.flatMap f, ?_⟩
  simp [List.flatMap_append, List.flatMap_cons, hx, hy]

theorem OccursBefore.append {α : Type} {a b : α} {l : List α} (h : OccursBefore a b l)
    (pre post : List α) : OccursBefore a b (pre ++ l ++ post) := by
  obtain ⟨l1, l2, l3, rfl⟩ := h
  exact ⟨pre ++ l1, l2, l3 ++ post, by simp⟩

/-- In a list without repetition, an entry that occurs before another has the
smaller index. -/
theorem OccursBefore.indexOf_lt {α : Type} [DecidableEq α] {a b : α} {l : List α}
    (h : OccursBefore a b l) (hnd : l.Nodup) : l.indexOf a < l.indexOf b := by
  obtain ⟨l1, l2, l3, rfl⟩ := h
  have hnd' : (l1 ++ (a :: l2 ++ b :: l3)).Nodup := by simpa using hnd
  rw [List.nodup_append] at hnd'
  obtain ⟨_, h2, hdis⟩ := hnd'
  have ha1 : a ∉ l1 := fun hm => hdis hm (by simp)
  have hb1 : b ∉ l1 := fun hm => hdis hm (by simp)
  have hab : a ≠ b := by
    intro e
    subst e
    rw [List.cons_append, List.nodup_cons] at h2
    exact h2.1 (by simp)
  have e1 : l1 ++ a :: l2 ++ b :: l3 = l1 ++ (a :: (l2 ++ b :: l3)) := by simp
  rw [e1, List.indexOf_append_of_not_mem ha1, List.indexOf_append_of_not_mem hb1,
    List.indexOf_cons_self, List.indexOf_cons_ne _ hab]
  omega

/-- The piece order under strictly fewer counted peers. -/
theorem getPreferredPieces_rarer_first (t : Torrent) (rand16 : Nat → Nat) (p q : Nat)
    (hp : p < t.tor.info.pieceCount ∧ isPieceInteresting t.tor p = true)
    (hq : q < t.tor.info.pieceCount ∧ isPieceInteresting t.tor q = true)
    (hprio : (t.tor.info.pieces p).priority = (t.tor.info.pieces q).priority)
    (hmiss : t.tor.completion.tr_cpMissingBlocksInPiece p
      = t.tor.completion.tr_cpMissingBlocksInPiece q)
    (hcnt : countedPeers t p < countedPeers t q) :
    OccursBefore p q (getPreferredPieces t rand16) := by
  obtain ⟨hperm, hsorted⟩ := getPreferredPieces_spec t rand16
  have hpm : p ∈ getPreferredPieces t rand16 := hperm.mem_iff.mpr ((mem_refillPool _ _).mpr hp)
  have hqm : q ∈ getPreferredPieces t rand16 := hperm.mem_iff.mpr ((mem_refillPool _ _).mpr hq)
  have hne : p ≠ q := by
    intro e; subst e; exact Nat.lt_irrefl _ hcnt
  refine OccursBefore.of_pairwise hsorted hpm hqm hne ?_
  rw [compareRefillPiece_le_iff]
  have e1 : (refillKey t rand16 q).missingBlockCount = (refillKey t rand16 p).missingBlockCount :=
    hmiss.symm
  have e2 : (refillKey t rand16 q).priority = (refillKey t rand16 p).priority := hprio.symm
  have e3 : (refillKey t rand16 q).peerCount = countedPeers t q := rfl
  have e4 : (refillKey t rand16 p).peerCount = countedPeers t p := rfl
  rw [e1, e2, e3, e4]
  omega

/-- C6 (counterexample): piece 1 is held by one connected peer and piece 0 by
two, priorities and missing-block counts being equal, yet `getPreferredPieces`
puts piece 0 first: the two holders of piece 0 are not peer-interested and are
not counted. -/
theorem C6_fewer_holders_not_first :
    holderCount uncountedHoldersTorrent 1 < holderCount uncountedHoldersTorrent 0 ∧
    (uncountedHoldersTorrent.tor.info.pieces 1).priority
      = (uncountedHoldersTorrent.tor.info.pieces 0).priority ∧
    uncountedHoldersTorrent.tor.completion.tr_cpMissingBlocksInPiece 1
      = uncountedHoldersTorrent.tor.completion.tr_cpMissingBlocksInPiece 0 ∧
    getPreferredPieces uncountedHoldersTorrent (fun _ => 0) = [0, 1] ∧
    getPreferredBlocks uncountedHoldersTorrent (fun _ => 0) = [0, 1] := by
  decide

/-- C6 (amended): for two interesting pieces of equal priority and equal
missing-block count, if strictly fewer of the connected peers that are
peer-interested and do not choke the client hold the first piece than hold the
second, then the first piece comes before the second in the order of
`getPreferredPieces` (it has the smaller index), and in the block list of
`getPreferredBlocks` each unrequested missing block of the first occurs before
each unrequested missing block of the second, and likewise for their requested
missing blocks. -/
theorem C6_rarer_counted_piece_first (t : Torrent) (rand16 : Nat → Nat) (p q : Nat)
    (hp : p < t.tor.info.pieceCount ∧ isPieceInteresting t.tor p = true)
    (hq : q < t.tor.info.pieceCount ∧ isPieceInteresting t.tor q = true)
    (hprio : (t.tor.info.pieces p).priority = (t.tor.info.pieces q).priority)
    (hmiss : t.tor.completion.tr_cpMissingBlocksInPiece p
      = t.tor.completion.tr_cpMissingBlocksInPiece q)
    (hcnt : countedPeers t p < countedPeers t q) :
    (getPreferredPieces t rand16).indexOf p < (getPreferredPieces t rand16).indexOf q ∧
    (getPreferredPieces t rand16).indexOf q < (getPreferredPieces t rand16).length ∧
    (∀ b1 ∈ unreqBlocks t p, ∀ b2 ∈ unreqBlocks t q,
      OccursBefore b1 b2 (getPreferredBlocks t rand16)) ∧
    (∀ b1 ∈ reqBlocks t p, ∀ b2 ∈ reqBlocks t q,
      OccursBefore b1 b2 (getPreferredBlocks t rand16)) := by
  have hocc := getPreferredPieces_rarer_first t rand16 p q hp hq hprio hmiss hcnt
  obtain ⟨hperm, _⟩ := getPreferredPieces_spec t rand16
  have hnd : (getPreferredPieces t rand16).Nodup := hperm.nodup_iff.mpr (refillPool_nodup t.tor)
  have hqm : q ∈ getPreferredPieces t rand16 := hperm.mem_iff.mpr ((mem_refillPool _ _).mpr hq)
  have hpq := (priorityIndex_eq_iff t.tor p q).mpr hprio
  have hs2 := priorityIndex_le_two t.tor p
  have htier : OccursBefore p q
      (piecesOfTier t (priorityIndex t.tor p) (getPreferredPieces t rand16)) :=
    OccursBefore.filter _ hocc (by simp) (by simp [hpq])
  refine ⟨hocc.indexOf_lt hnd, List.indexOf_lt_length.mpr hqm, ?_, ?_⟩
  · intro b1 hb1 b2 hb2
    have h := OccursBefore.flatMap (unreqBlocks t) htier hb1 hb2
    rw [getPreferredBlocks_bins]
    have : priorityIndex t.tor p = 0 ∨ priorityIndex t.tor p = 1 ∨ priorityIndex t.tor p = 2 := by
      omega
    rcases this with e | e | e <;> rw [e] at h
    · have := h.append ((piecesOfTier t 2 (getPreferredPieces t rand16)).flatMap (unreqBlocks t) ++
        (piecesOfTier t 2 (getPreferredPieces t rand16)).flatMap (reqBlocks t) ++
        (piecesOfTier t 1 (getPreferredPieces t rand16)).flatMap (unreqBlocks t) ++
        (piecesOfTier t 1 (getPreferredPieces t rand16)).flatMap (reqBlocks t))
        ((piecesOfTier t 0 (getPreferredPieces t rand16)).flatMap (reqBlocks t))
      simpa using this
    · have := h.append ((piecesOfTier t 2 (getPreferredPieces t rand16)).flatMap (unreqBlocks t) ++
        (piecesOfTier t 2 (getPreferredPieces t rand16)).flatMap (reqBlocks t))
        ((piecesOfTier t 1 (getPreferredPieces t rand16)).flatMap (reqBlocks t) ++
        (piecesOfTier t 0 (getPreferredPieces t rand16)).flatMap (unreqBlocks t) ++
        (piecesOfTier t 0 (getPreferredPieces t rand16)).flatMap (reqBlocks t))
      simpa using this
    · have := h.append []
        ((piecesOfTier t 2 (getPreferredPieces t rand16)).flatMap (reqBlocks t) ++
        (piecesOfTier t 1 (getPreferredPieces t rand16)).flatMap (unreqBlocks t) ++
        (piecesOfTier t 1 (getPreferredPieces t rand16)).flatMap (reqBlocks t) ++
        (piecesOfTier t 0 (getPreferredPieces t rand16)).flatMap (unreqBlocks t) ++
        (piecesOfTier t 0 (getPreferredPieces t rand16)).flatMap (reqBlocks t))
      simpa using this
  · intro b1 hb1 b2 hb2
    have h := OccursBefore.flatMap (reqBlocks t) htier hb1 hb2
    rw [getPreferredBlocks_bins]
    have : priorityIndex t.tor p = 0 ∨ priorityIndex t.tor p = 1 ∨ priorityIndex t.tor p = 2 := by
      omega
    rcases this with e | e | e <;> rw [e] at h
    · have := h.append ((piecesOfTier t 2 (getPreferredPieces t rand16)).flatMap (unreqBlocks t) ++
        (piecesOfTier t 2 (getPreferredPieces t rand16)).flatMap (reqBlocks t) ++
        (piecesOfTier t 1 (getPreferredPieces t rand16)).flatMap (unreqBlocks t) ++
        (piecesOfTier t 1 (getPreferredPieces t rand16)).flatMap (reqBlocks t) ++
        (piecesOfTier t 0 (getPreferredPieces t rand16)).flatMap (unreqBlocks t)) []
      simpa using this
    · have := h.append ((piecesOfTier t 2 (getPreferredPieces t rand16)).flatMap (unreqBlocks t) ++
        (piecesOfTier t 2 (getPreferredPieces t rand16)).flatMap (reqBlocks t) ++
        (piecesOfTier t 1 (getPreferredPieces t rand16)).flatMap (unreqBlocks t))
        ((piecesOfTier t 0 (getPreferredPieces t rand16)).flatMap (unreqBlocks t) ++
        (piecesOfTier t 0 (getPreferredPieces t rand16)).flatMap (reqBlocks t))
      simpa using this
    · have := h.append ((piecesOfTier t 2 (getPreferredPieces t rand16)).flatMap (unreqBlocks t))
        ((piecesOfTier t 1 (getPreferredPieces t rand16)).flatMap (unreqBlocks t) ++
        (piecesOfTier t 1 (getPreferredPieces t rand16)).flatMap (reqBlocks t) ++
        (piecesOfTier t 0 (getPreferredPieces t rand16)).flatMap (unreqBlocks t) ++
        (piecesOfTier t 0 (getPreferredPieces t rand16)).flatMap (reqBlocks t))
      simpa using this

/-- C6 on the torrent of three pieces where the counted peers 1 and 2 hold
piece 0, peer 1 holds piece 1 and nobody holds piece 2: the order is piece 2,
piece 1, piece 0, and piece 2 comes before piece 1. -/
theorem C6_rarer_counted_piece_first_witness :
    getPreferredPieces rarityTorrent (fun _ => 0) = [2, 1, 0] ∧
    getPreferredBlocks rarityTorrent (fun _ => 0) = [2, 1, 0] ∧
    countedPeers rarityTorrent 2 < countedPeers rarityTorrent 1 ∧
    ((getPreferredPieces rarityTorrent (fun _ => 0)).indexOf 2
        < (getPreferredPieces rarityTorrent (fun _ => 0)).indexOf 1 ∧
      (getPreferredPieces rarityTorrent (fun _ => 0)).indexOf 1
        < (getPreferredPieces rarityTorrent (fun _ => 0)).length ∧
      (∀ b1 ∈ unreqBlocks rarityTorrent 2, ∀ b2 ∈ unreqBlocks rarityTorrent 1,
        OccursBefore b1 b2 (getPreferredBlocks rarityTorrent (fun _ => 0))) ∧
      (∀ b1 ∈ reqBlocks rarityTorrent 2, ∀ b2 ∈ reqBlocks rarityTorrent 1,
        OccursBefore b1 b2 (getPreferredBlocks rarityTorrent (fun _ => 0)))) :=
  ⟨by decide, by decide, by decide,
   C6_rarer_counted_piece_first rarityTorrent (fun _ => 0) 2 1 ⟨by decide, by decide⟩
     ⟨by decide, by decide⟩ rfl rfl (by decide)⟩

/-! ## Dispatch: one block -/

theorem droppedIn_cons_other (c : ReqCall) (calls : List ReqCall) (q : tr_peer)
    (h : c.peer ≠ q) : droppedIn (c :: calls) q = droppedIn calls q := by
  simp [droppedIn, h]

theorem droppedIn_cons_drop (c : ReqCall) (calls : List ReqCall) (h : c.val.drops = true) :
    droppedIn (c :: calls) c.peer = true := by
  simp [droppedIn, h]

theorem droppedIn_cons_keep (c : ReqCall) (calls : List ReqCall) (q : tr_peer)
    (h : c.val.drops = false) : droppedIn (c :: calls) q = droppedIn calls q := by
  simp [droppedIn, h]

theorem droppedIn_of_no_peer (calls : List ReqCall) (p : tr_peer)
    (h : ∀ c ∈ calls, c.peer ≠ p) : droppedIn calls p = false := by
  simp only [droppedIn, List.any_eq_false]
  intro c hc
  simp [h c hc]

/-- What one run of the inner loop of `refillPulse` does: the peers are asked in
the order of the rotation, up to the first that answers `TR_ADDREQ_OK`; the
peers that stay are those that did not answer `TR_ADDREQ_FULL` or
`TR_ADDREQ_CLIENT_CHOKED`. -/
theorem probePeers_spec {σ : Type} (m : MsgLayer σ) (i block index begin_ length : Nat) :
    ∀ (peers : List tr_peer) (s : σ), peers.Nodup →
      (∃ rest, peers = (probePeers m i block index begin_ length peers s).2.2.1.map
          (fun c => c.peer) ++ rest ∧
        ((probePeers m i block index begin_ length peers s).2.1 = false → rest = [])) ∧
      (∀ c ∈ (probePeers m i block index begin_ length peers s).2.2.1,
        c.i = i ∧ c.block = block) ∧
      (probePeers m i block index begin_ length peers s).1 = peers.filter
        (fun p => !droppedIn (probePeers m i block index begin_ length peers s).2.2.1 p) ∧
      ((probePeers m i block index begin_ length peers s).2.1 = true ↔
        ∃ c ∈ (probePeers m i block index begin_ length peers s).2.2.1,
          c.val = .TR_ADDREQ_OK) ∧
      (probePeers m i block index begin_ length peers s).2.2.1.Pairwise
        (fun c1 _ => c1.val ≠ .TR_ADDREQ_OK) ∧
      (peers ≠ [] → (probePeers m i block index begin_ length peers s).2.2.1 ≠ [])
  | [], s, _ => by
    simp [probePeers]
  | p :: rest, s, hnd => by
    rw [List.nodup_cons] at hnd
    rcases hvs : m.tr_peerMsgsAddRequest s p index begin_ length with ⟨val, s1⟩
    have ih := probePeers_spec m i block index begin_ length rest s1 hnd.2
    rcases hrec : probePeers m i block index begin_ length rest s1 with ⟨kept, ok, calls, s2⟩
    rw [hrec] at ih
    simp only at ih
    obtain ⟨⟨rest', hpre, hall⟩, hib, hkept, hok, hpw, _⟩ := ih
    have hpeers : ∀ c ∈ calls, c.peer ≠ p := by
      intro c hc e
      have : c.peer ∈ rest := by
        rw [hpre]
        exact List.mem_append_left _ (List.mem_map.mpr ⟨c, hc, rfl⟩)
      exact hnd.1 (e ▸ this)
    have hself := droppedIn_of_no_peer calls p hpeers
    have hfilter : ∀ v : AddReq, rest.filter (fun q => !droppedIn
        (({ i := i, block := block, peer := p, val := v } : ReqCall) :: calls) q) = kept := by
      intro v
      rw [hkept]
      apply List.filter_congr
      intro q hq
      rw [droppedIn_cons_other]
      exact fun e => hnd.1 (by simp only at e; exact e ▸ hq)
    have hmem : ∀ v : AddReq, ∀ c ∈ (({ i := i, block := block, peer := p, val := v } : ReqCall)
        :: calls), c.i = i ∧ c.block = block := by
      intro v c hc
      rcases List.mem_cons.mp hc with e | e
      · subst e; exact ⟨rfl, rfl⟩
      · exact hib c e
    cases val
    · -- TR_ADDREQ_OK
      have e : probePeers m i block index begin_ length (p :: rest) s =
          (p :: rest, true, [{ i := i, block := block, peer := p, val := .TR_ADDREQ_OK }], s1) := by
        rw [probePeers, hvs]
      rw [e]
      refine ⟨⟨rest, by simp, by simp⟩, by simp, ?_, by simp, by simp, by simp⟩
      simp only
      rw [List.filter_eq_self.mpr]
      intro a _
      simp [droppedIn, AddReq.drops]
    · -- TR_ADDREQ_FULL
      have e : probePeers m i block index begin_ length (p :: rest) s =
          (kept, ok, { i := i, block := block, peer := p, val := .TR_ADDREQ_FULL } :: calls, s2) := by
        rw [probePeers, hvs]; simp only [hrec]
      rw [e]
      refine ⟨⟨rest', by simp [hpre], hall⟩, hmem _, ?_, ?_, ?_, by simp⟩
      · simp only [List.filter_cons]
        rw [droppedIn_cons_drop ⟨i, block, p, .TR_ADDREQ_FULL⟩ calls rfl]
        simp only [Bool.not_true, Bool.false_eq_true, if_false]
        exact (hfilter _).symm
      · simp only at hok ⊢
        rw [hok]; simp
      · exact List.pairwise_cons.mpr ⟨fun _ _ => by simp, hpw⟩
    · -- TR_ADDREQ_DUPLICATE
      have e : probePeers m i block index begin_ length (p :: rest) s =
          (p :: kept, ok, { i := i, block := block, peer := p, val := .TR_ADDREQ_DUPLICATE } :: calls,
            s2) := by
        rw [probePeers, hvs]; simp only [hrec]
      rw [e]
      refine ⟨⟨rest', by simp [hpre], hall⟩, hmem _, ?_, ?_, ?_, by simp⟩
      · simp only [List.filter_cons]
        rw [droppedIn_cons_keep ⟨i, block, p, .TR_ADDREQ_DUPLICATE⟩ calls p rfl, hself]
        simp only [Bool.not_false, if_true]
        rw [hfilter]
      · simp only at hok ⊢
        rw [hok]; simp
      · exact List.pairwise_cons.mpr ⟨fun _ _ => by simp, hpw⟩
    · -- TR_ADDREQ_MISSING
      have e : probePeers m i block index begin_ length (p :: rest) s =
          (p :: kept, ok, { i := i, block := block, peer := p, val := .TR_ADDREQ_MISSING } :: calls,
            s2) := by
        rw [probePeers, hvs]; simp only [hrec]
      rw [e]
      refine ⟨⟨rest', by simp [hpre], hall⟩, hmem _, ?_, ?_, ?_, by simp⟩
      · simp only [List.filter_cons]
        rw [droppedIn_cons_keep ⟨i, block, p, .TR_ADDREQ_MISSING⟩ calls p rfl, hself]
        simp only [Bool.not_false, if_true]
        rw [hfilter]
      · simp only at hok ⊢
        rw [hok]; simp
      · exact List.pairwise_cons.mpr ⟨fun _ _ => by simp, hpw⟩
    · -- TR_ADDREQ_CLIENT_CHOKED
      have e : probePeers m i block index begin_ length (p :: rest) s =
          (kept, ok, { i := i, block := block, peer := p, val := .TR_ADDREQ_CLIENT_CHOKED } :: calls,
            s2) := by
        rw [probePeers, hvs]; simp only [hrec]
      rw [e]
      refine ⟨⟨rest', by simp [hpre], hall⟩, hmem _, ?_, ?_, ?_, by simp⟩
      · simp only [List.filter_cons]
        rw [droppedIn_cons_drop ⟨i, block, p, .TR_ADDREQ_CLIENT_CHOKED⟩ calls rfl]
        simp only [Bool.not_true, Bool.false_eq_true, if_false]
        exact (hfilter _).symm
      · simp only at hok ⊢
        rw [hok]; simp
      · exact List.pairwise_cons.mpr ⟨fun _ _ => by simp, hpw⟩

/-! ## Dispatch: the block loop -/

theorem droppedIn_append (a b : List ReqCall) (p : tr_peer) :
    droppedIn (a ++ b) p = (droppedIn a p || droppedIn b p) := by
  simp [droppedIn, List.any_append]

theorem droppedIn_iff (calls : List ReqCall) (p : tr_peer) :
    droppedIn calls p = true ↔ ∃ c ∈ calls, c.peer = p ∧ c.val.drops = true := by
  simp [droppedIn, List.any_eq_true]

theorem refillLoop_nil {σ : Type} (m : MsgLayer σ) (tor : tr_torrent) (i : Nat)
    (peers : List tr_peer) (req : tr_bitfield) (s : σ) :
    refillLoop m tor i [] peers req s
      = { i := i, peers := peers, requested := req, calls := [], msgs := s } := by
  rw [refillLoop]

theorem refillLoop_no_peers {σ : Type} (m : MsgLayer σ) (tor : tr_torrent) (i : Nat)
    (blocks : List Nat) (req : tr_bitfield) (s : σ) :
    refillLoop m tor i blocks [] req s
      = { i := i, peers := [], requested := req, calls := [], msgs := s } := by
  cases blocks <;> simp [refillLoop]

theorem refillLoop_cons {σ : Type} (m : MsgLayer σ) (tor : tr_torrent) (i b : Nat)
    (blocks : List Nat) (p : tr_peer) (peers : List tr_peer) (req : tr_bitfield) (s : σ) :
    refillLoop m tor i (b :: blocks) (p :: peers) req s =
      { refillLoop m tor (i + 1) blocks (probeBlock m tor i b (p :: peers) s).1
          (if (probeBlock m tor i b (p :: peers) s).2.1 then tr_bitfieldAdd req b else req)
          (probeBlock m tor i b (p :: peers) s).2.2.2 with
        calls := (probeBlock m tor i b (p :: peers) s).2.2.1 ++
          (refillLoop m tor (i + 1) blocks (probeBlock m tor i b (p :: peers) s).1
            (if (probeBlock m tor i b (p :: peers) s).2.1 then tr_bitfieldAdd req b else req)
            (probeBlock m tor i b (p :: peers) s).2.2.2).calls } := by
  rw [refillLoop]
  simp

/-- The calls of the block loop, the rotation it leaves and where it stops. -/
theorem refillLoop_calls {σ : Type} (m : MsgLayer σ) (tor : tr_torrent) :
    ∀ (blocks : List Nat) (i0 : Nat) (peers : List tr_peer) (req : tr_bitfield) (s : σ),
      peers.Nodup →
      (refillLoop m tor i0 blocks peers req s).calls.Pairwise (fun c1 c2 =>
        c1.i ≤ c2.i ∧ (c1.val = .TR_ADDREQ_OK → c1.i < c2.i) ∧
        (c1.val.drops = true → c2.peer ≠ c1.peer)) ∧
      (∀ c ∈ (refillLoop m tor i0 blocks peers req s).calls,
        i0 ≤ c.i ∧ c.i < (refillLoop m tor i0 blocks peers req s).i ∧
        blocks[c.i - i0]? = some c.block ∧ c.peer ∈ peers) ∧
      (refillLoop m tor i0 blocks peers req s).peers
        = peers.filter (fun p => !droppedIn (refillLoop m tor i0 blocks peers req s).calls p) ∧
      (i0 ≤ (refillLoop m tor i0 blocks peers req s).i ∧
        (refillLoop m tor i0 blocks peers req s).i ≤ i0 + blocks.length ∧
        ((refillLoop m tor i0 blocks peers req s).i = i0 + blocks.length ∨
          (refillLoop m tor i0 blocks peers req s).peers = []) ∧
        ∀ i, i0 ≤ i → i < (refillLoop m tor i0 blocks peers req s).i →
          ∃ c ∈ (refillLoop m tor i0 blocks peers req s).calls, c.i = i)
  | [], i0, peers, req, s, _ => by
    rw [refillLoop_nil]
    refine ⟨List.Pairwise.nil, by simp, by simp [droppedIn], by simp, by simp, by simp, ?_⟩
    intro i h1 h2
    simp only at h2
    omega
  | b :: blocks, i0, [], req, s, _ => by
    rw [refillLoop_no_peers]
    refine ⟨List.Pairwise.nil, by simp, by simp, by simp, by simp, by simp, ?_⟩
    intro i h1 h2
    simp only at h2
    omega
  | b :: blocks, i0, p :: peers, req, s, hnd => by
    rw [refillLoop_cons]
    have hp := probePeers_spec m i0 b (tor.tr_torBlockPiece b)
      (((b * tor.blockSize : Int) - (tor.tr_torBlockPiece b * tor.info.pieceSize : Int))
        % 2 ^ 32).toNat (tor.tr_torBlockCountBytes b) (p :: peers) s hnd
    rcases hpr : probeBlock m tor i0 b (p :: peers) s with ⟨kept, ok, calls, s1⟩
    have hp' : (∃ rest, p :: peers = calls.map (fun c => c.peer) ++ rest ∧
          (ok = false → rest = [])) ∧
        (∀ c ∈ calls, c.i = i0 ∧ c.block = b) ∧
        kept = (p :: peers).filter (fun q => !droppedIn calls q) ∧
        (ok = true ↔ ∃ c ∈ calls, c.val = .TR_ADDREQ_OK) ∧
        calls.Pairwise (fun c1 _ => c1.val ≠ .TR_ADDREQ_OK) ∧
        ((p :: peers) ≠ [] → calls ≠ []) := by
      have e : probePeers m i0 b (tor.tr_torBlockPiece b)
          (((b * tor.blockSize : Int) - (tor.tr_torBlockPiece b * tor.info.pieceSize : Int))
            % 2 ^ 32).toNat (tor.tr_torBlockCountBytes b) (p :: peers) s
            = (kept, ok, calls, s1) := hpr
      rw [e] at hp
      exact hp
    clear hp
    obtain ⟨⟨rest, hpre, hall⟩, hib, hkept, hok, hpw, hne⟩ := hp'
    have hkn : kept.Nodup := hkept ▸ hnd.filter _
    obtain ⟨ih1, ih2, ih3, ih4, ih5, ih6, ih7⟩ := refillLoop_calls m tor blocks (i0 + 1) kept
      (if ok then tr_bitfieldAdd req b else req) s1 hkn
    simp only
    have hcp : (calls.map (fun c => c.peer)).Nodup := by
      have : (calls.map (fun c => c.peer)).Sublist (p :: peers) := by
        rw [hpre]; exact List.sublist_append_left _ _
      exact this.nodup hnd
    have hcpw : calls.Pairwise (fun c1 c2 => c2.peer ≠ c1.peer) := by
      have := List.pairwise_map.mp hcp
      exact this.imp (fun h => Ne.symm h)
    refine ⟨?_, ?_, ?_, ?_, ?_, ?_, ?_⟩
    · rw [List.pairwise_append]
      refine ⟨?_, ih1, ?_⟩
      · have h3 : calls.Pairwise (fun c1 c2 => c1.i ≤ c2.i ∧
            (c1.val = .TR_ADDREQ_OK → c1.i < c2.i)) := by
          refine hpw.imp_of_mem ?_
          intro a c ha hc hnok
          exact ⟨by rw [(hib a ha).1, (hib c hc).1], fun e => absurd e hnok⟩
        exact (h3.and hcpw).imp (fun h => ⟨h.1.1, h.1.2, fun _ => h.2⟩)
      · intro c1 h1 c2 h2
        have hc2 := ih2 c2 h2
        have hc1 := hib c1 h1
        refine ⟨by omega, fun _ => by omega, ?_⟩
        intro hd e
        have hmem : c2.peer ∈ kept := hc2.2.2.2
        rw [hkept, List.mem_filter] at hmem
        have : droppedIn calls c2.peer = true :=
          (droppedIn_iff _ _).mpr ⟨c1, h1, e.symm, hd⟩
        simp [this] at hmem
    · intro c hc
      rcases List.mem_append.mp hc with h | h
      · have hc1 := hib c h
        refine ⟨by omega, by omega, ?_, ?_⟩
        · rw [hc1.1, hc1.2]; simp
        · rw [hpre]
          exact List.mem_append_left _ (List.mem_map.mpr ⟨c, h, rfl⟩)
      · have hc2 := ih2 c h
        refine ⟨by omega, hc2.2.1, ?_, ?_⟩
        · have e : c.i - i0 = (c.i - (i0 + 1)) + 1 := by omega
          rw [e, List.getElem?_cons_succ]
          exact hc2.2.2.1
        · have : c.peer ∈ kept := hc2.2.2.2
          rw [hkept] at this
          exact (List.mem_filter.mp this).1
    · rw [ih3, hkept, List.filter_filter]
      apply List.filter_congr
      intro q _
      rw [droppedIn_append]
      cases droppedIn calls q <;> simp
    · omega
    · simp only [List.length_cons]; omega
    · rcases ih6 with h | h
      · left; simp only [List.length_cons]; omega
      · right; exact h
    · intro i h1 h2
      by_cases hi : i = i0
      · obtain ⟨c, hc⟩ := List.exists_mem_of_ne_nil _ (hne (by simp))
        exact ⟨c, List.mem_append_left _ hc, by rw [(hib c hc).1, hi]⟩
      · obtain ⟨c, hc, e⟩ := ih7 i (by omega) h2
        exact ⟨c, List.mem_append_right _ hc, e⟩

theorem probeBlock_spec {σ : Type} (m : MsgLayer σ) (tor : tr_torrent) (i b : Nat)
    (peers : List tr_peer) (s : σ) (hnd : peers.Nodup) :
    (∃ rest, peers = (probeBlock m tor i b peers s).2.2.1.map (fun c => c.peer) ++ rest ∧
      ((probeBlock m tor i b peers s).2.1 = false → rest = [])) ∧
    (∀ c ∈ (probeBlock m tor i b peers s).2.2.1, c.i = i ∧ c.block = b) ∧
    (probeBlock m tor i b peers s).1 = peers.filter
      (fun p => !droppedIn (probeBlock m tor i b peers s).2.2.1 p) ∧
    ((probeBlock m tor i b peers s).2.1 = true ↔
      ∃ c ∈ (probeBlock m tor i b peers s).2.2.1, c.val = .TR_ADDREQ_OK) ∧
    (probeBlock m tor i b peers s).2.2.1.Pairwise (fun c1 _ => c1.val ≠ .TR_ADDREQ_OK) ∧
    (peers ≠ [] → (probeBlock m tor i b peers s).2.2.1 ≠ []) :=
  probePeers_spec m i b _ _ _ peers s hnd

/-- The bits of `requested` after the block loop: those set before, and those
of the blocks for which a call was answered `TR_ADDREQ_OK`. -/
theorem refillLoop_requested {σ : Type} (m : MsgLayer σ) (tor : tr_torrent) :
    ∀ (blocks : List Nat) (i0 : Nat) (peers : List tr_peer) (req : tr_bitfield) (s : σ),
      peers.Nodup → req.wf →
      (refillLoop m tor i0 blocks peers req s).requested.bitCount = req.bitCount ∧
      (refillLoop m tor i0 blocks peers req s).requested.wf ∧
      ∀ x, tr_bitfieldHas (refillLoop m tor i0 blocks peers req s).requested x = true ↔
        (tr_bitfieldHas req x = true ∨ (x < req.bitCount ∧
          ∃ c ∈ (refillLoop m tor i0 blocks peers req s).calls,
            c.block = x ∧ c.val = .TR_ADDREQ_OK))
  | [], i0, peers, req, s, _, hwf => by
    rw [refillLoop_nil]
    exact ⟨rfl, hwf, by simp⟩
  | b :: blocks, i0, [], req, s, _, hwf => by
    rw [refillLoop_no_peers]
    exact ⟨rfl, hwf, by simp⟩
  | b :: blocks, i0, p :: peers, req, s, hnd, hwf => by
    rw [refillLoop_cons]
    have hp := probeBlock_spec m tor i0 b (p :: peers) s hnd
    rcases hpr : probeBlock m tor i0 b (p :: peers) s with ⟨kept, ok, calls, s1⟩
    rw [hpr] at hp
    simp only at hp
    obtain ⟨_, hib, hkept, hok, _, _⟩ := hp
    have hkn : kept.Nodup := hkept ▸ hnd.filter _
    have hwf1 : (if ok then tr_bitfieldAdd req b else req).wf := by
      split
      · exact tr_bitfieldAdd_wf _ _ hwf
      · exact hwf
    have hbc1 : (if ok then tr_bitfieldAdd req b else req).bitCount = req.bitCount := by
      split
      · exact tr_bitfieldAdd_bitCount _ _
      · rfl
    obtain ⟨ih1, ih2, ih3⟩ := refillLoop_requested m tor blocks (i0 + 1) kept
      (if ok then tr_bitfieldAdd req b else req) s1 hkn hwf1
    simp only
    refine ⟨ih1.trans hbc1, ih2, ?_⟩
    intro x
    rw [ih3 x, hbc1]
    have hmid : tr_bitfieldHas (if ok then tr_bitfieldAdd req b else req) x = true ↔
        (tr_bitfieldHas req x = true ∨ (x < req.bitCount ∧
          ∃ c ∈ calls, c.block = x ∧ c.val = .TR_ADDREQ_OK)) := by
      by_cases hokb : ok = true
      · obtain ⟨c0, hc0, hv0⟩ := hok.mp hokb
        simp only [hokb, if_true]
        by_cases hlt : b < req.bitCount
        · rw [tr_bitfieldHas_add req b x hlt hwf]
          simp only [Bool.or_eq_true, decide_eq_true_eq]
          constructor
          · rintro (h | h)
            · right
              exact ⟨h ▸ hlt, c0, hc0, by rw [(hib c0 hc0).2, h], hv0⟩
            · left; exact h
          · rintro (h | ⟨_, c, hc, hcb, _⟩)
            · right; exact h
            · left; rw [← hcb, (hib c hc).2]
        · have : tr_bitfieldAdd req b = req := by
            unfold tr_bitfieldAdd
            rw [if_pos (Nat.not_lt.mp hlt)]
          rw [this]
          constructor
          · intro h; left; exact h
          · rintro (h | ⟨hx, c, hc, hcb, _⟩)
            · exact h
            · rw [← hcb, (hib c hc).2] at hx
              exact absurd hx hlt
      · have hno : ¬ ∃ c ∈ calls, c.val = .TR_ADDREQ_OK := fun h => hokb (hok.mpr h)
        simp only [hokb, Bool.false_eq_true, if_false]
        constructor
        · intro h; left; exact h
        · rintro (h | ⟨_, c, hc, _, hv⟩)
          · exact h
          · exact absurd ⟨c, hc, hv⟩ hno
    rw [hmid]
    constructor
    · rintro ((h | ⟨hx, c, hc, h1, h2⟩) | ⟨hx, c, hc, h1, h2⟩)
      · left; exact h
      · right; exact ⟨hx, c, List.mem_append_left _ hc, h1, h2⟩
      · right; exact ⟨hx, c, List.mem_append_right _ hc, h1, h2⟩
    · rintro (h | ⟨hx, c, hc, h1, h2⟩)
      · left; left; exact h
      · rcases List.mem_append.mp hc with h | h
        · left; right; exact ⟨hx, c, h, h1, h2⟩
        · right; exact ⟨hx, c, h, h1, h2⟩

/-- Every peer of the rotation is asked for every block that is dispatched,
unless it has left the rotation by then or the block was taken. -/
theorem refillLoop_probed {σ : Type} (m : MsgLayer σ) (tor : tr_torrent) :
    ∀ (blocks : List Nat) (i0 : Nat) (peers : List tr_peer) (req : tr_bitfield) (s : σ),
      peers.Nodup → ∀ q ∈ peers, ∀ i, i0 ≤ i →
      i < (refillLoop m tor i0 blocks peers req s).i →
      (∃ c ∈ (refillLoop m tor i0 blocks peers req s).calls, c.i = i ∧ c.peer = q) ∨
      (∃ c ∈ (refillLoop m tor i0 blocks peers req s).calls,
        c.peer = q ∧ c.val.drops = true ∧ c.i < i) ∨
      (∃ c ∈ (refillLoop m tor i0 blocks peers req s).calls,
        c.i = i ∧ c.val = .TR_ADDREQ_OK)
  | [], i0, peers, req, s, _, q, _, i, h1, h2 => by
    rw [refillLoop_nil] at h2
    simp only at h2
    omega
  | b :: blocks, i0, [], req, s, _, q, hq, i, h1, h2 => by
    simp at hq
  | b :: blocks, i0, p :: peers, req, s, hnd, q, hq, i, h1, h2 => by
    rw [refillLoop_cons] at h2 ⊢
    have hp := probeBlock_spec m tor i0 b (p :: peers) s hnd
    rcases hpr : probeBlock m tor i0 b (p :: peers) s with ⟨kept, ok, calls, s1⟩
    rw [hpr] at hp h2
    simp only at hp h2 ⊢
    obtain ⟨⟨rest, hpre, hall⟩, hib, hkept, hok, _, _⟩ := hp
    have hkn : kept.Nodup := hkept ▸ hnd.filter _
    by_cases hi : i = i0
    · rw [hpre] at hq
      rcases List.mem_append.mp hq with h | h
      · obtain ⟨c, hc, e⟩ := List.mem_map.mp h
        left
        exact ⟨c, List.mem_append_left _ hc, by rw [(hib c hc).1, hi], e⟩
      · have hokt : ok = true := by
          by_contra hne
          have := hall (by simpa using hne)
          rw [this] at h
          simp at h
        obtain ⟨c, hc, hv⟩ := hok.mp hokt
        right; right
        exact ⟨c, List.mem_append_left _ hc, by rw [(hib c hc).1, hi], hv⟩
    · by_cases hk : q ∈ kept
      · rcases refillLoop_probed m tor blocks (i0 + 1) kept
          (if ok then tr_bitfieldAdd req b else req) s1 hkn q hk i (by omega) h2 with
          ⟨c, hc, e⟩ | ⟨c, hc, e⟩ | ⟨c, hc, e⟩
        · left; exact ⟨c, List.mem_append_right _ hc, e⟩
        · right; left; exact ⟨c, List.mem_append_right _ hc, e⟩
        · right; right; exact ⟨c, List.mem_append_right _ hc, e⟩
      · have hd : droppedIn calls q = true := by
          by_contra hne
          apply hk
          rw [hkept, List.mem_filter]
          exact ⟨hq, by simpa using hne⟩
        obtain ⟨c, hc, e1, e2⟩ := (droppedIn_iff _ _).mp hd
        right; left
        exact ⟨c, List.mem_append_left _ hc, e1, e2, by rw [(hib c hc).1]; omega⟩

/-! ## The block list has no repetition -/

theorem unreqBlocks_nodup (t : Torrent) (p : Nat) : (unreqBlocks t p).Nodup :=
  (List.nodup_range' _ _).filter _

theorem reqBlocks_nodup (t : Torrent) (p : Nat) : (reqBlocks t p).Nodup :=
  (List.nodup_range' _ _).filter _

theorem tier_unreq_nodup (t : Torrent) (hgeo : GeometryOk t.tor) (pieces : List Nat)
    (hnd : pieces.Nodup) (hpieces : ∀ p ∈ pieces, p < t.tor.info.pieceCount) (s : Nat) :
    ((piecesOfTier t s pieces).flatMap (unreqBlocks t)).Nodup := by
  rw [List.nodup_flatMap]
  refine ⟨fun p _ => unreqBlocks_nodup t p, ?_⟩
  have hf : (piecesOfTier t s pieces).Nodup := hnd.filter _
  refine (List.Nodup.pairwise_of_forall_ne hf ?_)
  intro p hp q hq hne b hbp hbq
  have hp' := hpieces p (List.mem_filter.mp hp).1
  have hq' := hpieces q (List.mem_filter.mp hq).1
  obtain ⟨⟨h1, h2⟩, _⟩ := (mem_unreqBlocks t p b).mp hbp
  obtain ⟨⟨h3, h4⟩, _⟩ := (mem_unreqBlocks t q b).mp hbq
  exact hne ((hgeo p b hp' h1 h2).symm.trans (hgeo q b hq' h3 h4))

theorem tier_req_nodup (t : Torrent) (hgeo : GeometryOk t.tor) (pieces : List Nat)
    (hnd : pieces.Nodup) (hpieces : ∀ p ∈ pieces, p < t.tor.info.pieceCount) (s : Nat) :
    ((piecesOfTier t s pieces).flatMap (reqBlocks t)).Nodup := by
  rw [List.nodup_flatMap]
  refine ⟨fun p _ => reqBlocks_nodup t p, ?_⟩
  have hf : (piecesOfTier t s pieces).Nodup := hnd.filter _
  refine (List.Nodup.pairwise_of_forall_ne hf ?_)
  intro p hp q hq hne b hbp hbq
  have hp' := hpieces p (List.mem_filter.mp hp).1
  have hq' := hpieces q (List.mem_filter.mp hq).1
  obtain ⟨⟨h1, h2⟩, _⟩ := (mem_reqBlocks t p b).mp hbp
  obtain ⟨⟨h3, h4⟩, _⟩ := (mem_reqBlocks t q b).mp hbq
  exact hne ((hgeo p b hp' h1 h2).symm.trans (hgeo q b hq' h3 h4))

theorem preferredBlocksOf_nodup (t : Torrent) (hgeo : GeometryOk t.tor) (pieces : List Nat)
    (hnd : pieces.Nodup) (hpieces : ∀ p ∈ pieces, p < t.tor.info.pieceCount) :
    (preferredBlocksOf t pieces).Nodup := by
  rw [preferredBlocksOf_eq]
  have u := rank_tier_unreq t hgeo pieces hpieces
  have r := rank_tier_req t hgeo pieces hpieces
  have un := tier_unreq_nodup t hgeo pieces hnd hpieces
  have rn := tier_req_nodup t hgeo pieces hnd hpieces
  have step : ∀ (l1 l2 : List Nat) (k : Nat),
      (l1.Nodup ∧ ∀ b ∈ l1, blockRank t b ≤ k) → l2.Nodup →
      (∀ b ∈ l2, blockRank t b = k + 1) →
      ((l1 ++ l2).Nodup ∧ ∀ b ∈ l1 ++ l2, blockRank t b ≤ k + 1) := by
    intro l1 l2 k h1 h2 h3
    refine ⟨List.nodup_append.mpr ⟨h1.1, h2, ?_⟩, ?_⟩
    · intro b hb1 hb2
      have := h1.2 b hb1
      have := h3 b hb2
      omega
    · intro b hb
      rcases List.mem_append.mp hb with h | h
      · exact Nat.le_succ_of_le (h1.2 b h)
      · exact (h3 b h).le
  have h0 : ((piecesOfTier t 2 pieces).flatMap (unreqBlocks t)).Nodup ∧
      ∀ b ∈ (piecesOfTier t 2 pieces).flatMap (unreqBlocks t), blockRank t b ≤ 0 :=
    ⟨un 2, fun b hb => (u 2 b hb).le⟩
  have h1 := step _ _ 0 h0 (rn 2) (fun b hb => r 2 b hb)
  have h2 := step _ _ 1 h1 (un 1) (fun b hb => u 1 b hb)
  have h3 := step _ _ 2 h2 (rn 1) (fun b hb => r 1 b hb)
  have h4 := step _ _ 3 h3 (un 0) (fun b hb => u 0 b hb)
  have h5 := step _ _ 4 h4 (rn 0) (fun b hb => r 0 b hb)
  exact h5.1

theorem getPreferredBlocks_nodup (t : Torrent) (rand16 : Nat → Nat) (hgeo : GeometryOk t.tor) :
    (getPreferredBlocks t rand16).Nodup :=
  preferredBlocksOf_nodup t hgeo _
    ((getPreferredPieces_spec t rand16).1.nodup_iff.mpr (refillPool_nodup t.tor))
    (getPreferredPieces_lt t rand16)

/-- Every block of the list lies in one of the torrent's pieces. -/
theorem getPreferredBlocks_mem (t : Torrent) (rand16 : Nat → Nat) (b : Nat)
    (hb : b ∈ getPreferredBlocks t rand16) :
    ∃ p, p < t.tor.info.pieceCount ∧ t.tor.tr_torPieceFirstBlock p ≤ b ∧
      b < t.tor.tr_torPieceFirstBlock p + t.tor.tr_torPieceCountBlocks p := by
  rw [getPreferredBlocks_bins] at hb
  have hlt := getPreferredPieces_lt t rand16
  simp only [List.mem_append] at hb
  have hu : ∀ s, b ∈ (piecesOfTier t s (getPreferredPieces t rand16)).flatMap (unreqBlocks t) →
      ∃ p, p < t.tor.info.pieceCount ∧ t.tor.tr_torPieceFirstBlock p ≤ b ∧
        b < t.tor.tr_torPieceFirstBlock p + t.tor.tr_torPieceCountBlocks p := by
    intro s h
    obtain ⟨p, hp, _, hbp⟩ := (mem_tier_unreq t s _ b).mp h
    exact ⟨p, hlt p hp, ((mem_unreqBlocks t p b).mp hbp).1⟩
  have hr : ∀ s, b ∈ (piecesOfTier t s (getPreferredPieces t rand16)).flatMap (reqBlocks t) →
      ∃ p, p < t.tor.info.pieceCount ∧ t.tor.tr_torPieceFirstBlock p ≤ b ∧
        b < t.tor.tr_torPieceFirstBlock p + t.tor.tr_torPieceCountBlocks p := by
    intro s h
    obtain ⟨p, hp, _, hbp⟩ := (mem_tier_req t s _ b).mp h
    exact ⟨p, hlt p hp, ((mem_reqBlocks t p b).mp hbp).1⟩
  rcases hb with ((((h | h) | h) | h) | h) | h
  · exact hu 2 h
  · exact hr 2 h
  · exact hu 1 h
  · exact hr 1 h
  · exact hu 0 h
  · exact hr 0 h

/-! ## The refill pulse -/

theorem getPeersUploadingToClient_perm (t : Torrent) (rot : Nat) :
    (getPeersUploadingToClient t rot).Perm (t.peers.filter clientIsDownloadingFrom) := by
  unfold getPeersUploadingToClient
  simp only
  split
  · have h : ((t.peers.filter clientIsDownloadingFrom).drop rot ++
        (t.peers.filter clientIsDownloadingFrom).take rot).Perm
        ((t.peers.filter clientIsDownloadingFrom).take rot ++
          (t.peers.filter clientIsDownloadingFrom).drop rot) := List.perm_append_comm
    rw [List.take_append_drop] at h
    exact h
  · exact List.Perm.refl _

theorem getPeersUploadingToClient_nodup (t : Torrent) (rot : Nat) (h : t.peers.Nodup) :
    (getPeersUploadingToClient t rot).Nodup :=
  (getPeersUploadingToClient_perm t rot).nodup_iff.mpr (h.filter _)

theorem refillPulse_running {σ : Type} (m : MsgLayer σ) (t : Torrent) (rand16 : Nat → Nat)
    (rot : Nat) (s : σ) (hrun : t.isRunning = true) (hseed : t.tor.tr_torrentIsSeed = false) :
    refillPulse m t rand16 rot s =
      { t := { t with
                requested := (refillLoop m t.tor 0 (getPreferredBlocks t rand16)
                  (getPeersUploadingToClient t rot) t.requested s).requested
                refillTimer := false }
        ret := false
        calls := (refillLoop m t.tor 0 (getPreferredBlocks t rand16)
          (getPeersUploadingToClient t rot) t.requested s).calls
        peers := (refillLoop m t.tor 0 (getPreferredBlocks t rand16)
          (getPeersUploadingToClient t rot) t.requested s).peers
        i := (refillLoop m t.tor 0 (getPreferredBlocks t rand16)
          (getPeersUploadingToClient t rot) t.requested s).i
        msgs := (refillLoop m t.tor 0 (getPreferredBlocks t rand16)
          (getPeersUploadingToClient t rot) t.requested s).msgs } := by
  unfold refillPulse
  simp [hrun, hseed]

/-- C7: for a running torrent that is not a seed, `refillPulse` clears no bit of
`requested`; the bits set afterwards are those set before and those of the
blocks for which a call of `tr_peerMsgsAddRequest` was answered
`TR_ADDREQ_OK`; after such an answer no later call of the pulse is for that
block, and no block gets two such answers. -/
theorem C7_refillPulse_requested {σ : Type} (m : MsgLayer σ) (t : Torrent)
    (rand16 : Nat → Nat) (rot : Nat) (s : σ)
    (hrun : t.isRunning = true) (hseed : t.tor.tr_torrentIsSeed = false)
    (hgeo : GeometryOk t.tor) (hwf : t.requested.wf)
    (hbits : ∀ p, p < t.tor.info.pieceCount →
      t.tor.tr_torPieceFirstBlock p + t.tor.tr_torPieceCountBlocks p ≤ t.requested.bitCount)
    (hpeers : t.peers.Nodup) :
    (∀ b, tr_bitfieldHas t.requested b = true →
      tr_bitfieldHas (refillPulse m t rand16 rot s).t.requested b = true) ∧
    (∀ b, tr_bitfieldHas (refillPulse m t rand16 rot s).t.requested b = true ↔
      (tr_bitfieldHas t.requested b = true ∨
        ∃ c ∈ (refillPulse m t rand16 rot s).calls, c.block = b ∧ c.val = .TR_ADDREQ_OK)) ∧
    (∀ (n1 n2 : Nat) (h1 : n1 < (refillPulse m t rand16 rot s).calls.length)
      (h2 : n2 < (refillPulse m t rand16 rot s).calls.length), n1 < n2 →
      (refillPulse m t rand16 rot s).calls[n1].val = .TR_ADDREQ_OK →
      (refillPulse m t rand16 rot s).calls[n2].block
        ≠ (refillPulse m t rand16 rot s).calls[n1].block) ∧
    (∀ (n1 n2 : Nat) (h1 : n1 < (refillPulse m t rand16 rot s).calls.length)
      (h2 : n2 < (refillPulse m t rand16 rot s).calls.length),
      (refillPulse m t rand16 rot s).calls[n1].val = .TR_ADDREQ_OK →
      (refillPulse m t rand16 rot s).calls[n2].val = .TR_ADDREQ_OK →
      (refillPulse m t rand16 rot s).calls[n1].block
        = (refillPulse m t rand16 rot s).calls[n2].block → n1 = n2) := by
  rw [refillPulse_running m t rand16 rot s hrun hseed]
  simp only
  have hrot := getPeersUploadingToClient_nodup t rot hpeers
  obtain ⟨hbc, _, hreq⟩ := refillLoop_requested m t.tor (getPreferredBlocks t rand16) 0
    (getPeersUploadingToClient t rot) t.requested s hrot hwf
  obtain ⟨hpw, hcall, _, _⟩ := refillLoop_calls m t.tor (getPreferredBlocks t rand16) 0
    (getPeersUploadingToClient t rot) t.requested s hrot
  have hnd := getPreferredBlocks_nodup t rand16 hgeo
  have hlater : ∀ (n1 n2 : Nat)
      (h1 : n1 < (refillLoop m t.tor 0 (getPreferredBlocks t rand16)
        (getPeersUploadingToClient t rot) t.requested s).calls.length)
      (h2 : n2 < (refillLoop m t.tor 0 (getPreferredBlocks t rand16)
        (getPeersUploadingToClient t rot) t.requested s).calls.length), n1 < n2 →
      (refillLoop m t.tor 0 (getPreferredBlocks t rand16)
        (getPeersUploadingToClient t rot) t.requested s).calls[n1].val = .TR_ADDREQ_OK →
      (refillLoop m t.tor 0 (getPreferredBlocks t rand16)
        (getPeersUploadingToClient t rot) t.requested s).calls[n2].block
        ≠ (refillLoop m t.tor 0 (getPreferredBlocks t rand16)
          (getPeersUploadingToClient t rot) t.requested s).calls[n1].block := by
    intro n1 n2 h1 h2 hlt hv e
    have hp := (List.pairwise_iff_getElem.mp hpw) n1 n2 h1 h2 hlt
    have hi := hp.2.1 hv
    have c1 := hcall _ (List.getElem_mem h1)
    have c2 := hcall _ (List.getElem_mem h2)
    have g1 := c1.2.2.1
    have g2 := c2.2.2.1
    simp only [Nat.sub_zero] at g1 g2
    obtain ⟨k1, hk1⟩ := List.getElem?_eq_some_iff.mp g1
    obtain ⟨k2, hk2⟩ := List.getElem?_eq_some_iff.mp g2
    have := (@List.Nodup.getElem_inj_iff _ _ hnd _ k1 _ k2).mp (by rw [hk1, hk2, e])
    omega
  refine ⟨?_, ?_, hlater, ?_⟩
  · intro b hb
    exact (hreq b).mpr (Or.inl hb)
  · intro b
    rw [hreq b]
    constructor
    · rintro (h | ⟨_, h⟩)
      · exact Or.inl h
      · exact Or.inr h
    · rintro (h | ⟨c, hc, hcb, hv⟩)
      · exact Or.inl h
      · refine Or.inr ⟨?_, c, hc, hcb, hv⟩
        have g := (hcall c hc).2.2.1
        obtain ⟨k, hk⟩ := List.getElem?_eq_some_iff.mp g
        obtain ⟨p, hp, _, hp2⟩ := getPreferredBlocks_mem t rand16 c.block
          (hk ▸ List.getElem_mem k)
        have := hbits p hp
        omega
  · intro n1 n2 h1 h2 hv1 hv2 e
    rcases Nat.lt_trichotomy n1 n2 with h | h | h
    · exact absurd e.symm (hlater n1 n2 h1 h2 h hv1)
    · exact h
    · exact absurd e (hlater n2 n1 h2 h1 h hv2)

theorem dispatchTorrent_geometry : GeometryOk dispatchTorrent.tor := by
  intro p b hp _ _
  simp only [dispatchTorrent] at hp ⊢
  omega

theorem dispatchTorrent_bits : ∀ p, p < dispatchTorrent.tor.info.pieceCount →
    dispatchTorrent.tor.tr_torPieceFirstBlock p + dispatchTorrent.tor.tr_torPieceCountBlocks p
      ≤ dispatchTorrent.requested.bitCount := by
  intro p _
  show 0 + 3 ≤ 3
  decide

/-- C7 on a torrent of three blocks and three peers: blocks 1 and 2 are
accepted by peer 2 and are the bits set afterwards. -/
theorem C7_refillPulse_requested_witness :
    tr_bitfieldMembers (refillPulse scriptedLayer dispatchTorrent (fun _ => 0) 0 0).t.requested
      = [1, 2] ∧
    (∀ b, tr_bitfieldHas (refillPulse scriptedLayer dispatchTorrent (fun _ => 0) 0 0).t.requested b
        = true ↔
      (tr_bitfieldHas dispatchTorrent.requested b = true ∨
        ∃ c ∈ (refillPulse scriptedLayer dispatchTorrent (fun _ => 0) 0 0).calls,
          c.block = b ∧ c.val = .TR_ADDREQ_OK)) :=
  ⟨by decide,
   (C7_refillPulse_requested scriptedLayer dispatchTorrent (fun _ => 0) 0 0 rfl rfl
     dispatchTorrent_geometry (by decide) dispatchTorrent_bits (by decide)).2.1⟩

/-- C8 (as stated, it fails): in the dispatch on a torrent of three blocks and
three peers, the peer at the address 3 answers `TR_ADDREQ_DUPLICATE` for the
first block and stays in the rotation, and the two later blocks are dispatched
without a call to it: the probing of each block starts at the head of the
rotation, where the peer at the address 2 takes the block with
`TR_ADDREQ_OK`, which ends the probing of that block. -/
theorem C8_duplicate_peer_not_probed_again :
    (refillPulse scriptedLayer dispatchTorrent (fun _ => 0) 0 0).calls.map
        (fun c => (c.i, c.peer.in_addr, c.val))
      = [(0, 1, .TR_ADDREQ_FULL), (0, 2, .TR_ADDREQ_MISSING), (0, 3, .TR_ADDREQ_DUPLICATE),
         (1, 2, .TR_ADDREQ_OK), (2, 2, .TR_ADDREQ_OK)] ∧
    (refillPulse scriptedLayer dispatchTorrent (fun _ => 0) 0 0).peers.map (fun p => p.in_addr)
      = [2, 3] ∧
    (refillPulse scriptedLayer dispatchTorrent (fun _ => 0) 0 0).i = 3 ∧
    ((refillPulse scriptedLayer dispatchTorrent (fun _ => 0) 0 0).calls.filter
        (fun c => decide (c.peer.in_addr = 3) && decide (0 < c.i))).length = 0 := by
  refine ⟨by decide, by decide, by decide, by decide⟩

/-- C8 (amended): in the dispatch of one `refillPulse` of a running torrent
that is not a seed, where the rotation is `getPeersUploadingToClient` and the
block list is `getPreferredBlocks`:
* a peer that answers `TR_ADDREQ_CLIENT_CHOKED` or `TR_ADDREQ_FULL` gets no
  later call of the pulse;
* the rotation left at the end is the initial one without the peers that gave
  such an answer, in the same relative order, so a peer that answers
  `TR_ADDREQ_DUPLICATE` or `TR_ADDREQ_MISSING` stays in it;
* a peer that answered `TR_ADDREQ_DUPLICATE` or `TR_ADDREQ_MISSING` is asked
  again for each later block dispatched, unless it has meanwhile left the
  rotation or the block is taken by a `TR_ADDREQ_OK`;
* the loop stops at the end of the block list or with no peer left, and not
  before: every position below the one reached got a call, and calls are made
  only for positions below it, each for the block at its position. -/
theorem C8_refillPulse_rotation {σ : Type} (m : MsgLayer σ) (t : Torrent)
    (rand16 : Nat → Nat) (rot : Nat) (s : σ)
    (hrun : t.isRunning = true) (hseed : t.tor.tr_torrentIsSeed = false)
    (hpeers : t.peers.Nodup) :
    (∀ (n1 n2 : Nat) (h1 : n1 < (refillPulse m t rand16 rot s).calls.length)
      (h2 : n2 < (refillPulse m t rand16 rot s).calls.length), n1 < n2 →
      ((refillPulse m t rand16 rot s).calls[n1].val = .TR_ADDREQ_CLIENT_CHOKED ∨
        (refillPulse m t rand16 rot s).calls[n1].val = .TR_ADDREQ_FULL) →
      (refillPulse m t rand16 rot s).calls[n2].peer
        ≠ (refillPulse m t rand16 rot s).calls[n1].peer) ∧
    ((refillPulse m t rand16 rot s).peers = (getPeersUploadingToClient t rot).filter
      (fun p => !droppedIn (refillPulse m t rand16 rot s).calls p)) ∧
    (∀ p, p ∈ (refillPulse m t rand16 rot s).peers ↔
      (p ∈ getPeersUploadingToClient t rot ∧
        ¬ ∃ c ∈ (refillPulse m t rand16 rot s).calls, c.peer = p ∧
          (c.val = .TR_ADDREQ_CLIENT_CHOKED ∨ c.val = .TR_ADDREQ_FULL))) ∧
    (∀ c ∈ (refillPulse m t rand16 rot s).calls,
      (c.val = .TR_ADDREQ_DUPLICATE ∨ c.val = .TR_ADDREQ_MISSING) →
      ∀ i, c.i < i → i < (refillPulse m t rand16 rot s).i →
        (∃ c2 ∈ (refillPulse m t rand16 rot s).calls, c2.i = i ∧ c2.peer = c.peer) ∨
        (∃ c2 ∈ (refillPulse m t rand16 rot s).calls, c2.peer = c.peer ∧
          (c2.val = .TR_ADDREQ_CLIENT_CHOKED ∨ c2.val = .TR_ADDREQ_FULL) ∧ c2.i < i) ∨
        (∃ c2 ∈ (refillPulse m t rand16 rot s).calls, c2.i = i ∧ c2.val = .TR_ADDREQ_OK)) ∧
    ((refillPulse m t rand16 rot s).i ≤ (getPreferredBlocks t rand16).length ∧
      ((refillPulse m t rand16 rot s).i = (getPreferredBlocks t rand16).length ∨
        (refillPulse m t rand16 rot s).peers = []) ∧
      (∀ i, i < (refillPulse m t rand16 rot s).i →
        ∃ c ∈ (refillPulse m t rand16 rot s).calls, c.i = i) ∧
      (∀ c ∈ (refillPulse m t rand16 rot s).calls,
        c.i < (refillPulse m t rand16 rot s).i ∧
        (getPreferredBlocks t rand16)[c.i]? = some c.block ∧
        c.peer ∈ getPeersUploadingToClient t rot)) := by
  rw [refillPulse_running m t rand16 rot s hrun hseed]
  simp only
  have hrot := getPeersUploadingToClient_nodup t rot hpeers
  obtain ⟨hpw, hcall, hfin, _, hle, hstop, hall⟩ := refillLoop_calls m t.tor
    (getPreferredBlocks t rand16) 0 (getPeersUploadingToClient t rot) t.requested s hrot
  have hprobe := refillLoop_probed m t.tor (getPreferredBlocks t rand16) 0
    (getPeersUploadingToClient t rot) t.requested s hrot
  have hdrops : ∀ v : AddReq, v.drops = true ↔
      (v = .TR_ADDREQ_CLIENT_CHOKED ∨ v = .TR_ADDREQ_FULL) := by
    intro v; cases v <;> simp [AddReq.drops]
  refine ⟨?_, hfin, ?_, ?_, ?_, ?_, ?_, ?_⟩
  · intro n1 n2 h1 h2 hlt hv
    exact ((List.pairwise_iff_getElem.mp hpw) n1 n2 h1 h2 hlt).2.2 ((hdrops _).mpr hv)
  · intro p
    rw [hfin, List.mem_filter]
    have : (!droppedIn (refillLoop m t.tor 0 (getPreferredBlocks t rand16)
        (getPeersUploadingToClient t rot) t.requested s).calls p) = true ↔
        ¬ ∃ c ∈ (refillLoop m t.tor 0 (getPreferredBlocks t rand16)
          (getPeersUploadingToClient t rot) t.requested s).calls, c.peer = p ∧
          (c.val = .TR_ADDREQ_CLIENT_CHOKED ∨ c.val = .TR_ADDREQ_FULL) := by
      rw [Bool.not_eq_true', ← Bool.not_eq_true, droppedIn_iff]
      simp only [hdrops]
    rw [this]
  · intro c hc _ i h1 h2
    rcases hprobe c.peer (hcall c hc).2.2.2 i (Nat.zero_le _) h2 with
      ⟨c2, hc2, e⟩ | ⟨c2, hc2, e1, e2, e3⟩ | ⟨c2, hc2, e⟩
    · exact Or.inl ⟨c2, hc2, e⟩
    · exact Or.inr (Or.inl ⟨c2, hc2, e1, (hdrops _).mp e2, e3⟩)
    · exact Or.inr (Or.inr ⟨c2, hc2, e⟩)
  · simpa using hle
  · simpa using hstop
  · intro i hi
    exact hall i (Nat.zero_le _) hi
  · intro c hc
    have := hcall c hc
    exact ⟨this.2.1, by simpa using this.2.2.1, this.2.2.2⟩

/-- C8 (amended) on a torrent of three blocks and three peers: peer 1 answers
`TR_ADDREQ_FULL` for the first block and leaves the rotation, peers 2 and 3
stay, and the loop runs to the end of the block list. -/
theorem C8_refillPulse_rotation_witness :
    (refillPulse scriptedLayer dispatchTorrent (fun _ => 0) 0 0).calls.map
        (fun c => (c.i, c.block, c.peer.in_addr, c.val))
      = [(0, 0, 1, .TR_ADDREQ_FULL), (0, 0, 2, .TR_ADDREQ_MISSING),
         (0, 0, 3, .TR_ADDREQ_DUPLICATE), (1, 1, 2, .TR_ADDREQ_OK), (2, 2, 2, .TR_ADDREQ_OK)] ∧
    (refillPulse scriptedLayer dispatchTorrent (fun _ => 0) 0 0).peers.map (fun p => p.in_addr)
      = [2, 3] ∧
    (refillPulse scriptedLayer dispatchTorrent (fun _ => 0) 0 0).i = 3 ∧
    ((refillPulse scriptedLayer dispatchTorrent (fun _ => 0) 0 0).peers =
      (getPeersUploadingToClient dispatchTorrent 0).filter
        (fun p => !droppedIn (refillPulse scriptedLayer dispatchTorrent (fun _ => 0) 0 0).calls p)) :=
  ⟨by decide, by decide, by decide,
   (C8_refillPulse_rotation scriptedLayer dispatchTorrent (fun _ => 0) 0 0 rfl rfl
     (by decide)).2.1⟩

/-! ## Rechoke -/

theorem compareChoke_le_iff (a b : ChokeData) : compareChoke a b ≤ 0 ↔ b.rate ≤ a.rate := by
  unfold compareChoke tr_compareUint32
  split_ifs <;> simp <;> omega

theorem rechokeSorted_perm (t : Torrent) :
    (rechokeSorted t).Perm (rechokeNodes (getConnectedPeers t) t.tor.tr_torrentIsSeed) :=
  qsort_perm _ _

theorem rechokeSorted_sorted (t : Torrent) :
    (rechokeSorted t).Pairwise (fun a b => b.rate ≤ a.rate) := by
  have h := qsort_sorted compareChoke
    (fun a b => by rw [compareChoke_le_iff, compareChoke_le_iff]; omega)
    (fun a b c => by rw [compareChoke_le_iff, compareChoke_le_iff, compareChoke_le_iff]; omega)
    (rechokeNodes (getConnectedPeers t) t.tor.tr_torrentIsSeed)
  exact h.imp (fun h => (compareChoke_le_iff _ _).mp h)

theorem rankWalk_spec : ∀ (u : Nat) (l : List ChokeData),
    (rankWalk u l).1 = (l.take (rankWalk u l).2).map markUnchoke ++ l.drop (rankWalk u l).2 ∧
    (rankWalk u l).2 ≤ l.length ∧
    (∀ k, k < (rankWalk u l).2 ↔
      (k < l.length ∧ u + (l.take k).countP (fun c => c.isInterested) < MAX_UNCHOKED_PEERS)) ∧
    (u ≤ MAX_UNCHOKED_PEERS →
      u + (l.take (rankWalk u l).2).countP (fun c => c.isInterested) ≤ MAX_UNCHOKED_PEERS)
  | u, [] => by simp [rankWalk]
  | u, c :: rest => by
    unfold rankWalk
    by_cases hu : u < MAX_UNCHOKED_PEERS
    · simp only [hu, if_true]
      obtain ⟨h1, h2, h3, h4⟩ := rankWalk_spec (if c.isInterested then u + 1 else u) rest
      refine ⟨?_, ?_, ?_, ?_⟩
      · simp only [List.take_succ_cons, List.map_cons, List.drop_succ_cons, List.cons_append]
        rw [← h1]; rfl
      · simp only [List.length_cons]; omega
      · intro k
        cases k with
        | zero => simp [hu]
        | succ j =>
          simp only [List.length_cons, List.take_succ_cons, List.countP_cons,
            Nat.add_lt_add_iff_right]
          rw [h3 j]
          cases c.isInterested
          · simp
          · simp only [if_true, Nat.add_zero, and_congr_right_iff]
            intro _
            omega
      · intro _
        simp only [List.take_succ_cons, List.countP_cons]
        have := h4 (by split <;> omega)
        cases hc : c.isInterested <;> simp [hc] at this ⊢ <;> omega
    · simp only [hu, if_false, List.take_zero, List.map_nil, List.drop_zero, List.nil_append,
        List.countP_nil, Nat.add_zero, true_and]
      refine ⟨Nat.zero_le _, ?_, fun h => h⟩
      intro k
      constructor
      · intro h; omega
      · rintro ⟨_, h⟩; omega

theorem marked_prefix_get (l : List ChokeData) (n : Nat) (hn : n ≤ l.length)
    (hun : ∀ c ∈ l, c.doUnchoke = false) (k : Nat) (x : ChokeData)
    (hx : ((l.take n).map markUnchoke ++ l.drop n)[k]? = some x) :
    x.doUnchoke = true ↔ k < n := by
  have hlen : ((l.take n).map markUnchoke).length = n := by
    rw [List.length_map, List.length_take]; omega
  by_cases hlt : k < n
  · rw [List.getElem?_append_left (by rw [hlen]; exact hlt), List.getElem?_map] at hx
    obtain ⟨y, _, hy⟩ := Option.map_eq_some'.mp hx
    rw [← hy]
    simp [markUnchoke, hlt]
  · rw [List.getElem?_append_right (by rw [hlen]; omega)] at hx
    have hmem : x ∈ l := List.mem_of_mem_drop (List.getElem?_mem hx)
    simp [hun x hmem, hlt]

theorem rechokeNodes_unmarked (peers : List tr_peer) (seed : Bool) :
    ∀ c ∈ rechokeNodes peers seed, c.doUnchoke = false := by
  intro c hc
  unfold rechokeNodes at hc
  obtain ⟨p, _, rfl⟩ := List.mem_map.mp hc
  rfl

/-- C10: in `rechoke`, the nodes of the non-seed peers are sorted by descending
weighted rate, and the rank walk marks `doUnchoke` on a prefix of them and on
nothing else; the prefix holds at most 12 (`MAX_UNCHOKED_PEERS`) interested
peers; it is the whole list when fewer than 12 peers are interested; and it
holds every peer, interested or not, that has fewer than 12 interested peers
ranked above it, so every non-interested peer above the 12th interested
one. -/
theorem C10_rankWalk_prefix (t : Torrent) (tr_rand : Nat → Nat) :
    (rechokeSorted t).Perm (rechokeNodes (getConnectedPeers t) t.tor.tr_torrentIsSeed) ∧
    (rechokeSorted t).Pairwise (fun a b => b.rate ≤ a.rate) ∧
    (rechoke t tr_rand).walked = (rankWalk 0 (rechokeSorted t)).2 ∧
    (rankWalk 0 (rechokeSorted t)).1 =
      ((rechokeSorted t).take (rankWalk 0 (rechokeSorted t)).2).map markUnchoke ++
        (rechokeSorted t).drop (rankWalk 0 (rechokeSorted t)).2 ∧
    (∀ (k : Nat) (h : k < (rankWalk 0 (rechokeSorted t)).1.length),
      (rankWalk 0 (rechokeSorted t)).1[k].doUnchoke = true ↔
        k < (rankWalk 0 (rechokeSorted t)).2) ∧
    ((rechokeSorted t).take (rankWalk 0 (rechokeSorted t)).2).countP (fun c => c.isInterested)
      ≤ MAX_UNCHOKED_PEERS ∧
    ((rechokeSorted t).countP (fun c => c.isInterested) < MAX_UNCHOKED_PEERS →
      (rankWalk 0 (rechokeSorted t)).2 = (rechokeSorted t).length) ∧
    (∀ k, k < (rankWalk 0 (rechokeSorted t)).2 ↔
      (k < (rechokeSorted t).length ∧
        ((rechokeSorted t).take k).countP (fun c => c.isInterested) < MAX_UNCHOKED_PEERS)) := by
  obtain ⟨h1, h2, h3, h4⟩ := rankWalk_spec 0 (rechokeSorted t)
  simp only [Nat.zero_add] at h3 h4
  have hun : ∀ c ∈ rechokeSorted t, c.doUnchoke = false := fun c hc =>
    rechokeNodes_unmarked _ _ c ((rechokeSorted_perm t).mem_iff.mp hc)
  refine ⟨rechokeSorted_perm t, rechokeSorted_sorted t, rfl, h1, ?_, h4 (Nat.zero_le _), ?_, h3⟩
  · intro k hk
    have hx := List.getElem?_eq_getElem hk
    generalize (rankWalk 0 (rechokeSorted t)).1[k] = x at hx ⊢
    rw [h1] at hx
    exact marked_prefix_get _ _ h2 hun k x hx
  · intro hcnt
    by_contra hne
    have hlt : (rankWalk 0 (rechokeSorted t)).2 < (rechokeSorted t).length := by omega
    have := (h3 (rankWalk 0 (rechokeSorted t)).2).not.mp (Nat.lt_irrefl _)
    apply this
    refine ⟨hlt, lt_of_le_of_lt ?_ hcnt⟩
    exact (List.take_sublist _ _).countP_le _

/-! ## Rechoke with every peer interested -/

theorem sorted_count_index {α : Type} (f : α → Nat) :
    ∀ (l : List α), l.Pairwise (fun a b => f b < f a) → ∀ (k : Nat) (x : α), l[k]? = some x →
      l.countP (fun y => decide (f x < f y)) = k
  | [], _, k, x, h => by simp at h
  | a :: l, hpw, k, x, h => by
    rw [List.pairwise_cons] at hpw
    cases k with
    | zero =>
      simp only [List.getElem?_cons_zero, Option.some.injEq] at h
      subst h
      rw [List.countP_eq_zero]
      intro y hy
      rcases List.mem_cons.mp hy with e | e
      · subst e; simp
      · have := hpw.1 y e
        simp only [decide_eq_true_eq]; omega
    | succ j =>
      simp only [List.getElem?_cons_succ] at h
      have ih := sorted_count_index f l hpw.2 j x h
      have hx : f x < f a := hpw.1 x (List.getElem?_mem h)
      rw [List.countP_cons, ih]
      simp [hx]

theorem rechokeRandPool_zero (choke : List ChokeData) (i : Nat) :
    ∀ x ∈ rechokeRandPool choke i, x = 0 := by
  intro x hx
  unfold rechokeRandPool at hx
  obtain ⟨c, _, hc⟩ := List.mem_flatMap.mp hx
  exact (List.mem_replicate.mp hc).2

theorem countP_interested_all (l : List ChokeData) (h : ∀ c ∈ l, c.isInterested = true) :
    l.countP (fun c => c.isInterested) = l.length := by
  rw [List.countP_eq_length]
  exact h

theorem rankWalk_all_interested (l : List ChokeData) (h : ∀ c ∈ l, c.isInterested = true)
    (hlen : MAX_UNCHOKED_PEERS < l.length) : (rankWalk 0 l).2 = MAX_UNCHOKED_PEERS := by
  obtain ⟨_, h2, h3, _⟩ := rankWalk_spec 0 l
  have hc : ∀ k, k ≤ l.length → (l.take k).countP (fun c => c.isInterested) = k := by
    intro k hk
    rw [countP_interested_all _ (fun c hc => h c (List.mem_of_mem_take hc)), List.length_take]
    omega
  have ha := (h3 MAX_UNCHOKED_PEERS)
  rw [hc _ (Nat.le_of_lt hlen)] at ha
  have hb := (h3 (MAX_UNCHOKED_PEERS - 1))
  rw [hc _ (by omega)] at hb
  have hpos : 0 < MAX_UNCHOKED_PEERS := by decide
  have h1 : ¬ (MAX_UNCHOKED_PEERS < (rankWalk 0 l).2) := by
    rw [ha]; omega
  have h2 : MAX_UNCHOKED_PEERS - 1 < (rankWalk 0 l).2 := by
    rw [hb]; omega
  omega

/-- The nodes of `rechoke` when no connected peer is a seed. -/
theorem rechokeNodes_no_seed (t : Torrent)
    (h1 : ∀ p ∈ getConnectedPeers t, p.progress < 1) :
    rechokeSeedCalls (getConnectedPeers t) = [] ∧
    rechokeNodes (getConnectedPeers t) t.tor.tr_torrentIsSeed =
      (getConnectedPeers t).map (fun peer =>
        { peer := peer, isInterested := peer.peerIsInterested, rate := chokeRate t peer }) := by
  unfold rechokeSeedCalls rechokeNodes
  constructor
  · rw [List.map_eq_nil_iff, List.filter_eq_nil_iff]
    intro p hp
    have := h1 p hp
    simp only [ge_iff_le, decide_eq_true_eq, not_le]
    exact this
  · rw [List.filter_eq_self.mpr]
    · rfl
    · intro p hp
      have := h1 p hp
      simp only [ge_iff_le, Bool.not_eq_true', decide_eq_false_iff_not, not_le]
      exact this

/-- The calls of `rechoke` when no connected peer is a seed, all are interested
and there are more than 12 of them: the first 12 of the sorted nodes are
unchoked, the others choked. -/
theorem rechoke_calls_all_interested (t : Torrent) (tr_rand : Nat → Nat)
    (h1 : ∀ p ∈ getConnectedPeers t, p.progress < 1)
    (h2 : ∀ p ∈ getConnectedPeers t, p.peerIsInterested = true)
    (h3 : MAX_UNCHOKED_PEERS < (getConnectedPeers t).length) :
    (rechoke t tr_rand).calls =
      ((rechokeSorted t).take MAX_UNCHOKED_PEERS).map (fun c => { peer := c.peer, choke := false })
      ++ ((rechokeSorted t).drop MAX_UNCHOKED_PEERS).map
        (fun c => { peer := c.peer, choke := true }) := by
  obtain ⟨hseed, hnodes⟩ := rechokeNodes_no_seed t h1
  have hperm := rechokeSorted_perm t
  rw [hnodes] at hperm
  have hmem : ∀ c ∈ rechokeSorted t, c.isInterested = true ∧ c.doUnchoke = false := by
    intro c hc
    obtain ⟨p, hp, rfl⟩ := List.mem_map.mp (hperm.mem_iff.mp hc)
    exact ⟨h2 p hp, rfl⟩
  have hlen : (rechokeSorted t).length = (getConnectedPeers t).length := by
    rw [hperm.length_eq, List.length_map]
  have hwalk := rankWalk_all_interested (rechokeSorted t) (fun c hc => (hmem c hc).1)
    (by rw [hlen]; exact h3)
  have hchoke := (rankWalk_spec 0 (rechokeSorted t)).1
  rw [hwalk] at hchoke
  -- the optimistic slot names node 0, which the walk has marked
  have hmod : ∀ c, rechokeOptimistic (rankWalk 0 (rechokeSorted t)).1
        (rankWalk 0 (rechokeSorted t)).2 tr_rand = some c →
      (rankWalk 0 (rechokeSorted t)).1.modify (fun node => { node with doUnchoke := true }) c
        = (rankWalk 0 (rechokeSorted t)).1 := by
    intro c hc
    unfold rechokeOptimistic at hc
    split at hc
    · have hc0 : c = 0 := rechokeRandPool_zero _ _ c (List.getElem?_mem hc)
      subst hc0
      rw [hchoke]
      match hs : rechokeSorted t with
      | [] => rfl
      | a :: l => rfl
    · simp at hc
  have hcalls : (rechoke t tr_rand).calls =
      (rankWalk 0 (rechokeSorted t)).1.map
        (fun node => { peer := node.peer, choke := !node.doUnchoke }) := by
    unfold rechoke
    simp only [hseed, List.nil_append]
    cases hopt : rechokeOptimistic (rankWalk 0 (rechokeSorted t)).1
        (rankWalk 0 (rechokeSorted t)).2 tr_rand with
    | none => rfl
    | some c => simp only [hmod c hopt]
  rw [hcalls, hchoke, List.map_append, List.map_map]
  congr 1
  apply List.map_congr_left
  intro c hc
  simp [(hmem c (List.mem_of_mem_drop hc)).2]

/-- C9: for a torrent whose connected peers are all non-seeds (progress below
1.0), all peer-interested, more than 12 in number and of pairwise distinct
weighted rates, `rechoke` makes exactly one call of `tr_peerMsgsSetChoke` per
connected peer; the call is `setChoke (false)` exactly for the peers that
have fewer than 12 connected peers of higher rate, that is for the 12 peers of
highest rate, and `setChoke (true)` for every other peer. -/
theorem C9_rechoke_cap (t : Torrent) (tr_rand : Nat → Nat)
    (h1 : ∀ p ∈ getConnectedPeers t, p.progress < 1)
    (h2 : ∀ p ∈ getConnectedPeers t, p.peerIsInterested = true)
    (h3 : 12 < (getConnectedPeers t).length)
    (h4 : ((getConnectedPeers t).map (chokeRate t)).Nodup) :
    ((rechoke t tr_rand).calls.map (fun c => c.peer)).Perm (getConnectedPeers t) ∧
    (∀ c ∈ (rechoke t tr_rand).calls, c.choke = false ↔
      (getConnectedPeers t).countP (fun q => decide (chokeRate t c.peer < chokeRate t q)) < 12) ∧
    ((rechoke t tr_rand).calls.filter (fun c => !c.choke)).length = 12 ∧
    ((rechoke t tr_rand).calls.filter (fun c => c.choke)).length
      = (getConnectedPeers t).length - 12 := by
  have hcalls := rechoke_calls_all_interested t tr_rand h1 h2 h3
  obtain ⟨_, hnodes⟩ := rechokeNodes_no_seed t h1
  have hperm := rechokeSorted_perm t
  rw [hnodes] at hperm
  have hlen : (rechokeSorted t).length = (getConnectedPeers t).length := by
    rw [hperm.length_eq, List.length_map]
  have hrate : ∀ c ∈ rechokeSorted t, c.rate = chokeRate t c.peer := by
    intro c hc
    obtain ⟨p, _, rfl⟩ := List.mem_map.mp (hperm.mem_iff.mp hc)
    rfl
  have hpeers : ((rechokeSorted t).map (fun c => c.peer)).Perm (getConnectedPeers t) := by
    have := hperm.map (fun c => c.peer)
    rw [List.map_map] at this
    have hid : ((fun c : ChokeData => c.peer) ∘ fun peer : tr_peer =>
        ({ peer := peer, isInterested := peer.peerIsInterested, rate := chokeRate t peer }
          : ChokeData)) = id := by
      funext p; rfl
    rwa [hid, List.map_id] at this
  have hrates : ((rechokeSorted t).map (fun c => c.rate)).Nodup := by
    have := hperm.map (fun c => c.rate)
    rw [List.map_map] at this
    have hid : ((fun c : ChokeData => c.rate) ∘ fun peer : tr_peer =>
        ({ peer := peer, isInterested := peer.peerIsInterested, rate := chokeRate t peer }
          : ChokeData)) = chokeRate t := by
      funext p; rfl
    rw [hid] at this
    exact this.nodup_iff.mpr h4
  have hstrict : (rechokeSorted t).Pairwise (fun a b => b.rate < a.rate) := by
    have hne : (rechokeSorted t).Pairwise (fun a b => a.rate ≠ b.rate) :=
      List.pairwise_map.mp hrates
    exact ((rechokeSorted_sorted t).and hne).imp (fun h => by omega)
  have hcount : ∀ (k : Nat) (x : ChokeData), (rechokeSorted t)[k]? = some x →
      (getConnectedPeers t).countP (fun q => decide (chokeRate t x.peer < chokeRate t q)) = k := by
    intro k x hx
    have hk := sorted_count_index (fun c : ChokeData => c.rate) _ hstrict k x hx
    rw [hperm.countP_eq, List.countP_map] at hk
    rw [← hk]
    apply List.countP_congr
    intro q _
    simp only [Function.comp, hrate x (List.getElem?_mem hx)]
  rw [hcalls]
  have hmax : MAX_UNCHOKED_PEERS = 12 := rfl
  refine ⟨?_, ?_, ?_, ?_⟩
  · rw [List.map_append, List.map_map, List.map_map]
    have e1 : ((fun c : ChokeCall => c.peer) ∘ fun c : ChokeData =>
        ({ peer := c.peer, choke := false } : ChokeCall)) = fun c => c.peer := rfl
    have e2 : ((fun c : ChokeCall => c.peer) ∘ fun c : ChokeData =>
        ({ peer := c.peer, choke := true } : ChokeCall)) = fun c => c.peer := rfl
    rw [e1, e2, ← List.map_append, List.take_append_drop]
    exact hpeers
  · intro c hc
    rcases List.mem_append.mp hc with h | h
    · obtain ⟨x, hx, rfl⟩ := List.mem_map.mp h
      obtain ⟨k, hk⟩ := List.mem_iff_getElem?.mp hx
      rw [List.getElem?_take] at hk
      split at hk
      · rename_i hlt
        simp only [true_iff]
        rw [hcount k x hk]
        omega
      · simp at hk
    · obtain ⟨x, hx, rfl⟩ := List.mem_map.mp h
      obtain ⟨k, hk⟩ := List.mem_iff_getElem?.mp hx
      rw [List.getElem?_drop] at hk
      simp only [Bool.true_eq_false, false_iff, not_lt]
      rw [hcount _ x hk]
      omega
  · have e1 : (((rechokeSorted t).take MAX_UNCHOKED_PEERS).map
        (fun c => ({ peer := c.peer, choke := false } : ChokeCall))).filter (fun c => !c.choke)
        = ((rechokeSorted t).take MAX_UNCHOKED_PEERS).map
          (fun c => ({ peer := c.peer, choke := false } : ChokeCall)) :=
      List.filter_eq_self.mpr (fun c hc => by
        obtain ⟨x, _, rfl⟩ := List.mem_map.mp hc
        rfl)
    have e2 : (((rechokeSorted t).drop MAX_UNCHOKED_PEERS).map
        (fun c => ({ peer := c.peer, choke := true } : ChokeCall))).filter (fun c => !c.choke)
        = [] :=
      List.filter_eq_nil_iff.mpr (fun c hc => by
        obtain ⟨x, _, rfl⟩ := List.mem_map.mp hc
        simp)
    rw [List.filter_append, e1, e2, List.append_nil, List.length_map, List.length_take]
    omega
  · have e1 : (((rechokeSorted t).take MAX_UNCHOKED_PEERS).map
        (fun c => ({ peer := c.peer, choke := false } : ChokeCall))).filter (fun c => c.choke)
        = [] :=
      List.filter_eq_nil_iff.mpr (fun c hc => by
        obtain ⟨x, _, rfl⟩ := List.mem_map.mp hc
        simp)
    have e2 : (((rechokeSorted t).drop MAX_UNCHOKED_PEERS).map
        (fun c => ({ peer := c.peer, choke := true } : ChokeCall))).filter (fun c => c.choke)
        = ((rechokeSorted t).drop MAX_UNCHOKED_PEERS).map
          (fun c => ({ peer := c.peer, choke := true } : ChokeCall)) :=
      List.filter_eq_self.mpr (fun c hc => by
        obtain ⟨x, _, rfl⟩ := List.mem_map.mp hc
        rfl)
    rw [List.filter_append, e1, e2, List.nil_append, List.length_map, List.length_drop]
    omega

/-- C9 on twenty interested peers with the rates 0, 10, ..., 190: the twelve
of highest rate get `setChoke (false)`, the other eight `setChoke (true)`. -/
theorem C9_rechoke_cap_witness :
    (rechoke twentyPeers (fun _ => 0)).calls.map (fun c => (c.peer.in_addr, c.choke)) =
      [(19, false), (18, false), (17, false), (16, false), (15, false), (14, false),
       (13, false), (12, false), (11, false), (10, false), (9, false), (8, false),
       (7, true), (6, true), (5, true), (4, true), (3, true), (2, true), (1, true),
       (0, true)] ∧
    ((rechoke twentyPeers (fun _ => 0)).calls.filter (fun c => !c.choke)).length = 12 ∧
    ((rechoke twentyPeers (fun _ => 0)).calls.filter (fun c => c.choke)).length
      = (getConnectedPeers twentyPeers).length - 12 :=
  ⟨by decide!,
   (C9_rechoke_cap twentyPeers (fun _ => 0) (by decide!) (by decide!) (by decide!)
     (by decide!)).2.2⟩

/-! ## The optimistic slot -/

/-- The optimistic slot of `rechoke` names node 0 of the array, the top of the
ranking, or nothing. -/
theorem rechoke_optimistic_top (t : Torrent) (tr_rand : Nat → Nat) :
    (rechoke t tr_rand).t.optimistic = t.optimistic ∨
    (rechoke t tr_rand).t.optimistic
      = ((rankWalk 0 (rechokeSorted t)).1[0]?).map (fun node => node.peer) := by
  unfold rechoke
  simp only
  cases hopt : rechokeOptimistic (rankWalk 0 (rechokeSorted t)).1
      (rankWalk 0 (rechokeSorted t)).2 tr_rand with
  | none => left; rfl
  | some c =>
    right
    unfold rechokeOptimistic at hopt
    split at hopt
    · have hc0 : c = 0 := rechokeRandPool_zero _ _ c (List.getElem?_mem hopt)
      subst hc0
      rfl
    · simp at hopt

/-- With a draw inside the pool, the optimistic slot of `rechoke` names node 0
whenever the rank walk stops before the end of the array. -/
theorem rechoke_optimistic_top_of_draw (t : Torrent) (tr_rand : Nat → Nat)
    (hdraw : ∀ n, 0 < n → tr_rand n < n)
    (hleft : (rankWalk 0 (rechokeSorted t)).2 < (rankWalk 0 (rechokeSorted t)).1.length) :
    (rechoke t tr_rand).t.optimistic
      = ((rankWalk 0 (rechokeSorted t)).1[0]?).map (fun node => node.peer) := by
  have hpool : 0 < (rechokeRandPool (rankWalk 0 (rechokeSorted t)).1
      (rankWalk 0 (rechokeSorted t)).2).length := by
    unfold rechokeRandPool
    obtain ⟨c, hc⟩ := List.exists_mem_of_ne_nil ((rankWalk 0 (rechokeSorted t)).1.drop
      (rankWalk 0 (rechokeSorted t)).2) (by
        intro h
        have := congrArg List.length h
        simp only [List.length_drop, List.length_nil] at this
        omega)
    apply List.length_pos_of_mem (a := 0)
    rw [List.mem_flatMap]
    refine ⟨c, hc, ?_⟩
    rw [List.mem_replicate]
    refine ⟨?_, rfl⟩
    split <;> split <;> decide
  have hsome : ∃ c, rechokeOptimistic (rankWalk 0 (rechokeSorted t)).1
      (rankWalk 0 (rechokeSorted t)).2 tr_rand = some c := by
    unfold rechokeOptimistic
    rw [if_pos hleft]
    exact ⟨_, List.getElem?_eq_getElem (hdraw _ hpool)⟩
  obtain ⟨c, hopt⟩ := hsome
  have hc0 : c = 0 := by
    have h := hopt
    unfold rechokeOptimistic at h
    rw [if_pos hleft] at h
    exact rechokeRandPool_zero _ _ c (List.getElem?_mem h)
  subst hc0
  unfold rechoke
  simp only [hopt]

/-- C11 (defect of the code): with twenty interested non-seed peers of rates
0, 10, ..., 190, the rank walk stops after 12 nodes and leaves the peers 7 to
0 without an unchoke; whatever the random generator draws inside the pool,
the peer recorded as optimistic is peer 19, the top of the ranking, which is
not one of the left-over peers, and every left-over peer is sent
`setChoke (true)`. -/
theorem C11_optimistic_slot_is_top_peer (tr_rand : Nat → Nat)
    (hdraw : ∀ n, 0 < n → tr_rand n < n) :
    (rechoke twentyPeers tr_rand).walked = 12 ∧
    ((rechoke twentyPeers tr_rand).choke.drop 12).map (fun node => node.peer.in_addr)
      = [7, 6, 5, 4, 3, 2, 1, 0] ∧
    (rechoke twentyPeers tr_rand).t.optimistic.map (fun peer => peer.in_addr) = some 19 ∧
    (rechoke twentyPeers tr_rand).calls.map (fun c => (c.peer.in_addr, c.choke)) =
      [(19, false), (18, false), (17, false), (16, false), (15, false), (14, false),
       (13, false), (12, false), (11, false), (10, false), (9, false), (8, false),
       (7, true), (6, true), (5, true), (4, true), (3, true), (2, true), (1, true),
       (0, true)] := by
  have hcalls := rechoke_calls_all_interested twentyPeers tr_rand (by decide!) (by decide!)
    (by decide!)
  have hleft : (rankWalk 0 (rechokeSorted twentyPeers)).2
      < (rankWalk 0 (rechokeSorted twentyPeers)).1.length := by decide!
  have hopt := rechoke_optimistic_top_of_draw twentyPeers tr_rand hdraw hleft
  refine ⟨?_, ?_, ?_, ?_⟩
  · show (rankWalk 0 (rechokeSorted twentyPeers)).2 = 12
    decide!
  · have hchoke : (rechoke twentyPeers tr_rand).choke
        = (rankWalk 0 (rechokeSorted twentyPeers)).1 := by
      have hsome : ∃ c, rechokeOptimistic (rankWalk 0 (rechokeSorted twentyPeers)).1
          (rankWalk 0 (rechokeSorted twentyPeers)).2 tr_rand = some c := by
        cases h : rechokeOptimistic (rankWalk 0 (rechokeSorted twentyPeers)).1
            (rankWalk 0 (rechokeSorted twentyPeers)).2 tr_rand with
        | some c => exact ⟨c, rfl⟩
        | none =>
          exfalso
          have h2 := hopt
          unfold rechoke at h2
          simp only [h] at h2
          revert h2
          decide!
      obtain ⟨c, hc⟩ := hsome
      have hc0 : c = 0 := by
        have h := hc
        unfold rechokeOptimistic at h
        rw [if_pos hleft] at h
        exact rechokeRandPool_zero _ _ c (List.getElem?_mem h)
      subst hc0
      unfold rechoke
      simp only [hc]
      decide!
    rw [hchoke]
    decide!
  · rw [hopt]
    decide!
  · rw [hcalls]
    decide!

/-- C11 with the generator that always draws the last entry of the pool: the
optimistic peer is still peer 19. -/
theorem C11_optimistic_slot_is_top_peer_witness :
    (rechoke twentyPeers (fun n => n - 1)).t.optimistic.map (fun peer => peer.in_addr)
      = some 19 :=
  (C11_optimistic_slot_is_top_peer (fun n => n - 1) (fun _ h => Nat.sub_lt h Nat.one_pos)).2.2.1

/-! ## Candidate selection -/

theorem compareCandidates_le_iff (a b : peer_atom) :
    compareCandidates a b ≤ 0 ↔
      (a.piece_data_time > b.piece_data_time ∨ (a.piece_data_time = b.piece_data_time ∧
        (a.numFails < b.numFails ∨ (a.numFails = b.numFails ∧ a.time ≤ b.time)))) := by
  unfold compareCandidates tr_compareUint16
  split_ifs <;> simp <;> omega

theorem compareCandidates_total (a b : peer_atom) :
    compareCandidates a b ≤ 0 ∨ compareCandidates b a ≤ 0 := by
  rw [compareCandidates_le_iff, compareCandidates_le_iff]
  omega

theorem compareCandidates_trans (a b c : peer_atom) (hab : compareCandidates a b ≤ 0)
    (hbc : compareCandidates b c ≤ 0) : compareCandidates a c ≤ 0 := by
  rw [compareCandidates_le_iff] at *
  omega

theorem getPeerCandidates_perm (env : PeerMgrEnv) (incoming : List Nat) (t : Torrent)
    (now : Nat) :
    (getPeerCandidates env incoming t now).Perm
      (t.pool.filter (isCandidate env incoming t now)) :=
  qsort_perm _ _

theorem mem_getPeerCandidates (env : PeerMgrEnv) (incoming : List Nat) (t : Torrent)
    (now : Nat) (a : peer_atom) :
    a ∈ getPeerCandidates env incoming t now ↔
      (a ∈ t.pool ∧ isCandidate env incoming t now a = true) := by
  rw [(getPeerCandidates_perm env incoming t now).mem_iff, List.mem_filter]

theorem getPeerCandidates_sorted (env : PeerMgrEnv) (incoming : List Nat) (t : Torrent)
    (now : Nat) :
    (getPeerCandidates env incoming t now).Pairwise (fun a b => compareCandidates a b ≤ 0) :=
  qsort_sorted _ compareCandidates_total compareCandidates_trans _

theorem candidateWait_eq (atom : peer_atom) :
    candidateWait atom = max 600 (min 1800 ((atom.numFails : Int) * 600)) := by
  unfold candidateWait
  simp only
  split_ifs <;> omega

/-- The tests of `isCandidate`, one by one. -/
theorem isCandidate_iff (env : PeerMgrEnv) (incoming : List Nat) (t : Torrent) (now : Nat)
    (a : peer_atom) :
    isCandidate env incoming t now a = true ↔
      (hasFlag a.myflags MYFLAG_BANNED = false ∧
       hasFlag a.myflags MYFLAG_UNREACHABLE = false ∧
       peerIsInUse incoming t a.addr = false ∧
       (t.tor.tr_torrentIsSeed && hasFlag a.flags ADDED_F_SEED_FLAG) = false ∧
       a.numFails ≤ 3 ∧
       inGracePeriod now a = false ∧
       env.tr_blocklistHasAddress a.addr = false) := by
  unfold isCandidate
  simp only
  split_ifs <;> simp_all

theorem inGracePeriod_false_iff (now : Nat) (a : peer_atom) :
    inGracePeriod now a = false ↔
      ((now : Int) - a.piece_data_time ≤ 30 ∨
        (now : Int) - a.time ≥ max 600 (min 1800 ((a.numFails : Int) * 600))) := by
  unfold inGracePeriod
  rw [candidateWait_eq]
  split_ifs with h
  · simp only [decide_eq_false_iff_not, not_lt, ge_iff_le]
    constructor
    · intro h2; right; exact h2
    · rintro (h2 | h2)
      · omega
      · exact h2
  · simp only [true_iff]
    left; omega

/-- C12: for an atom of the pool that passes every other test of
`getPeerCandidates` (not banned, not unreachable, not in use, not a seed while
we seed, at most 3 failures, not blocklisted): if `now - piece_data_time` is
at most 30 s it is a candidate whatever its `time`; otherwise it is a
candidate iff `now - time` is at least `numFails * 600` clamped to
[600, 1800]. -/
theorem C12_cool_down (env : PeerMgrEnv) (incoming : List Nat) (t : Torrent) (now : Nat)
    (a : peer_atom) (hpool : a ∈ t.pool)
    (hban : hasFlag a.myflags MYFLAG_BANNED = false)
    (hunr : hasFlag a.myflags MYFLAG_UNREACHABLE = false)
    (huse : peerIsInUse incoming t a.addr = false)
    (hseed : (t.tor.tr_torrentIsSeed && hasFlag a.flags ADDED_F_SEED_FLAG) = false)
    (hfails : a.numFails ≤ 3)
    (hblock : env.tr_blocklistHasAddress a.addr = false) :
    ((now : Int) - a.piece_data_time ≤ 30 → a ∈ getPeerCandidates env incoming t now) ∧
    ((now : Int) - a.piece_data_time > 30 →
      (a ∈ getPeerCandidates env incoming t now ↔
        (now : Int) - a.time ≥ max 600 (min 1800 ((a.numFails : Int) * 600)))) := by
  have hmem : a ∈ getPeerCandidates env incoming t now ↔
      ((now : Int) - a.piece_data_time ≤ 30 ∨
        (now : Int) - a.time ≥ max 600 (min 1800 ((a.numFails : Int) * 600))) := by
    rw [mem_getPeerCandidates, isCandidate_iff, inGracePeriod_false_iff]
    constructor
    · intro h; exact h.2.2.2.2.2.2.1
    · intro h; exact ⟨hpool, hban, hunr, huse, hseed, hfails, h, hblock⟩
  constructor
  · intro h; exact hmem.mpr (Or.inl h)
  · intro h
    rw [hmem]
    constructor
    · rintro (h2 | h2)
      · omega
      · exact h2
    · intro h2; exact Or.inr h2

/-- C12 at the time 100000 on two atoms with `numFails = 2` and
`piece_data_time = 0`: the one tried 15 minutes ago is rejected, the one tried
21 minutes ago is accepted. -/
theorem C12_cool_down_witness :
    (getPeerCandidates {} [] coolDownTorrent 100000).map (fun a => a.addr) = [2] ∧
    (((100000 : Nat) : Int) - (0 : Nat) > 30 →
      (({ addr := 1, numFails := 2, piece_data_time := 0, time := 100000 - 15 * 60 }
          : peer_atom) ∈ getPeerCandidates {} [] coolDownTorrent 100000 ↔
        ((100000 : Nat) : Int) - ((100000 - 15 * 60 : Nat) : Int)
          ≥ max 600 (min 1800 (((2 : Nat) : Int) * 600)))) :=
  ⟨by decide,
   (C12_cool_down {} [] coolDownTorrent 100000
     { addr := 1, numFails := 2, piece_data_time := 0, time := 100000 - 15 * 60 }
     (by decide) (by decide) (by decide) (by decide) (by decide) (by decide) (by decide)).2⟩

/-- C14: in the list of `getPeerCandidates`, for consecutive candidates `a`
before `b`: `a.piece_data_time > b.piece_data_time`, or they are equal and
`a.numFails < b.numFails`, or both are equal and `a.time ≤ b.time`. -/
theorem C14_candidates_order (env : PeerMgrEnv) (incoming : List Nat) (t : Torrent)
    (now : Nat) :
    (getPeerCandidates env incoming t now).Chain' (fun a b =>
      a.piece_data_time > b.piece_data_time ∨
      (a.piece_data_time = b.piece_data_time ∧ a.numFails < b.numFails) ∨
      (a.piece_data_time = b.piece_data_time ∧ a.numFails = b.numFails ∧ a.time ≤ b.time)) := by
  have h := (getPeerCandidates_sorted env incoming t now).imp
    (fun {a b} (hab : compareCandidates a b ≤ 0) =>
      show a.piece_data_time > b.piece_data_time ∨
        (a.piece_data_time = b.piece_data_time ∧ a.numFails < b.numFails) ∨
        (a.piece_data_time = b.piece_data_time ∧ a.numFails = b.numFails ∧ a.time ≤ b.time) by
        rw [compareCandidates_le_iff] at hab
        omega)
  exact h.chain'

theorem peerIsInUse_false_iff (incoming : List Nat) (t : Torrent) (addr : Nat) :
    peerIsInUse incoming t addr = false ↔
      ((∀ p ∈ t.peers, p.in_addr ≠ addr) ∧ addr ∉ t.outgoingHandshakes ∧ addr ∉ incoming) := by
  unfold peerIsInUse getExistingPeer getExistingHandshake
  simp only [Bool.or_eq_false_iff, and_assoc]
  have h1 : (List.find? (fun p => decide (p.in_addr = addr)) t.peers).isSome = false ↔
      ∀ p ∈ t.peers, p.in_addr ≠ addr := by
    cases h : List.find? (fun p => decide (p.in_addr = addr)) t.peers with
    | none =>
      simp only [Option.isSome_none, true_iff]
      intro p hp
      have := List.find?_eq_none.mp h p hp
      simpa using this
    | some q =>
      simp only [Option.isSome_some, Bool.true_eq_false, false_iff]
      intro hall
      have hq := List.find?_some h
      exact hall q (List.mem_of_find?_eq_some h) (by simpa using hq)
  have h2 : ∀ l : List Nat, l.contains addr = false ↔ addr ∉ l := by
    intro l
    simp
  rw [h1, h2, h2]

/-- C13: no atom returned by `getPeerCandidates` is banned, is unreachable, has
its address in the torrent's peer set, in its outgoing handshakes or in the
manager's incoming handshakes, has the SEED flag while the torrent is a seed,
has more than 3 failures, or is in the blocklist; every returned atom is an
atom of the pool, and no address (so no atom) is returned twice. -/
theorem C13_candidates_filtered (env : PeerMgrEnv) (incoming : List Nat) (t : Torrent)
    (now : Nat) (hpool : (t.pool.map (fun a => a.addr)).Nodup) :
    (∀ a ∈ getPeerCandidates env incoming t now,
      hasFlag a.myflags MYFLAG_BANNED = false ∧
      hasFlag a.myflags MYFLAG_UNREACHABLE = false ∧
      (∀ p ∈ t.peers, p.in_addr ≠ a.addr) ∧
      a.addr ∉ t.outgoingHandshakes ∧
      a.addr ∉ incoming ∧
      ¬ (t.tor.tr_torrentIsSeed = true ∧ hasFlag a.flags ADDED_F_SEED_FLAG = true) ∧
      ¬ (a.numFails > 3) ∧
      env.tr_blocklistHasAddress a.addr = false ∧
      a ∈ t.pool) ∧
    ((getPeerCandidates env incoming t now).map (fun a => a.addr)).Nodup ∧
    (getPeerCandidates env incoming t now).Nodup := by
  have hnd : ((getPeerCandidates env incoming t now).map (fun a => a.addr)).Nodup := by
    have hp := (getPeerCandidates_perm env incoming t now).map (fun a => a.addr)
    rw [hp.nodup_iff]
    exact (List.Sublist.map _ (List.filter_sublist _)).nodup hpool
  refine ⟨?_, hnd, hnd.of_map _⟩
  intro a ha
  obtain ⟨hmem, hc⟩ := (mem_getPeerCandidates env incoming t now a).mp ha
  obtain ⟨h1, h2, h3, h4, h5, _, h7⟩ := (isCandidate_iff env incoming t now a).mp hc
  obtain ⟨u1, u2, u3⟩ := (peerIsInUse_false_iff incoming t a.addr).mp h3
  refine ⟨h1, h2, u1, u2, u3, ?_, by omega, h7, hmem⟩
  rintro ⟨e1, e2⟩
  rw [e1, e2] at h4
  simp at h4

/-- C13 on a pool of eight atoms of which one is banned, one unreachable, one
connected, one in an outgoing and one in an incoming handshake, one failed four
times and one blocklisted: only the eighth is returned. -/
theorem C13_candidates_filtered_witness :
    (getPeerCandidates blocklist7 [5] candidatePoolTorrent 100000).map (fun a => a.addr) = [8] ∧
    ((getPeerCandidates blocklist7 [5] candidatePoolTorrent 100000).map
      (fun a => a.addr)).Nodup :=
  ⟨by decide, (C13_candidates_filtered blocklist7 [5] candidatePoolTorrent 100000
    (by decide)).2.1⟩

/-! ## Writes into the pool -/

theorem modifyAtom_eq_none (f : peer_atom → peer_atom) (addr : Nat) :
    ∀ pool : List peer_atom, modifyAtom pool addr f = none ↔ ∀ a ∈ pool, a.addr ≠ addr
  | [] => by simp [modifyAtom]
  | a :: rest => by
    unfold modifyAtom
    by_cases h : a.addr = addr
    · simp [h]
    · simp [h, Option.map_eq_none', modifyAtom_eq_none f addr rest]

/-- With at most one atom per address, a write through the atom of an address
changes that atom and no other. -/
theorem modifyAtom_eq_map (f : peer_atom → peer_atom) (addr : Nat) :
    ∀ pool : List peer_atom, (pool.map (fun a => a.addr)).Nodup →
      (∃ a ∈ pool, a.addr = addr) →
      modifyAtom pool addr f = some (pool.map (fun a => if a.addr = addr then f a else a))
  | [], _, h => by simp at h
  | a :: rest, hnd, hex => by
    unfold modifyAtom
    rw [List.map_cons, List.nodup_cons] at hnd
    by_cases h : a.addr = addr
    · simp only [h, if_true, List.map_cons, Option.some.injEq, List.cons.injEq, true_and]
      symm
      have : ∀ x ∈ rest, x.addr ≠ addr := by
        intro x hx e
        exact hnd.1 (List.mem_map.mpr ⟨x, hx, by rw [e, h]⟩)
      rw [List.map_congr_left (fun x hx => by rw [if_neg (this x hx)])]
      exact List.map_id' rest
    · have hex' : ∃ x ∈ rest, x.addr = addr := by
        obtain ⟨x, hx, e⟩ := hex
        rcases List.mem_cons.mp hx with e2 | e2
        · exact absurd (e2 ▸ e) h
        · exact ⟨x, e2, e⟩
      simp only [h, if_false, List.map_cons]
      rw [modifyAtom_eq_map f addr rest hnd.2 hex']
      rfl

theorem getExistingAtom_eq_some (t : Torrent) (addr : Nat) (a : peer_atom)
    (hnd : (t.pool.map (fun a => a.addr)).Nodup) :
    getExistingAtom t addr = some a ↔ (a ∈ t.pool ∧ a.addr = addr) := by
  unfold getExistingAtom
  constructor
  · intro h
    exact ⟨List.mem_of_find?_eq_some h, by simpa using List.find?_some h⟩
  · rintro ⟨hmem, haddr⟩
    generalize t.pool = pool at hnd hmem
    induction pool with
    | nil => simp at hmem
    | cons x rest ih =>
      rw [List.map_cons, List.nodup_cons] at hnd
      rcases List.mem_cons.mp hmem with e | e
      · subst e; simp [haddr]
      · have : x.addr ≠ addr := by
          intro e2
          exact hnd.1 (List.mem_map.mpr ⟨a, e, by rw [haddr, e2]⟩)
        simp only [List.find?_cons, this, decide_False]
        exact ih hnd.2 e

theorem getExistingAtom_isSome (t : Torrent) (addr : Nat) :
    (getExistingAtom t addr).isSome = true ↔ ∃ a ∈ t.pool, a.addr = addr := by
  unfold getExistingAtom
  rw [List.find?_isSome]
  simp

/-! ## The promotion step -/

theorem promoteLoop_done (env : PeerMgrEnv) (now i : Nat) (cands : List peer_atom)
    (g : ReconnectGlobals) (t : Torrent)
    (h : ¬ (i < MAX_RECONNECTIONS_PER_PULSE
      ∧ g.newConnectionsThisSecond < MAX_CONNECTIONS_PER_SECOND)) :
    promoteLoop env now i cands g t = some { g := g, t := t, attempted := [], started := [] } := by
  cases cands with
  | nil => rfl
  | cons a rest => rw [promoteLoop, if_neg h]

/-- The promotion step of one pulse, written out: nothing happens without a
candidate or without budget; otherwise the first candidate, and only it, is
tried. -/
theorem promoteLoop_zero (env : PeerMgrEnv) (now : Nat) (cands : List peer_atom)
    (g : ReconnectGlobals) (t : Torrent) :
    promoteLoop env now 0 cands g t =
      match cands with
      | [] => some { g := g, t := t, attempted := [], started := [] }
      | atom :: _ =>
        if g.newConnectionsThisSecond < MAX_CONNECTIONS_PER_SECOND then
          match modifyAtom t.pool atom.addr
              (promotedAtom (env.tr_peerIoNewOutgoing atom.addr atom.port) now) with
          | none => none
          | some pool =>
            if env.tr_peerIoNewOutgoing atom.addr atom.port = false then
              some { g := g, t := { t with pool := pool }
                     attempted := [atom.addr], started := [] }
            else
              some { g := { g with newConnectionsThisSecond := g.newConnectionsThisSecond + 1 }
                     t := { t with pool := pool
                                   outgoingHandshakes :=
                                     insertSorted id atom.addr t.outgoingHandshakes }
                     attempted := [atom.addr], started := [atom.addr] }
        else some { g := g, t := t, attempted := [], started := [] } := by
  cases cands with
  | nil => rfl
  | cons atom rest =>
    simp only
    by_cases hb : g.newConnectionsThisSecond < MAX_CONNECTIONS_PER_SECOND
    · rw [promoteLoop, if_pos ⟨by decide, hb⟩, if_pos hb]
      have hdone : ∀ (g1 : ReconnectGlobals) (t1 : Torrent),
          promoteLoop env now (0 + 1) rest g1 t1
            = some { g := g1, t := t1, attempted := [], started := [] } :=
        fun g1 t1 => promoteLoop_done env now (0 + 1) rest g1 t1 (by
          intro h; exact absurd h.1 (by decide))
      cases hio : env.tr_peerIoNewOutgoing atom.addr atom.port
      · simp only [if_true]
        have hf : promotedAtom false now = fun a =>
            { a with myflags := a.myflags ||| MYFLAG_UNREACHABLE, time := now } := by
          funext a; simp [promotedAtom]
        rw [hf]
        cases modifyAtom t.pool atom.addr (fun a =>
            { a with myflags := a.myflags ||| MYFLAG_UNREACHABLE, time := now }) with
        | none => rfl
        | some pool => simp only [hdone]
      · simp only [Bool.true_eq_false, if_false]
        have hf : promotedAtom true now = fun a => { a with time := now } := by
          funext a; simp [promotedAtom]
        rw [hf]
        cases modifyAtom t.pool atom.addr (fun a => { a with time := now }) with
        | none => rfl
        | some pool => simp only [hdone]
    · rw [promoteLoop, if_neg (fun h => hb h.2), if_neg hb]

/-! ## The closure sweep -/

theorem shouldPeerBeClosed_isSome (t : Torrent) (peer : tr_peer) (n : Int) (now : Nat)
    (h : ∃ a ∈ t.pool, a.addr = peer.in_addr) :
    ∃ b, shouldPeerBeClosed t peer n now = some b := by
  have hs := (getExistingAtom_isSome t peer.in_addr).mpr h
  obtain ⟨a, ha⟩ := Option.isSome_iff_exists.mp hs
  unfold shouldPeerBeClosed
  simp only [ha]
  split_ifs <;> exact ⟨_, rfl⟩

theorem getPeersToCloseFrom_eq (t : Torrent) (n : Int) (now : Nat) :
    ∀ l : List tr_peer, (∀ p ∈ l, ∃ b, shouldPeerBeClosed t p n now = some b) →
      getPeersToCloseFrom t n now l
        = some (l.filter (fun p => (shouldPeerBeClosed t p n now).getD false))
  | [], _ => rfl
  | p :: rest, h => by
    obtain ⟨b, hb⟩ := h p (List.mem_cons_self _ _)
    have ih := getPeersToCloseFrom_eq t n now rest
      (fun q hq => h q (List.mem_cons_of_mem _ hq))
    unfold getPeersToCloseFrom
    rw [hb, ih]
    cases b <;> simp [List.filter_cons, hb]

theorem getPeersToClose_eq (t : Torrent) (now : Nat) (h : PeersHaveAtoms t) :
    getPeersToClose t now = some (t.peers.filter (closes t now)) :=
  getPeersToCloseFrom_eq t _ now t.peers
    (fun p hp => shouldPeerBeClosed_isSome t p _ now (h p hp))

theorem eraseP_addr_eq_filter (addr : Nat) :
    ∀ peers : List tr_peer, (peers.map (fun p => p.in_addr)).Nodup →
      peers.eraseP (fun p => decide (p.in_addr = addr))
        = peers.filter (fun p => !decide (p.in_addr = addr))
  | [], _ => rfl
  | p :: rest, hnd => by
    rw [List.map_cons, List.nodup_cons] at hnd
    by_cases h : p.in_addr = addr
    · have hrest : ∀ q ∈ rest, q.in_addr ≠ addr := by
        intro q hq e
        exact hnd.1 (List.mem_map.mpr ⟨q, hq, by rw [e, h]⟩)
      simp only [List.eraseP_cons, h, decide_True, cond_true, List.filter_cons, Bool.not_true,
        Bool.false_eq_true, if_false]
      symm
      rw [List.filter_eq_self]
      intro q hq
      simp [hrest q hq]
    · simp only [List.eraseP_cons, h, decide_False, cond_false, List.filter_cons, Bool.not_false,
        if_true]
      rw [eraseP_addr_eq_filter addr rest hnd.2]

theorem closePeer_eq (t : Torrent) (peer : tr_peer) (now : Nat)
    (hpool : (t.pool.map (fun a => a.addr)).Nodup)
    (hpeers : (t.peers.map (fun p => p.in_addr)).Nodup)
    (hatom : ∃ a ∈ t.pool, a.addr = peer.in_addr) :
    closePeer t peer now = some { t with
      pool := t.pool.map (fun a => if a.addr = peer.in_addr then closedAtom peer now a else a)
      peers := t.peers.filter (fun p => !decide (p.in_addr = peer.in_addr)) } := by
  unfold closePeer
  rw [modifyAtom_eq_map _ _ _ hpool hatom]
  simp only
  unfold removePeer
  simp only
  have hmapaddr : ∀ (f : peer_atom → peer_atom), (∀ a, (f a).addr = a.addr) →
      (t.pool.map (fun a => if a.addr = peer.in_addr then f a else a)).map (fun a => a.addr)
        = t.pool.map (fun a => a.addr) := by
    intro f hf
    rw [List.map_map]
    apply List.map_congr_left
    intro a _
    simp only [Function.comp]
    split
    · exact hf a
    · rfl
  have hf1 : ∀ a : peer_atom, (if peer.pieceDataActivityDate ≠ 0 then { a with numFails := 0 }
      else { a with numFails := (a.numFails + 1) % 2 ^ 16 } : peer_atom).addr = a.addr := by
    intro a; split <;> rfl
  rw [modifyAtom_eq_map _ _ _ (by rw [hmapaddr _ hf1]; exact hpool) (by
    obtain ⟨a, ha, e⟩ := hatom
    refine ⟨_, List.mem_map.mpr ⟨a, ha, rfl⟩, ?_⟩
    rw [if_pos e, hf1, e])]
  simp only [eraseP_addr_eq_filter _ _ hpeers, List.map_map]
  congr 2
  apply List.map_congr_left
  intro a _
  simp only [Function.comp]
  by_cases h : a.addr = peer.in_addr
  · cases a
    simp only at h
    subst h
    unfold closedAtom
    by_cases hp : peer.pieceDataActivityDate ≠ 0
    · simp [hp]
    · simp [hp]
  · simp [h]

theorem sweptPool_addr (closed : List tr_peer) (now : Nat) (pool : List peer_atom) :
    (sweptPool closed now pool).map (fun a => a.addr) = pool.map (fun a => a.addr) := by
  unfold sweptPool
  rw [List.map_map]
  apply List.map_congr_left
  intro a _
  simp only [Function.comp]
  split <;> rfl

/-- The loop "disconnect some peers", written out as one rewrite of the pool
and one filter of the peer set. -/
theorem closePeers_eq (now : Nat) :
    ∀ (closed : List tr_peer) (t : Torrent),
      (closed.map (fun p => p.in_addr)).Nodup →
      (∀ p ∈ closed, ∃ a ∈ t.pool, a.addr = p.in_addr) →
      (t.pool.map (fun a => a.addr)).Nodup →
      (t.peers.map (fun p => p.in_addr)).Nodup →
      closePeers now t closed = some { t with
        pool := sweptPool closed now t.pool
        peers := survivingPeers closed t.peers }
  | [], t, _, _, _, _ => by
    unfold closePeers sweptPool survivingPeers
    simp
  | p :: rest, t, hL, hLa, hpool, hpeers => by
    rw [List.map_cons, List.nodup_cons] at hL
    unfold closePeers
    rw [closePeer_eq t p now hpool hpeers (hLa p (List.mem_cons_self _ _))]
    simp only
    have hmapaddr : (t.pool.map (fun a => if a.addr = p.in_addr then closedAtom p now a
        else a)).map (fun a => a.addr) = t.pool.map (fun a => a.addr) := by
      rw [List.map_map]
      apply List.map_congr_left
      intro a _
      simp only [Function.comp]
      split <;> rfl
    rw [closePeers_eq now rest _ hL.2 (by
        intro q hq
        obtain ⟨a, ha, e⟩ := hLa q (List.mem_cons_of_mem _ hq)
        have hmem : a.addr ∈ (t.pool.map (fun a => if a.addr = p.in_addr then
            closedAtom p now a else a)).map (fun a => a.addr) := by
          rw [hmapaddr]; exact List.mem_map.mpr ⟨a, ha, rfl⟩
        obtain ⟨a', ha', e'⟩ := List.mem_map.mp hmem
        exact ⟨a', ha', e'.trans e⟩)
      (by rw [hmapaddr]; exact hpool)
      ((List.Sublist.map _ (List.filter_sublist _)).nodup hpeers)]
    simp only
    congr 2
    · unfold sweptPool
      rw [List.map_map]
      apply List.map_congr_left
      intro a _
      simp only [Function.comp]
      by_cases h : a.addr = p.in_addr
      · have hnone : rest.find? (fun q => decide (q.in_addr = (closedAtom p now a).addr)) = none := by
          rw [List.find?_eq_none]
          intro q hq
          simp only [decide_eq_true_eq]
          intro e
          exact hL.1 (List.mem_map.mpr ⟨q, hq, by rw [e]; exact h⟩)
        simp only [h, if_true, hnone, List.find?_cons, decide_True]
      · have hne : ¬ p.in_addr = a.addr := fun e => h e.symm
        simp only [h, if_false, List.find?_cons, hne, decide_False]
    · unfold survivingPeers
      rw [List.filter_filter]
      apply List.filter_congr
      intro q _
      simp only [List.any_cons]
      by_cases h : q.in_addr = p.in_addr
      · simp [h]
      · have h' : ¬ p.in_addr = q.in_addr := fun e => h e.symm
        simp [h, h']

theorem peer_eq_of_addr_eq {peers : List tr_peer}
    (hpeers : (peers.map (fun p => p.in_addr)).Nodup) {p q : tr_peer}
    (hp : p ∈ peers) (hq : q ∈ peers) (e : p.in_addr = q.in_addr) : p = q :=
  List.inj_on_of_nodup_map hpeers hp hq e

theorem survivingPeers_filter (c : tr_peer → Bool) (peers : List tr_peer)
    (hpeers : (peers.map (fun p => p.in_addr)).Nodup) :
    survivingPeers (peers.filter c) peers = peers.filter (fun p => !c p) := by
  unfold survivingPeers
  apply List.filter_congr
  intro p hp
  congr 1
  cases hc : c p
  · rw [List.any_eq_false]
    intro q hq
    obtain ⟨hq1, hq2⟩ := List.mem_filter.mp hq
    simp only [decide_eq_true_eq]
    intro e
    rw [peer_eq_of_addr_eq hpeers hq1 hp e, hc] at hq2
    exact Bool.false_ne_true hq2
  · rw [List.any_eq_true]
    exact ⟨p, List.mem_filter.mpr ⟨hp, hc⟩, by simp⟩

/-- The closure sweep written out: the peers that `shouldPeerBeClosed` selects
leave the peer set, and the atom of each of them is rewritten. -/
theorem closureSweep_eq (t : Torrent) (now : Nat)
    (hpool : (t.pool.map (fun a => a.addr)).Nodup)
    (hpeers : (t.peers.map (fun p => p.in_addr)).Nodup)
    (hatoms : PeersHaveAtoms t) :
    closureSweep t now = some { t with
      pool := sweptPool (t.peers.filter (closes t now)) now t.pool
      peers := t.peers.filter (fun p => !closes t now p) } := by
  unfold closureSweep
  rw [getPeersToClose_eq t now hatoms]
  simp only
  rw [closePeers_eq now _ t
    ((List.Sublist.map _ (List.filter_sublist _)).nodup hpeers)
    (fun p hp => hatoms p (List.mem_of_mem_filter hp)) hpool hpeers,
    survivingPeers_filter _ _ hpeers]

theorem sweptPool_getElem? (closed : List tr_peer) (now : Nat) (pool : List peer_atom)
    (i : Nat) (a : peer_atom) (h : pool[i]? = some a) :
    (sweptPool closed now pool)[i]? = some
      (match closed.find? (fun p => decide (p.in_addr = a.addr)) with
       | some p => closedAtom p now a
       | none => a) := by
  unfold sweptPool
  rw [List.getElem?_map, h]
  rfl

/-- C17 (as stated, it fails): the peer at the address 1 of `wrapTorrent`
never transferred piece data and is closed by the sweep; its atom had failed
65535 times, and after the sweep its `numFails`, a `uint16_t`, is 0 instead of
65536. -/
theorem C17_numFails_wraps_on_close :
    closes wrapTorrent 100000 { in_addr := 1, doPurge := true } = true ∧
    wrapTorrent.pool.map (fun a => (a.addr, a.numFails)) = [(1, 65535), (2, 65535)] ∧
    (closureSweep wrapTorrent 100000).map (fun t1 =>
        (t1.peers.length, t1.pool.map (fun a => (a.addr, a.numFails))))
      = some (0, [(1, 0), (2, 65535)]) := by
  refine ⟨by decide!, by decide, by decide!⟩

/-- C17 (amended): the closure sweep of `reconnectPulse` on a torrent whose
peers have distinct addresses and each an atom, the pool holding one atom per
address. The sweep returns; the peer set keeps exactly the peers that
`shouldPeerBeClosed` does not select, unchanged and in order; the pool keeps
every atom at its position and with its address. The atom of a closed peer
changes in `numFails` and `time` only: `numFails` becomes 0 if the peer has
transferred piece data, and else is increased by 1 in 16 bits, which is an
increase by exactly 1 below 65535 and a wrap to 0 at 65535. An atom whose
address belongs to no closed peer is unchanged. -/
theorem C17_closure_sweep (t : Torrent) (now : Nat)
    (hpool : (t.pool.map (fun a => a.addr)).Nodup)
    (hpeers : (t.peers.map (fun p => p.in_addr)).Nodup)
    (hatoms : PeersHaveAtoms t) :
    ∃ t1, closureSweep t now = some t1 ∧
      t1.peers = t.peers.filter (fun p => !closes t now p) ∧
      t1.pool.length = t.pool.length ∧
      (∀ (i : Nat) (a : peer_atom), t.pool[i]? = some a →
        ∃ a1 : peer_atom, t1.pool[i]? = some a1 ∧ a1.addr = a.addr ∧
          (∀ p ∈ t.peers, p.in_addr = a.addr → closes t now p = true →
            a1 = { a with numFails := a1.numFails, time := now } ∧
            (p.pieceDataActivityDate ≠ 0 → a1.numFails = 0) ∧
            (p.pieceDataActivityDate = 0 → a1.numFails = (a.numFails + 1) % 2 ^ 16) ∧
            (p.pieceDataActivityDate = 0 → a.numFails < 65535 →
              a1.numFails = a.numFails + 1) ∧
            (p.pieceDataActivityDate = 0 → a.numFails = 65535 → a1.numFails = 0)) ∧
          ((∀ p ∈ t.peers, p.in_addr = a.addr → closes t now p = false) → a1 = a)) := by
  refine ⟨_, closureSweep_eq t now hpool hpeers hatoms, rfl, ?_, ?_⟩
  · simp [sweptPool]
  · intro i a hi
    refine ⟨_, sweptPool_getElem? _ now t.pool i a hi, ?_, ?_, ?_⟩
    · split <;> rfl
    · intro p hp hpa hc
      have hmem : p ∈ t.peers.filter (closes t now) := List.mem_filter.mpr ⟨hp, hc⟩
      cases hf : (t.peers.filter (closes t now)).find? (fun p => decide (p.in_addr = a.addr)) with
      | none =>
        rw [List.find?_eq_none] at hf
        exact absurd (by simpa using hpa) (hf p hmem)
      | some q =>
        have hq := List.mem_of_mem_filter (List.mem_of_find?_eq_some hf)
        have hqa : q.in_addr = a.addr := by simpa using List.find?_some hf
        have e : q = p := peer_eq_of_addr_eq hpeers hq hp (hqa.trans hpa.symm)
        subst e
        refine ⟨rfl, ?_, ?_, ?_, ?_⟩
        · intro h; simp [closedAtom, h]
        · intro h; simp [closedAtom, h]
        · intro h h2
          simp only [closedAtom, h, ne_eq, not_true_eq_false, if_false]
          exact Nat.mod_eq_of_lt (by omega)
        · intro h h2
          simp only [closedAtom, h, ne_eq, not_true_eq_false, if_false, h2]
          rfl
    · intro hno
      cases hf : (t.peers.filter (closes t now)).find? (fun p => decide (p.in_addr = a.addr)) with
      | none => rfl
      | some q =>
        have hq := List.mem_filter.mp (List.mem_of_find?_eq_some hf)
        have hqa : q.in_addr = a.addr := by simpa using List.find?_some hf
        rw [hno q hq.1 hqa] at hq
        exact absurd hq.2 Bool.false_ne_true

/-- C17 (amended) on a torrent with three peers of which two are marked for purging: the
sweep keeps the peer at address 3; the atom of the purged peer that transferred
piece data gets `numFails = 0`, the atom of the other one goes from 2 to 3, and
the atoms at addresses 3 and 4 stay as they are. -/
theorem C17_closure_sweep_witness :
    (closureSweep sweepTorrent 100000).map (fun t1 => t1.peers.map (fun p => p.in_addr))
      = some [3] ∧
    (closureSweep sweepTorrent 100000).map (fun t1 => t1.pool)
      = some [{ addr := 1, numFails := 0, time := 100000 },
              { addr := 2, numFails := 3, time := 100000 },
              { addr := 3, numFails := 1, time := 7 }, { addr := 4, numFails := 1, time := 8 }] ∧
    ∃ t1, closureSweep sweepTorrent 100000 = some t1 ∧
      t1.peers = sweepTorrent.peers.filter (fun p => !closes sweepTorrent 100000 p) :=
  ⟨by decide!, by decide!,
    let ⟨t1, h1, h2, _⟩ := C17_closure_sweep sweepTorrent 100000 (by decide) (by decide)
      (by unfold PeersHaveAtoms; decide)
    ⟨t1, h1, h2⟩⟩

/-! ## The reconnect pulse as a whole -/

theorem reconnectTick_prevTime (g : ReconnectGlobals) (now : Nat) :
    (reconnectTick g now).prevTime = now := by
  unfold reconnectTick
  split_ifs with h
  · rfl
  · exact not_not.mp h

theorem reconnectTick_of_prevTime (g : ReconnectGlobals) (now : Nat) (h : g.prevTime = now) :
    reconnectTick g now = g := by
  unfold reconnectTick
  rw [if_neg (not_not.mpr h)]

theorem reconnectPulse_tick (env : PeerMgrEnv) (incoming : List Nat) (g : ReconnectGlobals)
    (now : Nat) (t : Torrent) :
    reconnectPulse env incoming (reconnectTick g now) now t = reconnectPulse env incoming g now t := by
  unfold reconnectPulse
  rw [reconnectTick_of_prevTime _ now (reconnectTick_prevTime g now)]

theorem promoteLoop_globals (env : PeerMgrEnv) (now : Nat) (cands : List peer_atom)
    (g : ReconnectGlobals) (t : Torrent) (r : Promotion)
    (h : promoteLoop env now 0 cands g t = some r) :
    r.g.prevTime = g.prevTime ∧
    r.g.newConnectionsThisSecond = g.newConnectionsThisSecond + r.started.length ∧
    r.started.length ≤ 1 ∧
    (r.started ≠ [] → g.newConnectionsThisSecond < MAX_CONNECTIONS_PER_SECOND) ∧
    r.attempted.length ≤ 1 := by
  rw [promoteLoop_zero] at h
  cases cands with
  | nil =>
    simp only [Option.some.injEq] at h
    subst h
    simp
  | cons atom rest =>
    simp only at h
    by_cases hb : g.newConnectionsThisSecond < MAX_CONNECTIONS_PER_SECOND
    · rw [if_pos hb] at h
      cases hm : modifyAtom t.pool atom.addr
          (promotedAtom (env.tr_peerIoNewOutgoing atom.addr atom.port) now) with
      | none => rw [hm] at h; exact absurd h (by simp)
      | some pool =>
        rw [hm] at h
        simp only at h
        by_cases ho : env.tr_peerIoNewOutgoing atom.addr atom.port = false
        · rw [if_pos ho, Option.some.injEq] at h
          subst h
          simp
        · rw [if_neg ho, Option.some.injEq] at h
          subst h
          simp [hb]
    · rw [if_neg hb, Option.some.injEq] at h
      subst h
      simp

/-- The bookkeeping of one pulse: the second observed is the one of the pulse,
at most one handshake is started, only within the budget, and it is counted. -/
theorem reconnectPulse_globals (env : PeerMgrEnv) (incoming : List Nat) (g : ReconnectGlobals)
    (now : Nat) (t : Torrent) (r : ReconnectPulse)
    (h : reconnectPulse env incoming g now t = some r) :
    r.g.prevTime = now ∧
    r.g.newConnectionsThisSecond
      = (reconnectTick g now).newConnectionsThisSecond + r.started.length ∧
    r.started.length ≤ 1 ∧
    (r.started ≠ [] →
      (reconnectTick g now).newConnectionsThisSecond < MAX_CONNECTIONS_PER_SECOND) ∧
    r.attempted.length ≤ 1 ∧
    r.ret = true := by
  unfold reconnectPulse at h
  simp only at h
  by_cases hrun : (!t.isRunning) = true
  · rw [if_pos hrun] at h
    cases hr : removeAllPeers now t.peers.length t with
    | none => rw [hr] at h; exact absurd h (by simp)
    | some t1 =>
      rw [hr] at h
      simp only [Option.some.injEq] at h
      subst h
      simp [reconnectTick_prevTime]
  · rw [if_neg hrun] at h
    cases hs : closureSweep t now with
    | none => rw [hs] at h; exact absurd h (by simp)
    | some t1 =>
      rw [hs] at h
      simp only at h
      cases hp : promoteLoop env now 0 (getPeerCandidates env incoming t now)
          (reconnectTick g now) t1 with
      | none => rw [hp] at h; exact absurd h (by simp)
      | some pr =>
        rw [hp] at h
        simp only [Option.some.injEq] at h
        subst h
        obtain ⟨h1, h2, h3, h4, h5⟩ := promoteLoop_globals env now _ _ t1 pr hp
        exact ⟨h1.trans (reconnectTick_prevTime g now), h2, h3, h4, h5, rfl⟩

/-- One pulse of a running torrent whose peers have distinct addresses and each
an atom, the pool holding one atom per address: the closure sweep, then the
promotion of the first candidate if the budget allows it. -/
theorem reconnectPulse_running (env : PeerMgrEnv) (incoming : List Nat) (g : ReconnectGlobals)
    (now : Nat) (t : Torrent) (hrun : t.isRunning = true)
    (hpool : (t.pool.map (fun a => a.addr)).Nodup)
    (hpeers : (t.peers.map (fun p => p.in_addr)).Nodup)
    (hatoms : PeersHaveAtoms t) :
    ∃ t1, closureSweep t now = some t1 ∧
      t1.outgoingHandshakes = t.outgoingHandshakes ∧
      t1.pool.map (fun a => a.addr) = t.pool.map (fun a => a.addr) ∧
      reconnectPulse env incoming g now t =
        match getPeerCandidates env incoming t now with
        | [] => some { g := reconnectTick g now, t := t1, ret := true, attempted := [],
                       started := [] }
        | atom :: _ =>
          if (reconnectTick g now).newConnectionsThisSecond < MAX_CONNECTIONS_PER_SECOND then
            if env.tr_peerIoNewOutgoing atom.addr atom.port = false then
              some { g := reconnectTick g now
                     t := { t1 with pool := t1.pool.map (fun a =>
                              if a.addr = atom.addr then promotedAtom false now a else a) }
                     ret := true, attempted := [atom.addr], started := [] }
            else
              some { g := { reconnectTick g now with
                            newConnectionsThisSecond :=
                              (reconnectTick g now).newConnectionsThisSecond + 1 }
                     t := { t1 with
                            pool := t1.pool.map (fun a =>
                              if a.addr = atom.addr then promotedAtom true now a else a)
                            outgoingHandshakes :=
                              insertSorted id atom.addr t1.outgoingHandshakes }
                     ret := true, attempted := [atom.addr], started := [atom.addr] }
          else some { g := reconnectTick g now, t := t1, ret := true, attempted := [],
                      started := [] } := by
  refine ⟨_, closureSweep_eq t now hpool hpeers hatoms, rfl, sweptPool_addr _ _ _, ?_⟩
  have hr : ¬ ((!t.isRunning) = true) := by simp [hrun]
  unfold reconnectPulse
  simp only
  rw [if_neg hr, closureSweep_eq t now hpool hpeers hatoms]
  simp only
  rw [promoteLoop_zero]
  cases hc : getPeerCandidates env incoming t now with
  | nil => rfl
  | cons atom rest =>
    simp only
    have hmem : atom ∈ t.pool :=
      ((mem_getPeerCandidates env incoming t now atom).mp (hc ▸ List.mem_cons_self _ _)).1
    have hex : ∃ a ∈ sweptPool (t.peers.filter (closes t now)) now t.pool,
        a.addr = atom.addr := by
      have : atom.addr ∈ (sweptPool (t.peers.filter (closes t now)) now t.pool).map
          (fun a => a.addr) := by
        rw [sweptPool_addr]; exact List.mem_map.mpr ⟨atom, hmem, rfl⟩
      obtain ⟨a, ha, e⟩ := List.mem_map.mp this
      exact ⟨a, ha, e⟩
    rw [modifyAtom_eq_map _ _ _ (by rw [sweptPool_addr]; exact hpool) hex]
    simp only
    split_ifs with h1 h2
    · simp only [h2]
    · have h3 : env.tr_peerIoNewOutgoing atom.addr atom.port = true := by simpa using h2
      simp only [h3]
    · rfl

/-! ## The budget of new connections per second -/

theorem reconnectPulses_tick (env : PeerMgrEnv) (incoming : List Nat) (now : Nat)
    (g : ReconnectGlobals) (ts : List Torrent) :
    reconnectPulses env incoming now (reconnectTick g now) ts
      = reconnectPulses env incoming now g ts := by
  cases ts with
  | nil => rfl
  | cons t rest =>
    unfold reconnectPulses
    rw [reconnectPulse_tick]

theorem reconnectPulses_sum_le (env : PeerMgrEnv) (incoming : List Nat) (now : Nat) :
    ∀ (ts : List Torrent) (g : ReconnectGlobals), g.prevTime = now →
      (reconnectPulses env incoming now g ts).sum
        ≤ MAX_CONNECTIONS_PER_SECOND - g.newConnectionsThisSecond
  | [], _, _ => by simp [reconnectPulses]
  | t :: ts, g, hg => by
    unfold reconnectPulses
    cases h : reconnectPulse env incoming g now t with
    | none => simp
    | some r =>
      simp only [List.sum_cons]
      obtain ⟨h1, h2, h3, h4, _, _⟩ := reconnectPulse_globals env incoming g now t r h
      rw [reconnectTick_of_prevTime g now hg] at h2 h4
      have ih := reconnectPulses_sum_le env incoming now ts r.g h1
      have h8 : MAX_CONNECTIONS_PER_SECOND = 8 := rfl
      rw [h8] at ih h4 ⊢
      cases hs : r.started with
      | nil =>
        rw [hs] at h2
        simp only [List.length_nil, Nat.add_zero] at h2
        rw [h2] at ih
        simpa using ih
      | cons x xs =>
        have hlt := h4 (by rw [hs]; exact List.cons_ne_nil _ _)
        rw [hs] at h2 h3
        simp only [List.length_cons] at h2 h3 ⊢
        omega

/-- A torrent whose pulse tries a candidate and opens its I/O. -/
theorem reconnectPulses_viable (env : PeerMgrEnv) (incoming : List Nat) (now : Nat) :
    ∀ (ts : List Torrent) (g : ReconnectGlobals), g.prevTime = now →
      (∀ t ∈ ts, t.isRunning = true ∧ (t.pool.map (fun a => a.addr)).Nodup ∧
        (t.peers.map (fun p => p.in_addr)).Nodup ∧ PeersHaveAtoms t ∧
        ∃ a rest, getPeerCandidates env incoming t now = a :: rest ∧
          env.tr_peerIoNewOutgoing a.addr a.port = true) →
      reconnectPulses env incoming now g ts
        = List.replicate (min ts.length (MAX_CONNECTIONS_PER_SECOND - g.newConnectionsThisSecond)) 1
          ++ List.replicate
              (ts.length - (MAX_CONNECTIONS_PER_SECOND - g.newConnectionsThisSecond)) 0
  | [], _, _, _ => by simp [reconnectPulses]
  | t :: ts, g, hg, hv => by
    obtain ⟨hrun, hpool, hpeers, hatoms, a, rest, hc, ho⟩ := hv t (List.mem_cons_self _ _)
    obtain ⟨t1, _, _, _, hrp⟩ :=
      reconnectPulse_running env incoming g now t hrun hpool hpeers hatoms
    rw [hc, reconnectTick_of_prevTime g now hg] at hrp
    simp only [ho, Bool.true_eq_false, if_false] at hrp
    have hv' := fun t' ht' => hv t' (List.mem_cons_of_mem _ ht')
    unfold reconnectPulses
    have h8 : MAX_CONNECTIONS_PER_SECOND = 8 := rfl
    by_cases hb : g.newConnectionsThisSecond < MAX_CONNECTIONS_PER_SECOND
    · rw [if_pos hb] at hrp
      rw [hrp]
      simp only [List.length_singleton, List.length_cons, List.length_nil, Nat.zero_add]
      rw [reconnectPulses_viable env incoming now ts
        { g with newConnectionsThisSecond := g.newConnectionsThisSecond + 1 } hg hv']
      simp only
      obtain ⟨k, hk⟩ : ∃ k, MAX_CONNECTIONS_PER_SECOND - g.newConnectionsThisSecond = k + 1 :=
        ⟨MAX_CONNECTIONS_PER_SECOND - g.newConnectionsThisSecond - 1, by omega⟩
      have hk' : MAX_CONNECTIONS_PER_SECOND - (g.newConnectionsThisSecond + 1) = k := by omega
      rw [hk, hk', Nat.succ_min_succ, Nat.succ_sub_succ, List.replicate_succ, List.cons_append]
    · rw [if_neg hb] at hrp
      rw [hrp]
      simp only [List.length_nil, List.length_cons]
      rw [reconnectPulses_viable env incoming now ts g hg hv']
      have hk : MAX_CONNECTIONS_PER_SECOND - g.newConnectionsThisSecond = 0 := by omega
      rw [hk]
      simp [List.replicate_succ]

/-- C15 (as stated, it fails): sixteen running torrents that each have two
viable candidates, the outgoing I/O of the second of which opens, start no
handshake in the second 100000, because a pulse tries the first of its sorted
candidates only and that one does not open; and of nineteen torrents whose
first candidate opens, all pulsed in that second, the last sixteen start five
handshakes, three having been started before them in that second. -/
theorem C15_first_candidate_fails_no_handshake :
    (getPeerCandidates firstFails [] twoCandidateTorrent 100000).map (fun a => a.addr)
      = [1, 2] ∧
    firstFails.tr_peerIoNewOutgoing 1 0 = false ∧
    firstFails.tr_peerIoNewOutgoing 2 0 = true ∧
    reconnectPulses firstFails [] 100000 {} (List.replicate 16 twoCandidateTorrent)
      = List.replicate 16 0 ∧
    reconnectPulses {} [] 100000 {} (List.replicate 19 coolDownTorrent)
      = [1, 1, 1] ++ ([1, 1, 1, 1, 1] ++ List.replicate 11 0) := by
  refine ⟨by decide, by decide, by decide, by decide, by decide⟩

/-- C15 (amended): calls of `reconnectPulse` that all observe the second
`now`, for any torrents and whatever the static variables held before, start
at most 8 handshakes in total. With 16 running torrents (peers with distinct
addresses and an atom each, one atom per address) whose first sorted
candidate, the only one a pulse tries, opens its outgoing I/O, and no
handshake started earlier in that second, the first 8 calls start one
handshake each and the other 8 start none. -/
theorem C15_rate_limit (env : PeerMgrEnv) (incoming : List Nat) (now : Nat)
    (g : ReconnectGlobals) (ts : List Torrent) :
    (reconnectPulses env incoming now g ts).sum ≤ 8 ∧
    (ts.length = 16 →
      (reconnectTick g now).newConnectionsThisSecond = 0 →
      (∀ t ∈ ts, t.isRunning = true ∧ (t.pool.map (fun a => a.addr)).Nodup ∧
        (t.peers.map (fun p => p.in_addr)).Nodup ∧ PeersHaveAtoms t ∧
        ∃ a rest, getPeerCandidates env incoming t now = a :: rest ∧
          env.tr_peerIoNewOutgoing a.addr a.port = true) →
      reconnectPulses env incoming now g ts = [1, 1, 1, 1, 1, 1, 1, 1, 0, 0, 0, 0, 0, 0, 0, 0] ∧
      (reconnectPulses env incoming now g ts).sum = 8) := by
  constructor
  · rw [← reconnectPulses_tick]
    exact (reconnectPulses_sum_le env incoming now ts _ (reconnectTick_prevTime g now)).trans
      (Nat.sub_le _ _)
  · intro hlen hfresh hv
    have h := reconnectPulses_viable env incoming now ts _ (reconnectTick_prevTime g now) hv
    rw [reconnectPulses_tick, hlen, hfresh] at h
    rw [h]
    exact ⟨by decide, by decide⟩

/-- C15 (amended) on sixteen copies of a running torrent with one candidate, all pulsed
in the second 100000 with the default static variables: eight handshakes. -/
theorem C15_rate_limit_witness :
    (reconnectPulses {} [] 100000 {} (List.replicate 16 coolDownTorrent)).sum ≤ 8 ∧
    reconnectPulses {} [] 100000 {} (List.replicate 16 coolDownTorrent)
      = [1, 1, 1, 1, 1, 1, 1, 1, 0, 0, 0, 0, 0, 0, 0, 0] :=
  ⟨(C15_rate_limit {} [] 100000 {} (List.replicate 16 coolDownTorrent)).1,
   ((C15_rate_limit {} [] 100000 {} (List.replicate 16 coolDownTorrent)).2
      (by decide) (by decide)
      (fun t ht => by
        rw [List.eq_of_mem_replicate ht]
        exact ⟨by decide, by decide, by decide, by unfold PeersHaveAtoms; decide,
          { addr := 2, numFails := 2, piece_data_time := 0, time := 100000 - 21 * 60 }, [],
          by decide, by decide⟩)).1⟩

theorem mem_insertSorted {α : Type} (key : α → Nat) (a x : α) :
    ∀ l : List α, x ∈ insertSorted key a l ↔ (x = a ∨ x ∈ l)
  | [] => by simp [insertSorted]
  | b :: l => by
    unfold insertSorted
    split_ifs
    · simp
    · simp only [List.mem_cons, mem_insertSorted key a x l]
      tauto

theorem hasFlag_or_self (flags : Nat) :
    hasFlag (flags ||| MYFLAG_UNREACHABLE) MYFLAG_UNREACHABLE = true := by
  unfold hasFlag MYFLAG_UNREACHABLE
  have h : ((flags ||| 2) &&& 2).testBit 1 = true := by
    have h2 : Nat.testBit 2 1 = true := by decide
    rw [Nat.testBit_and, Nat.testBit_or, h2]
    simp
  simp only [bne_iff_ne, ne_eq]
  intro e
  rw [e] at h
  simp at h

/-- An atom whose address belongs to no peer is not touched by the closure
sweep. -/
theorem mem_sweptPool_of_no_peer (closed : List tr_peer) (now : Nat) (pool : List peer_atom)
    (a : peer_atom) (ha : a ∈ pool) (hno : ∀ p ∈ closed, p.in_addr ≠ a.addr) :
    a ∈ sweptPool closed now pool := by
  unfold sweptPool
  refine List.mem_map.mpr ⟨a, ha, ?_⟩
  have : closed.find? (fun p => decide (p.in_addr = a.addr)) = none := by
    rw [List.find?_eq_none]
    intro p hp
    simpa using hno p hp
  rw [this]

/-- C16: one `reconnectPulse` of a running torrent (peers with distinct
addresses and an atom each, one atom per address); `t1` is the torrent after
the closure sweep, `r` what the pulse leaves. At most one atom is attempted. If
none is, the promotion step changes nothing. The first of the sorted candidates
is attempted whenever there is one and the budget of the second is not used up,
and nothing else is ever attempted. For the attempted atom `a`: it was not
marked unreachable; in the pool its `time` becomes `now` in both cases and its
`myflags` gains MYFLAG_UNREACHABLE exactly when the I/O does not open, every
other atom staying as the sweep left it; the outgoing handshakes gain the
address when the I/O opens and stay as they are when it does not, so the
address is among them iff the I/O opens. -/
theorem C16_promotion (env : PeerMgrEnv) (incoming : List Nat) (g : ReconnectGlobals)
    (now : Nat) (t : Torrent) (hrun : t.isRunning = true)
    (hpool : (t.pool.map (fun a => a.addr)).Nodup)
    (hpeers : (t.peers.map (fun p => p.in_addr)).Nodup)
    (hatoms : PeersHaveAtoms t) :
    ∃ t1 r, closureSweep t now = some t1 ∧ reconnectPulse env incoming g now t = some r ∧
      r.attempted.length ≤ MAX_RECONNECTIONS_PER_PULSE ∧
      r.t.peers = t1.peers ∧
      (r.attempted = [] → r.started = [] ∧ r.t = t1) ∧
      (∀ a rest, getPeerCandidates env incoming t now = a :: rest →
        (reconnectTick g now).newConnectionsThisSecond < MAX_CONNECTIONS_PER_SECOND →
        r.attempted = [a.addr]) ∧
      (∀ addr ∈ r.attempted, ∃ a rest,
        getPeerCandidates env incoming t now = a :: rest ∧ addr = a.addr ∧
        a ∈ t1.pool ∧ hasFlag a.myflags MYFLAG_UNREACHABLE = false ∧
        a.addr ∉ t1.outgoingHandshakes ∧
        r.t.pool = t1.pool.map (fun x =>
          if x.addr = a.addr then
            { x with
              myflags := if env.tr_peerIoNewOutgoing a.addr a.port then x.myflags
                         else x.myflags ||| MYFLAG_UNREACHABLE
              time := now }
          else x) ∧
        (env.tr_peerIoNewOutgoing a.addr a.port = false →
          hasFlag (a.myflags ||| MYFLAG_UNREACHABLE) MYFLAG_UNREACHABLE = true ∧
          r.t.outgoingHandshakes = t1.outgoingHandshakes ∧ r.started = []) ∧
        (env.tr_peerIoNewOutgoing a.addr a.port = true →
          r.t.outgoingHandshakes = insertSorted id a.addr t1.outgoingHandshakes ∧
          r.started = [a.addr]) ∧
        (a.addr ∈ r.t.outgoingHandshakes ↔ env.tr_peerIoNewOutgoing a.addr a.port = true)) := by
  obtain ⟨t1, hs, hout, _, hrp⟩ :=
    reconnectPulse_running env incoming g now t hrun hpool hpeers hatoms
  have ht1 : t1.pool = sweptPool (t.peers.filter (closes t now)) now t.pool := by
    have h := (closureSweep_eq t now hpool hpeers hatoms).symm.trans hs
    rw [← Option.some.inj h]
  have h1 : MAX_RECONNECTIONS_PER_PULSE = 1 := rfl
  cases hc : getPeerCandidates env incoming t now with
  | nil =>
    rw [hc] at hrp
    exact ⟨t1, _, hs, hrp, by simp, rfl, fun _ => ⟨rfl, rfl⟩, fun a rest h => by simp at h,
      fun addr h => by simp at h⟩
  | cons a rest =>
    rw [hc] at hrp
    simp only at hrp
    by_cases hb : (reconnectTick g now).newConnectionsThisSecond < MAX_CONNECTIONS_PER_SECOND
    · rw [if_pos hb] at hrp
      obtain ⟨hmem, hcand⟩ :=
        (mem_getPeerCandidates env incoming t now a).mp (hc ▸ List.mem_cons_self _ _)
      obtain ⟨_, hunr, huse, _⟩ := (isCandidate_iff env incoming t now a).mp hcand
      obtain ⟨hnopeer, hnoout, _⟩ := (peerIsInUse_false_iff incoming t a.addr).mp huse
      have hmem1 : a ∈ t1.pool := by
        rw [ht1]
        exact mem_sweptPool_of_no_peer _ now t.pool a hmem
          (fun p hp => hnopeer p (List.mem_of_mem_filter hp))
      have hnoout1 : a.addr ∉ t1.outgoingHandshakes := by rw [hout]; exact hnoout
      by_cases ho : env.tr_peerIoNewOutgoing a.addr a.port = false
      · rw [if_pos ho] at hrp
        refine ⟨t1, _, hs, hrp, by simp [h1], rfl, fun h => by simp at h,
          fun a' rest' h _ => by rw [(List.cons.inj h).1], ?_⟩
        intro addr haddr
        simp only [List.mem_singleton] at haddr
        refine ⟨a, rest, rfl, haddr, hmem1, hunr, hnoout1, ?_, ?_, ?_, ?_⟩
        · simp only [ho, promotedAtom]
        · exact fun _ => ⟨hasFlag_or_self _, rfl, rfl⟩
        · intro h; rw [ho] at h; exact absurd h (by simp)
        · simp only [ho, Bool.false_eq_true, iff_false]
          exact hnoout1
      · have ho' : env.tr_peerIoNewOutgoing a.addr a.port = true := by simpa using ho
        rw [if_neg ho] at hrp
        refine ⟨t1, _, hs, hrp, by simp [h1], rfl, fun h => by simp at h,
          fun a' rest' h _ => by rw [(List.cons.inj h).1], ?_⟩
        intro addr haddr
        simp only [List.mem_singleton] at haddr
        refine ⟨a, rest, rfl, haddr, hmem1, hunr, hnoout1, ?_, ?_, ?_, ?_⟩
        · simp only [ho', promotedAtom]
        · intro h; exact absurd h ho
        · exact fun _ => ⟨rfl, rfl⟩
        · simp only [ho', iff_true]
          exact (mem_insertSorted id a.addr a.addr _).mpr (Or.inl rfl)
    · rw [if_neg hb] at hrp
      exact ⟨t1, _, hs, hrp, by simp, rfl, fun _ => ⟨rfl, rfl⟩,
        fun _ _ _ hb' => absurd hb' hb,
        fun addr h => by simp at h⟩

/-- C16 on a pool of eight atoms of which only the eighth is a candidate: with
an I/O that opens, atom 8 alone is attempted, stamped, and its handshake joins
the outgoing set; with an I/O that does not open, atom 8 alone is attempted,
stamped and marked unreachable, and the outgoing set stays. -/
theorem C16_promotion_witness :
    ((reconnectPulse blocklist7 [5] {} 100000 candidatePoolTorrent).map
        (fun r => (r.attempted, r.started, r.t.outgoingHandshakes))
      = some ([8], [8], [4, 8]) ∧
     (reconnectPulse blocklist7 [5] {} 100000 candidatePoolTorrent).map
        (fun r => r.t.pool.map (fun a => (a.addr, a.myflags, a.time)))
      = some [(1, 1, 0), (2, 2, 0), (3, 0, 0), (4, 0, 0), (5, 0, 0), (6, 0, 0), (7, 0, 0),
              (8, 0, 100000)]) ∧
    ((reconnectPulse noOutgoingIo [5, 7] {} 100000 candidatePoolTorrent).map
        (fun r => (r.attempted, r.started, r.t.outgoingHandshakes))
      = some ([8], [], [4]) ∧
     (reconnectPulse noOutgoingIo [5, 7] {} 100000 candidatePoolTorrent).map
        (fun r => r.t.pool.map (fun a => (a.addr, a.myflags, a.time)))
      = some [(1, 1, 0), (2, 2, 0), (3, 0, 0), (4, 0, 0), (5, 0, 0), (6, 0, 0), (7, 0, 0),
              (8, 2, 100000)]) ∧
    (∃ t1 r, closureSweep candidatePoolTorrent 100000 = some t1 ∧
      reconnectPulse blocklist7 [5] {} 100000 candidatePoolTorrent = some r ∧
      r.attempted.length ≤ MAX_RECONNECTIONS_PER_PULSE) ∧
    (∃ t1 r, closureSweep candidatePoolTorrent 100000 = some t1 ∧
      reconnectPulse noOutgoingIo [5, 7] {} 100000 candidatePoolTorrent = some r ∧
      r.attempted.length ≤ MAX_RECONNECTIONS_PER_PULSE) :=
  ⟨⟨by decide!, by decide!⟩, ⟨by decide!, by decide!⟩,
   let ⟨t1, r, h1, h2, h3, _⟩ := C16_promotion blocklist7 [5] {} 100000 candidatePoolTorrent
     (by decide) (by decide) (by decide) (by unfold PeersHaveAtoms; decide)
   ⟨t1, r, h1, h2, h3⟩,
   let ⟨t1, r, h1, h2, h3, _⟩ := C16_promotion noOutgoingIo [5, 7] {} 100000 candidatePoolTorrent
     (by decide) (by decide) (by decide) (by unfold PeersHaveAtoms; decide)
   ⟨t1, r, h1, h2, h3⟩⟩

/-! ## Strikes and bans -/

theorem getExistingTorrent_putTorrent (m : tr_peerMgr) (h : List Nat) (t t1 : Torrent)
    (ht : getExistingTorrent m h = some t) (h1 : t1.hash = h) :
    getExistingTorrent { m with torrents := putTorrent m.torrents t1 } h = some t1 := by
  unfold getExistingTorrent at ht ⊢
  simp only
  generalize m.torrents = l at ht
  induction l with
  | nil => simp at ht
  | cons x rest ih =>
    unfold putTorrent
    rw [List.find?_cons] at ht
    by_cases hx : x.hash = h
    · rw [if_pos (hx.trans h1.symm), List.find?_cons]
      simp [h1]
    · rw [if_neg (fun e => hx (e.trans h1)), List.find?_cons]
      simp only [hx, decide_False] at ht ⊢
      exact ih ht

theorem getExistingTorrent_hash (m : tr_peerMgr) (h : List Nat) (t : Torrent)
    (ht : getExistingTorrent m h = some t) : t.hash = h := by
  unfold getExistingTorrent at ht
  simpa using List.find?_some ht

theorem hasFlag_or_banned (flags : Nat) :
    hasFlag (flags ||| MYFLAG_BANNED) MYFLAG_BANNED = true := by
  unfold hasFlag MYFLAG_BANNED
  have h : ((flags ||| 1) &&& 1).testBit 0 = true := by
    have h2 : Nat.testBit 1 0 = true := by decide
    rw [Nat.testBit_and, Nat.testBit_or, h2]
    simp
  simp only [bne_iff_ne, ne_eq]
  intro e
  rw [e] at h
  simp at h

/-- The loop of `tr_peerMgrSetBlame` written out: every blamed peer gets a
strike, and the atoms of those that reach the limit are banned. -/
theorem setBlameLoop_eq (pieceIndex : Nat) :
    ∀ (l : List tr_peer) (pool : List peer_atom),
      (pool.map (fun a => a.addr)).Nodup →
      (∀ q ∈ l, ∃ a ∈ pool, a.addr = q.in_addr) →
      setBlameLoop pieceIndex pool l = some
        (pool.map (fun a => if struckOut pieceIndex l a.addr = true then
            { a with myflags := a.myflags ||| MYFLAG_BANNED } else a),
         l.map (struck pieceIndex))
  | [], pool, _, _ => by
    simp [setBlameLoop, struckOut]
  | q :: rest, pool, hpool, hat => by
    have hrest : ∀ q' ∈ rest, ∃ a ∈ pool, a.addr = q'.in_addr :=
      fun q' hq' => hat q' (List.mem_cons_of_mem _ hq')
    unfold setBlameLoop
    by_cases hb : tr_bitfieldHas q.blame pieceIndex = true
    · rw [if_pos hb]
      unfold addStrike
      simp only
      by_cases hlim : q.strikes + 1 ≥ MAX_BAD_PIECES_PER_PEER
      · rw [if_pos hlim, modifyAtom_eq_map _ _ _ hpool (hat q (List.mem_cons_self _ _))]
        simp only
        have hmapaddr : (pool.map (fun a => if a.addr = q.in_addr then
            ({ a with myflags := a.myflags ||| MYFLAG_BANNED } : peer_atom) else a)).map
            (fun a => a.addr) = pool.map (fun a => a.addr) := by
          rw [List.map_map]
          apply List.map_congr_left
          intro a _
          simp only [Function.comp]
          split <;> rfl
        rw [setBlameLoop_eq pieceIndex rest _ (by rw [hmapaddr]; exact hpool) (by
          intro q' hq'
          obtain ⟨a, ha, e⟩ := hrest q' hq'
          have hmem : a.addr ∈ (pool.map (fun a => if a.addr = q.in_addr then
              ({ a with myflags := a.myflags ||| MYFLAG_BANNED } : peer_atom) else a)).map
              (fun a => a.addr) := by
            rw [hmapaddr]; exact List.mem_map.mpr ⟨a, ha, rfl⟩
          obtain ⟨a', ha', e'⟩ := List.mem_map.mp hmem
          exact ⟨a', ha', e'.trans e⟩)]
        simp only [List.map_map, List.map_cons, Option.some.injEq, Prod.mk.injEq, List.cons.injEq]
        refine ⟨?_, ?_, trivial⟩
        · apply List.map_congr_left
          intro a _
          simp only [Function.comp, struckOut, List.any_cons]
          by_cases e : a.addr = q.in_addr
          · have e' : q.in_addr = a.addr := e.symm
            simp only [e, if_true, hb, decide_True, hlim, Bool.and_self, Bool.true_or]
            split
            · simp [Nat.or_assoc]
            · rfl
          · have e' : ¬ q.in_addr = a.addr := fun x => e x.symm
            simp only [e, e', if_false, decide_False, Bool.false_and, Bool.false_or]
        · simp [struck, hb, hlim]
      · rw [if_neg hlim]
        simp only
        rw [setBlameLoop_eq pieceIndex rest pool hpool hrest]
        simp only [List.map_cons, Option.some.injEq, Prod.mk.injEq, List.cons.injEq]
        refine ⟨?_, ?_, trivial⟩
        · apply List.map_congr_left
          intro a _
          simp only [struckOut, List.any_cons, hlim, decide_False, Bool.and_false,
            Bool.false_or]
        · simp [struck, hb, hlim]
    · rw [if_neg hb, setBlameLoop_eq pieceIndex rest pool hpool hrest]
      simp only [List.map_cons, Option.some.injEq, Prod.mk.injEq, List.cons.injEq]
      refine ⟨?_, ?_, trivial⟩
      · apply List.map_congr_left
        intro a _
        have hb' : tr_bitfieldHas q.blame pieceIndex = false := by simpa using hb
        simp only [struckOut, List.any_cons, hb', Bool.and_false, Bool.false_and,
          Bool.false_or]
      · simp [struck, hb]

theorem struck_in_addr (pieceIndex : Nat) (p : tr_peer) :
    (struck pieceIndex p).in_addr = p.in_addr := by
  unfold struck
  split <;> rfl

theorem struckOut_of_mem (pieceIndex : Nat) (peers : List tr_peer)
    (hpeers : (peers.map (fun p => p.in_addr)).Nodup) (p : tr_peer) (hp : p ∈ peers) :
    struckOut pieceIndex peers p.in_addr
      = (tr_bitfieldHas p.blame pieceIndex && decide (p.strikes + 1 ≥ MAX_BAD_PIECES_PER_PEER)) := by
  unfold struckOut
  cases hv : (tr_bitfieldHas p.blame pieceIndex
      && decide (p.strikes + 1 ≥ MAX_BAD_PIECES_PER_PEER))
  · rw [List.any_eq_false]
    intro q hq hc
    simp only [Bool.and_eq_true, decide_eq_true_eq] at hc
    have e := peer_eq_of_addr_eq hpeers hq hp hc.1.1
    subst e
    simp [hc.1.2, hc.2] at hv
  · rw [List.any_eq_true]
    refine ⟨p, hp, ?_⟩
    simp only [Bool.and_eq_true, decide_eq_true_eq] at hv ⊢
    exact ⟨⟨trivial, hv.1⟩, hv.2⟩

theorem tr_peerMgrSetBlame_eq (m : tr_peerMgr) (h : List Nat) (t : Torrent) (pieceIndex : Nat)
    (ht : getExistingTorrent m h = some t)
    (hpool : (t.pool.map (fun a => a.addr)).Nodup)
    (hatoms : PeersHaveAtoms t) :
    tr_peerMgrSetBlame m h pieceIndex false = some { m with
      torrents := putTorrent m.torrents { t with
        pool := t.pool.map (fun a => if struckOut pieceIndex t.peers a.addr = true then
          { a with myflags := a.myflags ||| MYFLAG_BANNED } else a)
        peers := t.peers.map (struck pieceIndex) } } := by
  unfold tr_peerMgrSetBlame
  simp only [Bool.not_false, if_true, ht, setBlameLoop_eq pieceIndex t.peers t.pool hpool hatoms]

/-- One failed piece, for a torrent whose peers have distinct addresses and
each an atom, the pool holding one atom per address: the call returns, the
blamed peer at position `i` gets its strike, its atom at position `j` is
banned exactly when the limit is reached, and the torrent is again of that
kind. -/
theorem tr_peerMgrSetBlame_step (m : tr_peerMgr) (h : List Nat) (t : Torrent)
    (pieceIndex i j : Nat) (p : tr_peer) (a : peer_atom)
    (ht : getExistingTorrent m h = some t)
    (hpool : (t.pool.map (fun a => a.addr)).Nodup)
    (hpeers : (t.peers.map (fun p => p.in_addr)).Nodup)
    (hatoms : PeersHaveAtoms t)
    (hp : t.peers[i]? = some p) (ha : t.pool[j]? = some a) (haddr : a.addr = p.in_addr) :
    ∃ m1 t1, tr_peerMgrSetBlame m h pieceIndex false = some m1 ∧
      getExistingTorrent m1 h = some t1 ∧
      m1.incomingHandshakes = m.incomingHandshakes ∧
      t1.isRunning = t.isRunning ∧
      t1.tor = t.tor ∧
      (t1.pool.map (fun a => a.addr)).Nodup ∧
      (t1.peers.map (fun p => p.in_addr)).Nodup ∧
      PeersHaveAtoms t1 ∧
      t1.peers[i]? = some (struck pieceIndex p) ∧
      t1.pool[j]? = some
        (if tr_bitfieldHas p.blame pieceIndex = true ∧ p.strikes + 1 ≥ MAX_BAD_PIECES_PER_PEER
         then { a with myflags := a.myflags ||| MYFLAG_BANNED } else a) := by
  have hpooladdr : (t.pool.map (fun a => if struckOut pieceIndex t.peers a.addr = true then
      ({ a with myflags := a.myflags ||| MYFLAG_BANNED } : peer_atom) else a)).map
      (fun a => a.addr) = t.pool.map (fun a => a.addr) := by
    rw [List.map_map]
    apply List.map_congr_left
    intro a _
    simp only [Function.comp]
    split <;> rfl
  have hpeeraddr : (t.peers.map (struck pieceIndex)).map (fun p => p.in_addr)
      = t.peers.map (fun p => p.in_addr) := by
    rw [List.map_map]
    apply List.map_congr_left
    intro q _
    exact struck_in_addr pieceIndex q
  refine ⟨_, _, tr_peerMgrSetBlame_eq m h t pieceIndex ht hpool hatoms,
    getExistingTorrent_putTorrent m h t _ ht (getExistingTorrent_hash m h t ht),
    rfl, rfl, rfl, ?_, ?_, ?_, ?_, ?_⟩
  · rw [hpooladdr]; exact hpool
  · rw [hpeeraddr]; exact hpeers
  · intro q hq
    have hq' : q.in_addr ∈ t.peers.map (fun p => p.in_addr) := by
      rw [← hpeeraddr]; exact List.mem_map.mpr ⟨q, hq, rfl⟩
    obtain ⟨q0, hq0, e0⟩ := List.mem_map.mp hq'
    obtain ⟨a0, ha0, e1⟩ := hatoms q0 hq0
    have ha' : a0.addr ∈ (t.pool.map (fun a => if struckOut pieceIndex t.peers a.addr = true
        then ({ a with myflags := a.myflags ||| MYFLAG_BANNED } : peer_atom) else a)).map
        (fun a => a.addr) := by
      rw [hpooladdr]; exact List.mem_map.mpr ⟨a0, ha0, rfl⟩
    obtain ⟨a1, ha1, e2⟩ := List.mem_map.mp ha'
    exact ⟨a1, ha1, e2.trans (e1.trans e0)⟩
  · simp only [List.getElem?_map, hp, Option.map_some']
  · simp only [List.getElem?_map, ha, Option.map_some', haddr,
      struckOut_of_mem pieceIndex t.peers hpeers p (List.getElem?_mem hp),
      Bool.and_eq_true, decide_eq_true_eq]

/-- The peer set after one pulse of a running torrent: the peers that
`shouldPeerBeClosed` does not select. -/
theorem reconnectPulse_running_peers (env : PeerMgrEnv) (incoming : List Nat)
    (g : ReconnectGlobals) (now : Nat) (t : Torrent) (hrun : t.isRunning = true)
    (hpool : (t.pool.map (fun a => a.addr)).Nodup)
    (hpeers : (t.peers.map (fun p => p.in_addr)).Nodup)
    (hatoms : PeersHaveAtoms t) :
    ∃ r, reconnectPulse env incoming g now t = some r ∧
      r.t.peers = t.peers.filter (fun p => !closes t now p) := by
  obtain ⟨t1, hs, _, _, hrp⟩ :=
    reconnectPulse_running env incoming g now t hrun hpool hpeers hatoms
  have ht1 : t1.peers = t.peers.filter (fun p => !closes t now p) := by
    have h := (closureSweep_eq t now hpool hpeers hatoms).symm.trans hs
    rw [← Option.some.inj h]
  rw [← ht1]
  cases hc : getPeerCandidates env incoming t now with
  | nil => rw [hc] at hrp; exact ⟨_, hrp, rfl⟩
  | cons a rest =>
    rw [hc] at hrp
    simp only at hrp
    split_ifs at hrp <;> exact ⟨_, hrp, rfl⟩

/-- C18: a running torrent of the manager (peers with distinct addresses and
an atom each, one atom per address), a peer `p` at position `i` of its peer set
with no strikes and blamed for `pieceIndex`, and its atom `a` at position `j`
of the pool. Three calls of `tr_peerMgrSetBlame` with `success = 0` return; the
first two leave the atom as it is and change only the strike count of the peer
(1, then 2); the third sets the strike count to 3, `doPurge` on the peer and
MYFLAG_BANNED on the atom. The next `reconnectPulse` of the torrent returns and
leaves no peer of that address in the peer set. -/
theorem C18_ban_threshold (env : PeerMgrEnv) (g : ReconnectGlobals) (now : Nat)
    (m : tr_peerMgr) (h : List Nat) (t : Torrent) (pieceIndex i j : Nat)
    (p : tr_peer) (a : peer_atom)
    (ht : getExistingTorrent m h = some t)
    (hrun : t.isRunning = true)
    (hpool : (t.pool.map (fun a => a.addr)).Nodup)
    (hpeers : (t.peers.map (fun p => p.in_addr)).Nodup)
    (hatoms : PeersHaveAtoms t)
    (hp : t.peers[i]? = some p) (hstrikes : p.strikes = 0)
    (hblame : tr_bitfieldHas p.blame pieceIndex = true)
    (ha : t.pool[j]? = some a) (haddr : a.addr = p.in_addr) :
    ∃ m1 m2 m3 t1 t2 t3 r,
      tr_peerMgrSetBlame m h pieceIndex false = some m1 ∧
      getExistingTorrent m1 h = some t1 ∧
      t1.peers[i]? = some { p with strikes := 1 } ∧ t1.pool[j]? = some a ∧
      tr_peerMgrSetBlame m1 h pieceIndex false = some m2 ∧
      getExistingTorrent m2 h = some t2 ∧
      t2.peers[i]? = some { p with strikes := 2 } ∧ t2.pool[j]? = some a ∧
      tr_peerMgrSetBlame m2 h pieceIndex false = some m3 ∧
      getExistingTorrent m3 h = some t3 ∧
      t3.peers[i]? = some { p with strikes := 3, doPurge := true } ∧
      t3.pool[j]? = some { a with myflags := a.myflags ||| MYFLAG_BANNED } ∧
      hasFlag (a.myflags ||| MYFLAG_BANNED) MYFLAG_BANNED = true ∧
      reconnectPulse env m3.incomingHandshakes g now t3 = some r ∧
      ∀ q ∈ r.t.peers, q.in_addr ≠ p.in_addr := by
  have h3 : MAX_BAD_PIECES_PER_PEER = 3 := rfl
  obtain ⟨m1, t1, hm1, ht1, _, hrun1, _, hpool1, hpeers1, hatoms1, hp1, ha1⟩ :=
    tr_peerMgrSetBlame_step m h t pieceIndex i j p a ht hpool hpeers hatoms hp ha haddr
  have e1 : struck pieceIndex p = { p with strikes := 1 } := by
    simp [struck, hblame, hstrikes, h3]
  rw [e1] at hp1
  rw [if_neg (by rw [hstrikes, h3]; omega)] at ha1
  obtain ⟨m2, t2, hm2, ht2, _, hrun2, _, hpool2, hpeers2, hatoms2, hp2, ha2⟩ :=
    tr_peerMgrSetBlame_step m1 h t1 pieceIndex i j _ a ht1 hpool1 hpeers1 hatoms1 hp1 ha1 haddr
  have e2 : struck pieceIndex { p with strikes := 1 } = { p with strikes := 2 } := by
    simp [struck, hblame, h3]
  rw [e2] at hp2
  rw [if_neg (by rw [h3]; simp)] at ha2
  obtain ⟨m3, t3, hm3, ht3, _, hrun3, _, hpool3, hpeers3, hatoms3, hp3, ha3⟩ :=
    tr_peerMgrSetBlame_step m2 h t2 pieceIndex i j _ a ht2 hpool2 hpeers2 hatoms2 hp2 ha2 haddr
  have e3 : struck pieceIndex { p with strikes := 2 }
      = { p with strikes := 3, doPurge := true } := by
    simp [struck, hblame, h3]
  rw [e3] at hp3
  rw [if_pos ⟨hblame, by rw [h3]⟩] at ha3
  obtain ⟨r, hr, hrpeers⟩ := reconnectPulse_running_peers env m3.incomingHandshakes g now t3
    (hrun3.trans (hrun2.trans (hrun1.trans hrun))) hpool3 hpeers3 hatoms3
  refine ⟨m1, m2, m3, t1, t2, t3, r, hm1, ht1, hp1, ha1, hm2, ht2, hp2, ha2, hm3, ht3, hp3, ha3,
    hasFlag_or_banned _, hr, ?_⟩
  intro q hq e
  rw [hrpeers] at hq
  obtain ⟨hq1, hq2⟩ := List.mem_filter.mp hq
  have hq3 := peer_eq_of_addr_eq hpeers3 hq1 (List.getElem?_mem hp3) e
  rw [hq3] at hq2
  simp [closes, shouldPeerBeClosed] at hq2

/-- C18 on a torrent with two peers of which the one at address 1 is blamed
for piece 5: after three failures of piece 5 that peer has 3 strikes and
`doPurge`, its atom is banned, the other peer and atom are untouched, and the
next pulse leaves only the peer at address 2. -/
theorem C18_ban_threshold_witness :
    ((tr_peerMgrSetBlame blameManager [7] 5 false).bind (fun m1 =>
      (tr_peerMgrSetBlame m1 [7] 5 false).bind (fun m2 =>
        tr_peerMgrSetBlame m2 [7] 5 false))).map (fun m3 => m3.torrents.map (fun t =>
          (t.pool.map (fun a => (a.addr, a.myflags)),
           t.peers.map (fun p => (p.in_addr, p.strikes, p.doPurge)))))
      = some [([(1, 1), (2, 0)], [(1, 3, true), (2, 0, false)])] ∧
    ∃ m1 m2 m3 t1 t2 t3 r,
      tr_peerMgrSetBlame blameManager [7] 5 false = some m1 ∧
      getExistingTorrent m1 [7] = some t1 ∧
      t1.peers[0]? = some { in_addr := 1, blame := tr_bitfieldAdd (tr_bitfieldNew 8) 5,
                            strikes := 1 } ∧
      t1.pool[0]? = some { addr := 1 } ∧
      tr_peerMgrSetBlame m1 [7] 5 false = some m2 ∧
      getExistingTorrent m2 [7] = some t2 ∧
      t2.peers[0]? = some { in_addr := 1, blame := tr_bitfieldAdd (tr_bitfieldNew 8) 5,
                            strikes := 2 } ∧
      t2.pool[0]? = some { addr := 1 } ∧
      tr_peerMgrSetBlame m2 [7] 5 false = some m3 ∧
      getExistingTorrent m3 [7] = some t3 ∧
      t3.peers[0]? = some { in_addr := 1, blame := tr_bitfieldAdd (tr_bitfieldNew 8) 5,
                            strikes := 3, doPurge := true } ∧
      t3.pool[0]? = some { addr := 1, myflags := 0 ||| MYFLAG_BANNED } ∧
      hasFlag (0 ||| MYFLAG_BANNED) MYFLAG_BANNED = true ∧
      reconnectPulse {} m3.incomingHandshakes {} 100000 t3 = some r ∧
      ∀ q ∈ r.t.peers, q.in_addr ≠ 1 :=
  ⟨by decide!,
   C18_ban_threshold {} {} 100000 blameManager [7]
     { hash := [7], isRunning := true
       tor := { maxConnectedPeers := 60 }
       peers := [{ in_addr := 1, blame := tr_bitfieldAdd (tr_bitfieldNew 8) 5 },
                 { in_addr := 2, blame := tr_bitfieldNew 8 }]
       pool := [{ addr := 1 }, { addr := 2 }] }
     5 0 0 { in_addr := 1, blame := tr_bitfieldAdd (tr_bitfieldNew 8) 5 } { addr := 1 }
     rfl rfl (by decide) (by decide) (by unfold PeersHaveAtoms; decide) rfl rfl (by decide)
     rfl rfl⟩

/-! ## Handshake completion -/

theorem removeHandshake_of_mem (l : List Nat) (addr : Nat) (h : addr ∈ l) :
    removeHandshake l addr = some (l.erase addr) := by
  unfold removeHandshake
  rw [if_pos (by simpa using h)]

theorem putTorrent_map {β : Type} (f : Torrent → β) (t1 : Torrent) :
    ∀ (l : List Torrent) (t : Torrent),
      l.find? (fun x => decide (x.hash = t1.hash)) = some t → f t1 = f t →
      (putTorrent l t1).map f = l.map f
  | [], _, h, _ => by simp at h
  | x :: rest, t, h, hf => by
    unfold putTorrent
    rw [List.find?_cons] at h
    by_cases hx : x.hash = t1.hash
    · simp only [hx, decide_True, Option.some.injEq] at h
      rw [if_pos hx, List.map_cons, List.map_cons, hf, h]
    · simp only [hx, decide_False] at h
      rw [if_neg hx, List.map_cons, List.map_cons, putTorrent_map f t1 rest t h hf]

theorem handshakeTorrent_putTorrent (m : tr_peerMgr) (io : tr_peerIo) (t t1 : Torrent)
    (incoming : List Nat) (ht : handshakeTorrent m io = some t) (h1 : t1.hash = t.hash) :
    handshakeTorrent { torrents := putTorrent m.torrents t1, incomingHandshakes := incoming } io
      = some t1 := by
  unfold handshakeTorrent at ht ⊢
  cases hh : io.torrentHash with
  | none => rw [hh] at ht; simp at ht
  | some hash =>
    rw [hh] at ht
    simp only at ht ⊢
    have e := getExistingTorrent_hash m hash t ht
    exact getExistingTorrent_putTorrent m hash t t1 ht (h1.trans e)

theorem handshakeTorrent_find (m : tr_peerMgr) (io : tr_peerIo) (t t1 : Torrent)
    (ht : handshakeTorrent m io = some t) (h1 : t1.hash = t.hash) :
    m.torrents.find? (fun x => decide (x.hash = t1.hash)) = some t := by
  unfold handshakeTorrent at ht
  cases hh : io.torrentHash with
  | none => rw [hh] at ht; simp at ht
  | some hash =>
    rw [hh] at ht
    simp only at ht
    have e := getExistingTorrent_hash m hash t ht
    unfold getExistingTorrent at ht
    rw [h1, e]
    exact ht

/-- The failure branch of `myHandshakeDoneCB` for a resolved torrent. -/
theorem myHandshakeDoneCB_failed (env : PeerMgrEnv) (m : tr_peerMgr) (io : tr_peerIo)
    (isConnected : Bool) (peer_id : Option (List Nat)) (now : Nat) (t : Torrent)
    (ht : handshakeTorrent m io = some t)
    (hin : io.isIncoming = true → io.addr ∈ m.incomingHandshakes)
    (hout : io.isIncoming = false → io.addr ∈ t.outgoingHandshakes)
    (hbad : isConnected = false ∨ t.isRunning = false) :
    myHandshakeDoneCB env m io isConnected peer_id now = some
      { torrents := putTorrent m.torrents (handshakeFailed (afterHandshakeRemoval t io) io.addr)
        incomingHandshakes := incomingAfterHandshake m io } := by
  unfold myHandshakeDoneCB afterHandshakeRemoval incomingAfterHandshake
  simp only [ht]
  have hb : (!isConnected || !t.isRunning) = true := by
    rcases hbad with h | h <;> simp [h]
  cases hinc : io.isIncoming with
  | true =>
    simp only [if_true, removeHandshake_of_mem _ _ (hin hinc), hb]
  | false =>
    simp only [Bool.false_eq_true, if_false, removeHandshake_of_mem _ _ (hout hinc), hb, if_true]

/-- The success branch of `myHandshakeDoneCB` for a resolved running
torrent. -/
theorem myHandshakeDoneCB_good (env : PeerMgrEnv) (m : tr_peerMgr) (io : tr_peerIo)
    (peer_id : Option (List Nat)) (now : Nat) (t : Torrent)
    (ht : handshakeTorrent m io = some t) (hrun : t.isRunning = true)
    (hin : io.isIncoming = true → io.addr ∈ m.incomingHandshakes)
    (hout : io.isIncoming = false → io.addr ∈ t.outgoingHandshakes) :
    myHandshakeDoneCB env m io true peer_id now =
      (handshakeLooksGood env (afterHandshakeRemoval t io) io peer_id now).map (fun t1 =>
        { torrents := putTorrent m.torrents t1
          incomingHandshakes := incomingAfterHandshake m io }) := by
  unfold myHandshakeDoneCB afterHandshakeRemoval incomingAfterHandshake
  simp only [ht]
  have hb : ¬ ((!true || !t.isRunning) = true) := by simp [hrun]
  cases hinc : io.isIncoming with
  | true =>
    simp only [if_true, removeHandshake_of_mem _ _ (hin hinc)]
    rw [if_neg hb]
    generalize handshakeLooksGood env t io peer_id now = x
    cases x <;> rfl
  | false =>
    simp only [Bool.false_eq_true, if_false, removeHandshake_of_mem _ _ (hout hinc)]
    rw [if_neg hb]
    generalize handshakeLooksGood env { t with
      outgoingHandshakes := t.outgoingHandshakes.erase io.addr } io peer_id now = x
    cases x <;> rfl

/-- The failure branch for a torrent whose pool has one atom per address: the
atom of the address, if there is one, gets one more failure. -/
theorem handshakeFailed_eq (t : Torrent) (addr : Nat)
    (hpool : (t.pool.map (fun a => a.addr)).Nodup) :
    handshakeFailed t addr = { t with
      pool := t.pool.map (fun a =>
        if a.addr = addr then { a with numFails := (a.numFails + 1) % 2 ^ 16 } else a) } := by
  unfold handshakeFailed
  by_cases hex : ∃ a ∈ t.pool, a.addr = addr
  · rw [modifyAtom_eq_map _ _ _ hpool hex]
  · have hno : ∀ a ∈ t.pool, a.addr ≠ addr := fun a ha e => hex ⟨a, ha, e⟩
    rw [(modifyAtom_eq_none _ addr t.pool).mpr hno]
    have : t.pool.map (fun a =>
        if a.addr = addr then ({ a with numFails := (a.numFails + 1) % 2 ^ 16 } : peer_atom)
        else a) = t.pool := by
      rw [List.map_congr_left (fun a ha => by rw [if_neg (hno a ha)])]
      exact List.map_id' t.pool
    rw [this]

theorem afterHandshakeRemoval_fields (t : Torrent) (io : tr_peerIo) :
    (afterHandshakeRemoval t io).hash = t.hash ∧
    (afterHandshakeRemoval t io).pool = t.pool ∧
    (afterHandshakeRemoval t io).peers = t.peers ∧
    (afterHandshakeRemoval t io).tor = t.tor ∧
    (afterHandshakeRemoval t io).isRunning = t.isRunning := by
  unfold afterHandshakeRemoval
  split <;> exact ⟨rfl, rfl, rfl, rfl, rfl⟩

/-- C19 (as stated, it fails): the outgoing handshake of `wrapManager` to the
address 2 fails; the atom of that address had failed 65535 times, and after
the callback its `numFails`, a `uint16_t`, is 0 instead of 65536. -/
theorem C19_numFails_wraps_on_failure :
    wrapTorrent.pool.map (fun a => (a.addr, a.numFails)) = [(1, 65535), (2, 65535)] ∧
    (myHandshakeDoneCB {} wrapManager { addr := 2, torrentHash := some [7] } false none
        100000).map (fun m1 => m1.torrents.map (fun t1 =>
          (t1.peers.length, t1.pool.map (fun a => (a.addr, a.numFails)))))
      = some [(1, [(1, 65535), (2, 0)])] := by
  refine ⟨by decide, by decide⟩

/-- C19 (amended): `myHandshakeDoneCB` on the failure path, the handshake being
in the set it is removed from and the pool of the resolved torrent holding one
atom per address. The callback returns and the peer sets of all torrents are
as before. Without a resolved torrent the torrents are untouched. With a
resolved torrent only its entry is rewritten, its peer set is unchanged, and
its pool changes only in the atom of the address, whose `numFails` is
increased by 1 in 16 bits, which is an increase by exactly 1 below 65535 and a
wrap to 0 at 65535; when the address has no atom the pool is unchanged, so
none is created. -/
theorem C19_handshake_failure (env : PeerMgrEnv) (m : tr_peerMgr) (io : tr_peerIo)
    (isConnected : Bool) (peer_id : Option (List Nat)) (now : Nat)
    (hin : io.isIncoming = true → io.addr ∈ m.incomingHandshakes)
    (hout : io.isIncoming = false →
      ∀ t, handshakeTorrent m io = some t → io.addr ∈ t.outgoingHandshakes)
    (hpool : ∀ t, handshakeTorrent m io = some t → (t.pool.map (fun a => a.addr)).Nodup)
    (hfail : isConnected = false ∨ handshakeTorrent m io = none ∨
      ∃ t, handshakeTorrent m io = some t ∧ t.isRunning = false) :
    ∃ m1, myHandshakeDoneCB env m io isConnected peer_id now = some m1 ∧
      m1.torrents.map (fun t => t.peers) = m.torrents.map (fun t => t.peers) ∧
      (handshakeTorrent m io = none → m1.torrents = m.torrents) ∧
      (∀ t, handshakeTorrent m io = some t →
        ∃ t1, handshakeTorrent m1 io = some t1 ∧
          m1.torrents = putTorrent m.torrents t1 ∧
          t1.peers = t.peers ∧
          t1.pool = t.pool.map (fun a =>
            if a.addr = io.addr then { a with numFails := (a.numFails + 1) % 2 ^ 16 } else a) ∧
          t1.pool.length = t.pool.length ∧
          ((∀ a ∈ t.pool, a.addr ≠ io.addr) → t1.pool = t.pool) ∧
          (∀ (j : Nat) (a : peer_atom), t.pool[j]? = some a → a.addr ≠ io.addr →
            t1.pool[j]? = some a) ∧
          (∀ (j : Nat) (a : peer_atom), t.pool[j]? = some a → a.addr = io.addr →
            a.numFails < 65535 →
            t1.pool[j]? = some { a with numFails := a.numFails + 1 }) ∧
          (∀ (j : Nat) (a : peer_atom), t.pool[j]? = some a → a.addr = io.addr →
            a.numFails = 65535 →
            t1.pool[j]? = some { a with numFails := 0 })) := by
  cases hT : handshakeTorrent m io with
  | none =>
    have hcb : myHandshakeDoneCB env m io isConnected peer_id now
        = some { m with incomingHandshakes := incomingAfterHandshake m io } := by
      unfold myHandshakeDoneCB incomingAfterHandshake
      simp only [hT]
      cases hinc : io.isIncoming with
      | true => simp only [if_true, removeHandshake_of_mem _ _ (hin hinc)]
      | false => simp
    exact ⟨_, hcb, rfl, fun _ => rfl, fun t h => by simp at h⟩
  | some t =>
    have hbad : isConnected = false ∨ t.isRunning = false := by
      rcases hfail with h | h | ⟨t', h1, h2⟩
      · exact Or.inl h
      · rw [hT] at h; simp at h
      · rw [hT] at h1
        rw [Option.some.inj h1]
        exact Or.inr h2
    obtain ⟨fh, fpool, fpeers, _, _⟩ := afterHandshakeRemoval_fields t io
    have hpool0 : ((afterHandshakeRemoval t io).pool.map (fun a => a.addr)).Nodup := by
      rw [fpool]; exact hpool t hT
    have hcb := myHandshakeDoneCB_failed env m io isConnected peer_id now t hT hin
      (fun h => hout h t hT) hbad
    rw [handshakeFailed_eq _ _ hpool0] at hcb
    have hpoolmap : ∀ (j : Nat) (a : peer_atom), t.pool[j]? = some a →
        (t.pool.map (fun a => if a.addr = io.addr then
          ({ a with numFails := (a.numFails + 1) % 2 ^ 16 } : peer_atom) else a))[j]?
          = some (if a.addr = io.addr then
              ({ a with numFails := (a.numFails + 1) % 2 ^ 16 } : peer_atom) else a) := by
      intro j a hj
      rw [List.getElem?_map, hj]
      rfl
    refine ⟨_, hcb, ?_, fun h => by simp at h, ?_⟩
    · exact putTorrent_map (fun t => t.peers) _ m.torrents t
        (handshakeTorrent_find m io t _ hT fh) fpeers
    · intro t' ht'
      have e : t = t' := Option.some.inj ht'
      subst e
      refine ⟨_, handshakeTorrent_putTorrent m io t _ _ hT fh, rfl, fpeers, ?_, ?_, ?_, ?_, ?_,
        ?_⟩
      · simp only [fpool]
      · simp only [fpool, List.length_map]
      · intro hno
        simp only [fpool]
        rw [List.map_congr_left (fun a ha => by rw [if_neg (hno a ha)])]
        exact List.map_id' t.pool
      · intro j a hj hne
        simp only [fpool]
        rw [hpoolmap j a hj, if_neg hne]
      · intro j a hj he hlt
        simp only [fpool]
        rw [hpoolmap j a hj, if_pos he, Nat.mod_eq_of_lt (by omega)]
      · intro j a hj he h65
        simp only [fpool]
        rw [hpoolmap j a hj, if_pos he, h65]
        rfl

/-- C19 (amended) on a manager with one running torrent: a failed outgoing handshake to
the address 2, which has an atom with one failure, gives that atom two
failures and leaves the other atoms and the peer set alone; a failed incoming
handshake from the address 4, which has no atom, changes neither the pool nor
the peer set. -/
theorem C19_handshake_failure_witness :
    ((myHandshakeDoneCB {} handshakeManager { addr := 2, port := 6881, torrentHash := some [7] }
        false none 100000).map (fun m => m.torrents.map (fun t =>
          (t.pool.map (fun a => (a.addr, a.numFails)), t.peers.map (fun p => p.in_addr))))
      = some [([(1, 0), (2, 2), (3, 0)], [1])] ∧
     (myHandshakeDoneCB {} handshakeManager
        { addr := 4, port := 6881, isIncoming := true, torrentHash := some [7] }
        false none 100000).map (fun m => m.torrents.map (fun t =>
          (t.pool.map (fun a => (a.addr, a.numFails)), t.peers.map (fun p => p.in_addr))))
      = some [([(1, 0), (2, 1), (3, 0)], [1])]) ∧
    (∃ m1, myHandshakeDoneCB {} handshakeManager
        { addr := 2, port := 6881, torrentHash := some [7] } false none 100000 = some m1 ∧
      m1.torrents.map (fun t => t.peers) = handshakeManager.torrents.map (fun t => t.peers)) ∧
    (∃ m1, myHandshakeDoneCB {} handshakeManager
        { addr := 4, port := 6881, isIncoming := true, torrentHash := some [7] }
        false none 100000 = some m1 ∧
      m1.torrents.map (fun t => t.peers) = handshakeManager.torrents.map (fun t => t.peers)) :=
  ⟨⟨by decide!, by decide!⟩,
   let ⟨m1, h1, h2, _⟩ := C19_handshake_failure {} handshakeManager
     { addr := 2, port := 6881, torrentHash := some [7] } false none 100000
     (fun h => absurd h (by decide))
     (fun _ t ht => by
       have e : handshakeTorrent handshakeManager
           { addr := 2, port := 6881, torrentHash := some [7] } = some t := ht
       rw [show handshakeTorrent handshakeManager
           { addr := 2, port := 6881, torrentHash := some [7] }
           = handshakeManager.torrents.head? from rfl] at e
       rw [← Option.some.inj e]
       decide)
     (fun t ht => by
       have e : handshakeTorrent handshakeManager
           { addr := 2, port := 6881, torrentHash := some [7] } = some t := ht
       rw [show handshakeTorrent handshakeManager
           { addr := 2, port := 6881, torrentHash := some [7] }
           = handshakeManager.torrents.head? from rfl] at e
       rw [← Option.some.inj e]
       decide)
     (Or.inl rfl)
   ⟨m1, h1, h2⟩,
   let ⟨m1, h1, h2, _⟩ := C19_handshake_failure {} handshakeManager
     { addr := 4, port := 6881, isIncoming := true, torrentHash := some [7] } false none 100000
     (fun _ => by decide)
     (fun h => absurd h (by decide))
     (fun t ht => by
       have e : handshakeTorrent handshakeManager
           { addr := 4, port := 6881, isIncoming := true, torrentHash := some [7] } = some t := ht
       rw [show handshakeTorrent handshakeManager
           { addr := 4, port := 6881, isIncoming := true, torrentHash := some [7] }
           = handshakeManager.torrents.head? from rfl] at e
       rw [← Option.some.inj e]
       decide)
     (Or.inl rfl)
   ⟨m1, h1, h2⟩⟩

theorem length_insertSorted {α : Type} (key : α → Nat) (a : α) :
    ∀ l : List α, (insertSorted key a l).length = l.length + 1
  | [] => rfl
  | b :: l => by
    unfold insertSorted
    split_ifs
    · rfl
    · simp [length_insertSorted key a l]

theorem find?_insertSorted_new (a : peer_atom) :
    ∀ pool : List peer_atom,
      pool.find? (fun x => decide (x.addr = a.addr)) = none →
      (insertSorted (fun x => x.addr) a pool).find? (fun x => decide (x.addr = a.addr)) = some a
  | [], _ => by simp [insertSorted]
  | b :: rest, h => by
    rw [List.find?_cons] at h
    by_cases hb : b.addr = a.addr
    · simp [hb] at h
    · simp only [hb, decide_False] at h
      unfold insertSorted
      split_ifs
      · simp
      · rw [List.find?_cons]
        simp only [hb, decide_False]
        exact find?_insertSorted_new a rest h

theorem find?_modifyAtom (f : peer_atom → peer_atom) (addr : Nat)
    (hf : ∀ a, (f a).addr = a.addr) :
    ∀ (pool pool1 : List peer_atom), modifyAtom pool addr f = some pool1 →
      pool1.find? (fun x => decide (x.addr = addr))
        = (pool.find? (fun x => decide (x.addr = addr))).map f
  | [], _, h => by simp [modifyAtom] at h
  | a :: rest, pool1, h => by
    unfold modifyAtom at h
    by_cases ha : a.addr = addr
    · rw [if_pos ha] at h
      rw [← Option.some.inj h, List.find?_cons, List.find?_cons]
      simp [ha, hf]
    · rw [if_neg ha] at h
      cases hr : modifyAtom rest addr f with
      | none => rw [hr] at h; simp at h
      | some rest1 =>
        rw [hr] at h
        simp only [Option.map_some', Option.some.injEq] at h
        rw [← h, List.find?_cons, List.find?_cons]
        simp only [ha, decide_False]
        exact find?_modifyAtom f addr hf rest rest1 hr

/-- The success branch on a torrent: it returns; the peer of the handshake
joins the peer set exactly when the atom of the address is not banned, the
peer set is below the limit and holds no peer of the address. -/
theorem handshakeLooksGood_cases (env : PeerMgrEnv) (t : Torrent) (io : tr_peerIo)
    (peer_id : Option (List Nat)) (now : Nat) :
    ∃ t1, handshakeLooksGood env t io peer_id now = some t1 ∧
      t1.hash = t.hash ∧ t1.tor = t.tor ∧
      ((¬ (∃ a, getExistingAtom t io.addr = some a ∧ hasFlag a.myflags MYFLAG_BANNED = true) ∧
          t.peers.length < t.tor.maxConnectedPeers ∧ getExistingPeer t io.addr = none) →
        t1.peers = insertSorted (fun p => p.in_addr) (handshakePeer env io peer_id) t.peers ∧
        ∃ a1, getExistingAtom t1 io.addr = some a1 ∧ a1.time = now ∧
          hasFlag a1.myflags MYFLAG_BANNED = false) ∧
      ((∃ a, getExistingAtom t io.addr = some a ∧ hasFlag a.myflags MYFLAG_BANNED = true) →
        t1.peers = t.peers) ∧
      (t.tor.maxConnectedPeers ≤ t.peers.length → t1.peers = t.peers) ∧
      (getExistingPeer t io.addr ≠ none → t1.peers = t.peers) := by
  have hens : ∃ atom,
      getExistingAtom (ensureAtomExists t io.addr io.port 0 TR_PEER_FROM_INCOMING) io.addr
        = some atom ∧
      (hasFlag atom.myflags MYFLAG_BANNED = true ↔
        ∃ a, getExistingAtom t io.addr = some a ∧ hasFlag a.myflags MYFLAG_BANNED = true) := by
    unfold ensureAtomExists
    cases hg : getExistingAtom t io.addr with
    | none =>
      refine ⟨_, find?_insertSorted_new
        { addr := io.addr, port := io.port, flags := 0, from_ := TR_PEER_FROM_INCOMING,
          myflags := 0, numFails := 0, time := 0, piece_data_time := 0 } t.pool hg, ?_⟩
      simp [hasFlag]
    | some a =>
      refine ⟨a, hg, ?_⟩
      simp
  have hfields : (ensureAtomExists t io.addr io.port 0 TR_PEER_FROM_INCOMING).peers = t.peers ∧
      (ensureAtomExists t io.addr io.port 0 TR_PEER_FROM_INCOMING).tor = t.tor ∧
      (ensureAtomExists t io.addr io.port 0 TR_PEER_FROM_INCOMING).hash = t.hash := by
    unfold ensureAtomExists
    split <;> exact ⟨rfl, rfl, rfl⟩
  obtain ⟨atom, hatom, hbanned⟩ := hens
  obtain ⟨fpeers, ftor, fhash⟩ := hfields
  unfold handshakeLooksGood
  simp only
  generalize ensureAtomExists t io.addr io.port 0 TR_PEER_FROM_INCOMING = T1
    at hatom fpeers ftor fhash ⊢
  have hpeer : getExistingPeer T1 io.addr = getExistingPeer t io.addr := by
    unfold getExistingPeer; rw [fpeers]
  have hcap : (((T1.peers.length : Nat) : Int) ≥ getMaxPeerCount T1.tor) ↔
      t.tor.maxConnectedPeers ≤ t.peers.length := by
    unfold getMaxPeerCount
    rw [fpeers, ftor]
    exact Int.ofNat_le
  rw [hatom]
  simp only
  by_cases hban : hasFlag atom.myflags MYFLAG_BANNED = true
  · rw [if_pos hban]
    refine ⟨T1, rfl, fhash, ftor, ?_, fun _ => fpeers, fun _ => fpeers, fun _ => fpeers⟩
    intro hc
    exact absurd (hbanned.mp hban) hc.1
  · rw [if_neg hban]
    by_cases hc : ((T1.peers.length : Nat) : Int) ≥ getMaxPeerCount T1.tor
    · rw [if_pos hc]
      refine ⟨T1, rfl, fhash, ftor, ?_, fun _ => fpeers, fun _ => fpeers, fun _ => fpeers⟩
      intro hcond
      have h1 := hcap.mp hc
      have h2 := hcond.2.1
      omega
    · rw [if_neg hc]
      cases hp : getExistingPeer T1 io.addr with
      | some p =>
        simp only
        refine ⟨T1, rfl, fhash, ftor, ?_, fun _ => fpeers, fun _ => fpeers, fun _ => fpeers⟩
        intro hcond
        rw [← hpeer, hp] at hcond
        exact absurd hcond.2.2 (by simp)
      | none =>
        simp only
        have hm : ∃ pool, modifyAtom T1.pool io.addr
            (fun a => ({ a with time := now } : peer_atom)) = some pool := by
          cases hmm : modifyAtom T1.pool io.addr
              (fun a => ({ a with time := now } : peer_atom)) with
          | none =>
            have hno := (modifyAtom_eq_none _ _ _).mp hmm
            unfold getExistingAtom at hatom
            have h1 := List.mem_of_find?_eq_some hatom
            have h2 : atom.addr = io.addr := by simpa using List.find?_some hatom
            exact absurd h2 (hno atom h1)
          | some pool => exact ⟨pool, rfl⟩
        obtain ⟨pool, hm⟩ := hm
        rw [hm]
        simp only
        refine ⟨_, rfl, fhash, ftor, ?_, ?_, ?_, ?_⟩
        · intro _
          refine ⟨by simp only [fpeers], { atom with time := now }, ?_, rfl, by simpa using hban⟩
          unfold getExistingAtom at hatom ⊢
          simp only
          rw [find?_modifyAtom (fun a => ({ a with time := now } : peer_atom)) io.addr
            (fun _ => rfl) T1.pool pool hm, hatom]
          rfl
        · intro hb
          exact absurd (hbanned.mpr hb) hban
        · intro hb
          exact absurd (hcap.mpr hb) hc
        · intro hb
          rw [← hpeer, hp] at hb
          exact absurd rfl hb

theorem afterHandshakeRemoval_lookups (t : Torrent) (io : tr_peerIo) (addr : Nat) :
    getExistingAtom (afterHandshakeRemoval t io) addr = getExistingAtom t addr ∧
    getExistingPeer (afterHandshakeRemoval t io) addr = getExistingPeer t addr := by
  obtain ⟨_, fpool, fpeers, _, _⟩ := afterHandshakeRemoval_fields t io
  unfold getExistingAtom getExistingPeer
  rw [fpool, fpeers]
  exact ⟨rfl, rfl⟩

/-- C20: `myHandshakeDoneCB` with `isConnected = 1` for a resolved running
torrent `t`, the handshake being in the set it is removed from; `t1` is the
torrent afterwards. The callback returns and rewrites only the entry of the
torrent. If the atom of the address is not banned, the peer set holds fewer
than `maxConnectedPeers` peers and no peer of the address, then the peer of
the handshake is inserted into the peer set and the atom of the address has
`time = now`. In each of the three refusal cases the peer set is unchanged.
So the peer set grows by one exactly under the three conditions, it never
grows beyond `maxConnectedPeers`, and no peer is created for a banned atom. -/
theorem C20_handshake_success (env : PeerMgrEnv) (m : tr_peerMgr) (io : tr_peerIo)
    (peer_id : Option (List Nat)) (now : Nat) (t : Torrent)
    (ht : handshakeTorrent m io = some t) (hrun : t.isRunning = true)
    (hin : io.isIncoming = true → io.addr ∈ m.incomingHandshakes)
    (hout : io.isIncoming = false → io.addr ∈ t.outgoingHandshakes) :
    ∃ m1 t1, myHandshakeDoneCB env m io true peer_id now = some m1 ∧
      handshakeTorrent m1 io = some t1 ∧
      m1.torrents = putTorrent m.torrents t1 ∧
      t1.tor = t.tor ∧
      ((¬ (∃ a, getExistingAtom t io.addr = some a ∧ hasFlag a.myflags MYFLAG_BANNED = true) ∧
          t.peers.length < t.tor.maxConnectedPeers ∧ getExistingPeer t io.addr = none) →
        t1.peers = insertSorted (fun p => p.in_addr) (handshakePeer env io peer_id) t.peers ∧
        (handshakePeer env io peer_id).in_addr = io.addr ∧
        ∃ a1, getExistingAtom t1 io.addr = some a1 ∧ a1.time = now ∧
          hasFlag a1.myflags MYFLAG_BANNED = false) ∧
      ((∃ a, getExistingAtom t io.addr = some a ∧ hasFlag a.myflags MYFLAG_BANNED = true) →
        t1.peers = t.peers) ∧
      (t.tor.maxConnectedPeers ≤ t.peers.length → t1.peers = t.peers) ∧
      (getExistingPeer t io.addr ≠ none → t1.peers = t.peers) ∧
      (t1.peers.length = t.peers.length + 1 ↔
        (¬ (∃ a, getExistingAtom t io.addr = some a ∧ hasFlag a.myflags MYFLAG_BANNED = true) ∧
          t.peers.length < t.tor.maxConnectedPeers ∧ getExistingPeer t io.addr = none)) ∧
      t1.peers.length ≤ max t.peers.length t.tor.maxConnectedPeers := by
  obtain ⟨fh, _, fpeers, ftor, _⟩ := afterHandshakeRemoval_fields t io
  obtain ⟨fatom, fpeer⟩ := afterHandshakeRemoval_lookups t io io.addr
  obtain ⟨t1, hg, h1, h2, hadd, hban, hcap, hdup⟩ :=
    handshakeLooksGood_cases env (afterHandshakeRemoval t io) io peer_id now
  rw [fatom, fpeer, fpeers, ftor] at hadd
  rw [fatom, fpeers] at hban
  rw [fpeers, ftor] at hcap
  rw [fpeer, fpeers] at hdup
  have hcb := myHandshakeDoneCB_good env m io peer_id now t ht hrun hin hout
  rw [hg] at hcb
  have hiff : t1.peers.length = t.peers.length + 1 ↔
      (¬ (∃ a, getExistingAtom t io.addr = some a ∧ hasFlag a.myflags MYFLAG_BANNED = true) ∧
        t.peers.length < t.tor.maxConnectedPeers ∧ getExistingPeer t io.addr = none) := by
    constructor
    · intro hlen
      refine ⟨fun hb => ?_, ?_, ?_⟩
      · rw [hban hb] at hlen; omega
      · by_contra hc
        rw [hcap (by omega)] at hlen; omega
      · by_contra hc
        rw [hdup hc] at hlen; omega
    · intro hc
      rw [(hadd hc).1, length_insertSorted]
  refine ⟨_, t1, hcb, handshakeTorrent_putTorrent m io t t1 _ ht (h1.trans fh), rfl,
    h2.trans ftor, fun hc => ⟨(hadd hc).1, rfl, (hadd hc).2⟩, hban, hcap, hdup, hiff, ?_⟩
  by_cases hc : t1.peers.length = t.peers.length + 1
  · have := (hiff.mp hc).2.1
    omega
  · have hsame : t1.peers = t.peers := by
      by_cases hb : ∃ a, getExistingAtom t io.addr = some a ∧
          hasFlag a.myflags MYFLAG_BANNED = true
      · exact hban hb
      · by_cases hl : t.tor.maxConnectedPeers ≤ t.peers.length
        · exact hcap hl
        · by_cases hd : getExistingPeer t io.addr = none
          · exact absurd (hiff.mpr ⟨hb, by omega, hd⟩) hc
          · exact hdup hd
    rw [hsame]
    exact le_max_left _ _

/-- C20 on a torrent that allows two peers and has one: a completed handshake
with the address 2 adds the peer and stamps the atom; one with the address 3,
whose atom is banned, leaves the peer set as it is. -/
theorem C20_handshake_success_witness :
    ((myHandshakeDoneCB {} handshakeManager { addr := 2, port := 6881, torrentHash := some [7] }
        true none 100000).map (fun m => m.torrents.map (fun t =>
          (t.pool.map (fun a => (a.addr, a.time)), t.peers.map (fun p => p.in_addr))))
      = some [([(1, 0), (2, 100000), (3, 0)], [1, 2])] ∧
     (myHandshakeDoneCB {} handshakeManager { addr := 3, port := 6881, torrentHash := some [7] }
        true none 100000).map (fun m => m.torrents.map (fun t =>
          (t.pool.map (fun a => (a.addr, a.time)), t.peers.map (fun p => p.in_addr))))
      = some [([(1, 0), (2, 0), (3, 0)], [1])]) ∧
    (∃ m1 t1, myHandshakeDoneCB {} handshakeManager
        { addr := 2, port := 6881, torrentHash := some [7] } true none 100000 = some m1 ∧
      handshakeTorrent m1 { addr := 2, port := 6881, torrentHash := some [7] } = some t1 ∧
      t1.peers.length = twoPeerTorrent.peers.length + 1) ∧
    (∃ m1 t1, myHandshakeDoneCB {} handshakeManager
        { addr := 3, port := 6881, torrentHash := some [7] } true none 100000 = some m1 ∧
      handshakeTorrent m1 { addr := 3, port := 6881, torrentHash := some [7] } = some t1 ∧
      t1.peers = twoPeerTorrent.peers) :=
  ⟨⟨by decide!, by decide!⟩,
   let ⟨m1, t1, h1, h2, _, _, _, _, _, _, h9, _⟩ := C20_handshake_success {} handshakeManager
     { addr := 2, port := 6881, torrentHash := some [7] } none 100000 twoPeerTorrent
     rfl rfl (fun h => absurd h (by decide)) (fun _ => by decide)
   ⟨m1, t1, h1, h2, h9.mpr ⟨by decide, by decide, by decide⟩⟩,
   let ⟨m1, t1, h1, h2, _, _, _, h6, _⟩ := C20_handshake_success {} handshakeManager
     { addr := 3, port := 6881, torrentHash := some [7] } none 100000 twoPeerTorrent
     rfl rfl (fun h => absurd h (by decide)) (fun _ => by decide)
   ⟨m1, t1, h1, h2, h6 ⟨{ addr := 3, myflags := 1 }, by decide, by decide⟩⟩⟩

/-! ## PEX: the compact format -/

theorem loadBytes_storeBE32 (v : Nat) (hv : v < 2 ^ 32) (rest : List Nat) :
    loadBytes (storeBE32 v ++ rest) 4 = v := by
  unfold loadBytes storeBE32
  simp only [List.cons_append, List.take_succ_cons, List.take_zero, List.foldl_cons,
    List.foldl_nil, List.nil_append]
  omega

theorem loadBytes_port (v : Nat) (hv : v < 2 ^ 16) (rest : List Nat) :
    loadBytes ([v / 2 ^ 8 % 256, v % 256] ++ rest) 2 = v := by
  unfold loadBytes
  simp only [List.cons_append, List.take_succ_cons, List.take_zero, List.foldl_cons,
    List.foldl_nil, List.nil_append]
  omega

theorem pexBytes_length (p : tr_pex) : (pexBytes p).length = 6 := rfl

theorem pexSerialize_length (pex : List tr_pex) : (pexSerialize pex).length = 6 * pex.length := by
  unfold pexSerialize
  induction pex with
  | nil => rfl
  | cons p l ih =>
    rw [List.flatMap_cons, List.length_append, ih, pexBytes_length, List.length_cons]
    omega

theorem compactToPexLoop_serialize :
    ∀ (pex : List tr_pex) (i : Nat),
      (∀ p ∈ pex, p.in_addr < 2 ^ 32 ∧ p.port < 2 ^ 16 ∧ p.flags = 0) →
      compactToPexLoop none pex.length i (pexSerialize pex) = pex
  | [], _, _ => rfl
  | p :: l, i, h => by
    obtain ⟨h1, h2, h3⟩ := h p (List.mem_cons_self _ _)
    have hdrop4 : (pexSerialize (p :: l)).drop 4
        = [p.port / 2 ^ 8 % 256, p.port % 256] ++ pexSerialize l := by
      unfold pexSerialize pexBytes storeBE32
      rw [List.flatMap_cons]
      rfl
    have hdrop6 : (pexSerialize (p :: l)).drop 6 = pexSerialize l := by
      unfold pexSerialize pexBytes storeBE32
      rw [List.flatMap_cons]
      rfl
    have hhead : pexSerialize (p :: l)
        = storeBE32 p.in_addr ++ ([p.port / 2 ^ 8 % 256, p.port % 256] ++ pexSerialize l) := by
      unfold pexSerialize pexBytes
      rw [List.flatMap_cons, List.append_assoc]
    rw [List.length_cons, compactToPexLoop]
    rw [hdrop4, hdrop6, loadBytes_port _ h2, hhead, loadBytes_storeBE32 _ h1,
      compactToPexLoop_serialize l (i + 1) (fun q hq => h q (List.mem_cons_of_mem _ hq))]
    cases p
    simp only at h3
    subst h3
    rfl

/-- C26: for every list of PEX entries with a 32-bit address, a 16-bit port and
flags 0, `tr_peerMgrCompactToPex` without an `added_f` array, applied to the
entries' compact forms one after the other, returns exactly that list, and its
length as the count. -/
theorem C26_compact_round_trip (pex : List tr_pex)
    (h : ∀ p ∈ pex, p.in_addr < 2 ^ 32 ∧ p.port < 2 ^ 16 ∧ p.flags = 0) :
    tr_peerMgrCompactToPex (pexSerialize pex) none = (pex, pex.length) := by
  unfold tr_peerMgrCompactToPex
  simp only [pexSerialize_length, Nat.mul_div_cancel_left _ (by decide : 0 < 6)]
  rw [compactToPexLoop_serialize pex 0 h]

/-- C26 on the entries 192.168.0.1:6881 and 10.0.0.2:51413: their twelve bytes
are decoded to the two entries. -/
theorem C26_compact_round_trip_witness :
    pexSerialize [{ in_addr := 0xC0A80001, port := 6881 }, { in_addr := 0x0A000002, port := 51413 }]
      = [192, 168, 0, 1, 26, 225, 10, 0, 0, 2, 200, 213] ∧
    tr_peerMgrCompactToPex
        (pexSerialize [{ in_addr := 0xC0A80001, port := 6881 },
                       { in_addr := 0x0A000002, port := 51413 }]) none
      = ([{ in_addr := 0xC0A80001, port := 6881 }, { in_addr := 0x0A000002, port := 51413 }], 2) :=
  ⟨by decide, C26_compact_round_trip _ (by decide)⟩

theorem compactToPexLoop_length (added_f : Option (List Nat)) :
    ∀ (k i : Nat) (walk : List Nat), (compactToPexLoop added_f k i walk).length = k
  | 0, _, _ => rfl
  | k + 1, i, walk => by
    simp only [compactToPexLoop, List.length_cons, compactToPexLoop_length added_f k]

theorem compactToPexLoop_getElem? (added_f : Option (List Nat)) :
    ∀ (k i : Nat) (walk : List Nat) (j : Nat), j < k →
      (compactToPexLoop added_f k i walk)[j]? = some
        { in_addr := loadBytes (walk.drop (6 * j)) 4
          port := loadBytes (walk.drop (6 * j + 4)) 2
          flags := match added_f with
            | some f => f.getD (i + j) 0
            | none => 0 }
  | 0, _, _, _, h => absurd h (Nat.not_lt_zero _)
  | k + 1, i, walk, 0, _ => by
    cases added_f <;> simp [compactToPexLoop]
  | k + 1, i, walk, j + 1, h => by
    simp only [compactToPexLoop, List.getElem?_cons_succ]
    rw [compactToPexLoop_getElem? added_f k (i + 1) (walk.drop 6) j (by omega)]
    simp only [List.drop_drop]
    have e1 : 6 + 6 * j = 6 * (j + 1) := by omega
    have e2 : 6 + (6 * j + 4) = 6 * (j + 1) + 4 := by omega
    have e3 : i + 1 + j = i + (j + 1) := by omega
    rw [e1, e2, e3]

theorem loadBytes_take (walk : List Nat) (n m : Nat) (h : n ≤ m) :
    loadBytes (walk.take m) n = loadBytes walk n := by
  unfold loadBytes
  rw [List.take_take, Nat.min_eq_left h]

/-- The loop reads the first `6 * k` bytes at `walk` only. -/
theorem compactToPexLoop_take (added_f : Option (List Nat)) :
    ∀ (k i : Nat) (walk : List Nat),
      compactToPexLoop added_f k i (walk.take (6 * k)) = compactToPexLoop added_f k i walk
  | 0, _, _ => rfl
  | k + 1, i, walk => by
    simp only [compactToPexLoop]
    have e4 : (walk.take (6 * (k + 1))).drop 4 = (walk.drop 4).take (6 * k + 2) := by
      rw [List.drop_take]
      congr 1
    have e6 : (walk.take (6 * (k + 1))).drop 6 = (walk.drop 6).take (6 * k) := by
      rw [List.drop_take]
      congr 1
    rw [e4, e6, loadBytes_take walk 4 _ (by omega), loadBytes_take (walk.drop 4) 2 _ (by omega),
      compactToPexLoop_take added_f k (i + 1) (walk.drop 6)]

/-- C27: for every byte string `compact` of length L and every `added_f`
(absent, or an array), `tr_peerMgrCompactToPex` returns the count `L / 6` and
that many entries; entry `i` has the address read from the bytes `[6i, 6i+4)`,
the port read from the bytes `[6i+4, 6i+6)`, and the flags `added_f[i]` when
the array is supplied (and holds at least `L / 6` bytes) and 0 otherwise; and
the result is the same when the trailing `L mod 6` bytes are replaced by any
fewer than 6 bytes. -/
theorem C27_compact_whole_records (compact : List Nat) (added_f : Option (List Nat)) :
    (tr_peerMgrCompactToPex compact added_f).2 = compact.length / 6 ∧
    (tr_peerMgrCompactToPex compact added_f).1.length = compact.length / 6 ∧
    (∀ i, i < compact.length / 6 →
      (tr_peerMgrCompactToPex compact added_f).1[i]? = some
        { in_addr := loadBytes ((compact.drop (6 * i)).take 4) 4
          port := loadBytes ((compact.drop (6 * i + 4)).take 2) 2
          flags := match added_f with
            | some f => f.getD i 0
            | none => 0 }) ∧
    (∀ f, added_f = some f → compact.length / 6 ≤ f.length →
      ∀ i, i < compact.length / 6 →
        ∃ e x, (tr_peerMgrCompactToPex compact added_f).1[i]? = some e ∧
          f[i]? = some x ∧ e.flags = x) ∧
    (added_f = none → ∀ e ∈ (tr_peerMgrCompactToPex compact added_f).1, e.flags = 0) ∧
    (∀ other : List Nat, other.length < 6 →
      tr_peerMgrCompactToPex (compact.take (6 * (compact.length / 6)) ++ other) added_f
        = tr_peerMgrCompactToPex compact added_f) := by
  have hget : ∀ i, i < compact.length / 6 →
      (tr_peerMgrCompactToPex compact added_f).1[i]? = some
        { in_addr := loadBytes ((compact.drop (6 * i)).take 4) 4
          port := loadBytes ((compact.drop (6 * i + 4)).take 2) 2
          flags := match added_f with
            | some f => f.getD i 0
            | none => 0 } := by
    intro i hi
    unfold tr_peerMgrCompactToPex
    simp only
    rw [compactToPexLoop_getElem? added_f _ 0 compact i hi, Nat.zero_add,
      loadBytes_take _ 4 4 (le_refl _), loadBytes_take _ 2 2 (le_refl _)]
  refine ⟨rfl, compactToPexLoop_length added_f _ _ _, hget, ?_, ?_, ?_⟩
  · intro f hf hlen i hi
    have hif : i < f.length := by omega
    refine ⟨_, f[i], hget i hi, List.getElem?_eq_getElem hif, ?_⟩
    subst hf
    simp only [List.getD_eq_getElem?_getD, List.getElem?_eq_getElem hif, Option.getD_some]
  · intro hf e he
    obtain ⟨i, hi, hie⟩ := List.getElem_of_mem he
    have hi' : i < compact.length / 6 := by
      have hl : (tr_peerMgrCompactToPex compact added_f).1.length = compact.length / 6 :=
        compactToPexLoop_length added_f _ _ _
      omega
    have h1 := hget i hi'
    rw [List.getElem?_eq_getElem hi, hie] at h1
    subst hf
    rw [Option.some.inj h1]
  · intro other hother
    have hle : 6 * (compact.length / 6) ≤ compact.length := Nat.mul_div_le _ _
    have hlen : (compact.take (6 * (compact.length / 6)) ++ other).length / 6
        = compact.length / 6 := by
      rw [List.length_append, List.length_take, Nat.min_eq_left hle]
      omega
    unfold tr_peerMgrCompactToPex
    simp only [hlen]
    rw [← compactToPexLoop_take added_f _ 0 (compact.take (6 * (compact.length / 6)) ++ other),
      ← compactToPexLoop_take added_f _ 0 compact]
    congr 2
    rw [List.take_append_of_le_length (by rw [List.length_take, Nat.min_eq_left hle]),
      List.take_take, Nat.min_self]

/-! ## The pool as a sorted set -/

theorem pairwise_insertSorted {α : Type} (key : α → Nat) (a : α) :
    ∀ l : List α, l.Pairwise (fun x y => key x < key y) → (∀ x ∈ l, key x ≠ key a) →
      (insertSorted key a l).Pairwise (fun x y => key x < key y)
  | [], _, _ => by simp [insertSorted]
  | b :: l, hs, hne => by
    rw [List.pairwise_cons] at hs
    have hb : key b ≠ key a := hne b (List.mem_cons_self _ _)
    unfold insertSorted
    split_ifs with hle
    · have hlt : key a < key b := by omega
      refine List.pairwise_cons.mpr ⟨?_, List.pairwise_cons.mpr hs⟩
      intro x hx
      rcases List.mem_cons.mp hx with e | e
      · rw [e]; exact hlt
      · exact hlt.trans (hs.1 x e)
    · refine List.pairwise_cons.mpr ⟨?_, pairwise_insertSorted key a l hs.2
        (fun x hx => hne x (List.mem_cons_of_mem _ hx))⟩
      intro x hx
      rcases (mem_insertSorted key a x l).mp hx with e | e
      · rw [e]; omega
      · exact hs.1 x e

theorem ensureAtomExists_of_mem (t : Torrent) (addr port flags from_ : Nat)
    (h : ∃ a ∈ t.pool, a.addr = addr) :
    ensureAtomExists t addr port flags from_ = t := by
  unfold ensureAtomExists
  obtain ⟨a, ha⟩ := Option.isSome_iff_exists.mp ((getExistingAtom_isSome t addr).mpr h)
  rw [ha]

theorem ensureAtomExists_mem (t : Torrent) (addr port flags from_ : Nat) :
    ∃ a ∈ (ensureAtomExists t addr port flags from_).pool, a.addr = addr := by
  unfold ensureAtomExists
  cases hg : getExistingAtom t addr with
  | none =>
    exact ⟨_, (mem_insertSorted _ _ _ _).mpr (Or.inl rfl), rfl⟩
  | some a =>
    unfold getExistingAtom at hg
    exact ⟨a, List.mem_of_find?_eq_some hg, by simpa using List.find?_some hg⟩

theorem ensureAtomExists_sorted (t : Torrent) (addr port flags from_ : Nat)
    (hsorted : t.pool.Pairwise (fun a b => a.addr < b.addr)) :
    (ensureAtomExists t addr port flags from_).pool.Pairwise (fun a b => a.addr < b.addr) := by
  unfold ensureAtomExists
  cases hg : getExistingAtom t addr with
  | none =>
    unfold getExistingAtom at hg
    refine pairwise_insertSorted (fun x => x.addr) _ t.pool hsorted ?_
    intro x hx
    simpa using List.find?_eq_none.mp hg x hx
  | some a => exact hsorted

/-- C28: `ensureAtomExists` on a torrent whose pool is sorted by address with
no address twice. A call for an address that has an atom returns the torrent
unchanged, so the atom keeps all its fields; hence a second call for the same
address, with any port, flags and source, changes nothing. After a call the
address has an atom, the pool is still sorted by address, and no two atoms have
the same address. -/
theorem C28_ensureAtomExists_idempotent (t : Torrent)
    (addr port flags from_ port2 flags2 from2 : Nat)
    (hsorted : t.pool.Pairwise (fun a b => a.addr < b.addr)) :
    ((∃ a ∈ t.pool, a.addr = addr) → ensureAtomExists t addr port2 flags2 from2 = t) ∧
    ensureAtomExists (ensureAtomExists t addr port flags from_) addr port2 flags2 from2
      = ensureAtomExists t addr port flags from_ ∧
    (∃ a ∈ (ensureAtomExists t addr port flags from_).pool, a.addr = addr) ∧
    (ensureAtomExists t addr port flags from_).pool.Pairwise (fun a b => a.addr < b.addr) ∧
    ((ensureAtomExists t addr port flags from_).pool.map (fun a => a.addr)).Nodup := by
  have hs := ensureAtomExists_sorted t addr port flags from_ hsorted
  refine ⟨ensureAtomExists_of_mem t addr port2 flags2 from2,
    ensureAtomExists_of_mem _ addr port2 flags2 from2 (ensureAtomExists_mem t addr port flags from_),
    ensureAtomExists_mem t addr port flags from_, hs, ?_⟩
  rw [List.Nodup, List.pairwise_map]
  exact hs.imp (fun h => Nat.ne_of_lt h)

/-- C28 on a pool with atoms for the addresses 1, 2 and 3: a call for the
address 2 with another port, flags and source leaves the pool as it is, and a
call for the address 0 puts a new atom in front. -/
theorem C28_ensureAtomExists_idempotent_witness :
    (ensureAtomExists twoPeerTorrent 2 9999 3 1).pool = twoPeerTorrent.pool ∧
    (ensureAtomExists twoPeerTorrent 0 6881 0 1).pool.map (fun a => (a.addr, a.port))
      = [(0, 6881), (1, 0), (2, 0), (3, 0)] ∧
    ensureAtomExists (ensureAtomExists twoPeerTorrent 0 6881 0 1) 0 9999 3 2
      = ensureAtomExists twoPeerTorrent 0 6881 0 1 :=
  ⟨by decide, by decide,
   (C28_ensureAtomExists_idempotent twoPeerTorrent 0 6881 0 1 9999 3 2 (by decide)).2.1⟩

/-! ## The events of the message layer -/

theorem clear_mask_bit (s j : Nat) (hj : j < 8) :
    ((0xff : Nat) ^^^ (0x80 >>> s)).testBit j = !decide (7 = s + j) := by
  have h2 : (0xff : Nat) = 2 ^ 8 - 1 := by norm_num
  rw [Nat.testBit_xor, mask_bit, h2, Nat.testBit_two_pow_sub_one]
  simp [hj]

theorem tr_bitfieldRem_bitCount (b : tr_bitfield) (n : Nat) :
    (tr_bitfieldRem b n).bitCount = b.bitCount := by
  unfold tr_bitfieldRem; split <;> rfl

theorem tr_bitfieldRem_wf (b : tr_bitfield) (n : Nat) (h : b.wf) : (tr_bitfieldRem b n).wf := by
  unfold tr_bitfieldRem tr_bitfield.wf at *
  split
  · exact h
  · simpa using h

theorem tr_bitfieldHas_rem (b : tr_bitfield) (n m : Nat) (hwf : b.wf) :
    tr_bitfieldHas (tr_bitfieldRem b n) m = (!decide (m = n) && tr_bitfieldHas b m) := by
  by_cases hn : b.bitCount ≤ n
  · unfold tr_bitfieldRem
    rw [if_pos hn]
    by_cases hmn : m = n
    · subst hmn
      simp [tr_bitfieldHas, tr_bitfieldTestFast, Nat.not_lt.mpr hn]
    · simp [hmn]
  · have hn' : n < b.bitCount := Nat.not_le.mp hn
    unfold tr_bitfield.wf at hwf
    have hlen : n / 8 < b.bits.length := by omega
    simp only [tr_bitfieldHas, tr_bitfieldTestFast, tr_bitfieldHasFast, tr_bitfieldRem,
      if_neg hn, and_seven, shiftRight_three]
    have hm7 : m % 8 ≤ 7 := by omega
    rw [shifted_bit _ _ hm7, shifted_bit _ _ hm7]
    by_cases hb : m / 8 = n / 8
    · rw [hb, List.getD_eq_getElem?_getD, List.getElem?_set_self hlen]
      simp only [Option.getD_some, Nat.testBit_and, clear_mask_bit _ _ (by omega : 7 - m % 8 < 8)]
      by_cases hmn : m = n
      · subst hmn
        have hd : decide (7 = m % 8 + (7 - m % 8)) = true := decide_eq_true (by omega)
        rw [hd]
        simp
      · have : ¬ (7 = n % 8 + (7 - m % 8)) := by omega
        simp only [hmn, this, decide_False, Bool.not_false, Bool.and_true, Bool.true_and]
    · have hmn : m ≠ n := fun h => hb (by rw [h])
      rw [List.getD_eq_getElem?_getD, List.getElem?_set_ne (Ne.symm hb),
        ← List.getD_eq_getElem?_getD]
      simp [hmn]

/-- C24 (as stated, it fails): block 5 is marked in `requested`; after the
event TR_PEERMSG_CLIENT_BLOCK for piece 1, offset 16384, which lies in block 5,
the bit of block 5 is still set. -/
theorem C24_receipt_keeps_request_mark :
    requestedTorrent.tor.tr_block 1 16384 = 5 ∧
    tr_bitfieldHas requestedTorrent.requested 5 = true ∧
    (msgsCallbackFunc {} requestedTorrent { in_addr := 1 }
        { eventType := .TR_PEERMSG_CLIENT_BLOCK, pieceIndex := 1, offset := 16384,
          length := 16384 } 100000).map (fun r => tr_bitfieldHas r.1.requested 5)
      = some true := by
  refine ⟨by decide, by decide, ?_⟩
  decide

/-- An event of the message layer other than TR_PEERMSG_CANCEL leaves
`requested` as it was. -/
theorem msgsCallbackFunc_requested (env : PeerMgrEnv) (t t1 : Torrent) (peer : tr_peer)
    (e : tr_peermsgs_event) (now : Nat) (effects : List MsgsEffect)
    (hne : e.eventType ≠ .TR_PEERMSG_CANCEL)
    (h : msgsCallbackFunc env t peer e now = some (t1, effects)) :
    t1.requested = t.requested := by
  unfold msgsCallbackFunc at h
  cases he : e.eventType <;> rw [he] at h <;> simp only at h
  · simp only [Option.some.injEq, Prod.mk.injEq] at h
    rw [← h.1]
  · simp only [Option.some.injEq, Prod.mk.injEq] at h
    rw [← h.1]
  · cases hm : modifyAtom t.pool peer.in_addr
        (fun atom => { atom with piece_data_time := now }) with
    | none => rw [hm] at h; simp at h
    | some pool =>
      rw [hm] at h
      simp only [Option.some.injEq, Prod.mk.injEq] at h
      rw [← h.1]
  · cases hm : modifyAtom t.pool peer.in_addr (fun atom =>
        if decide (e.progress ≥ 1) = true
        then { atom with flags := atom.flags ||| ADDED_F_SEED_FLAG }
        else { atom with flags := atom.flags &&& (0xff ^^^ ADDED_F_SEED_FLAG) }) with
    | none => rw [hm] at h; simp at h
    | some pool =>
      rw [hm] at h
      simp only [Option.some.injEq, Prod.mk.injEq] at h
      rw [← h.1]
  · split_ifs at h with hio has
    · cases hm : modifyPeer t.peers peer.in_addr (fun p => { p with doPurge := true }) with
      | none => rw [hm] at h; simp at h
      | some peers =>
        rw [hm] at h
        simp only [Option.some.injEq, Prod.mk.injEq] at h
        rw [← h.1]
    · cases hg : getExistingPeer t peer.in_addr with
      | none => rw [hg] at h; simp at h
      | some p0 =>
        rw [hg] at h
        simp only at h
        cases hs : addStrike t.pool p0 with
        | none => rw [hs] at h; simp at h
        | some r =>
          obtain ⟨pool1, peer1⟩ := r
          rw [hs] at h
          simp only at h
          cases hm : modifyPeer t.peers peer.in_addr
              (fun _ => { peer1 with doPurge := true }) with
          | none => rw [hm] at h; simp at h
          | some peers =>
            rw [hm] at h
            simp only [Option.some.injEq, Prod.mk.injEq] at h
            rw [← h.1]
    · cases hm : modifyPeer t.peers peer.in_addr (fun p => { p with doPurge := true }) with
      | none => rw [hm] at h; simp at h
      | some peers =>
        rw [hm] at h
        simp only [Option.some.injEq, Prod.mk.injEq] at h
        rw [← h.1]
  · exact absurd he hne
  · split_ifs at h <;> simp only [Option.some.injEq, Prod.mk.injEq] at h <;> rw [← h.1]

/-- C24 (amended): `msgsCallbackFunc` on a TR_PEERMSG_CLIENT_BLOCK event
returns and leaves the torrent as it was, so every bit of `requested`, the bit
of the received block included, and the atoms and peers are unchanged; it
hands `tr_peerMsgsCancel (pieceIndex, offset, length)` to every connected
peer, in the order of the peer set, and does nothing else. Of the events of
the message layer only TR_PEERMSG_CANCEL changes `requested`: whenever the
callback returns from an event of another type, for whatever peer and torrent,
`requested` is as before. -/
theorem C24_client_block_broadcasts (env : PeerMgrEnv) (t : Torrent) (peer : tr_peer)
    (e : tr_peermsgs_event) (now : Nat) (hev : e.eventType = .TR_PEERMSG_CLIENT_BLOCK) :
    (∃ t1 effects, msgsCallbackFunc env t peer e now = some (t1, effects) ∧
      t1 = t ∧
      (∀ block, tr_bitfieldHas t1.requested block = tr_bitfieldHas t.requested block) ∧
      effects = (t.peers.filter (fun p => p.msgs)).map
        (fun p => MsgsEffect.tr_peerMsgsCancel p e.pieceIndex e.offset e.length)) ∧
    (∀ (t2 t3 : Torrent) (peer2 : tr_peer) (e2 : tr_peermsgs_event) (now2 : Nat)
      (effects2 : List MsgsEffect), e2.eventType ≠ .TR_PEERMSG_CANCEL →
      msgsCallbackFunc env t2 peer2 e2 now2 = some (t3, effects2) →
      t3.requested = t2.requested) := by
  refine ⟨⟨t, _, ?_, rfl, fun _ => rfl, rfl⟩, ?_⟩
  · unfold msgsCallbackFunc
    rw [hev]
    rfl
  · intro t2 t3 peer2 e2 now2 effects2 hne h
    exact msgsCallbackFunc_requested env t2 t3 peer2 e2 now2 effects2 hne h

/-- C24 (amended) on a torrent with the blocks 5 and 9 marked and two connected
peers: after the receipt of block 5 both blocks are still marked, and both
peers were sent the cancel. -/
theorem C24_client_block_broadcasts_witness :
    (msgsCallbackFunc {} requestedTorrent { in_addr := 1 }
        { eventType := .TR_PEERMSG_CLIENT_BLOCK, pieceIndex := 1, offset := 16384,
          length := 16384 } 100000).map
        (fun r => ((List.range 16).filter (tr_bitfieldHas r.1.requested), r.2.length))
      = some ([5, 9], 2) ∧
    ∃ t1 effects, msgsCallbackFunc {} requestedTorrent { in_addr := 1 }
        { eventType := .TR_PEERMSG_CLIENT_BLOCK, pieceIndex := 1, offset := 16384,
          length := 16384 } 100000 = some (t1, effects) ∧ t1 = requestedTorrent :=
  ⟨by decide,
   let ⟨t1, effects, h1, h2, _⟩ := (C24_client_block_broadcasts {} requestedTorrent
     { in_addr := 1 }
     { eventType := .TR_PEERMSG_CLIENT_BLOCK, pieceIndex := 1, offset := 16384,
       length := 16384 } 100000 rfl).1
   ⟨t1, effects, h1, h2⟩⟩

/-- C25: `msgsCallbackFunc` on a TR_PEERMSG_CANCEL event for
`(pieceIndex, offset)`, the bytes of `requested` covering its bits: it
returns; afterwards the bit of the block `_tr_block (tor, pieceIndex, offset)`
is clear in `requested`, every other bit of `requested` is as before, and the
pool, the peers and every other field of the torrent are unchanged; nothing is
done outside the manager. -/
theorem C25_cancel_clears_block (env : PeerMgrEnv) (t : Torrent) (peer : tr_peer)
    (e : tr_peermsgs_event) (now : Nat)
    (hev : e.eventType = .TR_PEERMSG_CANCEL) (hwf : t.requested.wf) :
    ∃ t1, msgsCallbackFunc env t peer e now = some (t1, []) ∧
      tr_bitfieldHas t1.requested (t.tor.tr_block e.pieceIndex e.offset) = false ∧
      (∀ block, block ≠ t.tor.tr_block e.pieceIndex e.offset →
        tr_bitfieldHas t1.requested block = tr_bitfieldHas t.requested block) ∧
      t1.requested.bitCount = t.requested.bitCount ∧
      t1.pool = t.pool ∧ t1.peers = t.peers ∧
      t1 = { t with requested := t1.requested } := by
  refine ⟨{ t with requested :=
      tr_bitfieldRem t.requested (t.tor.tr_block e.pieceIndex e.offset) }, ?_, ?_, ?_,
    tr_bitfieldRem_bitCount _ _, rfl, rfl, rfl⟩
  · unfold msgsCallbackFunc
    rw [hev]
  · simp only [tr_bitfieldHas_rem _ _ _ hwf]
    simp
  · intro block hb
    simp only [tr_bitfieldHas_rem _ _ _ hwf]
    simp [hb]

/-- C25 on a torrent with the blocks 5 and 9 marked: a cancel for piece 1,
offset 16384 (block 5) leaves only block 9 marked. -/
theorem C25_cancel_clears_block_witness :
    (List.range 16).filter (tr_bitfieldHas requestedTorrent.requested) = [5, 9] ∧
    (msgsCallbackFunc {} requestedTorrent { in_addr := 1 }
        { eventType := .TR_PEERMSG_CANCEL, pieceIndex := 1, offset := 16384 } 100000).map
        (fun r => (List.range 16).filter (tr_bitfieldHas r.1.requested)) = some [9] ∧
    ∃ t1, msgsCallbackFunc {} requestedTorrent { in_addr := 1 }
        { eventType := .TR_PEERMSG_CANCEL, pieceIndex := 1, offset := 16384 } 100000
        = some (t1, []) ∧
      tr_bitfieldHas t1.requested 5 = false :=
  ⟨by decide, by decide,
   let ⟨t1, h1, h2, _⟩ := C25_cancel_clears_block {} requestedTorrent { in_addr := 1 }
     { eventType := .TR_PEERMSG_CANCEL, pieceIndex := 1, offset := 16384 } 100000 rfl
     (by decide)
   ⟨t1, h1, h2⟩⟩

/-! ## What the operations leave alone -/

theorem modifyAtom_map {β : Type} (g : peer_atom → β) (f : peer_atom → peer_atom) (addr : Nat) :
    ∀ (pool pool1 : List peer_atom), modifyAtom pool addr f = some pool1 →
      (∀ a, g (f a) = g a) → pool1.map g = pool.map g
  | [], _, h, _ => by simp [modifyAtom] at h
  | a :: rest, pool1, h, hf => by
    unfold modifyAtom at h
    by_cases ha : a.addr = addr
    · rw [if_pos ha] at h
      rw [← Option.some.inj h, List.map_cons, List.map_cons, hf]
    · rw [if_neg ha] at h
      cases hr : modifyAtom rest addr f with
      | none => rw [hr] at h; simp at h
      | some rest1 =>
        rw [hr] at h
        simp only [Option.map_some', Option.some.injEq] at h
        rw [← h, List.map_cons, List.map_cons, modifyAtom_map g f addr rest rest1 hr hf]

theorem removePeer_frame (t t1 : Torrent) (peer : tr_peer) (now : Nat)
    (h : removePeer t peer now = some t1) :
    t1 = { t with pool := t1.pool, peers := t1.peers } ∧
    t1.peers = t.peers.eraseP (fun p => decide (p.in_addr = peer.in_addr)) ∧
    t1.pool.map (fun a => a.addr) = t.pool.map (fun a => a.addr) := by
  unfold removePeer at h
  cases hm : modifyAtom t.pool peer.in_addr (fun atom => { atom with time := now }) with
  | none => rw [hm] at h; simp at h
  | some pool =>
    rw [hm] at h
    simp only [Option.some.injEq] at h
    subst h
    exact ⟨rfl, rfl, modifyAtom_map (fun a => a.addr) _ _ _ _ hm (fun _ => rfl)⟩

theorem closePeer_frame (t t1 : Torrent) (peer : tr_peer) (now : Nat)
    (h : closePeer t peer now = some t1) :
    t1 = { t with pool := t1.pool, peers := t1.peers } ∧
    t1.peers = t.peers.eraseP (fun p => decide (p.in_addr = peer.in_addr)) ∧
    t1.pool.map (fun a => a.addr) = t.pool.map (fun a => a.addr) := by
  unfold closePeer at h
  cases hm : modifyAtom t.pool peer.in_addr (fun atom =>
      if peer.pieceDataActivityDate ≠ 0 then { atom with numFails := 0 }
      else { atom with numFails := (atom.numFails + 1) % 2 ^ 16 }) with
  | none => rw [hm] at h; simp at h
  | some pool =>
    rw [hm] at h
    simp only at h
    obtain ⟨h1, h2, h3⟩ := removePeer_frame _ t1 peer now h
    refine ⟨?_, h2, h3.trans (modifyAtom_map (fun a => a.addr) _ _ _ _ hm ?_)⟩
    · rw [h1]
    · intro a
      simp only
      split <;> rfl

theorem closePeers_frame (now : Nat) :
    ∀ (closed : List tr_peer) (t t1 : Torrent), closePeers now t closed = some t1 →
      t1 = { t with pool := t1.pool, peers := t1.peers } ∧
      t1.peers.Sublist t.peers ∧
      t1.pool.map (fun a => a.addr) = t.pool.map (fun a => a.addr)
  | [], t, t1, h => by
    simp only [closePeers, Option.some.injEq] at h
    subst h
    exact ⟨rfl, List.Sublist.refl _, rfl⟩
  | p :: rest, t, t1, h => by
    unfold closePeers at h
    cases hc : closePeer t p now with
    | none => rw [hc] at h; simp at h
    | some t2 =>
      rw [hc] at h
      simp only at h
      obtain ⟨a1, a2, a3⟩ := closePeer_frame t t2 p now hc
      obtain ⟨b1, b2, b3⟩ := closePeers_frame now rest t2 t1 h
      refine ⟨?_, b2.trans (a2 ▸ List.eraseP_sublist _), b3.trans a3⟩
      rw [b1, a1]

theorem closureSweep_frame (t t1 : Torrent) (now : Nat) (h : closureSweep t now = some t1) :
    t1 = { t with pool := t1.pool, peers := t1.peers } ∧
    t1.peers.Sublist t.peers ∧
    t1.pool.map (fun a => a.addr) = t.pool.map (fun a => a.addr) := by
  unfold closureSweep at h
  cases hg : getPeersToClose t now with
  | none => rw [hg] at h; simp at h
  | some l =>
    rw [hg] at h
    exact closePeers_frame now l t t1 h

theorem removeAllPeers_frame (now : Nat) :
    ∀ (fuel : Nat) (t t1 : Torrent), removeAllPeers now fuel t = some t1 →
      t1 = { t with pool := t1.pool, peers := t1.peers } ∧
      t1.peers = [] ∧
      t1.pool.map (fun a => a.addr) = t.pool.map (fun a => a.addr)
  | 0, t, t1, h => by
    unfold removeAllPeers at h
    split_ifs at h with he
    simp only [Option.some.injEq] at h
    subst h
    exact ⟨rfl, by simpa using he, rfl⟩
  | fuel + 1, t, t1, h => by
    unfold removeAllPeers at h
    cases hp : t.peers with
    | nil =>
      rw [hp] at h
      simp only [Option.some.injEq] at h
      subst h
      exact ⟨rfl, hp, rfl⟩
    | cons p rest =>
      rw [hp] at h
      simp only at h
      cases hr : removePeer t p now with
      | none => rw [hr] at h; simp at h
      | some t2 =>
        rw [hr] at h
        simp only at h
        obtain ⟨a1, _, a3⟩ := removePeer_frame t t2 p now hr
        obtain ⟨b1, b2, b3⟩ := removeAllPeers_frame now fuel t2 t1 h
        refine ⟨?_, b2, b3.trans a3⟩
        rw [b1, a1]

theorem promoteLoop_frame (env : PeerMgrEnv) (now : Nat) (cands : List peer_atom)
    (g : ReconnectGlobals) (t : Torrent) (r : Promotion)
    (h : promoteLoop env now 0 cands g t = some r) :
    r.t = { t with pool := r.t.pool, outgoingHandshakes := r.t.outgoingHandshakes } ∧
    r.t.pool.map (fun a => a.addr) = t.pool.map (fun a => a.addr) ∧
    ((r.t.outgoingHandshakes = t.outgoingHandshakes ∧ r.started = []) ∨
      ∃ a rest, cands = a :: rest ∧
        r.t.outgoingHandshakes = insertSorted id a.addr t.outgoingHandshakes ∧
        r.started = [a.addr]) := by
  rw [promoteLoop_zero] at h
  cases cands with
  | nil =>
    simp only [Option.some.injEq] at h
    subst h
    exact ⟨rfl, rfl, Or.inl ⟨rfl, rfl⟩⟩
  | cons atom rest =>
    simp only at h
    by_cases hb : g.newConnectionsThisSecond < MAX_CONNECTIONS_PER_SECOND
    · rw [if_pos hb] at h
      cases hm : modifyAtom t.pool atom.addr
          (promotedAtom (env.tr_peerIoNewOutgoing atom.addr atom.port) now) with
      | none => rw [hm] at h; exact absurd h (by simp)
      | some pool =>
        rw [hm] at h
        simp only at h
        have hp := modifyAtom_map (fun a => a.addr) _ _ _ _ hm (fun _ => rfl)
        by_cases ho : env.tr_peerIoNewOutgoing atom.addr atom.port = false
        · rw [if_pos ho, Option.some.injEq] at h
          subst h
          exact ⟨rfl, hp, Or.inl ⟨rfl, rfl⟩⟩
        · rw [if_neg ho, Option.some.injEq] at h
          subst h
          exact ⟨rfl, hp, Or.inr ⟨atom, rest, rfl, rfl, rfl⟩⟩
    · rw [if_neg hb, Option.some.injEq] at h
      subst h
      exact ⟨rfl, rfl, Or.inl ⟨rfl, rfl⟩⟩

/-- One pulse, whatever the torrent: only the pool, the peer set and the
outgoing handshakes can change; peers only leave; atoms keep their addresses;
and the outgoing handshakes gain at most the address of the first candidate. -/
theorem reconnectPulse_frame (env : PeerMgrEnv) (incoming : List Nat) (g : ReconnectGlobals)
    (now : Nat) (t : Torrent) (r : ReconnectPulse)
    (h : reconnectPulse env incoming g now t = some r) :
    r.t = { t with pool := r.t.pool, peers := r.t.peers
                   outgoingHandshakes := r.t.outgoingHandshakes } ∧
    r.t.peers.Sublist t.peers ∧
    r.t.pool.map (fun a => a.addr) = t.pool.map (fun a => a.addr) ∧
    ((r.t.outgoingHandshakes = t.outgoingHandshakes ∧ r.started = []) ∨
      ∃ a rest, getPeerCandidates env incoming t now = a :: rest ∧
        r.t.outgoingHandshakes = insertSorted id a.addr t.outgoingHandshakes ∧
        r.started = [a.addr]) ∧
    (t.isRunning = false → r.t.peers = []) := by
  unfold reconnectPulse at h
  simp only at h
  by_cases hrun : (!t.isRunning) = true
  · rw [if_pos hrun] at h
    cases hr : removeAllPeers now t.peers.length t with
    | none => rw [hr] at h; exact absurd h (by simp)
    | some t1 =>
      rw [hr] at h
      simp only [Option.some.injEq] at h
      subst h
      obtain ⟨a1, a2, a3⟩ := removeAllPeers_frame now _ t t1 hr
      refine ⟨?_, a2 ▸ List.nil_sublist _, a3, Or.inl ⟨?_, rfl⟩, fun _ => a2⟩
      · simp only; rw [a1]
      · simp only; rw [a1]
  · rw [if_neg hrun] at h
    have hrun' : t.isRunning = true := by simpa using hrun
    cases hs : closureSweep t now with
    | none => rw [hs] at h; exact absurd h (by simp)
    | some t1 =>
      rw [hs] at h
      simp only at h
      cases hp : promoteLoop env now 0 (getPeerCandidates env incoming t now)
          (reconnectTick g now) t1 with
      | none => rw [hp] at h; exact absurd h (by simp)
      | some pr =>
        rw [hp] at h
        simp only [Option.some.injEq] at h
        subst h
        obtain ⟨a1, a2, a3⟩ := closureSweep_frame t t1 now hs
        obtain ⟨b1, b2, b3⟩ := promoteLoop_frame env now _ _ t1 pr hp
        have hpeers : pr.t.peers = t1.peers := by rw [b1]
        have hout : t1.outgoingHandshakes = t.outgoingHandshakes := by rw [a1]
        refine ⟨?_, hpeers ▸ a2, b2.trans a3, ?_, fun hf => ?_⟩
        · simp only; rw [b1, a1]
        · rw [← hout]; exact b3
        · rw [hrun'] at hf; exact absurd hf (by simp)

/-! ## Stopping a torrent -/

theorem putTorrent_self :
    ∀ (l : List Torrent) (t : Torrent),
      l.find? (fun x => decide (x.hash = t.hash)) = some t → putTorrent l t = l
  | [], _, h => by simp at h
  | x :: rest, t, h => by
    unfold putTorrent
    rw [List.find?_cons] at h
    by_cases hx : x.hash = t.hash
    · simp only [hx, decide_True, Option.some.injEq] at h
      rw [if_pos hx, h]
    · simp only [hx, decide_False] at h
      rw [if_neg hx, putTorrent_self rest t h]

theorem putTorrent_putTorrent (t1 t2 : Torrent) (hh : t1.hash = t2.hash) :
    ∀ l : List Torrent, putTorrent (putTorrent l t1) t2 = putTorrent l t2
  | [] => rfl
  | x :: rest => by
    by_cases hx : x.hash = t1.hash
    · have hx2 : x.hash = t2.hash := hx.trans hh
      rw [putTorrent, if_pos hx, putTorrent, if_pos hh, putTorrent, if_pos hx2]
    · have hx2 : ¬ x.hash = t2.hash := fun e => hx (e.trans hh.symm)
      rw [putTorrent, if_neg hx, putTorrent, if_neg hx2, putTorrent, if_neg hx2,
        putTorrent_putTorrent t1 t2 hh rest]

theorem mem_putTorrent (t1 x : Torrent) :
    ∀ l : List Torrent, x ∈ putTorrent l t1 → x = t1 ∨ x ∈ l
  | [], h => by simp [putTorrent] at h
  | y :: rest, h => by
    unfold putTorrent at h
    split_ifs at h
    · rcases List.mem_cons.mp h with e | e
      · exact Or.inl e
      · exact Or.inr (List.mem_cons_of_mem _ e)
    · rcases List.mem_cons.mp h with e | e
      · exact Or.inr (e ▸ List.mem_cons_self _ _)
      · rcases mem_putTorrent t1 x rest e with e2 | e2
        · exact Or.inl e2
        · exact Or.inr (List.mem_cons_of_mem _ e2)

theorem getExistingTorrent_find (m : tr_peerMgr) (h : List Nat) (t t1 : Torrent)
    (ht : getExistingTorrent m h = some t) (h1 : t1.hash = h) :
    m.torrents.find? (fun x => decide (x.hash = t1.hash)) = some t := by
  unfold getExistingTorrent at ht
  rw [h1]
  exact ht

theorem handshakeFailed_frame (t : Torrent) (addr : Nat) :
    handshakeFailed t addr = { t with pool := (handshakeFailed t addr).pool } ∧
    (handshakeFailed t addr).pool.map (fun a => a.addr) = t.pool.map (fun a => a.addr) ∧
    (handshakeFailed t addr).pool.map (fun a => a.time) = t.pool.map (fun a => a.time) := by
  unfold handshakeFailed
  cases hm : modifyAtom t.pool addr
      (fun atom => { atom with numFails := (atom.numFails + 1) % 2 ^ 16 }) with
  | none => exact ⟨rfl, rfl, rfl⟩
  | some pool =>
    exact ⟨rfl, modifyAtom_map (fun a => a.addr) _ _ _ _ hm (fun _ => rfl),
      modifyAtom_map (fun a => a.time) _ _ _ _ hm (fun _ => rfl)⟩

/-- The loop that aborts the outgoing handshakes of a stopped torrent, given
as many passes as there are handshakes: it returns, the set is empty, and the
pool changes in failure counts only. -/
theorem abortOutgoingHandshakes_spec (env : PeerMgrEnv) (now : Nat) (h : List Nat) :
    ∀ (fuel : Nat) (m : tr_peerMgr) (t : Torrent),
      getExistingTorrent m h = some t → t.isRunning = false →
      t.outgoingHandshakes.length = fuel →
      ∃ m1 t1, abortOutgoingHandshakes env now h fuel m = some m1 ∧
        getExistingTorrent m1 h = some t1 ∧
        m1.incomingHandshakes = m.incomingHandshakes ∧
        t1 = { t with pool := t1.pool, outgoingHandshakes := [] } ∧
        t1.pool.map (fun a => a.addr) = t.pool.map (fun a => a.addr) ∧
        t1.pool.map (fun a => a.time) = t.pool.map (fun a => a.time) ∧
        m1.torrents = putTorrent m.torrents t1
  | 0, m, t, ht, _, hlen => by
    have he : t.outgoingHandshakes = [] := List.length_eq_zero.mp hlen
    refine ⟨m, t, ?_, ht, rfl, ?_, rfl, rfl, ?_⟩
    · unfold abortOutgoingHandshakes
      rw [ht]
      simp [he]
    · rw [← he]
    · exact (putTorrent_self m.torrents t
        (getExistingTorrent_find m h t t ht (getExistingTorrent_hash m h t ht))).symm
  | fuel + 1, m, t, ht, hrun, hlen => by
    cases ho : t.outgoingHandshakes with
    | nil => rw [ho] at hlen; simp at hlen
    | cons addr rest =>
      have hT : handshakeTorrent m { addr := addr, isIncoming := false, torrentHash := some h }
          = some t := ht
      have hcb := myHandshakeDoneCB_failed env m
        { addr := addr, isIncoming := false, torrentHash := some h } false none now t hT
        (fun hi => absurd hi (by simp)) (fun _ => by rw [ho]; exact List.mem_cons_self _ _)
        (Or.inl rfl)
      have hrem : afterHandshakeRemoval t
          { addr := addr, isIncoming := false, torrentHash := some h }
          = { t with outgoingHandshakes := rest } := by
        unfold afterHandshakeRemoval
        simp [ho]
      have hinc : incomingAfterHandshake m
          { addr := addr, isIncoming := false, torrentHash := some h }
          = m.incomingHandshakes := by
        unfold incomingAfterHandshake
        simp
      rw [hrem, hinc] at hcb
      obtain ⟨f1, f2, f3⟩ := handshakeFailed_frame { t with outgoingHandshakes := rest } addr
      have hhash : (handshakeFailed { t with outgoingHandshakes := rest } addr).hash = h := by
        rw [f1]
        exact getExistingTorrent_hash m h t ht
      have ht2 := getExistingTorrent_putTorrent m h t
        (handshakeFailed { t with outgoingHandshakes := rest } addr) ht hhash
      obtain ⟨m1, t1, h1, h2, h3, h4, h5, h6, h7⟩ := abortOutgoingHandshakes_spec env now h fuel
        { torrents := putTorrent m.torrents
            (handshakeFailed { t with outgoingHandshakes := rest } addr)
          incomingHandshakes := m.incomingHandshakes }
        (handshakeFailed { t with outgoingHandshakes := rest } addr) ht2
        (by rw [f1]; exact hrun)
        (by rw [f1]; simp only; rw [ho] at hlen; simpa using hlen)
      refine ⟨m1, t1, ?_, h2, h3, ?_, h5.trans f2, h6.trans f3, ?_⟩
      · unfold abortOutgoingHandshakes
        rw [ht]
        simp only [ho]
        unfold tr_handshakeAbort
        rw [hcb]
        exact h1
      · rw [h4, f1]
      · rw [h7]
        exact putTorrent_putTorrent _ t1
          (hhash.trans (getExistingTorrent_hash m1 h t1 h2).symm) m.torrents

/-- The function `tr_peerMgrStopTorrent` for a torrent of the manager: it
returns; the torrent is stopped without rechoke and reconnect timers, peers
and outgoing handshakes; the pool changes in failure counts only. -/
theorem tr_peerMgrStopTorrent_spec (env : PeerMgrEnv) (m : tr_peerMgr) (h : List Nat)
    (t : Torrent) (now : Nat) (ht : getExistingTorrent m h = some t) :
    ∃ m1 t1, tr_peerMgrStopTorrent env m h now = some m1 ∧
      getExistingTorrent m1 h = some t1 ∧
      m1.incomingHandshakes = m.incomingHandshakes ∧
      t1 = { t with isRunning := false, rechokeTimer := false, reconnectTimer := false
                    peers := [], outgoingHandshakes := [], pool := t1.pool } ∧
      t1.pool.map (fun a => a.addr) = t.pool.map (fun a => a.addr) ∧
      t1.pool.map (fun a => a.time) = t.pool.map (fun a => a.time) ∧
      m1.torrents = putTorrent m.torrents t1 := by
  have hh := getExistingTorrent_hash m h t ht
  subst hh
  have ht2 := getExistingTorrent_putTorrent m t.hash t
    { t with isRunning := false, rechokeTimer := false, reconnectTimer := false, peers := [] }
    ht rfl
  obtain ⟨m1, t1, h1, h2, h3, h4, h5, h6, h7⟩ := abortOutgoingHandshakes_spec env now t.hash
    t.outgoingHandshakes.length _ _ ht2 rfl rfl
  refine ⟨m1, t1, ?_, h2, h3, ?_, h5, h6, ?_⟩
  · unfold tr_peerMgrStopTorrent
    rw [ht]
    exact h1
  · rw [h4]
  · rw [h7]
    exact putTorrent_putTorrent
      { t with isRunning := false, rechokeTimer := false, reconnectTimer := false, peers := [] }
      t1 (getExistingTorrent_hash m1 t.hash t1 h2).symm m.torrents

/-- C29: `tr_peerMgrStopTorrent` for a torrent of the manager, the abort of a
handshake entering the done-callback with `isConnected = 0`. The call returns;
afterwards the torrent is not running, its peer set and its outgoing
handshakes are empty, the pool holds the same addresses at the same positions,
and the incoming handshakes of the manager are as before. -/
theorem C29_stop_torrent (env : PeerMgrEnv) (m : tr_peerMgr) (h : List Nat) (t : Torrent)
    (now : Nat) (ht : getExistingTorrent m h = some t) :
    ∃ m1 t1, tr_peerMgrStopTorrent env m h now = some m1 ∧
      getExistingTorrent m1 h = some t1 ∧
      t1.isRunning = false ∧
      t1.peers = [] ∧
      t1.outgoingHandshakes = [] ∧
      t1.pool.map (fun a => a.addr) = t.pool.map (fun a => a.addr) ∧
      m1.incomingHandshakes = m.incomingHandshakes := by
  obtain ⟨m1, t1, h1, h2, h3, h4, h5, _, _⟩ := tr_peerMgrStopTorrent_spec env m h t now ht
  refine ⟨m1, t1, h1, h2, ?_, ?_, ?_, h5, h3⟩
  · rw [h4]
  · rw [h4]
  · rw [h4]

/-- C29 on a running torrent with one peer and one outgoing handshake, the
manager holding one incoming handshake: after the stop the peer set and the
outgoing handshakes are empty, the pool still holds the addresses 1 and 2, and
the incoming handshake is still there. -/
theorem C29_stop_torrent_witness :
    ((tr_peerMgrStopTorrent {} runningManager [7] 100000).map (fun m => m.torrents.map
        (fun t => (t.isRunning, t.peers.length, t.outgoingHandshakes))) = some [(false, 0, [])] ∧
     (tr_peerMgrStopTorrent {} runningManager [7] 100000).map (fun m => m.torrents.map
        (fun t => t.pool.map (fun a => a.addr))) = some [[1, 2]] ∧
     (tr_peerMgrStopTorrent {} runningManager [7] 100000).map (fun m => m.incomingHandshakes)
        = some [9]) ∧
    ∃ m1 t1, tr_peerMgrStopTorrent {} runningManager [7] 100000 = some m1 ∧
      getExistingTorrent m1 [7] = some t1 ∧ t1.isRunning = false :=
  ⟨⟨by decide!, by decide!, by decide!⟩,
   let ⟨m1, t1, h1, h2, h3, _⟩ := C29_stop_torrent {} runningManager [7] runningTorrent 100000 rfl
   ⟨m1, t1, h1, h2, h3⟩⟩

/-- C30 (defect of the code): `tr_peerMgrStopTorrent` for a torrent of the
manager that has peers returns and empties the peer set, but the `time` of
every atom, the atoms of the removed peers included, is what it was before:
`stopTorrent` destroys the peers without `removePeer`. -/
theorem C30_stop_keeps_atom_times (env : PeerMgrEnv) (m : tr_peerMgr) (h : List Nat)
    (t : Torrent) (now : Nat) (ht : getExistingTorrent m h = some t) (hp : t.peers ≠ []) :
    ∃ m1 t1, tr_peerMgrStopTorrent env m h now = some m1 ∧
      getExistingTorrent m1 h = some t1 ∧
      t.peers ≠ [] ∧ t1.peers = [] ∧
      t1.pool.map (fun a => a.time) = t.pool.map (fun a => a.time) := by
  obtain ⟨m1, t1, h1, h2, _, h4, _, h6, _⟩ := tr_peerMgrStopTorrent_spec env m h t now ht
  refine ⟨m1, t1, h1, h2, hp, ?_, h6⟩
  rw [h4]

/-- C30 at the time 100000 on a torrent whose peer at the address 1 has an atom
stamped at the time 5: after the stop the peer is gone and its atom still has
the time 5; through the not-running branch of `reconnectPulse` the same peer
leaves with its atom stamped 100000. -/
theorem C30_stop_keeps_atom_times_witness :
    ((tr_peerMgrStopTorrent {} runningManager [7] 100000).map (fun m => m.torrents.map
        (fun t => (t.peers.map (fun p => p.in_addr), t.pool.map (fun a => (a.addr, a.time)))))
      = some [([], [(1, 5), (2, 6)])] ∧
     (reconnectPulse {} [9] {} 100000 { runningTorrent with isRunning := false }).map
        (fun r => (r.t.peers.map (fun p => p.in_addr), r.t.pool.map (fun a => (a.addr, a.time))))
      = some ([], [(1, 100000), (2, 6)])) ∧
    ∃ m1 t1, tr_peerMgrStopTorrent {} runningManager [7] 100000 = some m1 ∧
      getExistingTorrent m1 [7] = some t1 ∧
      t1.pool.map (fun a => a.time) = [5, 6] :=
  ⟨⟨by decide!, by decide!⟩,
   let ⟨m1, t1, h1, h2, _, _, h5⟩ := C30_stop_keeps_atom_times {} runningManager [7]
     runningTorrent 100000 rfl (by decide)
   ⟨m1, t1, h1, h2, h5⟩⟩

/-! ## Running and timers -/

/-- C23 (as stated, it fails): a stopped torrent without timers is started;
afterwards it is running with its reconnect and rechoke timers, and has no
refill timer. -/
theorem C23_running_without_refill_timer :
    stoppedManager.torrents.map
        (fun t => (t.isRunning, t.reconnectTimer, t.rechokeTimer, t.refillTimer))
      = [(false, false, false, false)] ∧
    (tr_peerMgrStartTorrent {} stoppedManager {} [7] 100000 (fun _ => 0)).map
        (fun r => r.manager.torrents.map
          (fun t => (t.isRunning, t.reconnectTimer, t.rechokeTimer, t.refillTimer)))
      = some [(true, true, true, false)] := by
  constructor
  · decide
  · decide!

theorem tr_peerMgrStartTorrent_spec (env : PeerMgrEnv) (m : tr_peerMgr) (g : ReconnectGlobals)
    (h : List Nat) (t : Torrent) (now : Nat) (tr_rand : Nat → Nat)
    (ht : getExistingTorrent m h = some t) (hok : TimersMatch t)
    (hpool : (t.pool.map (fun a => a.addr)).Nodup)
    (hpeers : (t.peers.map (fun p => p.in_addr)).Nodup)
    (hatoms : PeersHaveAtoms t) :
    ∃ r t1, tr_peerMgrStartTorrent env m g h now tr_rand = some r ∧
      getExistingTorrent r.manager h = some t1 ∧
      t1.isRunning = true ∧ t1.reconnectTimer = true ∧ t1.rechokeTimer = true ∧
      t1.refillTimer = t.refillTimer ∧
      r.manager.incomingHandshakes = m.incomingHandshakes := by
  obtain ⟨hk1, hk2⟩ := hok
  unfold tr_peerMgrStartTorrent
  rw [ht]
  simp only
  rw [if_neg (not_not.mpr hk1), if_neg (not_not.mpr hk2)]
  cases hrun : t.isRunning with
  | true =>
    simp only [Bool.not_true, Bool.false_eq_true, if_false]
    exact ⟨_, t, rfl, ht, hrun, hk1 ▸ hrun, hk2 ▸ hrun, rfl, rfl⟩
  | false =>
    simp only [Bool.not_false, if_true]
    obtain ⟨r, hr, _⟩ := reconnectPulse_running_peers env m.incomingHandshakes g now
      { t with isRunning := true, reconnectTimer := true, rechokeTimer := true } rfl hpool hpeers
      hatoms
    obtain ⟨f1, _⟩ := reconnectPulse_frame env m.incomingHandshakes g now _ r hr
    rw [hr]
    simp only
    have hh := getExistingTorrent_hash m h t ht
    have hc : (rechokePulse r.t tr_rand).t
        = { r.t with optimistic := (rechokePulse r.t tr_rand).t.optimistic } := rfl
    refine ⟨_, (rechokePulse r.t tr_rand).t, rfl,
      getExistingTorrent_putTorrent m h t _ ht ?_, ?_, ?_, ?_, ?_, rfl⟩
    · rw [hc, f1]; exact hh
    · rw [hc, f1]
    · rw [hc, f1]
    · rw [hc, f1]
    · rw [hc, f1]

/-- C23 (amended): a torrent of the manager that is running exactly when its
reconnect timer exists and exactly when its rechoke timer exists (peers with
distinct addresses and an atom each, one atom per address, so that the first
pulse returns). `tr_peerMgrStartTorrent` returns and leaves it running with
both timers; `tr_peerMgrStopTorrent` returns and leaves it stopped without
them; the event TR_PEERMSG_NEED_REQ and `refillPulse` change neither
`isRunning` nor the two timers. The refill timer is not bound to `isRunning`:
the start leaves it as it was, and NEED_REQ creates it. -/
theorem C23_timers_match (env : PeerMgrEnv) (m : tr_peerMgr) (g : ReconnectGlobals)
    (h : List Nat) (t : Torrent) (now : Nat) (tr_rand : Nat → Nat)
    (peer : tr_peer) (e : tr_peermsgs_event)
    (σ : Type) (layer : MsgLayer σ) (rand16 : Nat → Nat) (rot : Nat) (s : σ)
    (ht : getExistingTorrent m h = some t) (hok : TimersMatch t)
    (hpool : (t.pool.map (fun a => a.addr)).Nodup)
    (hpeers : (t.peers.map (fun p => p.in_addr)).Nodup)
    (hatoms : PeersHaveAtoms t)
    (hev : e.eventType = .TR_PEERMSG_NEED_REQ) :
    (∃ r t1, tr_peerMgrStartTorrent env m g h now tr_rand = some r ∧
      getExistingTorrent r.manager h = some t1 ∧
      t1.isRunning = true ∧ TimersMatch t1 ∧ t1.refillTimer = t.refillTimer) ∧
    (∃ m1 t1, tr_peerMgrStopTorrent env m h now = some m1 ∧
      getExistingTorrent m1 h = some t1 ∧
      t1.isRunning = false ∧ TimersMatch t1) ∧
    (∃ t1, msgsCallbackFunc env t peer e now = some (t1, []) ∧
      t1.isRunning = t.isRunning ∧ TimersMatch t1 ∧ t1.refillTimer = true) ∧
    ((refillPulse layer t rand16 rot s).t.isRunning = t.isRunning ∧
      TimersMatch (refillPulse layer t rand16 rot s).t) := by
  refine ⟨?_, ?_, ?_, ?_⟩
  · obtain ⟨r, t1, h1, h2, h3, h4, h5, h6, _⟩ :=
      tr_peerMgrStartTorrent_spec env m g h t now tr_rand ht hok hpool hpeers hatoms
    exact ⟨r, t1, h1, h2, h3, ⟨h3.trans h4.symm, h3.trans h5.symm⟩, h6⟩
  · obtain ⟨m1, t1, h1, h2, _, h4, _, _, _⟩ := tr_peerMgrStopTorrent_spec env m h t now ht
    refine ⟨m1, t1, h1, h2, ?_, ?_, ?_⟩
    · rw [h4]
    · rw [h4]
    · rw [h4]
  · unfold msgsCallbackFunc
    rw [hev]
    simp only
    cases hr : t.refillTimer with
    | true => exact ⟨t, by simp, rfl, hok, hr⟩
    | false => exact ⟨{ t with refillTimer := true }, by simp, rfl, hok, rfl⟩
  · unfold refillPulse
    split_ifs
    · exact ⟨rfl, hok⟩
    · exact ⟨rfl, hok⟩
    · exact ⟨rfl, hok⟩

/-- C23 (amended) on a running torrent with both timers: it is still running
with both timers after a start, and stopped without them after a stop. -/
theorem C23_timers_match_witness :
    ((tr_peerMgrStartTorrent {} runningManager {} [7] 100000 (fun _ => 0)).map
        (fun r => r.manager.torrents.map
          (fun t => (t.isRunning, t.reconnectTimer, t.rechokeTimer)))
      = some [(true, true, true)] ∧
     (tr_peerMgrStopTorrent {} runningManager [7] 100000).map
        (fun m => m.torrents.map (fun t => (t.isRunning, t.reconnectTimer, t.rechokeTimer)))
      = some [(false, false, false)]) ∧
    ∃ m1 t1, tr_peerMgrStopTorrent {} runningManager [7] 100000 = some m1 ∧
      getExistingTorrent m1 [7] = some t1 ∧ t1.isRunning = false ∧ TimersMatch t1 :=
  ⟨⟨by decide!, by decide!⟩,
   (C23_timers_match {} runningManager {} [7] runningTorrent 100000 (fun _ => 0)
     { in_addr := 1 } { eventType := .TR_PEERMSG_NEED_REQ } Nat scriptedLayer (fun _ => 0) 0 0
     rfl ⟨rfl, rfl⟩ (by decide) (by decide) (by unfold PeersHaveAtoms; decide) rfl).2.1⟩

/-! ## Every peer has an atom -/

theorem PeersHaveAtoms_of_frame (t t1 : Torrent)
    (hpeers : ∀ p ∈ t1.peers, ∃ q ∈ t.peers, q.in_addr = p.in_addr)
    (hpool : ∀ x ∈ t.pool.map (fun a => a.addr), x ∈ t1.pool.map (fun a => a.addr))
    (h : PeersHaveAtoms t) : PeersHaveAtoms t1 := by
  intro p hp
  obtain ⟨q, hq, e⟩ := hpeers p hp
  obtain ⟨a, ha, ea⟩ := h q hq
  obtain ⟨a1, ha1, e1⟩ := List.mem_map.mp (hpool a.addr (List.mem_map.mpr ⟨a, ha, rfl⟩))
  exact ⟨a1, ha1, e1.trans (ea.trans e)⟩

theorem peers_of_map_eq (t t1 : Torrent)
    (h : t1.peers.map (fun p => p.in_addr) = t.peers.map (fun p => p.in_addr)) :
    ∀ p ∈ t1.peers, ∃ q ∈ t.peers, q.in_addr = p.in_addr := by
  intro p hp
  have hm : p.in_addr ∈ t.peers.map (fun p => p.in_addr) := by
    rw [← h]; exact List.mem_map.mpr ⟨p, hp, rfl⟩
  obtain ⟨q, hq, e⟩ := List.mem_map.mp hm
  exact ⟨q, hq, e⟩

theorem modifyPeer_addr (f : tr_peer → tr_peer) (addr : Nat) :
    ∀ (peers peers1 : List tr_peer), modifyPeer peers addr f = some peers1 →
      (∀ p, p.in_addr = addr → (f p).in_addr = addr) →
      peers1.map (fun p => p.in_addr) = peers.map (fun p => p.in_addr)
  | [], _, h, _ => by simp [modifyPeer] at h
  | p :: rest, peers1, h, hf => by
    unfold modifyPeer at h
    by_cases hp : p.in_addr = addr
    · rw [if_pos hp] at h
      rw [← Option.some.inj h, List.map_cons, List.map_cons, hf p hp, hp]
    · rw [if_neg hp] at h
      cases hr : modifyPeer rest addr f with
      | none => rw [hr] at h; simp at h
      | some rest1 =>
        rw [hr] at h
        simp only [Option.map_some', Option.some.injEq] at h
        rw [← h, List.map_cons, List.map_cons, modifyPeer_addr f addr rest rest1 hr hf]

theorem addStrike_frame (pool pool1 : List peer_atom) (p p1 : tr_peer)
    (h : addStrike pool p = some (pool1, p1)) :
    p1.in_addr = p.in_addr ∧ pool1.map (fun a => a.addr) = pool.map (fun a => a.addr) := by
  unfold addStrike at h
  simp only at h
  split_ifs at h
  · cases hm : modifyAtom pool p.in_addr
        (fun atom => { atom with myflags := atom.myflags ||| MYFLAG_BANNED }) with
    | none => rw [hm] at h; simp at h
    | some pool2 =>
      rw [hm] at h
      simp only [Option.some.injEq, Prod.mk.injEq] at h
      obtain ⟨e1, e2⟩ := h
      subst e1 e2
      exact ⟨rfl, modifyAtom_map (fun a => a.addr) _ _ _ _ hm (fun _ => rfl)⟩
  · simp only [Option.some.injEq, Prod.mk.injEq] at h
    obtain ⟨e1, e2⟩ := h
    subst e1 e2
    exact ⟨rfl, rfl⟩

/-- An event of the message layer changes no address, of a peer or of an
atom. -/
theorem msgsCallbackFunc_frame (env : PeerMgrEnv) (t t1 : Torrent) (peer : tr_peer)
    (e : tr_peermsgs_event) (now : Nat) (effects : List MsgsEffect)
    (h : msgsCallbackFunc env t peer e now = some (t1, effects)) :
    t1.peers.map (fun p => p.in_addr) = t.peers.map (fun p => p.in_addr) ∧
    t1.pool.map (fun a => a.addr) = t.pool.map (fun a => a.addr) := by
  unfold msgsCallbackFunc at h
  cases hev : e.eventType <;> rw [hev] at h <;> simp only at h
  · -- CLIENT_HAVE
    simp only [Option.some.injEq, Prod.mk.injEq] at h
    rw [← h.1]
    exact ⟨rfl, rfl⟩
  · -- CLIENT_BLOCK
    simp only [Option.some.injEq, Prod.mk.injEq] at h
    rw [← h.1]
    exact ⟨rfl, rfl⟩
  · -- PIECE_DATA
    cases hm : modifyAtom t.pool peer.in_addr
        (fun atom => { atom with piece_data_time := now }) with
    | none => rw [hm] at h; simp at h
    | some pool =>
      rw [hm] at h
      simp only [Option.some.injEq, Prod.mk.injEq] at h
      rw [← h.1]
      exact ⟨rfl, modifyAtom_map (fun a => a.addr) _ _ _ _ hm (fun _ => rfl)⟩
  · -- PEER_PROGRESS
    cases hm : modifyAtom t.pool peer.in_addr (fun atom =>
        if decide (e.progress ≥ 1) = true then
          { atom with flags := atom.flags ||| ADDED_F_SEED_FLAG }
        else { atom with flags := atom.flags &&& (0xff ^^^ ADDED_F_SEED_FLAG) }) with
    | none => rw [hm] at h; simp at h
    | some pool =>
      rw [hm] at h
      simp only [Option.some.injEq, Prod.mk.injEq] at h
      rw [← h.1]
      refine ⟨rfl, modifyAtom_map (fun a => a.addr) _ _ _ _ hm ?_⟩
      intro a
      simp only
      split <;> rfl
  · -- ERROR
    split_ifs at h
    · cases hm : modifyPeer t.peers peer.in_addr (fun p => { p with doPurge := true }) with
      | none => rw [hm] at h; simp at h
      | some peers =>
        rw [hm] at h
        simp only [Option.some.injEq, Prod.mk.injEq] at h
        rw [← h.1]
        exact ⟨modifyPeer_addr _ _ _ _ hm (fun _ hp => hp), rfl⟩
    · cases hg : getExistingPeer t peer.in_addr with
      | none => rw [hg] at h; simp at h
      | some p =>
        rw [hg] at h
        simp only at h
        cases hs : addStrike t.pool p with
        | none => rw [hs] at h; simp at h
        | some r =>
          obtain ⟨pool, p1⟩ := r
          rw [hs] at h
          simp only at h
          obtain ⟨s1, s2⟩ := addStrike_frame _ _ _ _ hs
          have hpa : p.in_addr = peer.in_addr := by
            unfold getExistingPeer at hg
            simpa using List.find?_some hg
          cases hm : modifyPeer t.peers peer.in_addr (fun _ => { p1 with doPurge := true }) with
          | none => rw [hm] at h; simp at h
          | some peers =>
            rw [hm] at h
            simp only [Option.some.injEq, Prod.mk.injEq] at h
            rw [← h.1]
            exact ⟨modifyPeer_addr _ _ _ _ hm (fun _ _ => s1.trans hpa), s2⟩
    · cases hm : modifyPeer t.peers peer.in_addr (fun p => { p with doPurge := true }) with
      | none => rw [hm] at h; simp at h
      | some peers =>
        rw [hm] at h
        simp only [Option.some.injEq, Prod.mk.injEq] at h
        rw [← h.1]
        exact ⟨modifyPeer_addr _ _ _ _ hm (fun _ hp => hp), rfl⟩
  · -- CANCEL
    simp only [Option.some.injEq, Prod.mk.injEq] at h
    rw [← h.1]
    exact ⟨rfl, rfl⟩
  · -- NEED_REQ
    split_ifs at h <;> simp only [Option.some.injEq, Prod.mk.injEq] at h <;> rw [← h.1] <;>
      exact ⟨rfl, rfl⟩

theorem ensureAtomExists_frame (t : Torrent) (addr port flags from_ : Nat) :
    ensureAtomExists t addr port flags from_
      = { t with pool := (ensureAtomExists t addr port flags from_).pool } ∧
    (∀ x ∈ t.pool.map (fun a => a.addr),
      x ∈ (ensureAtomExists t addr port flags from_).pool.map (fun a => a.addr)) := by
  unfold ensureAtomExists
  cases hg : getExistingAtom t addr with
  | some a => exact ⟨rfl, fun _ hx => hx⟩
  | none =>
    refine ⟨rfl, ?_⟩
    intro x hx
    obtain ⟨a, ha, e⟩ := List.mem_map.mp hx
    exact List.mem_map.mpr ⟨a, (mem_insertSorted _ _ _ _).mpr (Or.inr ha), e⟩

/-- The success branch, whatever the torrent: only the pool and the peer set
can change; atoms only join; and the peer set either stays or gains the peer
of the handshake, whose address then has an atom and had no peer. -/
theorem handshakeLooksGood_frame (env : PeerMgrEnv) (t t1 : Torrent) (io : tr_peerIo)
    (peer_id : Option (List Nat)) (now : Nat)
    (h : handshakeLooksGood env t io peer_id now = some t1) :
    t1 = { t with pool := t1.pool, peers := t1.peers } ∧
    (∀ x ∈ t.pool.map (fun a => a.addr), x ∈ t1.pool.map (fun a => a.addr)) ∧
    (t1.peers = t.peers ∨
      (getExistingPeer t io.addr = none ∧
        t1.peers = insertSorted (fun p => p.in_addr) (handshakePeer env io peer_id) t.peers ∧
        io.addr ∈ t1.pool.map (fun a => a.addr))) := by
  obtain ⟨e1, e2⟩ := ensureAtomExists_frame t io.addr io.port 0 TR_PEER_FROM_INCOMING
  have e3 := ensureAtomExists_mem t io.addr io.port 0 TR_PEER_FROM_INCOMING
  unfold handshakeLooksGood at h
  simp only at h
  generalize ensureAtomExists t io.addr io.port 0 TR_PEER_FROM_INCOMING = T1 at h e1 e2 e3
  have hpeers : T1.peers = t.peers := by rw [e1]
  have hpeer : getExistingPeer T1 io.addr = getExistingPeer t io.addr := by
    unfold getExistingPeer; rw [hpeers]
  have e1' : T1 = { t with pool := T1.pool, peers := T1.peers } := by
    rw [hpeers]; exact e1
  cases ha : getExistingAtom T1 io.addr with
  | none => rw [ha] at h; simp at h
  | some atom =>
    rw [ha] at h
    simp only at h
    split_ifs at h
    · rw [← Option.some.inj h]
      exact ⟨e1', e2, Or.inl hpeers⟩
    · rw [← Option.some.inj h]
      exact ⟨e1', e2, Or.inl hpeers⟩
    · cases hp : getExistingPeer T1 io.addr with
      | some p =>
        rw [hp] at h
        rw [← Option.some.inj h]
        exact ⟨e1', e2, Or.inl hpeers⟩
      | none =>
        rw [hp] at h
        simp only at h
        cases hm : modifyAtom T1.pool io.addr (fun a => ({ a with time := now } : peer_atom)) with
        | none => rw [hm] at h; simp at h
        | some pool =>
          rw [hm] at h
          simp only [Option.some.injEq] at h
          subst h
          have hpa := modifyAtom_map (fun a => a.addr) _ _ _ _ hm (fun _ => rfl)
          refine ⟨?_, ?_, Or.inr ⟨hpeer ▸ hp, by simp only [hpeers], ?_⟩⟩
          · simp only; rw [e1]
          · intro x hx
            simp only
            rw [hpa]
            exact e2 x hx
          · simp only
            rw [hpa]
            obtain ⟨a, ha1, ha2⟩ := e3
            exact List.mem_map.mpr ⟨a, ha1, ha2⟩

/-- The shapes of a returning handshake callback: without a torrent only the
incoming handshake is removed; with one, the handshake leaves its set and the
torrent takes the failure or the success branch. -/
theorem myHandshakeDoneCB_cases (env : PeerMgrEnv) (m m1 : tr_peerMgr) (io : tr_peerIo)
    (isConnected : Bool) (peer_id : Option (List Nat)) (now : Nat)
    (h : myHandshakeDoneCB env m io isConnected peer_id now = some m1) :
    m1.incomingHandshakes = incomingAfterHandshake m io ∧
    (io.isIncoming = true → io.addr ∈ m.incomingHandshakes) ∧
    ((handshakeTorrent m io = none ∧ m1.torrents = m.torrents) ∨
      ∃ t t1, handshakeTorrent m io = some t ∧
        (io.isIncoming = false → io.addr ∈ t.outgoingHandshakes) ∧
        m1.torrents = putTorrent m.torrents t1 ∧
        (t1 = handshakeFailed (afterHandshakeRemoval t io) io.addr ∨
          handshakeLooksGood env (afterHandshakeRemoval t io) io peer_id now = some t1)) := by
  unfold myHandshakeDoneCB at h
  simp only at h
  have hmem : ∀ (l l1 : List Nat) (a : Nat), removeHandshake l a = some l1 →
      a ∈ l ∧ l1 = l.erase a := by
    intro l l1 a hr
    unfold removeHandshake at hr
    split_ifs at hr with hc
    exact ⟨by simpa using hc, (Option.some.inj hr).symm⟩
  cases hinc : io.isIncoming with
  | true =>
    rw [hinc] at h
    simp only [if_true] at h
    cases hr : removeHandshake m.incomingHandshakes io.addr with
    | none => rw [hr] at h; simp at h
    | some incoming =>
      rw [hr] at h
      simp only at h
      obtain ⟨hm1, hm2⟩ := hmem _ _ _ hr
      have hia : incomingAfterHandshake m io = incoming := by
        unfold incomingAfterHandshake; rw [hinc, hm2]; rfl
      have har : ∀ t, afterHandshakeRemoval t io = t := by
        intro t; unfold afterHandshakeRemoval; rw [hinc]; rfl
      cases hT : handshakeTorrent m io with
      | none =>
        rw [hT] at h
        simp only [Option.some.injEq] at h
        subst h
        exact ⟨hia.symm, fun _ => hm1, Or.inl ⟨rfl, rfl⟩⟩
      | some t =>
        rw [hT] at h
        simp only at h
        split_ifs at h
        · simp only [Option.some.injEq] at h
          subst h
          exact ⟨hia.symm, fun _ => hm1,
            Or.inr ⟨t, _, rfl, fun hf => absurd hf (by simp), rfl, Or.inl (by rw [har])⟩⟩
        · cases hg : handshakeLooksGood env t io peer_id now with
          | none => rw [hg] at h; simp at h
          | some t1 =>
            rw [hg] at h
            simp only [Option.some.injEq] at h
            subst h
            exact ⟨hia.symm, fun _ => hm1,
              Or.inr ⟨t, t1, rfl, fun hf => absurd hf (by simp), rfl,
                Or.inr (by rw [har]; exact hg)⟩⟩
  | false =>
    rw [hinc] at h
    simp only [Bool.false_eq_true, if_false] at h
    have hia : incomingAfterHandshake m io = m.incomingHandshakes := by
      unfold incomingAfterHandshake; rw [hinc]; rfl
    cases hT : handshakeTorrent m io with
    | none =>
      rw [hT] at h
      simp only [Option.some.injEq] at h
      subst h
      exact ⟨hia.symm, fun hf => absurd hf (by simp), Or.inl ⟨rfl, rfl⟩⟩
    | some t =>
      rw [hT] at h
      simp only at h
      cases hr : removeHandshake t.outgoingHandshakes io.addr with
      | none => rw [hr] at h; simp at h
      | some outgoing =>
        rw [hr] at h
        simp only at h
        obtain ⟨hm1, hm2⟩ := hmem _ _ _ hr
        have har : afterHandshakeRemoval t io = { t with outgoingHandshakes := outgoing } := by
          unfold afterHandshakeRemoval; rw [hinc, hm2]; rfl
        split_ifs at h
        · simp only [Option.some.injEq] at h
          subst h
          exact ⟨hia.symm, fun hf => absurd hf (by simp),
            Or.inr ⟨t, _, rfl, fun _ => hm1, rfl, Or.inl (by rw [har])⟩⟩
        · cases hg : handshakeLooksGood env { t with outgoingHandshakes := outgoing } io
              peer_id now with
          | none => rw [hg] at h; simp at h
          | some t1 =>
            rw [hg] at h
            simp only [Option.some.injEq] at h
            subst h
            exact ⟨hia.symm, fun hf => absurd hf (by simp),
              Or.inr ⟨t, t1, rfl, fun _ => hm1, rfl, Or.inr (by rw [har]; exact hg)⟩⟩

/-- The shapes of a returning start: nothing changes, or the entry of the
torrent is rewritten by the first reconnect pulse and the first rechoke. -/
theorem tr_peerMgrStartTorrent_cases (env : PeerMgrEnv) (m : tr_peerMgr) (g : ReconnectGlobals)
    (h : List Nat) (now : Nat) (tr_rand : Nat → Nat) (r : StartTorrent)
    (hs : tr_peerMgrStartTorrent env m g h now tr_rand = some r) :
    r.manager.incomingHandshakes = m.incomingHandshakes ∧
    (r.manager.torrents = m.torrents ∨
      ∃ t rp, getExistingTorrent m h = some t ∧
        reconnectPulse env m.incomingHandshakes g now
          { t with isRunning := true, reconnectTimer := true, rechokeTimer := true } = some rp ∧
        r.manager.torrents
          = putTorrent m.torrents { rp.t with optimistic := (rechokePulse rp.t tr_rand).t.optimistic }) := by
  unfold tr_peerMgrStartTorrent at hs
  cases ht : getExistingTorrent m h with
  | none => rw [ht] at hs; simp at hs
  | some t =>
    rw [ht] at hs
    simp only at hs
    split_ifs at hs
    · cases hr : reconnectPulse env m.incomingHandshakes g now
          { t with isRunning := true, reconnectTimer := true, rechokeTimer := true } with
      | none => rw [hr] at hs; simp at hs
      | some rp =>
        rw [hr] at hs
        simp only [Option.some.injEq] at hs
        subst hs
        exact ⟨rfl, Or.inr ⟨t, rp, rfl, hr, rfl⟩⟩
    · simp only [Option.some.injEq] at hs
      subst hs
      exact ⟨rfl, Or.inl rfl⟩

theorem getExistingTorrent_mem (m : tr_peerMgr) (h : List Nat) (t : Torrent)
    (ht : getExistingTorrent m h = some t) : t ∈ m.torrents := by
  unfold getExistingTorrent at ht
  exact List.mem_of_find?_eq_some ht

theorem handshakeTorrent_mem (m : tr_peerMgr) (io : tr_peerIo) (t : Torrent)
    (ht : handshakeTorrent m io = some t) : t ∈ m.torrents := by
  unfold handshakeTorrent at ht
  cases hh : io.torrentHash with
  | none => rw [hh] at ht; simp at ht
  | some hash => rw [hh] at ht; exact getExistingTorrent_mem m hash t ht

theorem handshake_torrent_atoms (env : PeerMgrEnv) (t t1 : Torrent) (io : tr_peerIo)
    (peer_id : Option (List Nat)) (now : Nat) (hinv : PeersHaveAtoms t)
    (h : t1 = handshakeFailed (afterHandshakeRemoval t io) io.addr ∨
      handshakeLooksGood env (afterHandshakeRemoval t io) io peer_id now = some t1) :
    PeersHaveAtoms t1 := by
  obtain ⟨_, fpool, fpeers, _, _⟩ := afterHandshakeRemoval_fields t io
  have h0 : PeersHaveAtoms (afterHandshakeRemoval t io) := by
    unfold PeersHaveAtoms at hinv ⊢
    rw [fpool, fpeers]
    exact hinv
  generalize afterHandshakeRemoval t io = t0 at h h0
  rcases h with h | h
  · obtain ⟨f1, f2, _⟩ := handshakeFailed_frame t0 io.addr
    refine PeersHaveAtoms_of_frame t0 t1 ?_ ?_ h0
    · intro p hp
      rw [h, f1] at hp
      exact ⟨p, hp, rfl⟩
    · intro x hx
      rw [h, f2]
      exact hx
  · obtain ⟨_, g2, g3⟩ := handshakeLooksGood_frame env t0 t1 io peer_id now h
    rcases g3 with g3 | ⟨_, g4, g5⟩
    · exact PeersHaveAtoms_of_frame t0 t1 (fun p hp => ⟨p, g3 ▸ hp, rfl⟩) g2 h0
    · intro p hp
      rw [g4] at hp
      rcases (mem_insertSorted _ _ _ _).mp hp with e | e
      · obtain ⟨a, ha, ea⟩ := List.mem_map.mp g5
        exact ⟨a, ha, by rw [ea, e]; rfl⟩
      · obtain ⟨a, ha, ea⟩ := h0 p e
        obtain ⟨a1, ha1, e1⟩ := List.mem_map.mp (g2 a.addr (List.mem_map.mpr ⟨a, ha, rfl⟩))
        exact ⟨a1, ha1, e1.trans ea⟩

/-- C21: a manager in which every peer of every torrent has an atom of its
address in the pool of that torrent. Whenever one of the operations returns -
the handshake callback, an event of the message layer or a reconnect pulse on
one of its torrents, `tr_peerMgrAddPex`, `tr_peerMgrStartTorrent`,
`tr_peerMgrStopTorrent` - the same holds afterwards. -/
theorem C21_peers_have_atoms (env : PeerMgrEnv) (m : tr_peerMgr)
    (hinv : ∀ t ∈ m.torrents, PeersHaveAtoms t) :
    (∀ io isConnected peer_id now m1,
      myHandshakeDoneCB env m io isConnected peer_id now = some m1 →
      ∀ t ∈ m1.torrents, PeersHaveAtoms t) ∧
    (∀ t ∈ m.torrents, ∀ peer e now t1 effects,
      msgsCallbackFunc env t peer e now = some (t1, effects) → PeersHaveAtoms t1) ∧
    (∀ t ∈ m.torrents, ∀ g now r,
      reconnectPulse env m.incomingHandshakes g now t = some r → PeersHaveAtoms r.t) ∧
    (∀ h from_ pex m1, tr_peerMgrAddPex env m h from_ pex = some m1 →
      ∀ t ∈ m1.torrents, PeersHaveAtoms t) ∧
    (∀ g h now tr_rand r, tr_peerMgrStartTorrent env m g h now tr_rand = some r →
      ∀ t ∈ r.manager.torrents, PeersHaveAtoms t) ∧
    (∀ h now m1, tr_peerMgrStopTorrent env m h now = some m1 →
      ∀ t ∈ m1.torrents, PeersHaveAtoms t) := by
  refine ⟨?_, ?_, ?_, ?_, ?_, ?_⟩
  · intro io isConnected peer_id now m1 h x hx
    obtain ⟨_, _, hc⟩ := myHandshakeDoneCB_cases env m m1 io isConnected peer_id now h
    rcases hc with ⟨_, hc⟩ | ⟨t, t1, hT, _, hput, hbr⟩
    · exact hinv x (hc ▸ hx)
    · rw [hput] at hx
      rcases mem_putTorrent t1 x _ hx with e | e
      · rw [e]
        exact handshake_torrent_atoms env t t1 io peer_id now
          (hinv t (handshakeTorrent_mem m io t hT)) hbr
      · exact hinv x e
  · intro t ht peer e now t1 effects h
    obtain ⟨f1, f2⟩ := msgsCallbackFunc_frame env t t1 peer e now effects h
    exact PeersHaveAtoms_of_frame t t1 (peers_of_map_eq t t1 f1) (fun x hx => f2 ▸ hx)
      (hinv t ht)
  · intro t ht g now r h
    obtain ⟨_, f2, f3, _⟩ := reconnectPulse_frame env m.incomingHandshakes g now t r h
    exact PeersHaveAtoms_of_frame t r.t (fun p hp => ⟨p, f2.subset hp, rfl⟩)
      (fun x hx => f3 ▸ hx) (hinv t ht)
  · intro h from_ pex m1 hm x hx
    unfold tr_peerMgrAddPex at hm
    cases ht : getExistingTorrent m h with
    | none => rw [ht] at hm; simp at hm
    | some t =>
      rw [ht] at hm
      simp only at hm
      split_ifs at hm
      · simp only [Option.some.injEq] at hm
        subst hm
        rcases mem_putTorrent _ x _ hx with e | e
        · obtain ⟨f1, f2⟩ := ensureAtomExists_frame t pex.in_addr pex.port pex.flags from_
          rw [e]
          refine PeersHaveAtoms_of_frame t _ ?_ f2 (hinv t (getExistingTorrent_mem m h t ht))
          intro p hp
          rw [f1] at hp
          exact ⟨p, hp, rfl⟩
        · exact hinv x e
      · simp only [Option.some.injEq] at hm
        subst hm
        exact hinv x hx
  · intro g h now tr_rand r hs x hx
    obtain ⟨_, hc⟩ := tr_peerMgrStartTorrent_cases env m g h now tr_rand r hs
    rcases hc with hc | ⟨t, rp, ht, hrp, hput⟩
    · exact hinv x (hc ▸ hx)
    · rw [hput] at hx
      rcases mem_putTorrent _ x _ hx with e | e
      · obtain ⟨_, f2, f3, _⟩ := reconnectPulse_frame env m.incomingHandshakes g now _ rp hrp
        have ht' : PeersHaveAtoms
            { t with isRunning := true, reconnectTimer := true, rechokeTimer := true } :=
          hinv t (getExistingTorrent_mem m h t ht)
        have hrpt : PeersHaveAtoms rp.t :=
          PeersHaveAtoms_of_frame _ rp.t (fun p hp => ⟨p, f2.subset hp, rfl⟩)
            (fun x hx => f3 ▸ hx) ht'
        rw [e]
        exact hrpt
      · exact hinv x e
  · intro h now m1 hs x hx
    cases ht : getExistingTorrent m h with
    | none =>
      unfold tr_peerMgrStopTorrent at hs
      rw [ht] at hs
      simp at hs
    | some t =>
      obtain ⟨m2, t1, h1, _, _, h4, _, _, h7⟩ := tr_peerMgrStopTorrent_spec env m h t now ht
      rw [h1] at hs
      have e := Option.some.inj hs
      subst e
      rw [h7] at hx
      rcases mem_putTorrent t1 x _ hx with e | e
      · intro p hp
        rw [e, h4] at hp
        simp at hp
      · exact hinv x e

/-- C21 on a manager with one running torrent, a peer at the address 1 with
its atom, and an outgoing handshake to the address 2: the handshake completes
into a second peer, and both peers have their atoms. -/
theorem C21_peers_have_atoms_witness :
    (myHandshakeDoneCB {} runningManager { addr := 2, torrentHash := some [7] } true none
        100000).map (fun m => m.torrents.map (fun t =>
          (t.peers.map (fun p => p.in_addr), t.pool.map (fun a => a.addr))))
      = some [([1, 2], [1, 2])] ∧
    ∀ m1, myHandshakeDoneCB {} runningManager { addr := 2, torrentHash := some [7] } true none
        100000 = some m1 → ∀ t ∈ m1.torrents, PeersHaveAtoms t :=
  ⟨by decide!,
   (C21_peers_have_atoms {} runningManager (by unfold PeersHaveAtoms; decide)).1
     { addr := 2, torrentHash := some [7] } true none 100000⟩

/-! ## Sequences of operations: no address twice in a set -/

theorem perm_insertSorted {α : Type} (key : α → Nat) (a : α) :
    ∀ l : List α, (insertSorted key a l).Perm (a :: l)
  | [] => List.Perm.refl _
  | b :: l => by
    unfold insertSorted
    split_ifs
    · exact List.Perm.refl _
    · exact ((perm_insertSorted key a l).cons b).trans (List.Perm.swap a b l)

theorem nodup_insertSorted (a : Nat) (l : List Nat) (hl : l.Nodup) (ha : a ∉ l) :
    (insertSorted id a l).Nodup :=
  (perm_insertSorted id a l).nodup_iff.mpr (List.nodup_cons.mpr ⟨ha, hl⟩)

theorem nodup_map_insertSorted (p : tr_peer) (l : List tr_peer)
    (hl : (l.map (fun p => p.in_addr)).Nodup) (hp : ∀ q ∈ l, q.in_addr ≠ p.in_addr) :
    ((insertSorted (fun p => p.in_addr) p l).map (fun p => p.in_addr)).Nodup := by
  rw [((perm_insertSorted (fun p => p.in_addr) p l).map (fun p => p.in_addr)).nodup_iff,
    List.map_cons, List.nodup_cons]
  refine ⟨?_, hl⟩
  intro hmem
  obtain ⟨q, hq, e⟩ := List.mem_map.mp hmem
  exact hp q hq e

theorem getExistingPeer_none (t : Torrent) (addr : Nat) (h : getExistingPeer t addr = none) :
    ∀ q ∈ t.peers, q.in_addr ≠ addr := by
  unfold getExistingPeer at h
  intro q hq
  simpa using List.find?_eq_none.mp h q hq

theorem afterHandshakeRemoval_outgoing (t : Torrent) (io : tr_peerIo)
    (h : t.outgoingHandshakes.Nodup) :
    (afterHandshakeRemoval t io).outgoingHandshakes.Nodup := by
  unfold afterHandshakeRemoval
  split
  · exact h
  · exact h.erase _

/-- A returning pulse adds to the outgoing handshakes only an address that is
in none of the three sets. -/
theorem reconnectPulse_outgoing (env : PeerMgrEnv) (incoming : List Nat) (g : ReconnectGlobals)
    (now : Nat) (t : Torrent) (r : ReconnectPulse)
    (h : reconnectPulse env incoming g now t = some r) :
    ∀ addr ∈ r.t.outgoingHandshakes, addr ∈ t.outgoingHandshakes ∨
      (addr ∉ t.outgoingHandshakes ∧ (∀ p ∈ t.peers, p.in_addr ≠ addr) ∧ addr ∉ incoming) := by
  obtain ⟨_, _, _, f4, _⟩ := reconnectPulse_frame env incoming g now t r h
  intro addr haddr
  rcases f4 with ⟨f4, _⟩ | ⟨a, rest, hc, f4, _⟩
  · exact Or.inl (f4 ▸ haddr)
  · rw [f4] at haddr
    rcases (mem_insertSorted id a.addr addr _).mp haddr with e | e
    · obtain ⟨_, hcand⟩ :=
        (mem_getPeerCandidates env incoming t now a).mp (hc ▸ List.mem_cons_self _ _)
      obtain ⟨_, _, huse, _⟩ := (isCandidate_iff env incoming t now a).mp hcand
      obtain ⟨u1, u2, u3⟩ := (peerIsInUse_false_iff incoming t a.addr).mp huse
      rw [e]
      exact Or.inr ⟨u2, u1, u3⟩
    · exact Or.inl e

theorem reconnectPulse_setsOk (env : PeerMgrEnv) (incoming : List Nat) (g : ReconnectGlobals)
    (now : Nat) (t : Torrent) (r : ReconnectPulse)
    (h : reconnectPulse env incoming g now t = some r)
    (hp : (t.peers.map (fun p => p.in_addr)).Nodup) (ho : t.outgoingHandshakes.Nodup) :
    (r.t.peers.map (fun p => p.in_addr)).Nodup ∧ r.t.outgoingHandshakes.Nodup := by
  obtain ⟨_, f2, _, f4, _⟩ := reconnectPulse_frame env incoming g now t r h
  refine ⟨(f2.map _).nodup hp, ?_⟩
  rcases f4 with ⟨f4, _⟩ | ⟨a, rest, hc, f4, _⟩
  · rw [f4]; exact ho
  · rw [f4]
    obtain ⟨_, hcand⟩ :=
      (mem_getPeerCandidates env incoming t now a).mp (hc ▸ List.mem_cons_self _ _)
    obtain ⟨_, _, huse, _⟩ := (isCandidate_iff env incoming t now a).mp hcand
    obtain ⟨_, u2, _⟩ := (peerIsInUse_false_iff incoming t a.addr).mp huse
    exact nodup_insertSorted a.addr _ ho u2

theorem handshake_torrent_setsOk (env : PeerMgrEnv) (t t1 : Torrent) (io : tr_peerIo)
    (peer_id : Option (List Nat)) (now : Nat)
    (hp : (t.peers.map (fun p => p.in_addr)).Nodup) (ho : t.outgoingHandshakes.Nodup)
    (h : t1 = handshakeFailed (afterHandshakeRemoval t io) io.addr ∨
      handshakeLooksGood env (afterHandshakeRemoval t io) io peer_id now = some t1) :
    (t1.peers.map (fun p => p.in_addr)).Nodup ∧ t1.outgoingHandshakes.Nodup := by
  obtain ⟨_, _, fpeers, _, _⟩ := afterHandshakeRemoval_fields t io
  have ho0 := afterHandshakeRemoval_outgoing t io ho
  have hp0 : ((afterHandshakeRemoval t io).peers.map (fun p => p.in_addr)).Nodup := by
    rw [fpeers]; exact hp
  generalize afterHandshakeRemoval t io = t0 at h ho0 hp0
  rcases h with h | h
  · obtain ⟨f1, _, _⟩ := handshakeFailed_frame t0 io.addr
    rw [h, f1]
    exact ⟨hp0, ho0⟩
  · obtain ⟨g1, _, g3⟩ := handshakeLooksGood_frame env t0 t1 io peer_id now h
    have hout : t1.outgoingHandshakes = t0.outgoingHandshakes := by rw [g1]
    refine ⟨?_, hout ▸ ho0⟩
    rcases g3 with g3 | ⟨g3, g4, _⟩
    · rw [g3]; exact hp0
    · rw [g4]
      exact nodup_map_insertSorted _ _ hp0 (getExistingPeer_none t0 io.addr g3)

theorem applyOp_setsOk (env : PeerMgrEnv) (s s1 : ManagerState) (op : ManagerOp)
    (hok : SetsOk s.manager) (h : applyOp env s op = some s1) : SetsOk s1.manager := by
  obtain ⟨hinc, htor⟩ := hok
  cases op with
  | addIncoming addr =>
    simp only [applyOp, Option.some.injEq] at h
    subst h
    unfold tr_peerMgrAddIncoming
    split_ifs with h1 h2
    · exact ⟨hinc, htor⟩
    · exact ⟨hinc, htor⟩
    · refine ⟨nodup_insertSorted addr _ hinc ?_, htor⟩
      unfold getExistingHandshake at h2
      simpa using h2
  | pulse hash now =>
    unfold applyOp at h
    simp only at h
    cases ht : getExistingTorrent s.manager hash with
    | none => rw [ht] at h; simp at h
    | some t =>
      rw [ht] at h
      simp only at h
      cases hr : reconnectPulse env s.manager.incomingHandshakes s.g now t with
      | none => rw [hr] at h; simp at h
      | some r =>
        rw [hr] at h
        simp only [Option.some.injEq] at h
        subst h
        refine ⟨hinc, ?_⟩
        intro x hx
        rcases mem_putTorrent r.t x _ hx with e | e
        · obtain ⟨p1, p2⟩ := htor t (getExistingTorrent_mem s.manager hash t ht)
          rw [e]
          exact reconnectPulse_setsOk env _ s.g now t r hr p1 p2
        · exact htor x e
  | handshakeDone io isConnected peer_id now =>
    unfold applyOp at h
    simp only at h
    cases hc : myHandshakeDoneCB env s.manager io isConnected peer_id now with
    | none => rw [hc] at h; simp at h
    | some m1 =>
      rw [hc] at h
      simp only [Option.some.injEq] at h
      subst h
      obtain ⟨c1, _, c3⟩ := myHandshakeDoneCB_cases env s.manager m1 io isConnected peer_id now hc
      refine ⟨?_, ?_⟩
      · show m1.incomingHandshakes.Nodup
        rw [c1]
        unfold incomingAfterHandshake
        split
        · exact hinc.erase _
        · exact hinc
      · intro x hx
        have hx' : x ∈ m1.torrents := hx
        rcases c3 with ⟨_, c3⟩ | ⟨t, t1, hT, _, hput, hbr⟩
        · exact htor x (c3 ▸ hx')
        · rw [hput] at hx'
          rcases mem_putTorrent t1 x _ hx' with e | e
          · obtain ⟨p1, p2⟩ := htor t (handshakeTorrent_mem s.manager io t hT)
            rw [e]
            exact handshake_torrent_setsOk env t t1 io peer_id now p1 p2 hbr
          · exact htor x e

theorem applyOps_setsOk (env : PeerMgrEnv) :
    ∀ (ops : List ManagerOp) (s s1 : ManagerState),
      SetsOk s.manager → applyOps env s ops = some s1 → SetsOk s1.manager
  | [], s, s1, hok, h => by
    simp only [applyOps, Option.some.injEq] at h
    rw [← h]; exact hok
  | op :: ops, s, s1, hok, h => by
    unfold applyOps at h
    cases ha : applyOp env s op with
    | none => rw [ha] at h; simp at h
    | some s2 =>
      rw [ha] at h
      exact applyOps_setsOk env ops s2 s1 (applyOp_setsOk env s s2 op hok ha) h

/-- C22 (as stated, it fails): from a manager with one running torrent that
knows the address 1 and has no peer and no handshake, the pulse starts an
outgoing handshake to 1, then 1 connects to us, that handshake completes into
a peer, and 1 connects to us once more: the address 1 is now in the peer set
of the torrent, in its outgoing handshakes and in the incoming handshakes of
the manager. -/
theorem C22_address_in_all_three_sets :
    (applyOps {} { manager := freshManager } threeSetsOps).map (fun s =>
        (s.manager.incomingHandshakes,
         s.manager.torrents.map (fun t =>
           (t.peers.map (fun p => p.in_addr), t.outgoingHandshakes))))
      = some ([1], [([1], [1])]) := by
  decide!

/-- C22 (amended): in every state reached through `tr_peerMgrAddIncoming`,
reconnect pulses and handshake callbacks from a state in which no set holds an
address twice, the incoming handshakes of the manager, the peer set of every
torrent and the outgoing handshakes of every torrent hold no address twice;
and a reconnect pulse in such a state adds to the outgoing handshakes of its
torrent only an address that is, at that moment, in none of the three sets. -/
theorem C22_sets_hold_addresses_once (env : PeerMgrEnv) (s s1 : ManagerState)
    (ops : List ManagerOp) (hok : SetsOk s.manager) (h : applyOps env s ops = some s1) :
    s1.manager.incomingHandshakes.Nodup ∧
    (∀ t ∈ s1.manager.torrents,
      (t.peers.map (fun p => p.in_addr)).Nodup ∧ t.outgoingHandshakes.Nodup) ∧
    (∀ hash now t r, getExistingTorrent s1.manager hash = some t →
      reconnectPulse env s1.manager.incomingHandshakes s1.g now t = some r →
      ∀ addr ∈ r.t.outgoingHandshakes, addr ∈ t.outgoingHandshakes ∨
        (addr ∉ t.outgoingHandshakes ∧ (∀ p ∈ t.peers, p.in_addr ≠ addr) ∧
          addr ∉ s1.manager.incomingHandshakes)) := by
  obtain ⟨h1, h2⟩ := applyOps_setsOk env ops s s1 hok h
  refine ⟨h1, h2, ?_⟩
  intro hash now t r _ hr
  exact reconnectPulse_outgoing env _ s1.g now t r hr

/-- C22 (amended) on the sequence that brings the address 1 into all three
sets: the sequence returns, and each set holds the address once. -/
theorem C22_sets_hold_addresses_once_witness :
    ∃ s1, applyOps {} { manager := freshManager } threeSetsOps = some s1 ∧
      s1.manager.incomingHandshakes.Nodup ∧
      ∀ t ∈ s1.manager.torrents,
        (t.peers.map (fun p => p.in_addr)).Nodup ∧ t.outgoingHandshakes.Nodup := by
  have hs : (applyOps {} { manager := freshManager } threeSetsOps).isSome = true := by decide!
  obtain ⟨s1, h⟩ := Option.isSome_iff_exists.mp hs
  have hc := C22_sets_hold_addresses_once {} { manager := freshManager } s1 threeSetsOps
    (by unfold SetsOk; decide) h
  exact ⟨s1, h, hc.1, hc.2.1⟩

/-! ## The flag string of the peer statistics -/

/-- The flag string the loop body writes is the string of the flag table. -/
theorem peerStat_flagStr (io : PeerIoEnv) (t : Torrent) (peer : tr_peer) (atom : peer_atom) :
    (peerStat io t peer atom).flagStr
      = flagStrSpec (isOptimistic t peer) peer.clientIsInterested peer.clientIsChoked
          peer.peerIsInterested peer.peerIsChoked (io.tr_peerIoIsEncrypted peer)
          (decide (atom.from_ = TR_PEER_FROM_PEX)) (io.tr_peerIoIsIncoming peer) := by
  unfold peerStat flagStrSpec peerStatFields clientIsDownloadingFrom clientIsUploadingTo
  simp only
  by_cases hx : atom.from_ = TR_PEER_FROM_PEX
  · simp only [hx, if_true, decide_True]
    cases isOptimistic t peer <;> cases peer.clientIsInterested <;> cases peer.clientIsChoked <;>
      cases peer.peerIsInterested <;> cases peer.peerIsChoked <;>
      cases io.tr_peerIoIsEncrypted peer <;> cases io.tr_peerIoIsIncoming peer <;> rfl
  · simp only [hx, if_false, decide_False]
    cases isOptimistic t peer <;> cases peer.clientIsInterested <;> cases peer.clientIsChoked <;>
      cases peer.peerIsInterested <;> cases peer.peerIsChoked <;>
      cases io.tr_peerIoIsEncrypted peer <;> cases io.tr_peerIoIsIncoming peer <;> rfl

/-- The string of the flag table has at most eight characters and never holds
two characters that exclude each other. -/
theorem flagStrSpec_props (o ci cc pi pc e x i : Bool) :
    (flagStrSpec o ci cc pi pc e x i).length ≤ 8 ∧
    ¬ ('D' ∈ flagStrSpec o ci cc pi pc e x i ∧ 'd' ∈ flagStrSpec o ci cc pi pc e x i) ∧
    ¬ ('U' ∈ flagStrSpec o ci cc pi pc e x i ∧ 'u' ∈ flagStrSpec o ci cc pi pc e x i) ∧
    ¬ ('D' ∈ flagStrSpec o ci cc pi pc e x i ∧ 'K' ∈ flagStrSpec o ci cc pi pc e x i) ∧
    ¬ ('U' ∈ flagStrSpec o ci cc pi pc e x i ∧ '?' ∈ flagStrSpec o ci cc pi pc e x i) := by
  revert o ci cc pi pc e x i
  decide

/-- The loop of the statistics returns when every peer of the list has an
atom, with one entry per peer, in the order of the list. -/
theorem peerStatsLoop_spec (io : PeerIoEnv) (t : Torrent) :
    ∀ l : List tr_peer, (∀ p ∈ l, ∃ a ∈ t.pool, a.addr = p.in_addr) →
      ∃ ret, peerStatsLoop io t l = some ret ∧ ret.length = l.length ∧
        ∀ (i : Nat) (peer : tr_peer), l[i]? = some peer →
          ∃ atom, getExistingAtom t peer.in_addr = some atom ∧
            ret[i]? = some (peerStat io t peer atom)
  | [], _ => ⟨[], rfl, rfl, fun i peer h => by simp at h⟩
  | p :: rest, h => by
    obtain ⟨ret, hr, hlen, hall⟩ := peerStatsLoop_spec io t rest
      (fun q hq => h q (List.mem_cons_of_mem _ hq))
    have hex := h p (List.mem_cons_self _ _)
    cases ha : getExistingAtom t p.in_addr with
    | none =>
      exfalso
      obtain ⟨a, ham, haa⟩ := hex
      have := (getExistingAtom_isSome t p.in_addr).mpr ⟨a, ham, haa⟩
      rw [ha] at this
      simp at this
    | some atom =>
      refine ⟨peerStat io t p atom :: ret, ?_, by simp [hlen], ?_⟩
      · unfold peerStatsLoop
        rw [ha, hr]
        rfl
      · intro i peer hi
        cases i with
        | zero =>
          simp only [List.getElem?_cons_zero, Option.some.injEq] at hi
          subst hi
          exact ⟨atom, ha, by simp⟩
        | succ k =>
          simp only [List.getElem?_cons_succ] at hi ⊢
          exact hall k peer hi

/-- C31: `tr_peerMgrPeerStats` returns one entry per connected peer, and the
flag string of a peer is the concatenation, in this order, of `O` iff the peer
is the optimistic peer of the torrent, `D` iff we are interested and not
choked, else `d` iff we are interested, `U` iff the peer is interested and not
choked, else `u` iff the peer is interested, `K` iff we are neither choked nor
interested, `?` iff the peer is neither choked nor interested, `E` iff the
connection is encrypted, `X` iff the atom came from PEX, `I` iff the
connection is incoming. It has at most 8 characters and never holds both `D`
and `d`, both `U` and `u`, both `D` and `K`, or both `U` and `?`. -/
theorem C31_flag_string (io : PeerIoEnv) (m : tr_peerMgr) (h : List Nat) (t : Torrent)
    (ht : getExistingTorrent m h = some t) (hatoms : PeersHaveAtoms t) :
    ∃ stats, tr_peerMgrPeerStats io m h = some (stats, (getConnectedPeers t).length) ∧
      stats.length = (getConnectedPeers t).length ∧
      ∀ (i : Nat) (peer : tr_peer), (getConnectedPeers t)[i]? = some peer →
        ∃ atom st, getExistingAtom t peer.in_addr = some atom ∧ stats[i]? = some st ∧
          st.flagStr
            = (if isOptimistic t peer then ['O'] else []) ++
              (if peer.clientIsInterested && !peer.clientIsChoked then ['D']
               else if peer.clientIsInterested then ['d'] else []) ++
              (if peer.peerIsInterested && !peer.peerIsChoked then ['U']
               else if peer.peerIsInterested then ['u'] else []) ++
              (if !peer.clientIsChoked && !peer.clientIsInterested then ['K'] else []) ++
              (if !peer.peerIsChoked && !peer.peerIsInterested then ['?'] else []) ++
              (if io.tr_peerIoIsEncrypted peer then ['E'] else []) ++
              (if atom.from_ = TR_PEER_FROM_PEX then ['X'] else []) ++
              (if io.tr_peerIoIsIncoming peer then ['I'] else []) ∧
          st.flagStr.length ≤ 8 ∧
          ¬ ('D' ∈ st.flagStr ∧ 'd' ∈ st.flagStr) ∧
          ¬ ('U' ∈ st.flagStr ∧ 'u' ∈ st.flagStr) ∧
          ¬ ('D' ∈ st.flagStr ∧ 'K' ∈ st.flagStr) ∧
          ¬ ('U' ∈ st.flagStr ∧ '?' ∈ st.flagStr) := by
  have hsub : ∀ p ∈ getConnectedPeers t, ∃ a ∈ t.pool, a.addr = p.in_addr := by
    intro p hp
    unfold getConnectedPeers at hp
    exact hatoms p (List.mem_of_mem_filter hp)
  obtain ⟨ret, hr, hlen, hall⟩ := peerStatsLoop_spec io t (getConnectedPeers t) hsub
  refine ⟨ret, ?_, hlen, ?_⟩
  · unfold tr_peerMgrPeerStats
    rw [ht]
    simp only [hr]
  · intro i peer hi
    obtain ⟨atom, ha, hst⟩ := hall i peer hi
    refine ⟨atom, _, ha, hst, ?_, ?_⟩
    · rw [peerStat_flagStr]
      unfold flagStrSpec
      by_cases hx : atom.from_ = TR_PEER_FROM_PEX <;> simp [hx]
    · rw [peerStat_flagStr]
      exact flagStrSpec_props _ _ _ _ _ _ _ _

theorem C31_flag_string_witness :
    getExistingTorrent statsManager [7] = some statsTorrent ∧
    (tr_peerMgrPeerStats statsIo statsManager [7]).map (fun r => r.1.map (fun st => st.flagStr))
      = some [['O', 'D'], ['u', 'X'], ['K', '?', 'E', 'I']] ∧
    ∃ stats, tr_peerMgrPeerStats statsIo statsManager [7] = some (stats, 3) ∧ stats.length = 3 := by
  refine ⟨rfl, by decide, ?_⟩
  obtain ⟨stats, h1, h2, _⟩ := C31_flag_string statsIo statsManager [7] statsTorrent rfl
    (by unfold PeersHaveAtoms; decide)
  exact ⟨stats, h1, h2⟩

/-! ## The idle limit -/

/-- On a value that is not negative, the conversion to `int` is the floor. -/
theorem truncToInt_eq_floor (q : ℚ) (h : 0 ≤ q) : truncToInt q = ⌊q⌋ := by
  unfold truncToInt
  rw [Rat.floor_def, Int.tdiv_eq_ediv (Rat.num_nonneg.mpr h) (Int.ofNat_nonneg _)]

/-- The threshold `relaxStrictnessIfFewerThanN` is nine tenths of the peer
limit, rounded half up. -/
theorem relax_eq (tor : tr_torrent) :
    truncToInt (((getMaxPeerCount tor : Int) : ℚ) * (9 / 10) + 1 / 2) = relaxCount tor := by
  have h0 : (0 : ℚ) ≤ ((getMaxPeerCount tor : Int) : ℚ) * (9 / 10) + 1 / 2 := by
    unfold getMaxPeerCount
    positivity
  rw [truncToInt_eq_floor _ h0]
  unfold getMaxPeerCount relaxCount
  have : (((tor.maxConnectedPeers : Int) : ℚ) * (9 / 10) + 1 / 2)
      = (((9 * (tor.maxConnectedPeers : Int) + 5 : Int) : ℚ) / ((10 : ℕ) : ℚ)) := by
    push_cast
    ring
  rw [this, Rat.floor_intCast_div_natCast]
  rfl

/-- The idle limit in whole numbers: 600 from the threshold on, and below it
180 plus the share of 420 that the count has of the threshold. -/
theorem idleLimit_eq (tor : tr_torrent) (n : Int) (hn : 0 ≤ n) :
    idleLimit tor n
      = if n ≥ relaxCount tor then 600 else 180 + 420 * n / relaxCount tor := by
  unfold idleLimit
  simp only
  rw [relax_eq]
  by_cases h : n ≥ relaxCount tor
  · rw [if_pos h, if_pos h]
    unfold MIN_UPLOAD_IDLE_SECS MAX_UPLOAD_IDLE_SECS
    norm_num [truncToInt]
  · rw [if_neg h, if_neg h]
    have hR : 0 < relaxCount tor := by omega
    have hq : (0 : ℚ) ≤ ((MIN_UPLOAD_IDLE_SECS : Int) : ℚ)
        + (((MAX_UPLOAD_IDLE_SECS : Int) - (MIN_UPLOAD_IDLE_SECS : Int) : Int) : ℚ)
          * ((n : ℚ) / (relaxCount tor : ℚ)) := by
      unfold MIN_UPLOAD_IDLE_SECS MAX_UPLOAD_IDLE_SECS
      have h1 : (0 : ℚ) ≤ (n : ℚ) := by exact_mod_cast hn
      have h2 : (0 : ℚ) < (relaxCount tor : ℚ) := by exact_mod_cast hR
      have h3 : (0 : ℚ) ≤ (n : ℚ) / (relaxCount tor : ℚ) := div_nonneg h1 h2.le
      push_cast
      nlinarith
    rw [truncToInt_eq_floor _ hq]
    obtain ⟨R, hRe⟩ := Int.eq_ofNat_of_zero_le hR.le
    have hRpos : (0 : ℚ) < ((R : ℕ) : ℚ) := by
      have : (0 : Int) < (R : Int) := by omega
      exact_mod_cast this
    have : ((MIN_UPLOAD_IDLE_SECS : Int) : ℚ)
        + (((MAX_UPLOAD_IDLE_SECS : Int) - (MIN_UPLOAD_IDLE_SECS : Int) : Int) : ℚ)
          * ((n : ℚ) / (relaxCount tor : ℚ))
        = (((180 * (R : Int) + 420 * n : Int) : ℚ) / ((R : ℕ) : ℚ)) := by
      unfold MIN_UPLOAD_IDLE_SECS MAX_UPLOAD_IDLE_SECS
      rw [hRe]
      push_cast
      field_simp
    rw [this, Rat.floor_intCast_div_natCast, hRe]
    have hR0 : (R : Int) ≠ 0 := by omega
    rw [show (180 * (R : Int) + 420 * n) = 420 * n + 180 * (R : Int) by ring,
      Int.add_mul_ediv_right _ _ hR0]
    ring

/-- The idle limit lies between 180 and 600. -/
theorem idleLimit_range (tor : tr_torrent) (n : Int) (hn : 0 ≤ n) :
    180 ≤ idleLimit tor n ∧ idleLimit tor n ≤ 600 := by
  rw [idleLimit_eq tor n hn]
  split_ifs with h
  · omega
  · have hR : 0 < relaxCount tor := by omega
    have h1 : 0 ≤ 420 * n / relaxCount tor := Int.ediv_nonneg (by omega) hR.le
    have h2 : 420 * n / relaxCount tor ≤ 420 := by
      have : 420 * n / relaxCount tor ≤ 420 * relaxCount tor / relaxCount tor :=
        Int.ediv_le_ediv hR (by omega)
      rwa [Int.mul_ediv_cancel _ (by omega)] at this
    omega

/-- For a torrent whose peer limit is 0 the threshold is 0, so the count 0
reaches it and the formula gives 600 at that count. Such a torrent admits no
peer, and the limit is computed for the peers of the peer set only. -/
theorem idleLimit_zero_cap :
    relaxCount { maxConnectedPeers := 0 } = 0 ∧
    idleLimit { maxConnectedPeers := 0 } 0 = 600 := by
  decide!

theorem complement_bit (y j : Nat) (hj : j < 8) :
    (255 - y % 256).testBit j = !y.testBit j := by
  have h : y % 256 < 2 ^ 8 := Nat.mod_lt _ (by norm_num)
  have e : 255 - y % 256 = 2 ^ 8 - (y % 256 + 1) := by omega
  rw [e, Nat.testBit_two_pow_sub_succ h]
  have e2 : (256 : Nat) = 2 ^ 8 := by norm_num
  rw [e2, Nat.testBit_mod_two_pow]
  simp [hj]

theorem getD_difference (a b : tr_bitfield) (k : Nat) :
    (tr_bitfieldDifference a b).bits.getD k 0
      = a.bits.getD k 0 &&& (255 - (b.bits.getD k 0) % 256) := by
  unfold tr_bitfieldDifference
  simp only [List.getD_eq_getElem?_getD, List.getElem?_map, List.getElem?_enum]
  cases h : a.bits[k]? <;> simp

/-- A bit of the difference is set exactly when it is set in the first array
and clear in the bytes of the second. -/
theorem tr_bitfieldHasFast_difference (a b : tr_bitfield) (n : Nat) :
    tr_bitfieldHasFast (tr_bitfieldDifference a b) n
      = (tr_bitfieldHasFast a n && !tr_bitfieldHasFast b n) := by
  unfold tr_bitfieldHasFast
  rw [getD_difference]
  have h7 : n &&& 7 ≤ 7 := by rw [and_seven]; omega
  rw [shifted_bit _ _ h7, shifted_bit _ _ h7, shifted_bit _ _ h7, Nat.testBit_and,
    complement_bit _ _ (by omega)]

/-- For arrays of the same number of bits: the difference is empty exactly when
the second array holds every piece of the first. -/
theorem difference_empty_iff (a b : tr_bitfield) (hc : b.bitCount = a.bitCount) :
    tr_bitfieldCountTrueBits (tr_bitfieldDifference a b) = 0
      ↔ ∀ i, tr_bitfieldHas a i = true → tr_bitfieldHas b i = true := by
  unfold tr_bitfieldCountTrueBits
  rw [List.countP_eq_zero]
  have hbc : (tr_bitfieldDifference a b).bitCount = a.bitCount := rfl
  rw [hbc]
  constructor
  · intro h i hi
    have hlt : i < a.bitCount := by
      simp only [tr_bitfieldHas, tr_bitfieldTestFast, Bool.and_eq_true,
        decide_eq_true_eq] at hi
      exact hi.1
    have := h i (List.mem_range.mpr hlt)
    simp only [tr_bitfieldHas, tr_bitfieldTestFast, hbc, hlt, decide_True, Bool.true_and,
      tr_bitfieldHasFast_difference] at this hi ⊢
    rw [hc]
    simp only [hlt, decide_True, Bool.true_and]
    rw [hi] at this
    simpa using this
  · intro h i hi
    have hlt : i < a.bitCount := List.mem_range.mp hi
    have hi2 := h i
    simp only [tr_bitfieldHas, tr_bitfieldTestFast, hbc, hc, hlt, decide_True, Bool.true_and,
      tr_bitfieldHasFast_difference] at hi2 ⊢
    cases ha : tr_bitfieldHasFast a i
    · simp
    · simp [hi2 ha]

/-- C33 (as stated, it fails): on `seedTorrent` (a seed with PEX
disabled), the peer at address 1 lacks piece 0, which we have, and is closed
by the seed rule all the same, its atom carrying the seed flag; the peer at
address 2 holds every piece we have and is not closed, its progress being
below ours. -/
theorem C33_seed_flag_overrides_bitfield :
    seedTorrent.tor.tr_torrentIsSeed = true ∧ seedTorrent.tor.tr_torrentAllowsPex = false ∧
    (List.range 4).map (tr_bitfieldHas seedTorrent.tor.completion.tr_cpPieceBitfield)
      = [true, true, true, true] ∧
    seedTorrent.peers.map (fun p => (List.range 4).map (tr_bitfieldHas p.have_))
      = [[false, false, false, false], [true, true, true, true]] ∧
    seedTorrent.peers.map (fun p => shouldPeerBeClosed seedTorrent p 2 100000)
      = [some true, some false] ∧
    seedTorrent.peers.map (fun p => idleTooLong seedTorrent p 2 100000) = [false, false] := by
  refine ⟨rfl, rfl, by decide, by decide, by decide!, by decide!⟩

/-- C33 (amended): when the torrent is a seed, `shouldPeerBeClosed` returns true for
every peer whose atom carries the seed flag, or whose progress is not below
ours and whose have-bitfield holds every piece we have, provided PEX is
disabled for the torrent or `now - atom.time >= 30`; and the seed rule does
not close a peer whose atom does not carry the seed flag and whose
have-bitfield lacks a piece we have. -/
theorem C33_seed_rule (t : Torrent) (peer : tr_peer) (atom : peer_atom) (peerCount : Int)
    (now : Nat) (hseed : t.tor.tr_torrentIsSeed = true)
    (hatom : getExistingAtom t peer.in_addr = some atom)
    (hbits : peer.have_.bitCount = t.tor.completion.tr_cpPieceBitfield.bitCount) :
    ((hasFlag atom.flags ADDED_F_SEED_FLAG = true ∨
        (¬ peer.progress < t.tor.completion.tr_cpPercentDone ∧
          ∀ i, tr_bitfieldHas t.tor.completion.tr_cpPieceBitfield i = true →
            tr_bitfieldHas peer.have_ i = true)) →
      (t.tor.tr_torrentAllowsPex = false ∨ (now : Int) - (atom.time : Int) ≥ 30) →
      shouldPeerBeClosed t peer peerCount now = some true) ∧
    (hasFlag atom.flags ADDED_F_SEED_FLAG = false →
      (∃ i, tr_bitfieldHas t.tor.completion.tr_cpPieceBitfield i = true ∧
        tr_bitfieldHas peer.have_ i = false) →
      bothSeeds t peer atom now = false) := by
  have hd := difference_empty_iff t.tor.completion.tr_cpPieceBitfield peer.have_ hbits
  constructor
  · intro hall hpex
    have hb : bothSeeds t peer atom now = true := by
      unfold bothSeeds
      simp only [Bool.and_eq_true, Bool.or_eq_true, Bool.not_eq_true', decide_eq_true_eq]
      refine ⟨?_, hpex⟩
      rcases hall with hf | ⟨hp, hh⟩
      · rw [if_pos hf]
      · by_cases hf : hasFlag atom.flags ADDED_F_SEED_FLAG = true
        · rw [if_pos hf]
        · rw [if_neg hf, if_neg hp]
          simpa using hd.mpr hh
    unfold shouldPeerBeClosed
    simp only [hatom, hseed, if_true, hb]
    split_ifs <;> rfl
  · intro hf hlack
    unfold bothSeeds
    simp only [hf, Bool.false_eq_true, if_false]
    have hne : ¬ tr_bitfieldCountTrueBits
        (tr_bitfieldDifference t.tor.completion.tr_cpPieceBitfield peer.have_) = 0 := by
      intro h0
      obtain ⟨i, h1, h2⟩ := hlack
      have := hd.mp h0 i h1
      rw [h2] at this
      simp at this
    split_ifs <;> simp [hne]

theorem C33_seed_rule_witness :
    shouldPeerBeClosed seedTorrent
      { in_addr := 2, progress := 1, have_ := seedTorrent.tor.completion.tr_cpPieceBitfield }
      2 100000 = some true ∧
    bothSeeds seedTorrent { in_addr := 2, progress := 1, have_ := tr_bitfieldNew 4 }
      { addr := 2 } 100000 = false := by
  refine ⟨(C33_seed_rule seedTorrent
      { in_addr := 2, progress := 1, have_ := seedTorrent.tor.completion.tr_cpPieceBitfield }
      { addr := 2 } 2 100000 rfl (by decide) (by decide)).1
      (Or.inr ⟨by decide!, fun _ h => h⟩) (Or.inl rfl),
    (C33_seed_rule seedTorrent { in_addr := 2, progress := 1, have_ := tr_bitfieldNew 4 }
      { addr := 2 } 2 100000 rfl (by decide) (by decide)).2 (by decide)
      ⟨0, by decide, by decide⟩⟩

/-! ## Peers that never transferred piece data -/

/-- C38: a peer that has never transferred piece data
(`pieceDataActivityDate = 0`) and whose `doPurge` flag is unset is not selected
by `shouldPeerBeClosed` while the torrent is not a seed, for every value of
`now` and every connection count: its idle time is taken to be 0, which is
below every idle limit. -/
theorem C38_never_transferred_stays (t : Torrent) (peer : tr_peer) (peerCount now : Nat)
    (hdate : peer.pieceDataActivityDate = 0) (hpurge : peer.doPurge = false)
    (hseed : t.tor.tr_torrentIsSeed = false) :
    shouldPeerBeClosed t peer (peerCount : Int) now = some false := by
  have hr := (idleLimit_range t.tor (peerCount : Int) (Int.ofNat_nonneg _)).1
  unfold shouldPeerBeClosed
  simp only [hpurge, hseed, Bool.false_eq_true, if_false, Option.some.injEq]
  unfold idleTooLong
  simp only [hdate, ne_eq, not_true_eq_false, if_false, decide_eq_false_iff_not, not_lt]
  omega

theorem C38_never_transferred_stays_witness :
    shouldPeerBeClosed sweepTorrent { in_addr := 5 } ((3 : Nat) : Int) 4000000000 = some false :=
  C38_never_transferred_stays sweepTorrent { in_addr := 5 } 3 4000000000 rfl rfl rfl

/-! ## The refill timer -/

/-- C34 (as stated, it fails): a firing of `refillPulse` on a seed
(and on a stopped torrent) returns TRUE and leaves `refillTimer` set, so the
timer stays scheduled, and the next NEED_REQ event arms nothing. -/
theorem C34_seed_firing_keeps_timer :
    (refillPulse scriptedLayer { seedTorrent with refillTimer := true } (fun _ => 0) 0 0).ret
      = true ∧
    (refillPulse scriptedLayer { seedTorrent with refillTimer := true }
      (fun _ => 0) 0 0).t.refillTimer = true ∧
    (refillPulse scriptedLayer { dispatchTorrent with isRunning := false, refillTimer := true }
      (fun _ => 0) 0 0).ret = true ∧
    (refillPulse scriptedLayer { dispatchTorrent with isRunning := false, refillTimer := true }
      (fun _ => 0) 0 0).t.refillTimer = true ∧
    (msgsCallbackFunc {}
      (refillPulse scriptedLayer { seedTorrent with refillTimer := true } (fun _ => 0) 0 0).t
      { in_addr := 1 } { eventType := .TR_PEERMSG_NEED_REQ } 100000).map
        (fun r => (r.1.refillTimer, r.2))
      = some (true, []) := by
  refine ⟨rfl, rfl, rfl, rfl, rfl⟩

/-- C34 (amended): a NEED_REQ event arms the refill timer only when none is armed, and
changes nothing else; a firing of `refillPulse` on a running torrent that is
not a seed unschedules the timer (the callback returns FALSE and `refillTimer`
becomes NULL), so that a later NEED_REQ arms a new one; a firing on a stopped
torrent or on a seed returns TRUE and leaves the torrent, with its
`refillTimer`, as it was. -/
theorem C34_refill_timer {σ : Type} (env : PeerMgrEnv) (m : MsgLayer σ) (t : Torrent)
    (peer : tr_peer) (rand16 : Nat → Nat) (rot : Nat) (s : σ) (now : Nat) :
    msgsCallbackFunc env t peer { eventType := .TR_PEERMSG_NEED_REQ } now
      = some (if t.refillTimer = false then { t with refillTimer := true } else t, []) ∧
    ((t.isRunning = true ∧ t.tor.tr_torrentIsSeed = false) →
      (refillPulse m t rand16 rot s).ret = false ∧
      (refillPulse m t rand16 rot s).t.refillTimer = false ∧
      msgsCallbackFunc env (refillPulse m t rand16 rot s).t peer
          { eventType := .TR_PEERMSG_NEED_REQ } now
        = some ({ (refillPulse m t rand16 rot s).t with refillTimer := true }, [])) ∧
    ((t.isRunning = false ∨ t.tor.tr_torrentIsSeed = true) →
      (refillPulse m t rand16 rot s).ret = true ∧
      (refillPulse m t rand16 rot s).t = t) := by
  refine ⟨?_, ?_, ?_⟩
  · unfold msgsCallbackFunc
    simp only
    split_ifs <;> rfl
  · rintro ⟨hrun, hseed⟩
    have hp : refillPulse m t rand16 rot s =
        { t := { t with requested := (refillLoop m t.tor 0 (getPreferredBlocks t rand16)
                    (getPeersUploadingToClient t rot) t.requested s).requested
                        refillTimer := false }
          ret := false
          calls := (refillLoop m t.tor 0 (getPreferredBlocks t rand16)
                    (getPeersUploadingToClient t rot) t.requested s).calls
          peers := (refillLoop m t.tor 0 (getPreferredBlocks t rand16)
                    (getPeersUploadingToClient t rot) t.requested s).peers
          i := (refillLoop m t.tor 0 (getPreferredBlocks t rand16)
                    (getPeersUploadingToClient t rot) t.requested s).i
          msgs := (refillLoop m t.tor 0 (getPreferredBlocks t rand16)
                    (getPeersUploadingToClient t rot) t.requested s).msgs } := by
      unfold refillPulse
      simp [hrun, hseed]
    rw [hp]
    refine ⟨rfl, rfl, ?_⟩
    unfold msgsCallbackFunc
    simp
  · intro h
    unfold refillPulse
    rcases h with h | h
    · simp [h]
    · by_cases hr : t.isRunning = true <;> simp [hr, h]

theorem C34_refill_timer_witness :
    (refillPulse scriptedLayer { dispatchTorrent with refillTimer := true }
      (fun _ => 0) 0 0).ret = false ∧
    (refillPulse scriptedLayer { dispatchTorrent with refillTimer := true }
      (fun _ => 0) 0 0).t.refillTimer = false ∧
    (msgsCallbackFunc {}
      (refillPulse scriptedLayer { dispatchTorrent with refillTimer := true }
        (fun _ => 0) 0 0).t
      { in_addr := 1 } { eventType := .TR_PEERMSG_NEED_REQ } 100000).map
        (fun r => r.1.refillTimer) = some true := by
  have h := (C34_refill_timer {} scriptedLayer { dispatchTorrent with refillTimer := true }
    { in_addr := 1 } (fun _ => 0) 0 0 100000).2.1 ⟨rfl, rfl⟩
  refine ⟨h.1, h.2.1, ?_⟩
  rw [h.2.2]
  rfl

/-! ## The availability table -/

theorem toInt8_small (x : Int) (h0 : 0 ≤ x) (h1 : x < 128) : toInt8 x = x := by
  unfold toInt8
  omega

/-- With fewer than 128 peers the counter of a slot does not wrap: it ends as
the start value plus the number of peers whose have-bitfield holds the bit. -/
theorem availability_fold (i : Nat) :
    ∀ (l : List tr_peer) (acc : Nat), acc + l.length < 128 →
      l.foldl (fun (tabi : Int) peer =>
          if tr_bitfieldHas peer.have_ i then toInt8 (tabi + 1) else tabi) (acc : Int)
        = ((acc + l.countP (fun peer => tr_bitfieldHas peer.have_ i) : Nat) : Int)
  | [], acc, _ => by simp
  | p :: rest, acc, h => by
    simp only [List.length_cons] at h
    simp only [List.foldl_cons, List.countP_cons]
    by_cases hp : tr_bitfieldHas p.have_ i = true
    · simp only [hp, if_true]
      rw [toInt8_small _ (by omega) (by omega)]
      have := availability_fold i rest (acc + 1) (by omega)
      simp only [Nat.cast_add, Nat.cast_one] at this ⊢
      rw [this]
      ring
    · simp only [hp, Bool.false_eq_true, if_false]
      have := availability_fold i rest acc (by omega)
      rw [this]
      simp

/-- The sampling of the availability table is done in single precision: of 26
pieces in 22 slots, slot 11 samples piece 12, where the exact quotient
11 * 26 / 22 is 13. -/
theorem availabilityPiece_single_precision :
    availabilityPiece { info := { pieceCount := 26 } } 22 11 = 12 ∧ 11 * 26 / 22 = 13 := by
  decide

/-- C40 (defect of the code): slot `i` of the table is -1 when the sampled
piece is complete, and otherwise the number of peers whose have-bitfield holds
the bit of the slot index `i`, whatever the sampled piece is (fewer than 128
peers, so that the `int8_t` does not wrap). -/
theorem C40_availability_counts_slot_index (m : tr_peerMgr) (h : List Nat) (t : Torrent)
    (tabCount : Nat) (ht : getExistingTorrent m h = some t) (hsmall : t.peers.length < 128) :
    tr_peerMgrTorrentAvailability m h tabCount
      = some ((List.range tabCount).map (fun i =>
          if t.tor.completion.tr_cpPieceIsComplete (availabilityPiece t.tor tabCount i).toNat
          then -1 else (peersHaving t i : Int))) := by
  unfold tr_peerMgrTorrentAvailability
  rw [ht]
  simp only [Option.some.injEq]
  apply List.map_congr_left
  intro i _
  split_ifs
  · rfl
  · have := availability_fold i t.peers 0 (by omega)
    simp only [Nat.cast_zero, Nat.zero_add] at this
    rw [this]
    rfl

theorem C40_availability_counts_slot_index_witness :
    (List.range 2).map (availabilityPiece availabilityTorrent.tor 2) = [0, 2] ∧
    (List.range 4).map (peersHaving availabilityTorrent) = [0, 0, 1, 0] ∧
    tr_peerMgrTorrentAvailability availabilityManager [7] 2 = some [0, 0] := by
  refine ⟨by decide!, by decide, ?_⟩
  rw [C40_availability_counts_slot_index availabilityManager [7] availabilityTorrent 2 rfl
    (by decide)]
  decide

/-! ## The optimistic peer -/

/-- C37 (defect of the code): `stopTorrent` destroys the peers and
clears the peer set but leaves the optimistic field as it was, so after the
stop of a torrent with an optimistic peer the field still points to that peer,
which is in the peer set no more. -/
theorem C37_stop_leaves_optimistic_dangling (env : PeerMgrEnv) (m : tr_peerMgr) (h : List Nat)
    (t : Torrent) (o : tr_peer) (now : Nat) (ht : getExistingTorrent m h = some t)
    (ho : t.optimistic = some o) :
    ∃ m1 t1, tr_peerMgrStopTorrent env m h now = some m1 ∧
      getExistingTorrent m1 h = some t1 ∧
      t1.peers = [] ∧ t1.optimistic = some o ∧ ¬ OptimisticOk t1 := by
  obtain ⟨m1, t1, h1, h2, _, h4, _⟩ := tr_peerMgrStopTorrent_spec env m h t now ht
  have hp : t1.peers = [] := by rw [h4]
  have hopt : t1.optimistic = some o := by rw [h4]; exact ho
  refine ⟨m1, t1, h1, h2, hp, hopt, ?_⟩
  intro hok
  obtain ⟨p, hpm, _⟩ := hok o hopt
  rw [hp] at hpm
  simp at hpm

theorem C37_stop_leaves_optimistic_dangling_witness :
    OptimisticOk optimisticTorrent ∧
    (∃ m1 t1, tr_peerMgrStopTorrent {} optimisticManager [7] 100000 = some m1 ∧
      getExistingTorrent m1 [7] = some t1 ∧
      t1.peers = [] ∧ t1.optimistic = some { in_addr := 1, doPurge := true } ∧
      ¬ OptimisticOk t1) ∧
    (reconnectPulse {} [] {} 100000 optimisticTorrent).map
        (fun r => (r.t.peers.map (fun p => p.in_addr), r.t.optimistic.map (fun p => p.in_addr)))
      = some ([], some 1) := by
  refine ⟨?_, C37_stop_leaves_optimistic_dangling {} optimisticManager [7] optimisticTorrent
    { in_addr := 1, doPurge := true } 100000 rfl rfl, by decide!⟩
  intro o ho
  exact ⟨{ in_addr := 1, doPurge := true }, by simp [optimisticTorrent], by
    have : o = { in_addr := 1, doPurge := true } := by
      simpa [optimisticTorrent] using ho.symm
    rw [this]⟩

/-! ## Error events -/

/-- A write through a pointer to a peer changes the first peer of the address
and leaves the peers in front of it and behind it as they were. -/
theorem modifyPeer_split (f : tr_peer → tr_peer) (addr : Nat) :
    ∀ (peers peers1 : List tr_peer), modifyPeer peers addr f = some peers1 →
      ∃ pre p post, peers = pre ++ p :: post ∧ p.in_addr = addr ∧
        (∀ q ∈ pre, q.in_addr ≠ addr) ∧ peers1 = pre ++ f p :: post
  | [], _, h => by simp [modifyPeer] at h
  | p :: rest, peers1, h => by
    unfold modifyPeer at h
    by_cases hp : p.in_addr = addr
    · rw [if_pos hp] at h
      exact ⟨[], p, rest, rfl, hp, by simp, (Option.some.inj h).symm⟩
    · rw [if_neg hp] at h
      cases hr : modifyPeer rest addr f with
      | none => rw [hr] at h; simp at h
      | some r =>
        rw [hr] at h
        simp only [Option.map_some', Option.some.injEq] at h
        obtain ⟨pre, q, post, e1, e2, e3, e4⟩ := modifyPeer_split f addr rest r hr
        refine ⟨p :: pre, q, post, by rw [e1]; rfl, e2, ?_, by rw [← h, e4]; rfl⟩
        intro x hx
        rcases List.mem_cons.mp hx with e | e
        · rw [e]; exact hp
        · exact e3 x e

theorem find?_split (addr : Nat) (pre post : List tr_peer) (p : tr_peer)
    (hp : p.in_addr = addr) (hpre : ∀ q ∈ pre, q.in_addr ≠ addr) :
    (pre ++ p :: post).find? (fun q => decide (q.in_addr = addr)) = some p := by
  induction pre with
  | nil => simp [hp]
  | cons x xs ih =>
    have hx : x.in_addr ≠ addr := hpre x (List.mem_cons_self _ _)
    simp only [List.cons_append, List.find?_cons, hx, decide_False]
    exact ih (fun q hq => hpre q (List.mem_cons_of_mem _ hq))

/-- What an error event does to the peer set: the peer that emitted it is
marked for purging and gets a strike exactly when the code is
`TR_ERROR_ASSERT` and no I/O error; the other peers stay. -/
theorem msgsCallbackFunc_error (env : PeerMgrEnv) (t t1 : Torrent) (peer : tr_peer)
    (e : tr_peermsgs_event) (now : Nat) (effects : List MsgsEffect)
    (he : e.eventType = .TR_PEERMSG_ERROR)
    (h : msgsCallbackFunc env t peer e now = some (t1, effects)) :
    ∃ pre p post p1, t.peers = pre ++ p :: post ∧ p.in_addr = peer.in_addr ∧
      (∀ q ∈ pre, q.in_addr ≠ peer.in_addr) ∧ t1.peers = pre ++ p1 :: post ∧
      p1.in_addr = peer.in_addr ∧ p1.doPurge = true ∧
      p1.strikes = (if env.TR_ERROR_IS_IO e.err = false ∧ e.err = env.TR_ERROR_ASSERT
                    then p.strikes + 1 else p.strikes) := by
  unfold msgsCallbackFunc at h
  rw [he] at h
  simp only at h
  by_cases hio : env.TR_ERROR_IS_IO e.err = true
  · rw [if_pos hio] at h
    cases hm : modifyPeer t.peers peer.in_addr (fun p => { p with doPurge := true }) with
    | none => rw [hm] at h; simp at h
    | some peers =>
      rw [hm] at h
      simp only [Option.some.injEq, Prod.mk.injEq] at h
      obtain ⟨pre, p, post, e1, e2, e3, e4⟩ := modifyPeer_split _ _ _ _ hm
      refine ⟨pre, p, post, { p with doPurge := true }, e1, e2, e3, ?_, e2, rfl, ?_⟩
      · rw [← h.1]; exact e4
      · simp [hio]
  · rw [if_neg hio] at h
    have hio2 : env.TR_ERROR_IS_IO e.err = false := by simpa using hio
    by_cases has : e.err = env.TR_ERROR_ASSERT
    · rw [if_pos has] at h
      cases hg : getExistingPeer t peer.in_addr with
      | none => rw [hg] at h; simp at h
      | some p0 =>
        rw [hg] at h
        simp only at h
        cases hs : addStrike t.pool p0 with
        | none => rw [hs] at h; simp at h
        | some r =>
          obtain ⟨pool1, peer1⟩ := r
          rw [hs] at h
          simp only at h
          cases hm : modifyPeer t.peers peer.in_addr
              (fun _ => { peer1 with doPurge := true }) with
          | none => rw [hm] at h; simp at h
          | some peers =>
            rw [hm] at h
            simp only [Option.some.injEq, Prod.mk.injEq] at h
            obtain ⟨pre, p, post, e1, e2, e3, e4⟩ := modifyPeer_split _ _ _ _ hm
            have hp0 : p0 = p := by
              unfold getExistingPeer at hg
              rw [e1, find?_split peer.in_addr pre post p e2 e3] at hg
              exact (Option.some.inj hg).symm
            have hst : peer1.strikes = p0.strikes + 1 ∧ peer1.in_addr = p0.in_addr := by
              unfold addStrike at hs
              simp only at hs
              split_ifs at hs
              · cases hma : modifyAtom t.pool p0.in_addr
                    (fun atom => { atom with myflags := atom.myflags ||| MYFLAG_BANNED }) with
                | none => rw [hma] at hs; simp at hs
                | some pl =>
                  rw [hma] at hs
                  simp only [Option.some.injEq, Prod.mk.injEq] at hs
                  rw [← hs.2]
                  exact ⟨rfl, rfl⟩
              · simp only [Option.some.injEq, Prod.mk.injEq] at hs
                rw [← hs.2]
                exact ⟨rfl, rfl⟩
            refine ⟨pre, p, post, { peer1 with doPurge := true }, e1, e2, e3, ?_, ?_, rfl, ?_⟩
            · rw [← h.1]; exact e4
            · show peer1.in_addr = peer.in_addr
              rw [hst.2, hp0, e2]
            · show peer1.strikes = _
              rw [if_pos ⟨hio2, has⟩, hst.1, hp0]
    · rw [if_neg has] at h
      cases hm : modifyPeer t.peers peer.in_addr (fun p => { p with doPurge := true }) with
      | none => rw [hm] at h; simp at h
      | some peers =>
        rw [hm] at h
        simp only [Option.some.injEq, Prod.mk.injEq] at h
        obtain ⟨pre, p, post, e1, e2, e3, e4⟩ := modifyPeer_split _ _ _ _ hm
        refine ⟨pre, p, post, { p with doPurge := true }, e1, e2, e3, ?_, e2, rfl, ?_⟩
        · rw [← h.1]; exact e4
        · simp [has]

/-- With an atom for every peer, `removeAllPeers` returns. -/
theorem removeAllPeers_total (now : Nat) :
    ∀ (fuel : Nat) (t : Torrent), t.peers.length ≤ fuel → PeersHaveAtoms t →
      ∃ t1, removeAllPeers now fuel t = some t1
  | 0, t, hlen, _ => by
    have : t.peers = [] := List.length_eq_zero.mp (Nat.le_zero.mp hlen)
    exact ⟨t, by simp [removeAllPeers, this]⟩
  | fuel + 1, t, hlen, hat => by
    unfold removeAllPeers
    cases hp : t.peers with
    | nil => exact ⟨t, rfl⟩
    | cons p rest =>
      simp only
      have hpm : p ∈ t.peers := by rw [hp]; exact List.mem_cons_self _ _
      cases hr : removePeer t p now with
      | none =>
        exfalso
        unfold removePeer at hr
        cases hm : modifyAtom t.pool p.in_addr (fun atom => { atom with time := now }) with
        | none =>
          obtain ⟨a, ha, e⟩ := hat p hpm
          exact (modifyAtom_eq_none _ _ _).mp hm a ha e
        | some pool => rw [hm] at hr; simp at hr
      | some t2 =>
        simp only
        obtain ⟨_, f2, f3⟩ := removePeer_frame t t2 p now hr
        have hrest : t2.peers = rest := by
          rw [f2, hp]
          simp
        apply removeAllPeers_total now fuel t2
        · rw [hrest]
          rw [hp] at hlen
          simpa using hlen
        · apply PeersHaveAtoms_of_frame t t2 _ (fun x hx => f3 ▸ hx) hat
          intro q hq
          rw [hrest] at hq
          exact ⟨q, by rw [hp]; exact List.mem_cons_of_mem _ hq, rfl⟩

/-- C35: every `TR_PEERMSG_ERROR` event, whatever its error code, sets
`doPurge` on the peer that emitted it, so the next `reconnectPulse` returns
with that peer out of the peer set; the peer gets a strike exactly when the
code is `TR_ERROR_ASSERT` and not an I/O error, hence only when it is
`TR_ERROR_ASSERT`; every other peer stays as it was, `doPurge` and `strikes`
included. -/
theorem C35_error_purges_peer (env : PeerMgrEnv) (incoming : List Nat) (g : ReconnectGlobals)
    (t t1 : Torrent) (peer : tr_peer) (e : tr_peermsgs_event) (now now1 : Nat)
    (effects : List MsgsEffect) (he : e.eventType = .TR_PEERMSG_ERROR)
    (hpool : (t.pool.map (fun a => a.addr)).Nodup)
    (hpeers : (t.peers.map (fun p => p.in_addr)).Nodup)
    (hatoms : PeersHaveAtoms t)
    (h : msgsCallbackFunc env t peer e now = some (t1, effects)) :
    (∃ p p1, getExistingPeer t peer.in_addr = some p ∧
      getExistingPeer t1 peer.in_addr = some p1 ∧ p1.doPurge = true ∧
      p1.strikes = (if env.TR_ERROR_IS_IO e.err = false ∧ e.err = env.TR_ERROR_ASSERT
                    then p.strikes + 1 else p.strikes)) ∧
    (∀ (i : Nat) (q : tr_peer), t.peers[i]? = some q → q.in_addr ≠ peer.in_addr →
      t1.peers[i]? = some q) ∧
    t1.peers.length = t.peers.length ∧
    (∃ r, reconnectPulse env incoming g now1 t1 = some r ∧
      ∀ q ∈ r.t.peers, q.in_addr ≠ peer.in_addr) := by
  obtain ⟨pre, p, post, p1, e1, e2, e3, e4, e5, e6, e7⟩ :=
    msgsCallbackFunc_error env t t1 peer e now effects he h
  obtain ⟨f1, f2⟩ := msgsCallbackFunc_frame env t t1 peer e now effects h
  have hpool1 : (t1.pool.map (fun a => a.addr)).Nodup := f2 ▸ hpool
  have hpeers1 : (t1.peers.map (fun p => p.in_addr)).Nodup := f1 ▸ hpeers
  have hatoms1 : PeersHaveAtoms t1 :=
    PeersHaveAtoms_of_frame t t1 (peers_of_map_eq t t1 f1) (fun x hx => f2 ▸ hx) hatoms
  have hp1mem : p1 ∈ t1.peers := by rw [e4]; simp
  refine ⟨⟨p, p1, ?_, ?_, e6, e7⟩, ?_, ?_, ?_⟩
  · unfold getExistingPeer
    rw [e1]
    exact find?_split _ _ _ _ e2 e3
  · unfold getExistingPeer
    rw [e4]
    exact find?_split _ _ _ _ e5 e3
  · intro i q hq hne
    rw [e1] at hq
    rw [e4]
    rcases Nat.lt_trichotomy i pre.length with hi | hi | hi
    · rw [List.getElem?_append_left hi] at hq ⊢
      exact hq
    · subst hi
      rw [List.getElem?_append_right (le_refl _)] at hq
      simp only [Nat.sub_self, List.getElem?_cons_zero, Option.some.injEq] at hq
      exact absurd (hq ▸ e2) hne
    · rw [List.getElem?_append_right hi.le] at hq ⊢
      obtain ⟨k, hk⟩ : ∃ k, i - pre.length = k + 1 := ⟨i - pre.length - 1, by omega⟩
      rw [hk] at hq ⊢
      simpa using hq
  · rw [e1, e4]
    simp
  · by_cases hrun : t1.isRunning = true
    · obtain ⟨r, hr, hrp⟩ := reconnectPulse_running_peers env incoming g now1 t1 hrun hpool1
        hpeers1 hatoms1
      refine ⟨r, hr, ?_⟩
      intro q hq heq
      rw [hrp] at hq
      obtain ⟨hqm, hqc⟩ := List.mem_filter.mp hq
      have hqp : q = p1 :=
        List.inj_on_of_nodup_map hpeers1 hqm hp1mem (heq.trans e5.symm)
      rw [hqp] at hqc
      have : closes t1 now1 p1 = true := by
        unfold closes shouldPeerBeClosed
        simp [e6]
      rw [this] at hqc
      simp at hqc
    · have hrun2 : t1.isRunning = false := by simpa using hrun
      obtain ⟨t2, ht2⟩ := removeAllPeers_total now1 t1.peers.length t1 (le_refl _) hatoms1
      have hr : reconnectPulse env incoming g now1 t1
          = some { g := reconnectTick g now1, t := t2, ret := true, attempted := [],
                   started := [] } := by
        unfold reconnectPulse
        simp [hrun2, ht2]
      refine ⟨_, hr, ?_⟩
      intro q hq
      have := (reconnectPulse_frame env incoming g now1 t1 _ hr).2.2.2.2 hrun2
      simp only at this hq
      rw [this] at hq
      simp at hq

theorem C35_error_purges_peer_witness :
    ∃ t1 effects, msgsCallbackFunc {} sweepTorrent { in_addr := 3 }
        { eventType := .TR_PEERMSG_ERROR, err := 5 } 100000 = some (t1, effects) ∧
      (t1.peers.map (fun p => (p.in_addr, p.doPurge, p.strikes))
        = [(1, true, 0), (2, true, 0), (3, true, 0)]) ∧
      ∃ r, reconnectPulse {} [] {} 100001 t1 = some r ∧ ∀ q ∈ r.t.peers, q.in_addr ≠ 3 := by
  refine ⟨{ sweepTorrent with
            peers := [{ in_addr := 1, doPurge := true, pieceDataActivityDate := 99000 },
                      { in_addr := 2, doPurge := true },
                      { in_addr := 3, doPurge := true, pieceDataActivityDate := 99990 }] },
    [], rfl, by decide, ?_⟩
  exact (C35_error_purges_peer {} [] {} sweepTorrent _ { in_addr := 3 }
    { eventType := .TR_PEERMSG_ERROR, err := 5 } 100000 100001 [] rfl (by decide) (by decide)
    (by unfold PeersHaveAtoms; decide) rfl).2.2.2

/-! ## Stopping a torrent: the failure counts -/

/-- One pass of the abort loop on a stopped torrent: the first handshake
leaves the set and the atom of its address, if there is one, gets a failure. -/
theorem abortOutgoingHandshakes_step (env : PeerMgrEnv) (now : Nat) (h : List Nat) (fuel : Nat)
    (m : tr_peerMgr) (t : Torrent) (addr : Nat) (rest : List Nat)
    (ht : getExistingTorrent m h = some t) (ho : t.outgoingHandshakes = addr :: rest) :
    abortOutgoingHandshakes env now h (fuel + 1) m
      = abortOutgoingHandshakes env now h fuel
          { torrents := putTorrent m.torrents
              (handshakeFailed { t with outgoingHandshakes := rest } addr)
            incomingHandshakes := m.incomingHandshakes } := by
  have hT : handshakeTorrent m { addr := addr, isIncoming := false, torrentHash := some h }
      = some t := ht
  have hcb := myHandshakeDoneCB_failed env m
    { addr := addr, isIncoming := false, torrentHash := some h } false none now t hT
    (fun hi => absurd hi (by simp)) (fun _ => by rw [ho]; exact List.mem_cons_self _ _)
    (Or.inl rfl)
  have hrem : afterHandshakeRemoval t
      { addr := addr, isIncoming := false, torrentHash := some h }
      = { t with outgoingHandshakes := rest } := by
    unfold afterHandshakeRemoval
    simp [ho]
  have hinc : incomingAfterHandshake m
      { addr := addr, isIncoming := false, torrentHash := some h }
      = m.incomingHandshakes := by
    unfold incomingAfterHandshake
    simp
  rw [hrem, hinc] at hcb
  conv_lhs => unfold abortOutgoingHandshakes
  rw [ht]
  simp only [ho]
  unfold tr_handshakeAbort
  rw [hcb]

/-- The pool after the abort loop on a stopped torrent whose pool has one atom
per address and whose handshake set has each address once: the atoms of the
addresses of the set have one failure more, the others are as they were. -/
theorem abortOutgoingHandshakes_pool (env : PeerMgrEnv) (now : Nat) (h : List Nat) :
    ∀ (fuel : Nat) (m : tr_peerMgr) (t : Torrent),
      getExistingTorrent m h = some t →
      t.outgoingHandshakes.length = fuel →
      (t.pool.map (fun a => a.addr)).Nodup → t.outgoingHandshakes.Nodup →
      ∀ m1 t1, abortOutgoingHandshakes env now h fuel m = some m1 →
        getExistingTorrent m1 h = some t1 →
        t1.pool = t.pool.map (fun a =>
          if a.addr ∈ t.outgoingHandshakes
          then { a with numFails := (a.numFails + 1) % 2 ^ 16 } else a)
  | 0, m, t, ht, hlen, _, _, m1, t1, h1, h2 => by
    have he : t.outgoingHandshakes = [] := List.length_eq_zero.mp hlen
    unfold abortOutgoingHandshakes at h1
    rw [ht] at h1
    simp only [he, List.isEmpty_nil, if_true, Option.some.injEq] at h1
    subst h1
    rw [ht] at h2
    rw [← Option.some.inj h2, he]
    simp
  | fuel + 1, m, t, ht, hlen, hpool, hout, m1, t1, h1, h2 => by
    cases ho : t.outgoingHandshakes with
    | nil => rw [ho] at hlen; simp at hlen
    | cons addr rest =>
      rw [abortOutgoingHandshakes_step env now h fuel m t addr rest ht ho] at h1
      obtain ⟨f1, f2, _⟩ := handshakeFailed_frame { t with outgoingHandshakes := rest } addr
      have hhash : (handshakeFailed { t with outgoingHandshakes := rest } addr).hash = h := by
        rw [f1]
        exact getExistingTorrent_hash m h t ht
      have ht2 := getExistingTorrent_putTorrent m h t
        (handshakeFailed { t with outgoingHandshakes := rest } addr) ht hhash
      rw [ho, List.nodup_cons] at hout
      have hpool2 : ((handshakeFailed { t with outgoingHandshakes := rest } addr).pool.map
          (fun a => a.addr)).Nodup := by rw [f2]; exact hpool
      have hrest : (handshakeFailed { t with outgoingHandshakes := rest } addr).outgoingHandshakes
          = rest := by rw [f1]
      have ih := abortOutgoingHandshakes_pool env now h fuel _ _ ht2
        (by rw [hrest]; rw [ho] at hlen; simpa using hlen) hpool2 (by rw [hrest]; exact hout.2)
        m1 t1 h1 h2
      rw [ih, hrest, handshakeFailed_eq { t with outgoingHandshakes := rest } addr hpool,
        List.map_map]
      apply List.map_congr_left
      intro a _
      simp only [Function.comp]
      by_cases ha : a.addr = addr
      · have hnr : addr ∉ rest := hout.1
        simp [ha, hnr]
      · simp [ha]

/-- C39 (as stated, it fails): `wrapManager` has an outgoing handshake to the
address 2 pending, whose atom had failed 65535 times; after the stop the
`numFails` of that atom, a `uint16_t`, is 0 instead of 65536, and the atom of
the destroyed peer at the address 1 is as it was. -/
theorem C39_numFails_wraps_on_stop :
    wrapTorrent.outgoingHandshakes = [2] ∧
    wrapTorrent.pool.map (fun a => (a.addr, a.numFails)) = [(1, 65535), (2, 65535)] ∧
    (tr_peerMgrStopTorrent {} wrapManager [7] 100000).map (fun m1 =>
        m1.torrents.map (fun t1 =>
          (t1.peers.length, t1.outgoingHandshakes, t1.pool.map (fun a => (a.addr, a.numFails)))))
      = some [(0, [], [(1, 65535), (2, 0)])] := by
  refine ⟨by decide, by decide, by decide⟩

/-- C39 (amended): stopping a torrent whose pool has one atom per address and
whose outgoing handshakes are to distinct addresses returns, and - the abort
entering `myHandshakeDoneCB` with `isConnected = 0` - leaves the pool with the
same atoms in the same places, where each atom whose address has a pending
outgoing handshake has `numFails` increased by 1 in 16 bits (exactly 1 more
when `numFails < 65535`, a wrap to 0 at 65535) and nothing else changed, and
every other atom, the atoms of the destroyed peers included, is unchanged in
every field. -/
theorem C39_stop_penalises_handshakes (env : PeerMgrEnv) (m : tr_peerMgr) (h : List Nat)
    (t : Torrent) (now : Nat) (ht : getExistingTorrent m h = some t)
    (hpool : (t.pool.map (fun a => a.addr)).Nodup) (hout : t.outgoingHandshakes.Nodup) :
    ∃ m1 t1, tr_peerMgrStopTorrent env m h now = some m1 ∧
      getExistingTorrent m1 h = some t1 ∧
      t1.pool.length = t.pool.length ∧
      ∀ (i : Nat) (a : peer_atom), t.pool[i]? = some a →
        (a.addr ∈ t.outgoingHandshakes →
          t1.pool[i]? = some { a with numFails := (a.numFails + 1) % 2 ^ 16 } ∧
          (a.numFails < 65535 → t1.pool[i]? = some { a with numFails := a.numFails + 1 }) ∧
          (a.numFails = 65535 → t1.pool[i]? = some { a with numFails := 0 })) ∧
        (a.addr ∉ t.outgoingHandshakes → t1.pool[i]? = some a) := by
  obtain ⟨m1, t1, h1, h2, _⟩ := tr_peerMgrStopTorrent_spec env m h t now ht
  have hh := getExistingTorrent_hash m h t ht
  subst hh
  have ht2 := getExistingTorrent_putTorrent m t.hash t
    { t with isRunning := false, rechokeTimer := false, reconnectTimer := false, peers := [] }
    ht rfl
  have h1b : stopTorrent env m t now = some m1 := by
    unfold tr_peerMgrStopTorrent at h1
    rw [ht] at h1
    exact h1
  have hp := abortOutgoingHandshakes_pool env now t.hash t.outgoingHandshakes.length _ _ ht2 rfl
    hpool hout m1 t1 h1b h2
  simp only at hp
  refine ⟨m1, t1, h1, h2, by rw [hp]; simp, ?_⟩
  intro i a hi
  rw [hp, List.getElem?_map, hi]
  refine ⟨fun hin => ⟨by simp [hin], fun hlt => ?_, fun h65 => ?_⟩, fun hnin => by simp [hnin]⟩
  · have : (a.numFails + 1) % 2 ^ 16 = a.numFails + 1 := Nat.mod_eq_of_lt (by omega)
    simp only [Option.map_some', hin, if_true]
    rw [this]
  · have : (a.numFails + 1) % 2 ^ 16 = 0 := by omega
    simp only [Option.map_some', hin, if_true]
    rw [this]

theorem C39_stop_penalises_handshakes_witness :
    (tr_peerMgrStopTorrent {} runningManager [7] 100000).map (fun m1 =>
        m1.torrents.map (fun t1 => (t1.peers.length, t1.pool)))
      = some [(0, [{ addr := 1, time := 5 }, { addr := 2, time := 6, numFails := 1 }])] ∧
    ∃ m1 t1, tr_peerMgrStopTorrent {} runningManager [7] 100000 = some m1 ∧
      getExistingTorrent m1 [7] = some t1 ∧ t1.pool.length = runningTorrent.pool.length := by
  refine ⟨by decide, ?_⟩
  obtain ⟨m1, t1, h1, h2, h3, _⟩ := C39_stop_penalises_handshakes {} runningManager [7]
    runningTorrent 100000 rfl (by decide) (by decide)
  exact ⟨m1, t1, h1, h2, h3⟩

/-! ## Flags of an atom are never cleared -/

/-- A bit that is set stays set under `|=`. -/
theorem hasFlag_or_mono (x y mask : Nat) (h : hasFlag x mask = true) :
    hasFlag (x ||| y) mask = true := by
  unfold hasFlag at *
  simp only [bne_iff_ne, ne_eq] at *
  intro e
  apply h
  apply Nat.eq_of_testBit_eq
  intro i
  have := congrArg (fun z => Nat.testBit z i) e
  simp only [Nat.testBit_and, Nat.testBit_or, Nat.zero_testBit] at this ⊢
  cases hx : x.testBit i <;> simp_all

theorem poolKeeps_refl (pool : List peer_atom) : PoolKeeps pool pool :=
  fun _ _ h => h

theorem poolKeeps_trans (p1 p2 p3 : List peer_atom) (h1 : PoolKeeps p1 p2)
    (h2 : PoolKeeps p2 p3) : PoolKeeps p1 p3 :=
  fun addr mask h => h2 addr mask (h1 addr mask h)

theorem modifyAtom_split (f : peer_atom → peer_atom) (addr : Nat) :
    ∀ (pool pool1 : List peer_atom), modifyAtom pool addr f = some pool1 →
      ∃ pre a post, pool = pre ++ a :: post ∧ a.addr = addr ∧ pool1 = pre ++ f a :: post
  | [], _, h => by simp [modifyAtom] at h
  | a :: rest, pool1, h => by
    unfold modifyAtom at h
    by_cases ha : a.addr = addr
    · rw [if_pos ha] at h
      exact ⟨[], a, rest, rfl, ha, (Option.some.inj h).symm⟩
    · rw [if_neg ha] at h
      cases hr : modifyAtom rest addr f with
      | none => rw [hr] at h; simp at h
      | some r =>
        rw [hr] at h
        simp only [Option.map_some', Option.some.injEq] at h
        obtain ⟨pre, b, post, e1, e2, e3⟩ := modifyAtom_split f addr rest r hr
        exact ⟨a :: pre, b, post, by rw [e1]; rfl, e2, by rw [← h, e3]; rfl⟩

/-- A write through an atom that keeps its address and clears no bit of
`myflags` keeps every flagged address flagged. -/
theorem modifyAtom_keeps (f : peer_atom → peer_atom) (addr : Nat)
    (hf : ∀ a, (f a).addr = a.addr ∧
      ∀ mask, hasFlag a.myflags mask = true → hasFlag (f a).myflags mask = true)
    (pool pool1 : List peer_atom) (h : modifyAtom pool addr f = some pool1) :
    PoolKeeps pool pool1 := by
  obtain ⟨pre, a, post, e1, _, e3⟩ := modifyAtom_split f addr pool pool1 h
  subst e1 e3
  intro x mask ⟨⟨b, hb, hbx⟩, hall⟩
  constructor
  · rcases List.mem_append.mp hb with hb1 | hb1
    · exact ⟨b, List.mem_append_left _ hb1, hbx⟩
    · rcases List.mem_cons.mp hb1 with hb2 | hb2
      · exact ⟨f a, by simp, by rw [(hf a).1, ← hb2]; exact hbx⟩
      · exact ⟨b, by simp [hb2], hbx⟩
  · intro c hc hcx
    rcases List.mem_append.mp hc with hc1 | hc1
    · exact hall c (List.mem_append_left _ hc1) hcx
    · rcases List.mem_cons.mp hc1 with hc2 | hc2
      · rw [hc2] at hcx ⊢
        exact (hf a).2 mask (hall a (by simp) (by rw [← (hf a).1]; exact hcx))
      · exact hall c (by simp [hc2]) hcx

/-- A new atom for an address the pool does not know keeps every flagged
address flagged. -/
theorem ensureAtomExists_keeps (t : Torrent) (addr port flags from_ : Nat) :
    (ensureAtomExists t addr port flags from_).hash = t.hash ∧
    PoolKeeps t.pool (ensureAtomExists t addr port flags from_).pool := by
  unfold ensureAtomExists
  cases hg : getExistingAtom t addr with
  | some a => exact ⟨rfl, poolKeeps_refl _⟩
  | none =>
    refine ⟨rfl, ?_⟩
    simp only
    intro x mask ⟨⟨b, hb, hbx⟩, hall⟩
    have hne : x ≠ addr := by
      intro e
      have := (getExistingAtom_isSome t addr).mpr ⟨b, hb, hbx.trans e⟩
      rw [hg] at this
      simp at this
    constructor
    · exact ⟨b, (mem_insertSorted _ _ _ _).mpr (Or.inr hb), hbx⟩
    · intro c hc hcx
      rcases (mem_insertSorted _ _ _ _).mp hc with e | e
      · rw [e] at hcx
        exact absurd hcx.symm hne
      · exact hall c e hcx

/-- A write through an atom that leaves its address and `myflags` alone keeps
every flagged address flagged. -/
theorem modifyAtom_keeps_same (f : peer_atom → peer_atom) (addr : Nat)
    (pool pool1 : List peer_atom) (h : modifyAtom pool addr f = some pool1)
    (hf : ∀ a, (f a).addr = a.addr ∧ (f a).myflags = a.myflags) :
    PoolKeeps pool pool1 :=
  modifyAtom_keeps f addr (fun a => ⟨(hf a).1, fun mask hm => by rw [(hf a).2]; exact hm⟩)
    pool pool1 h

/-- A write `myflags |= c` through an atom keeps every flagged address
flagged. -/
theorem modifyAtom_keeps_or (f : peer_atom → peer_atom) (addr c : Nat)
    (pool pool1 : List peer_atom) (h : modifyAtom pool addr f = some pool1)
    (hf : ∀ a, (f a).addr = a.addr ∧ (f a).myflags = a.myflags ||| c) :
    PoolKeeps pool pool1 :=
  modifyAtom_keeps f addr
    (fun a => ⟨(hf a).1, fun mask hm => by rw [(hf a).2]; exact hasFlag_or_mono _ _ _ hm⟩)
    pool pool1 h

theorem removePeer_keeps (t t1 : Torrent) (peer : tr_peer) (now : Nat)
    (h : removePeer t peer now = some t1) : PoolKeeps t.pool t1.pool := by
  unfold removePeer at h
  cases hm : modifyAtom t.pool peer.in_addr (fun atom => { atom with time := now }) with
  | none => rw [hm] at h; simp at h
  | some pool =>
    rw [hm] at h
    simp only [Option.some.injEq] at h
    subst h
    exact modifyAtom_keeps_same _ _ _ _ hm (fun _ => ⟨rfl, rfl⟩)

theorem removeAllPeers_keeps (now : Nat) :
    ∀ (fuel : Nat) (t t1 : Torrent), removeAllPeers now fuel t = some t1 →
      PoolKeeps t.pool t1.pool
  | 0, t, t1, h => by
    unfold removeAllPeers at h
    split_ifs at h
    simp only [Option.some.injEq] at h
    subst h
    exact poolKeeps_refl _
  | fuel + 1, t, t1, h => by
    unfold removeAllPeers at h
    cases hp : t.peers with
    | nil =>
      rw [hp] at h
      simp only [Option.some.injEq] at h
      subst h
      exact poolKeeps_refl _
    | cons p rest =>
      rw [hp] at h
      simp only at h
      cases hr : removePeer t p now with
      | none => rw [hr] at h; simp at h
      | some t2 =>
        rw [hr] at h
        simp only at h
        exact poolKeeps_trans _ _ _ (removePeer_keeps t t2 p now hr)
          (removeAllPeers_keeps now fuel t2 t1 h)

theorem closePeer_keeps (t t1 : Torrent) (peer : tr_peer) (now : Nat)
    (h : closePeer t peer now = some t1) : PoolKeeps t.pool t1.pool := by
  unfold closePeer at h
  cases hm : modifyAtom t.pool peer.in_addr (fun atom =>
      if peer.pieceDataActivityDate ≠ 0 then { atom with numFails := 0 }
      else { atom with numFails := (atom.numFails + 1) % 2 ^ 16 }) with
  | none => rw [hm] at h; simp at h
  | some pool =>
    rw [hm] at h
    simp only at h
    have h1 : PoolKeeps t.pool pool :=
      modifyAtom_keeps_same _ _ _ _ hm (fun a => by split_ifs <;> exact ⟨rfl, rfl⟩)
    exact poolKeeps_trans _ _ _ h1 (removePeer_keeps _ t1 peer now h)

theorem closePeers_keeps (now : Nat) :
    ∀ (closed : List tr_peer) (t t1 : Torrent), closePeers now t closed = some t1 →
      PoolKeeps t.pool t1.pool
  | [], t, t1, h => by
    unfold closePeers at h
    simp only [Option.some.injEq] at h
    subst h
    exact poolKeeps_refl _
  | p :: rest, t, t1, h => by
    unfold closePeers at h
    cases hc : closePeer t p now with
    | none => rw [hc] at h; simp at h
    | some t2 =>
      rw [hc] at h
      simp only at h
      exact poolKeeps_trans _ _ _ (closePeer_keeps t t2 p now hc)
        (closePeers_keeps now rest t2 t1 h)

theorem closureSweep_keeps (t t1 : Torrent) (now : Nat) (h : closureSweep t now = some t1) :
    PoolKeeps t.pool t1.pool := by
  unfold closureSweep at h
  cases hg : getPeersToClose t now with
  | none => rw [hg] at h; simp at h
  | some l =>
    rw [hg] at h
    exact closePeers_keeps now l t t1 h

theorem promoteLoop_keeps (env : PeerMgrEnv) (now : Nat) (cands : List peer_atom)
    (g : ReconnectGlobals) (t : Torrent) (r : Promotion)
    (h : promoteLoop env now 0 cands g t = some r) : PoolKeeps t.pool r.t.pool := by
  rw [promoteLoop_zero] at h
  cases cands with
  | nil =>
    simp only [Option.some.injEq] at h
    subst h
    exact poolKeeps_refl _
  | cons atom rest =>
    simp only at h
    by_cases hb : g.newConnectionsThisSecond < MAX_CONNECTIONS_PER_SECOND
    · rw [if_pos hb] at h
      cases hm : modifyAtom t.pool atom.addr
          (promotedAtom (env.tr_peerIoNewOutgoing atom.addr atom.port) now) with
      | none => rw [hm] at h; exact absurd h (by simp)
      | some pool =>
        rw [hm] at h
        simp only at h
        have hk : PoolKeeps t.pool pool := by
          apply modifyAtom_keeps
            (promotedAtom (env.tr_peerIoNewOutgoing atom.addr atom.port) now) atom.addr
            (fun a => ⟨rfl, fun mask hmask => ?_⟩) _ _ hm
          unfold promotedAtom
          simp only
          split_ifs
          · exact hmask
          · exact hasFlag_or_mono _ _ _ hmask
        by_cases ho : env.tr_peerIoNewOutgoing atom.addr atom.port = false
        · rw [if_pos ho, Option.some.injEq] at h
          subst h
          exact hk
        · rw [if_neg ho, Option.some.injEq] at h
          subst h
          exact hk
    · rw [if_neg hb, Option.some.injEq] at h
      subst h
      exact poolKeeps_refl _

/-- A reconnect pulse keeps the hash of the torrent and keeps every flagged
address flagged. -/
theorem reconnectPulse_keeps (env : PeerMgrEnv) (incoming : List Nat) (g : ReconnectGlobals)
    (now : Nat) (t : Torrent) (r : ReconnectPulse)
    (h : reconnectPulse env incoming g now t = some r) :
    r.t.hash = t.hash ∧ PoolKeeps t.pool r.t.pool := by
  have hf := (reconnectPulse_frame env incoming g now t r h).1
  refine ⟨by rw [hf], ?_⟩
  unfold reconnectPulse at h
  simp only at h
  split_ifs at h with hrun
  · cases hr : removeAllPeers now t.peers.length t with
    | none => rw [hr] at h; simp at h
    | some t1 =>
      rw [hr] at h
      simp only [Option.some.injEq] at h
      subst h
      exact removeAllPeers_keeps now _ t t1 hr
  · cases hs : closureSweep t now with
    | none => rw [hs] at h; simp at h
    | some t1 =>
      rw [hs] at h
      simp only at h
      cases hp : promoteLoop env now 0 (getPeerCandidates env incoming t now)
          (reconnectTick g now) t1 with
      | none => rw [hp] at h; simp at h
      | some r1 =>
        rw [hp] at h
        simp only [Option.some.injEq] at h
        subst h
        exact poolKeeps_trans _ _ _ (closureSweep_keeps t t1 now hs)
          (promoteLoop_keeps env now _ _ t1 r1 hp)

theorem handshakeFailed_keeps (t : Torrent) (addr : Nat) :
    (handshakeFailed t addr).hash = t.hash ∧ PoolKeeps t.pool (handshakeFailed t addr).pool := by
  unfold handshakeFailed
  cases hm : modifyAtom t.pool addr
      (fun atom => { atom with numFails := (atom.numFails + 1) % 2 ^ 16 }) with
  | none => exact ⟨rfl, poolKeeps_refl _⟩
  | some pool => exact ⟨rfl, modifyAtom_keeps_same _ _ _ _ hm (fun _ => ⟨rfl, rfl⟩)⟩

theorem handshakeLooksGood_keeps (env : PeerMgrEnv) (t t1 : Torrent) (io : tr_peerIo)
    (peer_id : Option (List Nat)) (now : Nat)
    (h : handshakeLooksGood env t io peer_id now = some t1) :
    t1.hash = t.hash ∧ PoolKeeps t.pool t1.pool := by
  have hf := (handshakeLooksGood_frame env t t1 io peer_id now h).1
  refine ⟨by rw [hf], ?_⟩
  obtain ⟨_, he⟩ := ensureAtomExists_keeps t io.addr io.port 0 TR_PEER_FROM_INCOMING
  unfold handshakeLooksGood at h
  simp only at h
  cases hg : getExistingAtom (ensureAtomExists t io.addr io.port 0 TR_PEER_FROM_INCOMING)
      io.addr with
  | none => rw [hg] at h; simp at h
  | some atom =>
    rw [hg] at h
    simp only at h
    split_ifs at h with hb hc
    · rw [← Option.some.inj h]; exact he
    · rw [← Option.some.inj h]; exact he
    · cases hp : getExistingPeer (ensureAtomExists t io.addr io.port 0 TR_PEER_FROM_INCOMING)
          io.addr with
      | some q =>
        rw [hp] at h
        rw [← Option.some.inj h]; exact he
      | none =>
        rw [hp] at h
        simp only at h
        cases hm : modifyAtom (ensureAtomExists t io.addr io.port 0 TR_PEER_FROM_INCOMING).pool
            io.addr (fun a => { a with time := now }) with
        | none => rw [hm] at h; simp at h
        | some pool =>
          rw [hm] at h
          simp only [Option.some.injEq] at h
          subst h
          exact poolKeeps_trans _ _ _ he
            (modifyAtom_keeps_same _ _ _ _ hm (fun _ => ⟨rfl, rfl⟩))

theorem addStrike_keeps (pool pool1 : List peer_atom) (p p1 : tr_peer)
    (h : addStrike pool p = some (pool1, p1)) : PoolKeeps pool pool1 := by
  unfold addStrike at h
  simp only at h
  split_ifs at h
  · cases hm : modifyAtom pool p.in_addr
        (fun atom => { atom with myflags := atom.myflags ||| MYFLAG_BANNED }) with
    | none => rw [hm] at h; simp at h
    | some pl =>
      rw [hm] at h
      simp only [Option.some.injEq, Prod.mk.injEq] at h
      rw [← h.1]
      exact modifyAtom_keeps_or _ _ MYFLAG_BANNED _ _ hm (fun _ => ⟨rfl, rfl⟩)
  · simp only [Option.some.injEq, Prod.mk.injEq] at h
    rw [← h.1]
    exact poolKeeps_refl _

theorem setBlameLoop_keeps (pieceIndex : Nat) :
    ∀ (l : List tr_peer) (pool pool1 : List peer_atom) (l1 : List tr_peer),
      setBlameLoop pieceIndex pool l = some (pool1, l1) → PoolKeeps pool pool1
  | [], pool, pool1, l1, h => by
    unfold setBlameLoop at h
    simp only [Option.some.injEq, Prod.mk.injEq] at h
    rw [← h.1]
    exact poolKeeps_refl _
  | p :: rest, pool, pool1, l1, h => by
    unfold setBlameLoop at h
    by_cases hb : tr_bitfieldHas p.blame pieceIndex = true
    · rw [if_pos hb] at h
      cases hs : addStrike pool p with
      | none => rw [hs] at h; simp at h
      | some r =>
        obtain ⟨pool2, p2⟩ := r
        rw [hs] at h
        simp only at h
        cases hr : setBlameLoop pieceIndex pool2 rest with
        | none => rw [hr] at h; simp at h
        | some r2 =>
          obtain ⟨pool3, rest1⟩ := r2
          rw [hr] at h
          simp only [Option.some.injEq, Prod.mk.injEq] at h
          rw [← h.1]
          exact poolKeeps_trans _ _ _ (addStrike_keeps pool pool2 p p2 hs)
            (setBlameLoop_keeps pieceIndex rest pool2 pool3 rest1 hr)
    · rw [if_neg hb] at h
      cases hr : setBlameLoop pieceIndex pool rest with
      | none => rw [hr] at h; simp at h
      | some r2 =>
        obtain ⟨pool3, rest1⟩ := r2
        rw [hr] at h
        simp only [Option.some.injEq, Prod.mk.injEq] at h
        rw [← h.1]
        exact setBlameLoop_keeps pieceIndex rest pool pool3 rest1 hr

/-- An event of the message layer keeps the hash of the torrent and keeps
every flagged address flagged. -/
theorem msgsCallbackFunc_keeps (env : PeerMgrEnv) (t t1 : Torrent) (peer : tr_peer)
    (e : tr_peermsgs_event) (now : Nat) (effects : List MsgsEffect)
    (h : msgsCallbackFunc env t peer e now = some (t1, effects)) :
    t1.hash = t.hash ∧ PoolKeeps t.pool t1.pool := by
  unfold msgsCallbackFunc at h
  cases he : e.eventType <;> rw [he] at h <;> simp only at h
  · simp only [Option.some.injEq, Prod.mk.injEq] at h
    rw [← h.1]
    exact ⟨rfl, poolKeeps_refl _⟩
  · simp only [Option.some.injEq, Prod.mk.injEq] at h
    rw [← h.1]
    exact ⟨rfl, poolKeeps_refl _⟩
  · cases hm : modifyAtom t.pool peer.in_addr
        (fun atom => { atom with piece_data_time := now }) with
    | none => rw [hm] at h; simp at h
    | some pool =>
      rw [hm] at h
      simp only [Option.some.injEq, Prod.mk.injEq] at h
      rw [← h.1]
      exact ⟨rfl, modifyAtom_keeps_same _ _ _ _ hm (fun _ => ⟨rfl, rfl⟩)⟩
  · cases hm : modifyAtom t.pool peer.in_addr (fun atom =>
        if decide (e.progress ≥ 1) = true
        then { atom with flags := atom.flags ||| ADDED_F_SEED_FLAG }
        else { atom with flags := atom.flags &&& (0xff ^^^ ADDED_F_SEED_FLAG) }) with
    | none => rw [hm] at h; simp at h
    | some pool =>
      rw [hm] at h
      simp only [Option.some.injEq, Prod.mk.injEq] at h
      rw [← h.1]
      exact ⟨rfl, modifyAtom_keeps_same _ _ _ _ hm
        (fun a => by split_ifs <;> exact ⟨rfl, rfl⟩)⟩
  · split_ifs at h with hio has
    · cases hm : modifyPeer t.peers peer.in_addr (fun p => { p with doPurge := true }) with
      | none => rw [hm] at h; simp at h
      | some peers =>
        rw [hm] at h
        simp only [Option.some.injEq, Prod.mk.injEq] at h
        rw [← h.1]
        exact ⟨rfl, poolKeeps_refl _⟩
    · cases hg : getExistingPeer t peer.in_addr with
      | none => rw [hg] at h; simp at h
      | some p0 =>
        rw [hg] at h
        simp only at h
        cases hs : addStrike t.pool p0 with
        | none => rw [hs] at h; simp at h
        | some r =>
          obtain ⟨pool1, peer1⟩ := r
          rw [hs] at h
          simp only at h
          cases hm : modifyPeer t.peers peer.in_addr
              (fun _ => { peer1 with doPurge := true }) with
          | none => rw [hm] at h; simp at h
          | some peers =>
            rw [hm] at h
            simp only [Option.some.injEq, Prod.mk.injEq] at h
            rw [← h.1]
            exact ⟨rfl, addStrike_keeps _ _ _ _ hs⟩
    · cases hm : modifyPeer t.peers peer.in_addr (fun p => { p with doPurge := true }) with
      | none => rw [hm] at h; simp at h
      | some peers =>
        rw [hm] at h
        simp only [Option.some.injEq, Prod.mk.injEq] at h
        rw [← h.1]
        exact ⟨rfl, poolKeeps_refl _⟩
  · simp only [Option.some.injEq, Prod.mk.injEq] at h
    rw [← h.1]
    exact ⟨rfl, poolKeeps_refl _⟩
  · split_ifs at h <;> simp only [Option.some.injEq, Prod.mk.injEq] at h <;> rw [← h.1] <;>
      exact ⟨rfl, poolKeeps_refl _⟩

/-! ## Flags of an atom are never cleared: the manager -/

theorem find?_putTorrent_ne (h : List Nat) (t1 : Torrent) (hne : t1.hash ≠ h) :
    ∀ l : List Torrent, (putTorrent l t1).find? (fun t => decide (t.hash = h))
      = l.find? (fun t => decide (t.hash = h))
  | [] => rfl
  | x :: rest => by
    unfold putTorrent
    by_cases hx : x.hash = t1.hash
    · rw [if_pos hx]
      have h1 : ¬ x.hash = h := fun e => hne (hx ▸ e)
      simp [List.find?_cons, hne, h1]
    · rw [if_neg hx]
      simp only [List.find?_cons]
      rw [find?_putTorrent_ne h t1 hne rest]

theorem mgrKeeps_refl (m : tr_peerMgr) : MgrKeeps m m :=
  fun _ _ _ h => h

theorem mgrKeeps_trans (m1 m2 m3 : tr_peerMgr) (h1 : MgrKeeps m1 m2) (h2 : MgrKeeps m2 m3) :
    MgrKeeps m1 m3 :=
  fun hash addr mask h => h2 hash addr mask (h1 hash addr mask h)

theorem mgrKeeps_of_torrents (m m1 : tr_peerMgr) (h : m1.torrents = m.torrents) :
    MgrKeeps m m1 := by
  intro hash addr mask ⟨t, ht, hf⟩
  refine ⟨t, ?_, hf⟩
  unfold getExistingTorrent at ht ⊢
  rw [h]
  exact ht

/-- Writing back the torrent of a hash with a pool that keeps every flagged
address flagged keeps them flagged in the manager. -/
theorem mgrKeeps_put (m m1 : tr_peerMgr) (h0 : List Nat) (t t1 : Torrent)
    (ht : getExistingTorrent m h0 = some t) (hh : t1.hash = t.hash)
    (hk : PoolKeeps t.pool t1.pool) (hm : m1.torrents = putTorrent m.torrents t1) :
    MgrKeeps m m1 := by
  have hth := getExistingTorrent_hash m h0 t ht
  intro hash addr mask ⟨tx, htx, hf⟩
  by_cases he : hash = h0
  · subst he
    rw [ht] at htx
    have e := Option.some.inj htx
    subst e
    refine ⟨t1, ?_, hk addr mask hf⟩
    have := getExistingTorrent_putTorrent m hash t t1 ht (hh.trans hth)
    unfold getExistingTorrent at this ⊢
    rw [hm]
    exact this
  · refine ⟨tx, ?_, hf⟩
    unfold getExistingTorrent at htx ⊢
    rw [hm, find?_putTorrent_ne hash t1 (by rw [hh, hth]; exact fun e => he e.symm)]
    exact htx

theorem abortOutgoingHandshakes_keeps (env : PeerMgrEnv) (now : Nat) (h : List Nat) :
    ∀ (fuel : Nat) (m m1 : tr_peerMgr),
      abortOutgoingHandshakes env now h fuel m = some m1 → MgrKeeps m m1
  | 0, m, m1, hm => by
    unfold abortOutgoingHandshakes at hm
    cases ht : getExistingTorrent m h with
    | none => rw [ht] at hm; simp at hm
    | some t =>
      rw [ht] at hm
      simp only at hm
      split_ifs at hm
      rw [← Option.some.inj hm]
      exact mgrKeeps_refl _
  | fuel + 1, m, m1, hm => by
    cases ht : getExistingTorrent m h with
    | none =>
      unfold abortOutgoingHandshakes at hm
      rw [ht] at hm
      simp at hm
    | some t =>
      cases ho : t.outgoingHandshakes with
      | nil =>
        unfold abortOutgoingHandshakes at hm
        rw [ht] at hm
        simp only [ho, Option.some.injEq] at hm
        rw [← hm]
        exact mgrKeeps_refl _
      | cons addr rest =>
        rw [abortOutgoingHandshakes_step env now h fuel m t addr rest ht ho] at hm
        have ih := abortOutgoingHandshakes_keeps env now h fuel _ m1 hm
        obtain ⟨k1, k2⟩ := handshakeFailed_keeps { t with outgoingHandshakes := rest } addr
        exact mgrKeeps_trans _ _ _ (mgrKeeps_put m _ h t _ ht k1 k2 rfl) ih

/-- Each operation keeps every flagged address of every torrent flagged. -/
theorem applyPoolOp_keeps (env : PeerMgrEnv) (s s1 : ManagerState) (op : PoolOp)
    (h : applyPoolOp env s op = some s1) : MgrKeeps s.manager s1.manager := by
  cases op with
  | msgsEvent hash peer e now =>
    unfold applyPoolOp at h
    simp only at h
    cases ht : getExistingTorrent s.manager hash with
    | none => rw [ht] at h; simp at h
    | some t =>
      rw [ht] at h
      simp only at h
      cases hc : msgsCallbackFunc env t peer e now with
      | none => rw [hc] at h; simp at h
      | some r =>
        obtain ⟨t1, effects⟩ := r
        rw [hc] at h
        simp only [Option.some.injEq] at h
        subst h
        obtain ⟨k1, k2⟩ := msgsCallbackFunc_keeps env t t1 peer e now effects hc
        exact mgrKeeps_put _ _ hash t t1 ht k1 k2 rfl
  | handshakeDone io isConnected peer_id now =>
    unfold applyPoolOp at h
    simp only at h
    cases hc : myHandshakeDoneCB env s.manager io isConnected peer_id now with
    | none => rw [hc] at h; simp at h
    | some m1 =>
      rw [hc] at h
      simp only [Option.some.injEq] at h
      subst h
      obtain ⟨_, _, hcs⟩ := myHandshakeDoneCB_cases env s.manager m1 io isConnected peer_id now hc
      rcases hcs with ⟨_, hsame⟩ | ⟨t, t1, hT, _, hput, hbr⟩
      · exact mgrKeeps_of_torrents _ _ hsame
      · have hget : ∃ hash, getExistingTorrent s.manager hash = some t := by
          unfold handshakeTorrent at hT
          cases hh : io.torrentHash with
          | none => rw [hh] at hT; simp at hT
          | some hash => rw [hh] at hT; exact ⟨hash, hT⟩
        obtain ⟨hash, hget⟩ := hget
        have hrem : (afterHandshakeRemoval t io).hash = t.hash ∧
            (afterHandshakeRemoval t io).pool = t.pool := by
          unfold afterHandshakeRemoval
          split_ifs <;> exact ⟨rfl, rfl⟩
        rcases hbr with e | e
        · obtain ⟨k1, k2⟩ := handshakeFailed_keeps (afterHandshakeRemoval t io) io.addr
          rw [hrem.1] at k1
          rw [hrem.2] at k2
          rw [← e] at k1 k2
          exact mgrKeeps_put _ _ hash t t1 hget k1 k2 hput
        · obtain ⟨k1, k2⟩ := handshakeLooksGood_keeps env _ t1 io peer_id now e
          rw [hrem.1] at k1
          rw [hrem.2] at k2
          exact mgrKeeps_put _ _ hash t t1 hget k1 k2 hput
  | pulse hash now =>
    unfold applyPoolOp at h
    simp only at h
    cases ht : getExistingTorrent s.manager hash with
    | none => rw [ht] at h; simp at h
    | some t =>
      rw [ht] at h
      simp only at h
      cases hc : reconnectPulse env s.manager.incomingHandshakes s.g now t with
      | none => rw [hc] at h; simp at h
      | some r =>
        rw [hc] at h
        simp only [Option.some.injEq] at h
        subst h
        obtain ⟨k1, k2⟩ := reconnectPulse_keeps env _ _ now t r hc
        exact mgrKeeps_put _ _ hash t r.t ht k1 k2 rfl
  | addPex hash from_ pex =>
    unfold applyPoolOp at h
    simp only at h
    cases hc : tr_peerMgrAddPex env s.manager hash from_ pex with
    | none => rw [hc] at h; simp at h
    | some m1 =>
      rw [hc] at h
      simp only [Option.some.injEq] at h
      subst h
      unfold tr_peerMgrAddPex at hc
      cases ht : getExistingTorrent s.manager hash with
      | none => rw [ht] at hc; simp at hc
      | some t =>
        rw [ht] at hc
        simp only at hc
        split_ifs at hc
        · rw [← Option.some.inj hc]
          obtain ⟨k1, k2⟩ := ensureAtomExists_keeps t pex.in_addr pex.port pex.flags from_
          refine mgrKeeps_put _ _ hash t _ ht ?_ ?_ rfl
          · exact k1
          · exact k2
        · rw [← Option.some.inj hc]
          exact mgrKeeps_refl _
  | start hash now tr_rand =>
    unfold applyPoolOp at h
    simp only at h
    cases hc : tr_peerMgrStartTorrent env s.manager s.g hash now tr_rand with
    | none => rw [hc] at h; simp at h
    | some r =>
      rw [hc] at h
      simp only [Option.some.injEq] at h
      subst h
      obtain ⟨_, hcs⟩ := tr_peerMgrStartTorrent_cases env s.manager s.g hash now tr_rand r hc
      rcases hcs with hsame | ⟨t, rp, ht, hrp, hput⟩
      · exact mgrKeeps_of_torrents _ _ hsame
      · obtain ⟨k1, k2⟩ := reconnectPulse_keeps env _ _ now _ rp hrp
        refine mgrKeeps_put _ _ hash t _ ht ?_ ?_ hput
        · exact k1
        · exact k2
  | stop hash now =>
    unfold applyPoolOp at h
    simp only at h
    cases hc : tr_peerMgrStopTorrent env s.manager hash now with
    | none => rw [hc] at h; simp at h
    | some m1 =>
      rw [hc] at h
      simp only [Option.some.injEq] at h
      subst h
      unfold tr_peerMgrStopTorrent at hc
      cases ht : getExistingTorrent s.manager hash with
      | none => rw [ht] at hc; simp at hc
      | some t =>
        rw [ht] at hc
        simp only at hc
        unfold stopTorrent at hc
        simp only at hc
        have h1 := abortOutgoingHandshakes_keeps env now t.hash _ _ m1 hc
        refine mgrKeeps_trans _ _ _ (mgrKeeps_put s.manager _ hash t _ ht ?_ ?_ rfl) h1
        · rfl
        · exact poolKeeps_refl _
  | setBlame hash pieceIndex success =>
    unfold applyPoolOp at h
    simp only at h
    cases hc : tr_peerMgrSetBlame s.manager hash pieceIndex success with
    | none => rw [hc] at h; simp at h
    | some m1 =>
      rw [hc] at h
      simp only [Option.some.injEq] at h
      subst h
      unfold tr_peerMgrSetBlame at hc
      split_ifs at hc
      · cases ht : getExistingTorrent s.manager hash with
        | none => rw [ht] at hc; simp at hc
        | some t =>
          rw [ht] at hc
          simp only at hc
          cases hl : setBlameLoop pieceIndex t.pool t.peers with
          | none => rw [hl] at hc; simp at hc
          | some r =>
            obtain ⟨pool, peers⟩ := r
            rw [hl] at hc
            simp only [Option.some.injEq] at hc
            rw [← hc]
            refine mgrKeeps_put _ _ hash t _ ht ?_ ?_ rfl
            · rfl
            · exact setBlameLoop_keeps pieceIndex t.peers t.pool pool peers hl
      · rw [← Option.some.inj hc]
        exact mgrKeeps_refl _

theorem applyPoolOps_keeps (env : PeerMgrEnv) :
    ∀ (ops : List PoolOp) (s s1 : ManagerState), applyPoolOps env s ops = some s1 →
      MgrKeeps s.manager s1.manager
  | [], s, s1, h => by
    unfold applyPoolOps at h
    rw [← Option.some.inj h]
    exact mgrKeeps_refl _
  | op :: ops, s, s1, h => by
    unfold applyPoolOps at h
    cases ho : applyPoolOp env s op with
    | none => rw [ho] at h; simp at h
    | some s2 =>
      rw [ho] at h
      simp only at h
      exact mgrKeeps_trans _ _ _ (applyPoolOp_keeps env s s2 op ho)
        (applyPoolOps_keeps env ops s2 s1 h)

/-- No candidate has an address that is flagged as banned or unreachable. -/
theorem flagged_not_candidate (env : PeerMgrEnv) (incoming : List Nat) (t : Torrent) (now : Nat)
    (addr mask : Nat) (hmask : mask = MYFLAG_BANNED ∨ mask = MYFLAG_UNREACHABLE)
    (hf : Flagged t.pool addr mask) :
    ∀ c ∈ getPeerCandidates env incoming t now, c.addr ≠ addr := by
  intro c hc he
  obtain ⟨hmem, hcand⟩ := (mem_getPeerCandidates env incoming t now c).mp hc
  obtain ⟨h1, h2, _⟩ := (isCandidate_iff env incoming t now c).mp hcand
  have := hf.2 c hmem he
  rcases hmask with e | e
  · rw [e, h1] at this; simp at this
  · rw [e, h2] at this; simp at this

/-- C36: a ban is permanent for the life of the manager-side torrent, and so
is the mark of an unreachable peer. From a state in which an atom of a pool
with one atom per address has `MYFLAG_BANNED` (or `MYFLAG_UNREACHABLE`) set,
whatever sequence of message events, handshake completions, reconnect pulses,
`tr_peerMgrAddPex`, `tr_peerMgrStartTorrent`, `tr_peerMgrStopTorrent` and
`tr_peerMgrSetBlame` calls returns, the torrent still has an atom of that
address, every atom of that address has the flag set, and `getPeerCandidates`
selects no atom of that address, at any time and for any incoming
handshakes. -/
theorem C36_flags_are_permanent (env : PeerMgrEnv) (s s1 : ManagerState) (ops : List PoolOp)
    (hash : List Nat) (t : Torrent) (a : peer_atom) (mask : Nat)
    (hmask : mask = MYFLAG_BANNED ∨ mask = MYFLAG_UNREACHABLE)
    (ht : getExistingTorrent s.manager hash = some t)
    (hpool : (t.pool.map (fun a => a.addr)).Nodup)
    (ha : a ∈ t.pool) (hflag : hasFlag a.myflags mask = true)
    (hops : applyPoolOps env s ops = some s1) :
    ∃ t1 a1, getExistingTorrent s1.manager hash = some t1 ∧ a1 ∈ t1.pool ∧
      a1.addr = a.addr ∧ hasFlag a1.myflags mask = true ∧
      (∀ b ∈ t1.pool, b.addr = a.addr → hasFlag b.myflags mask = true) ∧
      ∀ (incoming : List Nat) (now : Nat),
        ∀ c ∈ getPeerCandidates env incoming t1 now, c.addr ≠ a.addr := by
  have hf : Flagged t.pool a.addr mask := by
    refine ⟨⟨a, ha, rfl⟩, ?_⟩
    intro b hb hba
    rw [List.inj_on_of_nodup_map hpool hb ha hba]
    exact hflag
  obtain ⟨t1, ht1, hf1⟩ := applyPoolOps_keeps env ops s s1 hops hash a.addr mask ⟨t, ht, hf⟩
  obtain ⟨⟨a1, ha1, hadr⟩, hall⟩ := hf1
  exact ⟨t1, a1, ht1, ha1, hadr, hall a1 ha1 hadr, hall,
    fun incoming now => flagged_not_candidate env incoming t1 now a.addr mask hmask
      ⟨⟨a1, ha1, hadr⟩, hall⟩⟩

/-- C36 on `banManager` and the sequence `banOps`: the sequence returns; the
address 2, unreachable from the start, is unreachable at the end, and the ban
that the first operation puts on the address 1 is there at the end as well. -/
theorem C36_flags_are_permanent_witness :
    (applyPoolOps {} { manager := banManager } banOps).map (fun s1 =>
        s1.manager.torrents.map (fun t1 => t1.pool.map (fun b => (b.addr, b.myflags))))
      = some [[(1, 1), (2, 2), (3, 0)]] ∧
    ∃ s1 t1 a1, applyPoolOps {} { manager := banManager } banOps = some s1 ∧
      getExistingTorrent s1.manager [7] = some t1 ∧ a1 ∈ t1.pool ∧ a1.addr = 2 ∧
      hasFlag a1.myflags MYFLAG_UNREACHABLE = true ∧
      ∀ (incoming : List Nat) (now : Nat),
        ∀ c ∈ getPeerCandidates {} incoming t1 now, c.addr ≠ 2 := by
  have hs : (applyPoolOps {} { manager := banManager } banOps).isSome = true := by decide!
  refine ⟨by decide!, ?_⟩
  obtain ⟨s1, h⟩ := Option.isSome_iff_exists.mp hs
  obtain ⟨t1, a1, h1, h2, h3, h4, _, h6⟩ := C36_flags_are_permanent {}
    { manager := banManager } s1 banOps [7] _ { addr := 2, myflags := 2 } MYFLAG_UNREACHABLE
    (Or.inr rfl) rfl (by decide) (by simp) (by decide) h
  exact ⟨s1, t1, a1, h, h1, h2, h3, h4, h6⟩

end PeerMgr
